import Mathlib

/-!
# RCU Judy array (rcuja/rcuja.c): a shallow embedding

The C functions of `rcuja/rcuja.c` are transcribed as Lean functions over an
explicit machine state (`World`).

* Memory is a map from addresses to cells.  A cell holds either one byte
  (`u.data[i]`, the in-band child count and the key bytes) or one pointer word
  (a child slot, the root slot, the `next` link of a user node).  Address
  arithmetic is the one of the source (`align_ptr_size`, the pool offset, the
  pigeon index), a pointer slot `i` of an array that starts at `p` is the cell
  at `p + i * sizeof (void *)`.
* `assert` is modelled: a failed assertion (or an access the C code cannot
  perform, such as a dereference of NULL) yields `Res.abort`.
* The execution is sequential: mutexes, memory barriers and grace periods are
  not represented.  The `prev` back links of the hlist are not represented
  either (no function of `rcuja.c` reads them).
* Both pointer widths of the source (`CAA_BITS_PER_LONG < 64` or not) are kept,
  the width is the parameter `A : Arch`.
-/

namespace RcuJa

/-! ## Results of a C function -/

/-- Outcome of running a C function: a normal return, an abnormal termination
(failed `assert`, invalid access), or an exhausted iteration bound of the model. -/
inductive Res (α : Type) where
  | ok (a : α)
  | abort
  | nofuel
deriving DecidableEq

/-- Sequencing of two computations. -/
def Res.bind {α β : Type} (x : Res α) (f : α → Res β) : Res β :=
  match x with
  | Res.ok a => f a
  | Res.abort => Res.abort
  | Res.nofuel => Res.nofuel

instance : Monad Res where
  pure := Res.ok
  bind := Res.bind

/-- The C `assert (c)`. -/
def assert (c : Prop) [Decidable c] : Res Unit :=
  if c then Res.ok () else Res.abort

/-! ## Target, constants, errno values -/

/-- The two pointer widths the source is written for. -/
inductive Arch where
  | bits32
  | bits64
deriving DecidableEq, Repr

/-- Width of `unsigned long` and of a pointer, in bits. -/
def CAA_BITS_PER_LONG : Arch → Nat
  | Arch.bits32 => 32
  | Arch.bits64 => 64

/-- The C `sizeof (void *)`. -/
def sizeof_ptr (A : Arch) : Nat := CAA_BITS_PER_LONG A / 8

def CHAR_BIT : Nat := 8
def JA_TYPE_BITS : Nat := 3
def JA_TYPE_MAX_NR : Nat := 1 <<< JA_TYPE_BITS
def JA_TYPE_MASK : Nat := JA_TYPE_MAX_NR - 1
/-- The C `~JA_TYPE_MASK` as an `unsigned long`. -/
def JA_PTR_MASK (A : Arch) : Nat := 2 ^ CAA_BITS_PER_LONG A - 1 - JA_TYPE_MASK
def JA_ENTRY_PER_NODE : Nat := 256
def JA_BITS_PER_BYTE : Nat := 3
def JA_MAX_DEPTH : Nat := 5
def NODE_INDEX_NULL : Nat := 8
def JA_FALLBACK_REMOVAL_COUNT : Nat := 8

def ENOENT : Int := 2
def ENOMEM : Int := 12
def EEXIST : Int := 17
def EINVAL : Int := 22
def ENOSPC : Int := 28

def UINT8_MAX : Nat := 2 ^ 8 - 1
def UINT16_MAX : Nat := 2 ^ 16 - 1
def UINT32_MAX : Nat := 2 ^ 32 - 1
def UINT64_MAX : Nat := 2 ^ 64 - 1

/-- Modelled from the spec: flag of `rcuja_shadow_clear` asking to free the
internal node as well (the header that declares it is not among the sources). -/
def RCUJA_SHADOW_CLEAR_FREE_NODE : Nat := 1
/-- Modelled from the spec: flag of `rcuja_shadow_clear` asking to release the
lock as well (the header that declares it is not among the sources). -/
def RCUJA_SHADOW_CLEAR_FREE_LOCK : Nat := 2

/-! ## Node-shape catalog -/

inductive cds_ja_type_class where
  | RCU_JA_LINEAR
  | RCU_JA_POOL
  | RCU_JA_PIGEON
  | RCU_JA_NR_TYPES
  | RCU_JA_NULL
deriving DecidableEq, Repr

open cds_ja_type_class

structure cds_ja_type where
  type_class : cds_ja_type_class
  min_child : Nat
  max_child : Nat
  max_linear_child : Nat
  order : Nat
  nr_pool_order : Nat
  pool_size_order : Nat
deriving DecidableEq, Repr

/-- The table `ja_types` of the 32-bit build. -/
def ja_types32 : List cds_ja_type :=
  [ ⟨RCU_JA_LINEAR, 1, 1, 1, 3, 0, 0⟩,
    ⟨RCU_JA_LINEAR, 1, 3, 3, 4, 0, 0⟩,
    ⟨RCU_JA_LINEAR, 3, 6, 6, 5, 0, 0⟩,
    ⟨RCU_JA_LINEAR, 4, 12, 12, 6, 0, 0⟩,
    ⟨RCU_JA_LINEAR, 10, 25, 25, 7, 0, 0⟩,
    ⟨RCU_JA_POOL, 20, 48, 24, 8, 1, 7⟩,
    ⟨RCU_JA_POOL, 45, 92, 23, 9, 2, 7⟩,
    ⟨RCU_JA_PIGEON, 89, 256, 0, 10, 0, 0⟩,
    ⟨RCU_JA_NULL, 0, 0, 0, 0, 0, 0⟩ ]

/-- The table `ja_types` of the 64-bit build. -/
def ja_types64 : List cds_ja_type :=
  [ ⟨RCU_JA_LINEAR, 1, 1, 1, 4, 0, 0⟩,
    ⟨RCU_JA_LINEAR, 1, 3, 3, 5, 0, 0⟩,
    ⟨RCU_JA_LINEAR, 3, 7, 7, 6, 0, 0⟩,
    ⟨RCU_JA_LINEAR, 5, 14, 14, 7, 0, 0⟩,
    ⟨RCU_JA_LINEAR, 10, 28, 28, 8, 0, 0⟩,
    ⟨RCU_JA_POOL, 22, 54, 27, 9, 1, 8⟩,
    ⟨RCU_JA_POOL, 51, 104, 26, 10, 2, 8⟩,
    ⟨RCU_JA_PIGEON, 101, 256, 0, 11, 0, 0⟩,
    ⟨RCU_JA_NULL, 0, 256, 0, 0, 0, 0⟩ ]

def ja_types : Arch → List cds_ja_type
  | Arch.bits32 => ja_types32
  | Arch.bits64 => ja_types64

/-- The C `&ja_types[type_index]`. -/
def ja_type_at (A : Arch) (type_index : Nat) : Res cds_ja_type :=
  match (ja_types A)[type_index]? with
  | some t => Res.ok t
  | none => Res.abort

/-! ## Machine state -/

/-- Modelled from the spec: the shadow node (its declaration is not among the
sources): the child count and the fallback-removal counter.  The mutex and the
reclamation record have no sequential content. -/
structure cds_ja_shadow_node where
  nr_child : Nat
  fallback_removal_count : Nat
deriving DecidableEq, Repr

/-- The memory of the process together with the fields of the one
`struct cds_ja` under study. -/
structure World where
  /-- memory cells, by address -/
  mem : Nat → Nat
  /-- the shadow table `ja->ht`, keyed by node address -/
  ht : Nat → Option cds_ja_shadow_node
  /-- next address handed out by the allocator -/
  brk : Nat
  /-- outcomes of the coming allocation requests (`false`: the request fails);
  once the list is used up every request succeeds -/
  oracle : List Bool
  /-- addresses handed to `free` (directly or after a grace period) -/
  freed : List Nat
  /-- the address `&ja->root` -/
  root : Nat
  /-- the field `ja->tree_depth` -/
  tree_depth : Nat
  /-- the field `ja->key_max` -/
  key_max : Nat
  /-- the field `ja->nr_fallback` -/
  nr_fallback : Nat

/-- Store `v` in the cell at address `a`. -/
def World.store (w : World) (a v : Nat) : World :=
  { w with mem := fun x => if x = a then v else w.mem x }

/-- The C `calloc (size, 1)`: NULL when the request fails, else a fresh
zero-filled block aligned on 16 bytes. -/
def calloc (w : World) (size : Nat) : Nat × World :=
  match w.oracle with
  | false :: rest => (0, { w with oracle := rest })
  | _ =>
    (w.brk,
     { w with
       mem := fun x => if w.brk ≤ x ∧ x < w.brk + size then 0 else w.mem x,
       brk := w.brk + (size + 15) / 16 * 16,
       oracle := w.oracle.tail })

/-- The C `free (p)`. -/
def free (w : World) (p : Nat) : World :=
  { w with freed := p :: w.freed }

/-! ## Shadow-node table -/

/-- Modelled from the spec: `rcuja_shadow_lookup_lock` (its source file is not
among the sources): the shadow of the node at `node`, or NULL when the table
has no entry for it.  A shadow pointer is represented by the address of its
node. -/
def rcuja_shadow_lookup_lock (w : World) (node : Nat) : Nat :=
  match w.ht node with
  | some _ => node
  | none => 0

/-- Modelled from the spec: `rcuja_shadow_set` (its source file is not among the
sources): inserts a new shadow entry for a freshly allocated node; NULL when
the allocation fails or the table already has an entry for the node. -/
def rcuja_shadow_set (w : World) (new_node : Nat) (_inherit_from : Nat) : Nat × World :=
  match w.oracle with
  | false :: rest => (0, { w with oracle := rest })
  | _ =>
    match w.ht new_node with
    | some _ => (0, { w with oracle := w.oracle.tail })
    | none =>
      (new_node,
       { w with
         ht := fun x => if x = new_node then some ⟨0, 0⟩ else w.ht x,
         oracle := w.oracle.tail })

/-- Modelled from the spec: `rcuja_shadow_clear` (its source file is not among
the sources): removes the entry of `node`; with `RCUJA_SHADOW_CLEAR_FREE_NODE`
the node is freed too (after a grace period).  Returns 0, or `-ENOENT` when
there is no entry to remove. -/
def rcuja_shadow_clear (w : World) (node : Nat) (_shadow_node : Nat) (flags : Nat) :
    Int × World :=
  match w.ht node with
  | none => (-ENOENT, w)
  | some _ =>
    let w1 : World := { w with ht := fun x => if x = node then none else w.ht x }
    (0, if flags &&& RCUJA_SHADOW_CLEAR_FREE_NODE ≠ 0 then free w1 node else w1)

/-- Modelled from the spec: `rcuja_shadow_unlock` (its source file is not among
the sources); without content in a sequential execution. -/
def rcuja_shadow_unlock (w : World) (_shadow_node : Nat) : World := w

/-- The C `shadow_node->nr_child++`. -/
def shadow_nr_child_inc (w : World) (shadow_node : Nat) : Res World :=
  match w.ht shadow_node with
  | some s =>
    Res.ok { w with
      ht := fun x =>
        if x = shadow_node then some { s with nr_child := s.nr_child + 1 } else w.ht x }
  | none => Res.abort

/-- The C `new_shadow_node->fallback_removal_count = v`. -/
def shadow_set_fallback_removal_count (w : World) (shadow_node v : Nat) : Res World :=
  match w.ht shadow_node with
  | some s =>
    Res.ok { w with
      ht := fun x =>
        if x = shadow_node then some { s with fallback_removal_count := v } else w.ht x }
  | none => Res.abort

/-! ## Tagged child pointers -/

def ja_node_flag (node type : Nat) : Res Nat := do
  assert (type < 1 <<< JA_TYPE_BITS)
  pure (node ||| type)

def ja_node_ptr (A : Arch) (node : Nat) : Nat :=
  node &&& JA_PTR_MASK A

def ja_node_type (A : Arch) (node : Nat) : Res Nat :=
  if ja_node_ptr A node = 0 then
    pure NODE_INDEX_NULL
  else do
    let type := (node &&& JA_TYPE_MASK) % 2 ^ 32
    assert (type < 1 <<< JA_TYPE_BITS)
    pure type

def alloc_cds_ja_node (w : World) (ja_type : cds_ja_type) : Nat × World :=
  calloc w (1 <<< ja_type.order)

/-- The C macro `__JA_ALIGN_MASK (v, mask)` on `unsigned long`. -/
def JA_ALIGN_MASK (A : Arch) (v mask : Nat) : Nat :=
  ((v + mask) % 2 ^ CAA_BITS_PER_LONG A) &&& (2 ^ CAA_BITS_PER_LONG A - 1 - mask)

/-- The C macro `JA_ALIGN (v, align)` on `unsigned long`. -/
def JA_ALIGN (A : Arch) (v align : Nat) : Nat :=
  JA_ALIGN_MASK A v (align - 1)

def align_ptr_size (A : Arch) (ptr : Nat) : Nat :=
  JA_ALIGN A ptr (sizeof_ptr A)

/-! ## Node accessors: reading -/

def ja_linear_node_get_nr_child (type : cds_ja_type) (w : World) (node : Nat) : Res Nat := do
  assert (type.type_class = RCU_JA_LINEAR ∨ type.type_class = RCU_JA_POOL)
  pure (w.mem node)

/-- The scan `for (i = 0; i < nr_child; i++) if (values[i] == n) break;`, with
`todo` iterations left: the final value of `i`. -/
def linear_scan (w : World) (values n : Nat) : Nat → Nat → Nat
  | 0, i => i
  | todo + 1, i => if w.mem (values + i) = n then i else linear_scan w values n todo (i + 1)

/-- Returns the child and, when the byte is found, the address of its slot
(what the C code stores through `child_node_flag_ptr` when that is not NULL). -/
def ja_linear_node_get_nth (A : Arch) (type : cds_ja_type) (w : World) (node n : Nat) :
    Res (Nat × Option Nat) := do
  assert (type.type_class = RCU_JA_LINEAR ∨ type.type_class = RCU_JA_POOL)
  let nr_child ← ja_linear_node_get_nr_child type w node
  assert (nr_child ≤ type.max_linear_child)
  assert (type.type_class ≠ RCU_JA_LINEAR ∨ nr_child ≥ type.min_child)
  let values := node + 1
  let i := linear_scan w values n nr_child 0
  if i ≥ nr_child then
    pure (0, none)
  else do
    let pointers := align_ptr_size A (values + type.max_linear_child)
    let ptr := w.mem (pointers + i * sizeof_ptr A)
    assert (ja_node_ptr A ptr ≠ 0)
    pure (ptr, some (pointers + i * sizeof_ptr A))

/-- Returns the key byte `*v` and the child `*iter` of position `i`.  The byte
goes through the `uint8_t *v` of the caller, which keeps its low 8 bits. -/
def ja_linear_node_get_ith_pos (A : Arch) (type : cds_ja_type) (w : World) (node i : Nat) :
    Res (Nat × Nat) := do
  assert (type.type_class = RCU_JA_LINEAR ∨ type.type_class = RCU_JA_POOL)
  let nr_child ← ja_linear_node_get_nr_child type w node
  assert (i < nr_child)
  let values := node + 1
  let v := w.mem (values + i) % 256
  let pointers := align_ptr_size A (values + type.max_linear_child)
  pure (v, w.mem (pointers + i * sizeof_ptr A))

def ja_pool_node_get_nth (A : Arch) (type : cds_ja_type) (w : World) (node n : Nat) :
    Res (Nat × Option Nat) := do
  assert (type.type_class = RCU_JA_POOL)
  let linear := node + ((n >>> (CHAR_BIT - type.nr_pool_order)) <<< type.pool_size_order)
  ja_linear_node_get_nth A type w linear n

def ja_pool_node_get_ith_pool (type : cds_ja_type) (node i : Nat) : Res Nat := do
  assert (type.type_class = RCU_JA_POOL)
  pure (node + (i <<< type.pool_size_order))

def ja_pigeon_node_get_nth (A : Arch) (type : cds_ja_type) (w : World) (node n : Nat) :
    Res (Nat × Option Nat) := do
  assert (type.type_class = RCU_JA_PIGEON)
  let child_node_flag := node + n * sizeof_ptr A
  pure (w.mem child_node_flag, some child_node_flag)

def ja_node_get_nth (A : Arch) (w : World) (node_flag n : Nat) : Res (Nat × Option Nat) := do
  let node := ja_node_ptr A node_flag
  assert (node ≠ 0)
  let type_index ← ja_node_type A node_flag
  let type ← ja_type_at A type_index
  match type.type_class with
  | RCU_JA_LINEAR => ja_linear_node_get_nth A type w node n
  | RCU_JA_POOL => ja_pool_node_get_nth A type w node n
  | RCU_JA_PIGEON => ja_pigeon_node_get_nth A type w node n
  | _ => Res.abort

def ja_get_nr_child (w : World) (shadow_node : Nat) : Res Nat :=
  match w.ht shadow_node with
  | some s => pure s.nr_child
  | none => Res.abort

/-! ## Node accessors: writing -/

/-- The scan `for (i = 0; i < nr_child; i++) if (values[i] == n) return -EEXIST;`
with `todo` iterations left: whether the byte is met. -/
def linear_exists (w : World) (values n : Nat) : Nat → Nat → Bool
  | 0, _ => false
  | todo + 1, i => if w.mem (values + i) = n then true else linear_exists w values n todo (i + 1)

def ja_linear_node_set_nth (A : Arch) (type : cds_ja_type) (w : World)
    (node shadow_node n child_node_flag : Nat) : Res (Int × World) := do
  assert (type.type_class = RCU_JA_LINEAR ∨ type.type_class = RCU_JA_POOL)
  let nr_child_ptr := node
  let nr_child := w.mem nr_child_ptr
  assert (nr_child ≤ type.max_linear_child)
  let values := node + 1
  if linear_exists w values n nr_child 0 then
    pure (-EEXIST, w)
  else if nr_child ≥ type.max_linear_child then
    pure (-ENOSPC, w)
  else do
    let pointers := align_ptr_size A (values + type.max_linear_child)
    assert (w.mem (pointers + nr_child * sizeof_ptr A) = 0)
    let w1 := w.store (pointers + nr_child * sizeof_ptr A) child_node_flag
    let w2 := w1.store (values + nr_child) n
    let w3 := w2.store nr_child_ptr ((nr_child + 1) % 256)
    let w4 ← shadow_nr_child_inc w3 shadow_node
    pure (0, w4)

def ja_pool_node_set_nth (A : Arch) (type : cds_ja_type) (w : World)
    (node shadow_node n child_node_flag : Nat) : Res (Int × World) := do
  assert (type.type_class = RCU_JA_POOL)
  let linear := node + ((n >>> (CHAR_BIT - type.nr_pool_order)) <<< type.pool_size_order)
  ja_linear_node_set_nth A type w linear shadow_node n child_node_flag

def ja_pigeon_node_set_nth (A : Arch) (type : cds_ja_type) (w : World)
    (node shadow_node n child_node_flag : Nat) : Res (Int × World) := do
  assert (type.type_class = RCU_JA_PIGEON)
  let ptr := node + n * sizeof_ptr A
  if w.mem ptr ≠ 0 then
    pure (-EEXIST, w)
  else do
    let w1 := w.store ptr child_node_flag
    let w2 ← shadow_nr_child_inc w1 shadow_node
    pure (0, w2)

def _ja_node_set_nth (A : Arch) (type : cds_ja_type) (w : World)
    (node shadow_node n child_node_flag : Nat) : Res (Int × World) :=
  match type.type_class with
  | RCU_JA_LINEAR => ja_linear_node_set_nth A type w node shadow_node n child_node_flag
  | RCU_JA_POOL => ja_pool_node_set_nth A type w node shadow_node n child_node_flag
  | RCU_JA_PIGEON => ja_pigeon_node_set_nth A type w node shadow_node n child_node_flag
  | RCU_JA_NULL => pure (-ENOSPC, w)
  | _ => Res.abort

/-! ## Recompaction -/

/-- How a copy loop of `ja_node_recompact_add` ends: it ran to its end, or it
jumped to the label `fallback_toosmall`. -/
inductive CopyEnd where
  | finished (w : World)
  | toosmall (w : World)

/-- The loop over the children `i, i+1, ...` of one linear node (or one pool)
`old_node`, each copied into the new node; `todo` iterations are left. -/
def recompact_copy_linear (A : Arch) (old_type new_type : cds_ja_type)
    (old_node new_node new_shadow_node : Nat) : Nat → Nat → World → Res CopyEnd
  | 0, _, w => pure (CopyEnd.finished w)
  | todo + 1, i, w => do
    let (v, iter) ← ja_linear_node_get_ith_pos A old_type w old_node i
    if iter = 0 then
      recompact_copy_linear A old_type new_type old_node new_node new_shadow_node todo (i + 1) w
    else do
      let (ret, w1) ← _ja_node_set_nth A new_type w new_node new_shadow_node v iter
      if new_type.type_class = RCU_JA_POOL ∧ ret ≠ 0 then
        pure (CopyEnd.toosmall w1)
      else do
        assert (ret = 0)
        recompact_copy_linear A old_type new_type old_node new_node new_shadow_node
          todo (i + 1) w1

/-- The loop over the pools `pool_nr, pool_nr+1, ...` of the old pool node;
`todo` iterations are left. -/
def recompact_copy_pools (A : Arch) (old_type new_type : cds_ja_type)
    (old_node new_node new_shadow_node : Nat) : Nat → Nat → World → Res CopyEnd
  | 0, _, w => pure (CopyEnd.finished w)
  | todo + 1, pool_nr, w => do
    let pool ← ja_pool_node_get_ith_pool old_type old_node pool_nr
    let nr_child ← ja_linear_node_get_nr_child old_type w pool
    let r ← recompact_copy_linear A old_type new_type pool new_node new_shadow_node nr_child 0 w
    match r with
    | CopyEnd.toosmall w1 => pure (CopyEnd.toosmall w1)
    | CopyEnd.finished w1 =>
      recompact_copy_pools A old_type new_type old_node new_node new_shadow_node
        todo (pool_nr + 1) w1

/-- How one pass through the body of `ja_node_recompact_add` (from the label
`retry`) ends: a return of `ret` with the final value of `*old_node_flag`, or
the jump to `fallback_toosmall` with the candidate node and its shadow. -/
inductive PassEnd where
  | returned (ret : Int) (old_node_flag : Nat) (w : World)
  | toosmall (new_node new_shadow_node : Nat) (w : World)

/-- The body of `ja_node_recompact_add` from the label `retry` on. -/
def ja_node_recompact_add_pass (A : Arch) (w : World) (fallback : Bool) (new_type_index : Nat)
    (old_type : cds_ja_type) (old_node shadow_node old_node_flag n child_node_flag : Nat) :
    Res PassEnd := do
  let new_type ← ja_type_at A new_type_index
  let (new_node, w1) := alloc_cds_ja_node w new_type
  if new_node = 0 then
    pure (PassEnd.returned (-ENOMEM) old_node_flag w1)
  else do
    let new_node_flag ← ja_node_flag new_node new_type_index
    let (new_shadow_node, w2) := rcuja_shadow_set w1 new_node shadow_node
    if new_shadow_node = 0 then
      pure (PassEnd.returned (-ENOMEM) old_node_flag (free w2 new_node))
    else do
      let w3 ← (if fallback then
          shadow_set_fallback_removal_count w2 new_shadow_node JA_FALLBACK_REMOVAL_COUNT
        else pure w2)
      assert (old_type.type_class ≠ RCU_JA_PIGEON)
      let copied ← (match old_type.type_class with
        | RCU_JA_LINEAR => do
          let nr_child ← ja_linear_node_get_nr_child old_type w3 old_node
          recompact_copy_linear A old_type new_type old_node new_node new_shadow_node
            nr_child 0 w3
        | RCU_JA_POOL =>
          recompact_copy_pools A old_type new_type old_node new_node new_shadow_node
            (1 <<< old_type.nr_pool_order) 0 w3
        | RCU_JA_NULL => pure (CopyEnd.finished w3)
        | _ => Res.abort)
      match copied with
      | CopyEnd.toosmall w4 => pure (PassEnd.toosmall new_node new_shadow_node w4)
      | CopyEnd.finished w4 => do
        let (ret, w5) ← _ja_node_set_nth A new_type w4 new_node new_shadow_node n child_node_flag
        assert (ret = 0)
        if old_node ≠ 0 then do
          let (ret2, w6) := rcuja_shadow_clear w5 old_node shadow_node RCUJA_SHADOW_CLEAR_FREE_NODE
          assert (ret2 = 0)
          pure (PassEnd.returned 0 new_node_flag w6)
        else
          pure (PassEnd.returned 0 new_node_flag w5)

/-- The passes of `ja_node_recompact_add`, the jump `goto retry` taken at most
`fuel` times. -/
def ja_node_recompact_add_loop (A : Arch) (old_type : cds_ja_type)
    (old_node shadow_node n child_node_flag : Nat) :
    Nat → World → Bool → Nat → Nat → Res (Int × Nat × World)
  | 0, _, _, _, _ => Res.nofuel
  | fuel + 1, w, fallback, new_type_index, old_node_flag => do
    let r ← ja_node_recompact_add_pass A w fallback new_type_index old_type old_node
      shadow_node old_node_flag n child_node_flag
    match r with
    | PassEnd.returned ret flag w1 => pure (ret, flag, w1)
    | PassEnd.toosmall new_node new_shadow_node w1 => do
      let (ret, w2) := rcuja_shadow_clear w1 new_node new_shadow_node RCUJA_SHADOW_CLEAR_FREE_NODE
      assert (ret = 0)
      let new_type_index := (1 <<< JA_TYPE_BITS) - 1
      let w3 : World := { w2 with nr_fallback := w2.nr_fallback + 1 }
      ja_node_recompact_add_loop A old_type old_node shadow_node n child_node_flag
        fuel w3 true new_type_index old_node_flag

/-- Returns the result and the final value of `*old_node_flag`.  The second pass
targets the pigeon shape, two passes are the most the C code can make. -/
def ja_node_recompact_add (A : Arch) (w : World) (old_type_index : Nat) (old_type : cds_ja_type)
    (old_node shadow_node old_node_flag n child_node_flag : Nat) : Res (Int × Nat × World) :=
  let new_type_index :=
    if shadow_node = 0 ∨ old_type_index = NODE_INDEX_NULL then 0 else old_type_index + 1
  ja_node_recompact_add_loop A old_type old_node shadow_node n child_node_flag
    2 w false new_type_index old_node_flag

/-- Returns the result and the final value of `*node_flag`. -/
def ja_node_set_nth (A : Arch) (w : World) (node_flag n child_node_flag shadow_node : Nat) :
    Res (Int × Nat × World) := do
  let node := ja_node_ptr A node_flag
  let type_index ← ja_node_type A node_flag
  let type ← ja_type_at A type_index
  let (ret, w1) ← _ja_node_set_nth A type w node shadow_node n child_node_flag
  if ret = -ENOSPC then
    ja_node_recompact_add A w1 type_index type node shadow_node node_flag n child_node_flag
  else
    pure (ret, node_flag, w1)

/-! ## Lookup -/

/-- The key byte `(uint8_t) (key >> (JA_BITS_PER_BYTE * (tree_depth - i - 1)))`
that `cds_ja_lookup` and the descent of `cds_ja_add` use at level `i`. -/
def lookup_iter_key (tree_depth key i : Nat) : Nat :=
  (key >>> (JA_BITS_PER_BYTE * (tree_depth - i - 1))) % 256

/-- The loop `for (i = 1; i < tree_depth; i++)` of `cds_ja_lookup`, at level `i`
with `todo` iterations left. -/
def cds_ja_lookup_loop (A : Arch) (w : World) (key tree_depth : Nat) : Nat → Nat → Nat → Res Nat
  | 0, _, node_flag => pure node_flag
  | todo + 1, i, node_flag => do
    let iter_key := lookup_iter_key tree_depth key i
    let (node_flag1, _) ← ja_node_get_nth A w node_flag iter_key
    if ja_node_ptr A node_flag1 = 0 then
      pure 0
    else
      cds_ja_lookup_loop A w key tree_depth todo (i + 1) node_flag1

def cds_ja_lookup (A : Arch) (w : World) (key : Nat) : Res Nat :=
  if key > w.key_max then
    pure 0
  else
    let tree_depth := w.tree_depth
    let node_flag := w.mem w.root
    if ja_node_ptr A node_flag = 0 then
      pure 0
    else
      cds_ja_lookup_loop A w key tree_depth (tree_depth - 1) 1 node_flag

/-! ## Leaf lists

The address of a user node (`struct cds_ja_node`) is the address of its list
link, whose `next` pointer is the cell at that address. -/

/-- Modelled from the spec: `cds_hlist_add_head_rcu (newp, head)` (its header is
not among the sources): `newp->next = head->next; head->next = newp`.  The back
links of the list, which `rcuja.c` never reads, are not part of the state: the
model covers the insertion into a list of user nodes, not the insertion after an
object that is not a list node, where the write of the back link lands in that
object. -/
def cds_hlist_add_head_rcu (w : World) (newp head : Nat) : World :=
  (w.store newp (w.mem head)).store head newp

/-- The nodes of the chain that starts at the node `p` and follows the `next`
links, at most `fuel` of them. -/
def leaf_list (w : World) : Nat → Nat → List Nat
  | 0, _ => []
  | fuel + 1, p => if p = 0 then [] else p :: leaf_list w fuel (w.mem p)

/-! ## Attach, chain, add -/

/-- The write `created_nodes[nr_created_nodes++] = x` into an array of
`JA_MAX_DEPTH` entries. -/
def created_nodes_push (created_nodes : List Nat) (x : Nat) : Res (List Nat) := do
  assert (created_nodes.length < JA_MAX_DEPTH)
  pure (created_nodes ++ [x])

/-- The key byte `(uint8_t) (key >> (JA_BITS_PER_BYTE * (ja->tree_depth - i)))`
under which `ja_attach_node` stores a child at step `i`. -/
def attach_iter_key (tree_depth key i : Nat) : Nat :=
  (key >>> (JA_BITS_PER_BYTE * (tree_depth - i))) % 256

/-- The loop `for (i = ja->tree_depth; i > (int) level; i--)` of `ja_attach_node`
at step `i` with `todo` iterations left.  Returns `ret`, `iter_node_flag` and
`created_nodes`. -/
def ja_attach_node_loop (A : Arch) (key : Nat) :
    Nat → Nat → Nat → List Nat → World → Res (Int × Nat × List Nat × World)
  | 0, _, iter_node_flag, created_nodes, w => pure (0, iter_node_flag, created_nodes, w)
  | todo + 1, i, iter_node_flag, created_nodes, w => do
    let iter_key := attach_iter_key w.tree_depth key i
    let (ret, iter_dest_node_flag, w1) ← ja_node_set_nth A w 0 iter_key iter_node_flag 0
    if ret ≠ 0 then
      pure (ret, iter_node_flag, created_nodes, w1)
    else do
      let created_nodes1 ← created_nodes_push created_nodes iter_dest_node_flag
      ja_attach_node_loop A key todo (i - 1) iter_dest_node_flag created_nodes1 w1

/-- The loop at the label `check_error` of `ja_attach_node`, `i` being the index
of the head of `created_nodes`. -/
def ja_attach_node_unwind (A : Arch) : List Nat → Nat → World → Res World
  | [], _, w => pure w
  | c :: rest, i, w => do
    let flags := if i ≠ 0 then RCUJA_SHADOW_CLEAR_FREE_LOCK ||| RCUJA_SHADOW_CLEAR_FREE_NODE
      else RCUJA_SHADOW_CLEAR_FREE_LOCK
    let (tmpret, w1) := rcuja_shadow_clear w (ja_node_ptr A c) 0 flags
    assert (tmpret = 0)
    ja_attach_node_unwind A rest (i + 1) w1

/-- The part of `ja_attach_node` between the creation of the leaf list and the
label `check_error`.  Returns `ret` and `created_nodes`.  The node `child_node` is
a user node: for a NULL `child_node` the C code faults in the list insertion,
which the model, where address 0 is a cell like the others, does not show. -/
def ja_attach_node_branch (A : Arch) (w : World)
    (node_flag_ptr node_flag key level child_node shadow_node : Nat) :
    Res (Int × List Nat × World) := do
  /- CDS_INIT_HLIST_HEAD (&head); cds_hlist_add_head_rcu (&child_node->list, &head);
     iter_node_flag = head.next; -/
  let w1 := w.store child_node 0
  let iter_node_flag := child_node
  let (iter_shadow_node, w2) := rcuja_shadow_set w1 (ja_node_ptr A iter_node_flag) 0
  if iter_shadow_node = 0 then
    pure (-ENOMEM, [], w2)
  else do
    let created_nodes ← created_nodes_push [] iter_node_flag
    let (ret, iter_node_flag1, created_nodes1, w3) ←
      ja_attach_node_loop A key (w2.tree_depth - level) w2.tree_depth iter_node_flag
        created_nodes w2
    if ret ≠ 0 then
      pure (ret, created_nodes1, w3)
    else if level > 1 then do
      let iter_key := attach_iter_key w3.tree_depth key level
      let (ret1, iter_dest_node_flag, w4) ←
        ja_node_set_nth A w3 node_flag iter_key iter_node_flag1 shadow_node
      if ret1 ≠ 0 then
        pure (ret1, created_nodes1, w4)
      else do
        let created_nodes2 ← created_nodes_push created_nodes1 iter_dest_node_flag
        pure (0, created_nodes2, w4.store node_flag_ptr iter_dest_node_flag)
    else
      pure (0, created_nodes1, w3.store node_flag_ptr iter_node_flag1)

def ja_attach_node (A : Arch) (w : World)
    (node_flag_ptr node_flag parent_node_flag key level child_node : Nat) :
    Res (Int × World) := do
  let node := ja_node_ptr A node_flag
  let parent_node := ja_node_ptr A parent_node_flag
  assert (node ≠ 0)
  let shadow_node := rcuja_shadow_lookup_lock w node
  if shadow_node = 0 then
    pure (-ENOENT, w)
  else
    let parent_shadow_node := if parent_node ≠ 0 then rcuja_shadow_lookup_lock w parent_node else 0
    if parent_node ≠ 0 ∧ parent_shadow_node = 0 then
      pure (-ENOENT, rcuja_shadow_unlock w shadow_node)
    else do
      let (ret, created_nodes, w1) ←
        ja_attach_node_branch A w node_flag_ptr node_flag key level child_node shadow_node
      let w2 ← (if ret ≠ 0 then ja_attach_node_unwind A created_nodes 0 w1 else pure w1)
      let w3 := if parent_shadow_node ≠ 0 then rcuja_shadow_unlock w2 parent_shadow_node else w2
      pure (ret, rcuja_shadow_unlock w3 shadow_node)

def ja_chain_node (w : World) (head node : Nat) : Int × World :=
  let shadow_node := rcuja_shadow_lookup_lock w head
  if shadow_node = 0 then
    (-ENOENT, w)
  else
    (0, rcuja_shadow_unlock (cds_hlist_add_head_rcu w node head) shadow_node)

/-- One pass of `cds_ja_add` from the label `retry`, at level `i` of the loop
`for (i = 1; i < tree_depth; i++)` with `todo` iterations left.  Returns whether
the pass ends in `goto retry`, and `ret`. -/
def cds_ja_add_pass (A : Arch) (key new_node tree_depth : Nat) :
    Nat → Nat → Nat → Nat → Nat → Nat → World → Res (Bool × Int × World)
  | 0, i, node_flag_ptr, node_flag, parent_node_flag, parent2_node_flag, w => do
    if ja_node_ptr A node_flag = 0 then do
      let (ret, w1) ← ja_attach_node A w node_flag_ptr parent_node_flag parent2_node_flag
        key i new_node
      pure (decide (ret = -ENOENT), ret, w1)
    else
      let (ret, w1) := ja_chain_node w (ja_node_ptr A node_flag) new_node
      pure (decide (ret = -ENOENT), ret, w1)
  | todo + 1, i, node_flag_ptr, node_flag, parent_node_flag, parent2_node_flag, w => do
    if ja_node_ptr A node_flag = 0 then do
      let (ret, w1) ← ja_attach_node A w node_flag_ptr parent_node_flag parent2_node_flag
        key i new_node
      pure (decide (ret = -ENOENT ∨ ret = -EEXIST), ret, w1)
    else do
      let iter_key := lookup_iter_key tree_depth key i
      let (node_flag1, slot) ← ja_node_get_nth A w node_flag iter_key
      let node_flag_ptr1 := match slot with
        | some p => p
        | none => node_flag_ptr
      cds_ja_add_pass A key new_node tree_depth todo (i + 1) node_flag_ptr1 node_flag1
        node_flag parent_node_flag w

/-- The passes of `cds_ja_add`, the jump `goto retry` taken fewer than `fuel`
times. -/
def cds_ja_add_retry (A : Arch) (key new_node : Nat) : Nat → World → Res (Int × World)
  | 0, _ => Res.nofuel
  | fuel + 1, w => do
    let tree_depth := w.tree_depth
    let (again, ret, w1) ← cds_ja_add_pass A key new_node tree_depth (tree_depth - 1) 1
      w.root (w.mem w.root) w.root 0 w
    if again then cds_ja_add_retry A key new_node fuel w1 else pure (ret, w1)

/-- The function `cds_ja_add`; `fuel` bounds the number of passes. -/
def cds_ja_add (A : Arch) (fuel : Nat) (w : World) (key new_node : Nat) : Res (Int × World) :=
  if key > w.key_max then
    pure (-EINVAL, w)
  else
    cds_ja_add_retry A key new_node fuel w

/-! ## Creation -/

/-- Modelled from the spec: the size of `struct cds_ja` (its declaration is not
among the sources): root pointer, depth, maximum key, table pointer, fallback
counter. -/
def sizeof_cds_ja : Nat := 40

/-- Modelled from the spec: `rcuja_create_ht` (its source file is not among the
sources): a new empty shadow table, or NULL when the allocation fails. -/
def rcuja_create_ht (w : World) : Bool × World :=
  match w.oracle with
  | false :: rest => (false, { w with oracle := rest })
  | _ => (true, { w with ht := fun _ => none, oracle := w.oracle.tail })

/-- Modelled from the spec: `rcuja_delete_ht` (its source file is not among the
sources). -/
def rcuja_delete_ht (w : World) : Int × World :=
  (0, { w with ht := fun _ => none })

/-- Returns the new container (NULL on failure); its fields are those of the
returned state. -/
def _cds_ja_new (A : Arch) (w : World) (key_bits : Nat) : Res (Nat × World) := do
  let (ja, w1) := calloc w sizeof_cds_ja
  if ja = 0 then
    pure (0, w1)
  else
    let key_max : Option Nat :=
      if key_bits = 8 then some UINT8_MAX
      else if key_bits = 16 then some UINT16_MAX
      else if key_bits = 32 then some UINT32_MAX
      else if key_bits = 64 then some UINT64_MAX
      else none
    match key_max with
    | none => pure (0, free w1 ja)
    | some km => do
      let tree_depth := (key_bits >>> JA_BITS_PER_BYTE) + 1
      let w2 : World :=
        { w1 with root := ja, key_max := km, tree_depth := tree_depth, nr_fallback := 0 }
      assert (tree_depth ≤ JA_MAX_DEPTH)
      let (ht, w3) := rcuja_create_ht w2
      if ¬ ht then
        pure (0, free w3 ja)
      else
        let (root_shadow_node, w4) := rcuja_shadow_set w3 (ja_node_ptr A ja) 0
        if root_shadow_node = 0 then do
          let (ret, w5) := rcuja_delete_ht w4
          assert (ret = 0)
          pure (0, free w5 ja)
        else
          pure (ja, w4)

/-! ## Executions -/

/-- The state of a process before any call. -/
def World.boot : World :=
  { mem := fun _ => 0, ht := fun _ => none, brk := 1048576, oracle := [], freed := [],
    root := 0, tree_depth := 0, key_max := 0, nr_fallback := 0 }

/-- The state after `_cds_ja_new (key_bits)` in a fresh process. -/
def new_world (A : Arch) (key_bits : Nat) : Res World := do
  let (_, w) ← _cds_ja_new A World.boot key_bits
  pure w

/-- Runs `cds_ja_add (ja, key, node)` for each `(key, node)` of the list, in
order; returns the results, last first, and the final state. -/
def add_all (A : Arch) (fuel : Nat) : List (Nat × Nat) → List Int → World → Res (List Int × World)
  | [], rets, w => pure (rets, w)
  | (key, node) :: rest, rets, w => do
    let (ret, w1) ← cds_ja_add A fuel w key node
    add_all A fuel rest (ret :: rets) w1

/-- The state after `_cds_ja_new (key_bits)` in a fresh process followed by the
calls `cds_ja_add (ja, key, node)` of the list, with the results of the adds,
last first. -/
def run_adds (A : Arch) (fuel key_bits : Nat) (adds : List (Nat × Nat)) :
    Res (List Int × World) := do
  let w ← new_world A key_bits
  add_all A fuel adds [] w

/-- The state of a run, `World.boot` when the run has none. -/
def world_of (r : Res (List Int × World)) : World :=
  match r with
  | Res.ok (_, w) => w
  | _ => World.boot

/-- Whether a run ends in an abnormal termination. -/
def Res.aborts {α : Type} : Res α → Bool
  | Res.abort => true
  | _ => false

/-- What a client sees of a run followed by `cds_ja_lookup (ja, key)`. -/
structure Observation where
  /-- results of the adds, last first -/
  rets : List Int
  /-- content of the root slot after the adds -/
  root : Nat
  /-- the fallback counter after the adds -/
  nr_fallback : Nat
  /-- the pointer `cds_ja_lookup` returns -/
  found : Nat
  /-- the nodes of the chain that starts at that pointer -/
  chain : List Nat
deriving DecidableEq, Repr

def observe (A : Arch) (key_bits : Nat) (adds : List (Nat × Nat)) (key : Nat) :
    Res Observation := do
  let (rets, w) ← run_adds A 1 key_bits adds
  let p ← cds_ja_lookup A w key
  pure ⟨rets, w.mem w.root, w.nr_fallback, p, leaf_list w 64 p⟩

/-- Address of the user node that the scenarios add under key `k` (user nodes lie
below the heap of `World.boot`, 64 bytes apart). -/
def test_node (k : Nat) : Nat := 64 * (k + 1)

/-- The adds of the keys of the list, each with its own user node. -/
def test_adds (keys : List Nat) : List (Nat × Nat) :=
  keys.map (fun k => (k, test_node k))

/-! ## Vocabulary of the statements about nodes -/

/-- The state after `shadow_node->nr_child++` when the shadow is `s`. -/
def World.inc_nr_child (w : World) (shadow_node : Nat) (s : cds_ja_shadow_node) : World :=
  { w with ht := fun x =>
      if x = shadow_node then some { s with nr_child := s.nr_child + 1 } else w.ht x }

/-- Address of the pointer slot `i` of the linear node (or pool) at `node`:
`&pointers[i]` with `pointers = align_ptr_size (&values[max_linear_child])`. -/
def linear_slot (A : Arch) (type : cds_ja_type) (node i : Nat) : Nat :=
  align_ptr_size A (node + 1 + type.max_linear_child) + i * sizeof_ptr A

/-- The pool of the pool node at `node` to which the key byte `n` is routed. -/
def pool_of (type : cds_ja_type) (node n : Nat) : Nat :=
  node + ((n >>> (CHAR_BIT - type.nr_pool_order)) <<< type.pool_size_order)

/-- The byte `n` is among the first `cnt` key bytes of the linear node (or pool)
at `node`. -/
def key_present (w : World) (node cnt n : Nat) : Prop :=
  ∃ i, i < cnt ∧ w.mem (node + 1 + i) = n

/-- Offset of the pointer slots in a linear node (or pool): the count and the key
bytes, rounded up to the pointer size. -/
def linear_ptr_offset (A : Arch) (type : cds_ja_type) : Nat :=
  sizeof_ptr A * ((1 + type.max_linear_child + (sizeof_ptr A - 1)) / sizeof_ptr A)

/-- Number of bytes that the layout of a linear node (or of one pool) takes:
count, key bytes, padding, pointer slots. -/
def linear_extent (A : Arch) (type : cds_ja_type) : Nat :=
  linear_ptr_offset A type + type.max_linear_child * sizeof_ptr A

/-- A property of what a call returns; a call that ends in a failed assertion
returns nothing, a call that runs out of passes does not have the property. -/
def Res.returns {α : Type} (r : Res α) (P : α → Prop) : Prop :=
  match r with
  | Res.ok a => P a
  | Res.abort => True
  | Res.nofuel => False

/-! ## Scenarios on one node -/

/-- The insertions `_ja_node_set_nth (node, b, child)` of the list, in order, with
the shadow of the node; the results, last first. -/
def set_all (A : Arch) (type : cds_ja_type) (node : Nat) :
    List (Nat × Nat) → List Int → World → Res (List Int × World)
  | [], rets, w => pure (rets, w)
  | (b, child) :: rest, rets, w => do
    let (r, w1) ← _ja_node_set_nth A type w node node b child
    set_all A type node rest (r :: rets) w1

/-- A freshly allocated, zero-filled node of shape `idx` with its shadow in a
fresh process, then the insertions of the list: the results, last first, and
the state.  The node is at `World.boot.brk`. -/
def node_with (A : Arch) (idx : Nat) (sets : List (Nat × Nat)) : Res (List Int × World) := do
  let type ← ja_type_at A idx
  let (node, w) := alloc_cds_ja_node World.boot type
  let (_, w1) := rcuja_shadow_set w node 0
  set_all A type node sets [] w1

/-- The result of `ja_node_get_nth (node, b)` on the node of `node_with`. -/
def node_with_get (A : Arch) (idx : Nat) (sets : List (Nat × Nat)) (b : Nat) :
    Res (List Int × Nat × Option Nat) := do
  let (rets, w) ← node_with A idx sets
  let flag ← ja_node_flag World.boot.brk idx
  let (child, slot) ← ja_node_get_nth A w flag b
  pure (rets, child, slot)

/-- What `ja_node_recompact_add` does on the root node of the state reached by a
run, asked to add `(n, child)`: the shape index of the root node, the result of
the call, the shape index of the tagged pointer it hands back, and the fallback
counter afterwards. -/
def recompact_root_after (A : Arch) (key_bits : Nat) (adds : List (Nat × Nat)) (n child : Nat) :
    Res (Nat × Int × Nat × Nat) := do
  let (_, w) ← run_adds A 1 key_bits adds
  let node_flag := w.mem w.root
  let node := ja_node_ptr A node_flag
  let type_index ← ja_node_type A node_flag
  let type ← ja_type_at A type_index
  let (ret, flag, w1) ← ja_node_recompact_add A w type_index type node
    (rcuja_shadow_lookup_lock w node) node_flag n child
  let new_index ← ja_node_type A flag
  pure (type_index, ret, new_index, w1.nr_fallback)

/-- The shape index of the root node after a run. -/
def root_shape_after (A : Arch) (key_bits : Nat) (adds : List (Nat × Nat)) : Res Nat := do
  let (_, w) ← run_adds A 1 key_bits adds
  ja_node_type A (w.mem w.root)

/-! ## Vocabulary of the statements about the effect of a call -/

/-- What every call keeps: the fields `root`, `tree_depth` and `key_max` of the
container, and an allocator that only moves forward, by multiples of 16. -/
structure Kept (w w1 : World) : Prop where
  root : w1.root = w.root
  tree_depth : w1.tree_depth = w.tree_depth
  key_max : w1.key_max = w.key_max
  brk_le : w.brk ≤ w1.brk
  brk_al : w.brk % 16 = 0 → w1.brk % 16 = 0

/-- The allocation outcomes that a call went through are `used`; when one of
them is a failure the result of the call is `-ENOMEM`. -/
def OracleUse (w w1 : World) (ret : Int) : Prop :=
  ∃ used, w.oracle = used ++ w1.oracle ∧ (false ∈ used → ret = -ENOMEM)

/-- The address `x` is within 2048 bytes after the address `b`, or, when the
address computation wraps around the address space, below 2048. -/
def near (b x : Nat) : Prop :=
  (b ≤ x ∧ x < b + 2048) ∨ x < 2048

/-- The address `x` is near the node that the tagged pointer `v` points to. -/
def nearp (A : Arch) (v x : Nat) : Prop :=
  near (ja_node_ptr A v) x

/-- The cells of `w1` are those of `w`, except cells at `lo` or above or in `P`,
which hold values in `V`. -/
def Frame (lo : Nat) (V P : Nat → Prop) (w w1 : World) : Prop :=
  ∀ x, w1.mem x = w.mem x ∨ ((lo ≤ x ∨ P x) ∧ V (w1.mem x))

/-- The set `V` of values holds the bytes and the tagged pointers to the blocks
allocated at `lo` or above, below `B`. -/
structure VClosed (A : Arch) (lo B : Nat) (V : Nat → Prop) : Prop where
  small : ∀ v, v < 256 → V v
  fresh : ∀ b t, lo ≤ b → b < B → b % 16 = 0 → t < 8 → V (b ||| t)
  top : B ≤ 2 ^ CAA_BITS_PER_LONG A

/-- The setting of a call that starts in `w` and ends in `w1`: blocks are allocated
at `lo` or above and below `B`, from an aligned allocator, and the cells hold
values in `V`. -/
structure Ctx (A : Arch) (lo B : Nat) (V : Nat → Prop) (w w1 : World) : Prop where
  lo_le : lo ≤ w.brk
  le_B : w1.brk ≤ B
  al : w.brk % 16 = 0
  closed : VClosed A lo B V
  vals : ∀ y, V (w.mem y)

/-- The two states differ at most by the shadow table, the record of the
allocation outcomes to come and the record of the freed blocks. -/
structure Same (w w1 : World) : Prop where
  mem : w1.mem = w.mem
  brk : w1.brk = w.brk
  root : w1.root = w.root
  tree_depth : w1.tree_depth = w.tree_depth
  key_max : w1.key_max = w.key_max
  nr_fallback : w1.nr_fallback = w.nr_fallback

/-- The state in which a copy loop ends. -/
def CopyEnd.world : CopyEnd → World
  | CopyEnd.finished w => w
  | CopyEnd.toosmall w => w

/-- The result with which a pass of `ja_node_recompact_add` ends, 0 for a pass
that jumps to `fallback_toosmall`. -/
def PassEnd.ret : PassEnd → Int
  | PassEnd.returned ret _ _ => ret
  | PassEnd.toosmall _ _ _ => 0

/-- The state in which a pass of `ja_node_recompact_add` ends. -/
def PassEnd.world : PassEnd → World
  | PassEnd.returned _ _ w => w
  | PassEnd.toosmall _ _ w => w

/-- The result of a call of `cds_ja_add`, 0 when the call does not return. -/
def result_of (r : Res (Int × World)) : Int :=
  match r with
  | Res.ok (ret, _) => ret
  | _ => 0

/-! ## Vocabulary of the statements about the root slot -/

/-- The tagged pointer `v` does not point into the 2048 bytes that end at the
address `r`. -/
def clear_of (A : Arch) (r v : Nat) : Prop :=
  ja_node_ptr A v + 2048 ≤ r ∨ r < ja_node_ptr A v

/-- A state in which the root slot lies below the allocator and above the first
page, the depth is at least 2, and no cell holds a pointer to the bytes just
before the root slot: no node of the tree overlaps the root slot. -/
structure Good (A : Arch) (w : World) : Prop where
  root_ge : 4096 ≤ w.root
  root_lt : w.root < w.brk
  brk_al : w.brk % 16 = 0
  depth : 2 ≤ w.tree_depth
  cells : ∀ x, clear_of A w.root (w.mem x)

/-- One step of the shape index of the node that a slot references: the same
index, from the NULL shape to 0, from `s` to `s + 1`, or a jump to 7. -/
def ShapeStep (s s' : Nat) : Prop :=
  s' = s ∨ (s = NODE_INDEX_NULL ∧ s' = 0) ∨ (s + 1 < 8 ∧ s' = s + 1) ∨ s' = 7

/-- The rank of a shape index when the NULL shape counts as the lowest. -/
def shape_rank (s : Nat) : Nat :=
  if s = NODE_INDEX_NULL then 0 else s + 1

/-- The shape index of the node that the root slot references, before the adds of
the list and after each of them, and the value of the allocator at the end. -/
def root_trace (A : Arch) (fuel : Nat) : List (Nat × Nat) → World → Res (List Nat × Nat)
  | [], w => do
    let s ← ja_node_type A (w.mem w.root)
    pure ([s], w.brk)
  | (key, node) :: rest, w => do
    let s ← ja_node_type A (w.mem w.root)
    let (_, w1) ← cds_ja_add A fuel w key node
    let (l, brk) ← root_trace A fuel rest w1
    pure (s :: l, brk)

/-! ## Vocabulary of the statements about the occupancy of the root node -/

/-- Sum of the child counts `nr_child` of the pools `0 .. k-1` of the pool node at
`node`. -/
def pool_count (w : World) (type : cds_ja_type) (node : Nat) : Nat → Nat
  | 0 => 0
  | k + 1 => pool_count w type node k + w.mem (node + (k <<< type.pool_size_order))

/-- Number of the slots `0 .. k-1` of the pigeon node at `node` that hold a
non-NULL pointer. -/
def pigeon_count (A : Arch) (w : World) (node : Nat) : Nat → Nat
  | 0 => 0
  | k + 1 => pigeon_count A w node k + (if w.mem (node + k * sizeof_ptr A) = 0 then 0 else 1)

/-- Number of children of the node at `node` of shape `type`, read in the node:
the count `nr_child` of a linear node, the sum of the counts of the pools of a
pool node, the number of non-NULL slots of a pigeon node, 0 for the NULL shape. -/
def node_nr_child (A : Arch) (w : World) (type : cds_ja_type) (node : Nat) : Nat :=
  match type.type_class with
  | RCU_JA_LINEAR => w.mem node
  | RCU_JA_POOL => pool_count w type node (1 <<< type.nr_pool_order)
  | RCU_JA_PIGEON => pigeon_count A w node JA_ENTRY_PER_NODE
  | _ => 0

/-- The catalog entry of the shape of the root node and the number of its
children in the state `w`. -/
def root_occupancy (A : Arch) (w : World) : Res (cds_ja_type × Nat) := do
  let node_flag := w.mem w.root
  let type_index ← ja_node_type A node_flag
  let type ← ja_type_at A type_index
  pure (type, node_nr_child A w type (ja_node_ptr A node_flag))

/-- The catalog entry of the shape of the root node and the number of its
children after each of the adds of the list, and the value of the allocator at
the end. -/
def occupancy_trace (A : Arch) (fuel : Nat) :
    List (Nat × Nat) → World → Res (List (cds_ja_type × Nat) × Nat)
  | [], w => pure ([], w.brk)
  | (key, node) :: rest, w => do
    let (_, w1) ← cds_ja_add A fuel w key node
    let o ← root_occupancy A w1
    let (l, brk) ← occupancy_trace A fuel rest w1
    pure (o :: l, brk)

/-- What `ja_node_get_nth` returns for the byte `b` on the node that the root slot
references, after the adds of the list to a new container: the child, and the
content of the root slot. -/
def root_get_nth_after (A : Arch) (key_bits : Nat) (adds : List (Nat × Nat)) (b : Nat) :
    Res (Nat × Nat) := do
  let (_, w) ← run_adds A 1 key_bits adds
  let (child, _) ← ja_node_get_nth A w (w.mem w.root) b
  pure (child, w.mem w.root)

/-- The bytes `b` below 256 for which `ja_node_get_nth` returns a non-NULL child on
the node behind `node_flag`, with that child. -/
def node_children (A : Arch) (w : World) (node_flag : Nat) : List (Nat × Nat) :=
  (List.range 256).filterMap (fun b =>
    match ja_node_get_nth A w node_flag b with
    | Res.ok (child, _) => if child = 0 then none else some (b, child)
    | _ => none)

/-! ## Vocabulary of the statements about the layout of a linear node -/

/-- The linear layouts of the node at `node`: the node itself when its shape is
linear, each of its `2 ^ nr_pool_order` pools when its shape is a pool shape. -/
def is_base (type : cds_ja_type) (node base : Nat) : Prop :=
  (type.type_class = RCU_JA_LINEAR ∧ base = node) ∨
  (type.type_class = RCU_JA_POOL ∧
    ∃ k, k < 2 ^ type.nr_pool_order ∧ base = node + k * 2 ^ type.pool_size_order)

/-- The layout invariant of the linear node (or pool) at `base`: the count is at
most `max_linear_child`, the key bytes in use are pairwise distinct, the pointer
slots in use hold non-NULL pointers, the other pointer slots hold NULL. -/
structure LinearInv (A : Arch) (w : World) (type : cds_ja_type) (base : Nat) : Prop where
  count : w.mem base ≤ type.max_linear_child
  distinct : ∀ i j, i < j → j < w.mem base → w.mem (base + 1 + i) ≠ w.mem (base + 1 + j)
  used : ∀ j, j < w.mem base → ja_node_ptr A (w.mem (linear_slot A type base j)) ≠ 0
  unused : ∀ j, w.mem base ≤ j → j < type.max_linear_child →
    w.mem (linear_slot A type base j) = 0

/-! ## Vocabulary of the statements about the root node of an 8-bit container -/

/-- The node at `node` is a well-formed node of the linear or pool shape `type`:
its linear layouts satisfy the layout invariant and, for a linear shape and for
the pool shape of two pools, it holds at least `min_child` children. -/
def NodeOK (A : Arch) (w : World) (type : cds_ja_type) (node : Nat) : Prop :=
  (∀ base, is_base type node base → LinearInv A w type base) ∧
  (type.type_class = RCU_JA_LINEAR → type.min_child ≤ w.mem node) ∧
  (type.type_class = RCU_JA_POOL → type.nr_pool_order = 1 →
    type.min_child ≤ node_nr_child A w type node)

/-- A state whose root slot is NULL or references a well-formed node of a linear
or pool shape that lies between the root slot and the allocator, and whose other
cells hold values below the root slot (bytes, counts, pointers to user nodes). -/
structure Tidy (A : Arch) (w : World) : Prop where
  low : ∀ x, x ≠ w.root → w.mem x + 2048 ≤ w.root
  node : ja_node_ptr A (w.mem w.root) = 0 ∨
    ∃ idx type nd, w.mem w.root = nd + idx ∧ idx < 7 ∧ ja_type_at A idx = Res.ok type ∧
      w.root < nd ∧ nd % 16 = 0 ∧ nd + 2 ^ type.order ≤ w.brk ∧ NodeOK A w type nd

/-- The invariant of an 8-bit container along adds: no node overlaps the root
slot, the depth is 2, and the root node is a pigeon node or the state is tidy. -/
structure Occ (A : Arch) (w : World) : Prop where
  good : Good A w
  depth : w.tree_depth = 2
  shape : ja_node_type A (w.mem w.root) = Res.ok 7 ∨ Tidy A w

/-- A new 8-bit container: depth 2, the root slot above the first page and below
the allocator, an aligned allocator, an empty root slot, and cells that hold
values below the root slot. -/
structure NewJa8 (A : Arch) (w : World) : Prop where
  depth : w.tree_depth = 2
  root_ge : 4096 ≤ w.root
  root_lt : w.root < w.brk
  brk_al : w.brk % 16 = 0
  cells : ∀ x, w.mem x + 2048 ≤ w.root
  empty : ja_node_ptr A (w.mem w.root) = 0

/-- The state `w1` of a pass of `ja_node_recompact_add` that started in `w` with
the root slot at `R` and builds its new node, of shape `new_type`, at `nd`: the
cells other than the root slot hold values below the root slot, the cells below
the new node are those of `w`, and the linear layouts of the new node satisfy the
layout invariant. -/
structure Building (A : Arch) (w : World) (R nd : Nat) (new_type : cds_ja_type) (w1 : World) :
    Prop where
  low : ∀ x, x ≠ R → w1.mem x + 2048 ≤ R
  frame : ∀ x, x < nd → w1.mem x = w.mem x
  inv : new_type.type_class = RCU_JA_LINEAR ∨ new_type.type_class = RCU_JA_POOL →
    ∀ base, is_base new_type nd base → LinearInv A w1 new_type base

/-- In the state `w` with the root slot at `R`, the tagged pointer `flag`
references a pigeon node, or a well-formed node of a linear or pool shape that
lies between the root slot and the allocator. -/
def RootOK (A : Arch) (w : World) (R flag : Nat) : Prop :=
  ja_node_type A flag = Res.ok 7 ∨
  ∃ idx type nd, flag = nd + idx ∧ idx < 7 ∧ ja_type_at A idx = Res.ok type ∧
    R < nd ∧ nd % 16 = 0 ∧ nd + 2 ^ type.order ≤ w.brk ∧ NodeOK A w type nd

/-! ## Vocabulary of the statements about `created_nodes` -/

/-- Number of the writes `created_nodes[nr_created_nodes++] = ...` of a call of
`ja_attach_node` at `level` that meets no error, in a container of depth
`tree_depth`: one for the leaf, one for each step `i = tree_depth, ..., level + 1`
of the loop, one for the node of the previous level when `level > 1`. -/
def attach_writes (tree_depth level : Nat) : Nat :=
  1 + (tree_depth - level) + (if level > 1 then 1 else 0)

/-! ## One writer and one reader on a linear node

`ja_linear_node_set_nth` in one thread and `ja_linear_node_get_nth` in another, on
the same node, as interleavings of their loads and stores of the shared memory.
`cmm_smp_wmb` keeps the two stores of the slot before the store of the count,
`cmm_smp_rmb` keeps the load of the count before the loads of the slots; the two
stores of the slot may reach memory in either order. -/

/-- Where the writer stands in `ja_linear_node_set_nth`. -/
inductive WriterPc where
  /-- before the load `nr_child = *nr_child_ptr` -/
  | entry
  /-- in the loop over the key bytes, before the load of `values[i]` -/
  | scan (nr_child i : Nat)
  /-- before the load of `pointers[nr_child]` of the assertion -/
  | check (nr_child : Nat)
  /-- after the assertion: `ptr_done` and `val_done` tell which of the stores
  `rcu_assign_pointer (pointers[nr_child], child_node_flag)` and
  `CMM_STORE_SHARED (values[nr_child], n)` have reached memory; once both have,
  the next store is that of the count -/
  | stores (nr_child : Nat) (ptr_done val_done : Bool)
  /-- before `shadow_node->nr_child++` -/
  | shadow
  /-- after `return ret` -/
  | returned (ret : Int)
  /-- after a failed assertion -/
  | failed
deriving DecidableEq

/-- Where the reader stands in `ja_linear_node_get_nth`. -/
inductive ReaderPc where
  /-- before the load of the count -/
  | entry
  /-- in the loop over the key bytes, before the load of `values[i]` -/
  | scan (nr_child i : Nat)
  /-- after the loop has met the byte at `i`, before the load of `pointers[i]` -/
  | fetch (nr_child i : Nat)
  /-- after the return of the child, with the address stored through
  `child_node_flag_ptr` -/
  | returned (child : Nat) (slot : Option Nat)
  /-- after a failed assertion -/
  | failed
deriving DecidableEq

/-- A load of the reader and the value it got. -/
inductive SlotLoad where
  /-- the load of the count -/
  | count (nr_child : Nat)
  /-- the load of `values[i]` -/
  | byte (i v : Nat)
  /-- the load of `pointers[i]` -/
  | pointer (i p : Nat)
deriving DecidableEq

/-- One access to memory of the writer, with what precedes the next one.  When
both stores of the slot are pending, `value_first` tells which one reaches memory
first. -/
def writer_step (A : Arch) (type : cds_ja_type) (node shadow_node n child_node_flag : Nat)
    (value_first : Bool) (w : World) : WriterPc → World × WriterPc
  | WriterPc.entry =>
    if type.type_class = RCU_JA_LINEAR ∨ type.type_class = RCU_JA_POOL then
      if w.mem node ≤ type.max_linear_child then (w, WriterPc.scan (w.mem node) 0)
      else (w, WriterPc.failed)
    else (w, WriterPc.failed)
  | WriterPc.scan nr_child i =>
    if i < nr_child then
      if w.mem (node + 1 + i) = n then (w, WriterPc.returned (-EEXIST))
      else (w, WriterPc.scan nr_child (i + 1))
    else if nr_child ≥ type.max_linear_child then (w, WriterPc.returned (-ENOSPC))
    else (w, WriterPc.check nr_child)
  | WriterPc.check nr_child =>
    if w.mem (linear_slot A type node nr_child) = 0 then
      (w, WriterPc.stores nr_child false false)
    else (w, WriterPc.failed)
  | WriterPc.stores nr_child ptr_done val_done =>
    if ptr_done = true ∧ val_done = true then
      (w.store node ((nr_child + 1) % 256), WriterPc.shadow)
    else if ptr_done = false ∧ (val_done = true ∨ value_first = false) then
      (w.store (linear_slot A type node nr_child) child_node_flag,
        WriterPc.stores nr_child true val_done)
    else
      (w.store (node + 1 + nr_child) n, WriterPc.stores nr_child ptr_done true)
  | WriterPc.shadow =>
    match shadow_nr_child_inc w shadow_node with
    | Res.ok w1 => (w1, WriterPc.returned 0)
    | _ => (w, WriterPc.failed)
  | WriterPc.returned ret => (w, WriterPc.returned ret)
  | WriterPc.failed => (w, WriterPc.failed)

/-- One load of the reader, with what precedes the next one: the new position and
the load made. -/
def reader_step (A : Arch) (type : cds_ja_type) (node n : Nat) (w : World) :
    ReaderPc → ReaderPc × Option SlotLoad
  | ReaderPc.entry =>
    if type.type_class = RCU_JA_LINEAR ∨ type.type_class = RCU_JA_POOL then
      if w.mem node ≤ type.max_linear_child then
        if type.type_class ≠ RCU_JA_LINEAR ∨ w.mem node ≥ type.min_child then
          (ReaderPc.scan (w.mem node) 0, some (SlotLoad.count (w.mem node)))
        else (ReaderPc.failed, some (SlotLoad.count (w.mem node)))
      else (ReaderPc.failed, some (SlotLoad.count (w.mem node)))
    else (ReaderPc.failed, none)
  | ReaderPc.scan nr_child i =>
    if i < nr_child then
      (if w.mem (node + 1 + i) = n then ReaderPc.fetch nr_child i
        else ReaderPc.scan nr_child (i + 1),
       some (SlotLoad.byte i (w.mem (node + 1 + i))))
    else (ReaderPc.returned 0 none, none)
  | ReaderPc.fetch _ i =>
    let ptr := w.mem (linear_slot A type node i)
    (if ja_node_ptr A ptr ≠ 0 then ReaderPc.returned ptr (some (linear_slot A type node i))
      else ReaderPc.failed,
     some (SlotLoad.pointer i ptr))
  | ReaderPc.returned child slot => (ReaderPc.returned child slot, none)
  | ReaderPc.failed => (ReaderPc.failed, none)

/-- The state of the two threads: the memory, their positions, and the loads that
the reader has made, last first. -/
structure Race where
  w : World
  writer : WriterPc
  reader : ReaderPc
  loads : List SlotLoad

/-- Whose access to memory comes next. -/
inductive Turn where
  | writer (value_first : Bool)
  | reader
deriving DecidableEq

/-- The writer runs `ja_linear_node_set_nth (type, node, shadow_node, n, child)`,
the reader `ja_linear_node_get_nth (type, node, NULL, m)`. -/
def race_step (A : Arch) (type : cds_ja_type) (node shadow_node n child_node_flag m : Nat)
    (t : Turn) (s : Race) : Race :=
  match t with
  | Turn.writer value_first =>
    let r := writer_step A type node shadow_node n child_node_flag value_first s.w s.writer
    { s with w := r.1, writer := r.2 }
  | Turn.reader =>
    let r := reader_step A type node m s.w s.reader
    { s with reader := r.1,
             loads := match r.2 with
               | some l => l :: s.loads
               | none => s.loads }

/-- The state after the accesses of the schedule, in order. -/
def race_run (A : Arch) (type : cds_ja_type) (node shadow_node n child_node_flag m : Nat) :
    List Turn → Race → Race
  | [], s => s
  | t :: rest, s =>
    race_run A type node shadow_node n child_node_flag m rest
      (race_step A type node shadow_node n child_node_flag m t s)

/-- The state in which both threads enter their function. -/
def race_init (w : World) : Race := ⟨w, WriterPc.entry, ReaderPc.entry, []⟩

/-- The key byte that the slot `j` of the node is given: the one it holds in the
state `w` for a slot in use there, the byte `n` of the writer for the next one. -/
def stored_byte (w : World) (node n j : Nat) : Nat :=
  if j < w.mem node then w.mem (node + 1 + j) else n

/-- The pointer that the slot `j` of the node is given: the one it holds in the
state `w` for a slot in use there, the child of the writer for the next one. -/
def stored_pointer (A : Arch) (type : cds_ja_type) (w : World) (node child j : Nat) : Nat :=
  if j < w.mem node then w.mem (linear_slot A type node j) else child

/-- What the writer at a position has loaded and stored, in the memory of `w`,
when the threads started in the state `w0`. -/
def WriterOK (A : Arch) (type : cds_ja_type) (w0 : World) (node n child : Nat) (w : World) :
    WriterPc → Prop
  | WriterPc.entry => w.mem node = w0.mem node
  | WriterPc.scan nr_child _ => nr_child = w0.mem node ∧ w.mem node = w0.mem node
  | WriterPc.check nr_child =>
    nr_child = w0.mem node ∧ nr_child < type.max_linear_child ∧ w.mem node = w0.mem node
  | WriterPc.stores nr_child ptr_done val_done =>
    nr_child = w0.mem node ∧ nr_child < type.max_linear_child ∧ w.mem node = w0.mem node ∧
    (ptr_done = true → w.mem (linear_slot A type node nr_child) = child) ∧
    (val_done = true → w.mem (node + 1 + nr_child) = n)
  | _ => True

/-- What the reader at a position holds, in the memory of `w`: a count that is at
most the count in memory; after the loop has met the byte `m`, the index of a slot
that is given this byte; after the return, NULL or the pointer that such a slot is
given.  The reader fails no assertion but that on `min_child`, on a linear node
that holds fewer children than that in `w0`. -/
def ReaderOK (A : Arch) (type : cds_ja_type) (w0 : World) (node n child m : Nat) (w : World) :
    ReaderPc → Prop
  | ReaderPc.entry => True
  | ReaderPc.scan nr_child _ => nr_child ≤ w.mem node
  | ReaderPc.fetch nr_child i =>
    nr_child ≤ w.mem node ∧ i < nr_child ∧ stored_byte w0 node n i = m
  | ReaderPc.returned c slot =>
    (c = 0 ∧ slot = none) ∨
    ∃ j, j < w.mem node ∧ stored_byte w0 node n j = m ∧
      c = stored_pointer A type w0 node child j ∧ slot = some (linear_slot A type node j)
  | ReaderPc.failed => type.type_class = RCU_JA_LINEAR ∧ w0.mem node < type.min_child

/-- What a load of the reader gave, in the memory of `w`: a count that is at most
the count in memory, or, from a slot below the count in memory, the byte or the
pointer that the slot is given. -/
def LoadOK (A : Arch) (type : cds_ja_type) (w0 : World) (node n child : Nat) (w : World) :
    SlotLoad → Prop
  | SlotLoad.count c => c ≤ w.mem node
  | SlotLoad.byte j v => j < w.mem node ∧ v = stored_byte w0 node n j
  | SlotLoad.pointer j p => j < w.mem node ∧ p = stored_pointer A type w0 node child j

/-- What holds in every state `s` of the two threads that started in the state
`w0`: the slots in use in `w0` are as in `w0`; the count is that of `w0`, or one
more once the new slot holds the byte and the child of the writer; the writer,
the reader and the loads of the reader are as described above. -/
structure RaceInv (A : Arch) (type : cds_ja_type) (w0 : World) (node n child m : Nat)
    (s : Race) : Prop where
  old : ∀ j, j < w0.mem node →
    s.w.mem (node + 1 + j) = w0.mem (node + 1 + j) ∧
    s.w.mem (linear_slot A type node j) = w0.mem (linear_slot A type node j)
  cnt : s.w.mem node = w0.mem node ∨
    (s.w.mem node = w0.mem node + 1 ∧ w0.mem node < type.max_linear_child ∧
      s.w.mem (node + 1 + w0.mem node) = n ∧
      s.w.mem (linear_slot A type node (w0.mem node)) = child)
  writer : WriterOK A type w0 node n child s.w s.writer
  reader : ReaderOK A type w0 node n child m s.w s.reader
  loads : ∀ l ∈ s.loads, LoadOK A type w0 node n child s.w l

/-! ## Vocabulary of the statements about the copy loops of a recompaction -/

/-- What holds of the state `w'` while the children of the old linear node at
`old_node` in the state `w` are copied into the new linear node at `nd`, before
the child `i`: the cells below the new node are those of `w`, the shadow of the
new node exists, the other shadows are those of `w3`, the new node satisfies the
layout invariant and holds the first `i` key bytes of the old node. -/
def CopyLin (A : Arch) (new_type : cds_ja_type) (w w3 : World) (old_node nd : Nat)
    (i : Nat) (w' : World) : Prop :=
  (∀ x, x < nd → w'.mem x = w.mem x) ∧ w'.ht nd ≠ none ∧
  (∀ x, x ≠ nd → w'.ht x = w3.ht x) ∧ LinearInv A w' new_type nd ∧ w'.mem nd = i ∧
  ∀ j, j < i → w'.mem (nd + 1 + j) = w.mem (old_node + 1 + j)

/-- What holds of the state `w'` while the children of the pools of the old pool
node at `old_node` in the state `w` are copied into the new pigeon node at `nd`,
before the child `i` of the pool `p`: the cells below the new node are those of
`w`, the shadow of the new node exists, the other shadows are those of `w3`, and a
slot of the new node that is not NULL is the slot of a key byte of a pool before
`p` or of one of the first `i` key bytes of the pool `p`. -/
def CopyPig (A : Arch) (old_type : cds_ja_type) (w w3 : World) (old_node nd : Nat)
    (p i : Nat) (w' : World) : Prop :=
  (∀ x, x < nd → w'.mem x = w.mem x) ∧ w'.ht nd ≠ none ∧
  (∀ x, x ≠ nd → w'.ht x = w3.ht x) ∧
  ∀ b, b < 256 → w'.mem (nd + b * sizeof_ptr A) ≠ 0 →
    (∃ q j, q < p ∧ j < w.mem (old_node + (q <<< old_type.pool_size_order)) ∧
      w.mem (old_node + (q <<< old_type.pool_size_order) + 1 + j) = b) ∨
    (∃ j, j < i ∧ w.mem (old_node + (p <<< old_type.pool_size_order) + 1 + j) = b)

/-! ## Scenarios on a pool node -/

/-- A pool node of shape 6 of the 64-bit build (four pools of 256 bytes, 26
children each) at 1048576, with its shadow, the allocator standing behind the
node: the pool 0 holds the child 64 under the key byte 5, the pool 1 holds the
child 128 under the key byte `b`, the other pools are empty. -/
def two_pools (b : Nat) : World :=
  ((((((({ World.boot with
      brk := 1049600,
      ht := fun x => if x = 1048576 then some ⟨2, 0⟩ else none } : World).store
    1048577 5).store 1048833 b).store 1048576 1).store 1048608 64).store 1048832 1).store
    1048864 128)

/-! ## Vocabulary of the statements about `ja_attach_node_branch` -/

/-- The state `w` with the record `o` of the outcomes of the coming allocation
requests. -/
def World.reo (w : World) (o : List Bool) : World :=
  { w with oracle := o }

/-- The end of a copy loop, with the record `o` of the outcomes of the coming
allocation requests. -/
def CopyEnd.reo (o : List Bool) : CopyEnd → CopyEnd
  | CopyEnd.finished w => CopyEnd.finished (w.reo o)
  | CopyEnd.toosmall w => CopyEnd.toosmall (w.reo o)

/-- The end of a pass of `ja_node_recompact_add`, with the record `o` of the
outcomes of the coming allocation requests. -/
def PassEnd.reo (o : List Bool) : PassEnd → PassEnd
  | PassEnd.returned ret flag w => PassEnd.returned ret flag (w.reo o)
  | PassEnd.toosmall nn ns w => PassEnd.toosmall nn ns (w.reo o)

/-- The outcome of a call with a function applied to what it returns. -/
def Res.map {α β : Type} (f : α → β) : Res α → Res β
  | Res.ok a => Res.ok (f a)
  | Res.abort => Res.abort
  | Res.nofuel => Res.nofuel

set_option maxRecDepth 1000000

@[simp] theorem Res.ok_bind {α β : Type} (a : α) (f : α → Res β) :
    (Res.ok a >>= f) = f a := rfl

@[simp] theorem Res.abort_bind {α β : Type} (f : α → Res β) :
    ((Res.abort : Res α) >>= f) = Res.abort := rfl

@[simp] theorem Res.nofuel_bind {α β : Type} (f : α → Res β) :
    ((Res.nofuel : Res α) >>= f) = Res.nofuel := rfl

@[simp] theorem Res.pure_eq {α : Type} (a : α) : (pure a : Res α) = Res.ok a := rfl

/-! ## Fuel: a pass that does not ask for a retry decides the result -/

theorem cds_ja_add_retry_succ (A : Arch) (key new_node fuel : Nat) (w : World) :
    cds_ja_add_retry A key new_node (fuel + 1) w =
      (cds_ja_add_pass A key new_node w.tree_depth (w.tree_depth - 1) 1
          w.root (w.mem w.root) w.root 0 w >>= fun r =>
        if r.1 then cds_ja_add_retry A key new_node fuel r.2.2 else pure (r.2.1, r.2.2)) := by
  rw [cds_ja_add_retry]

theorem cds_ja_add_retry_mono (A : Arch) (key new_node : Nat) :
    ∀ (fuel : Nat) (w : World) (r : Res (Int × World)),
      cds_ja_add_retry A key new_node fuel w = r → r ≠ Res.nofuel →
      ∀ extra : Nat, cds_ja_add_retry A key new_node (fuel + extra) w = r := by
  intro fuel
  induction fuel with
  | zero =>
    intro w r h hr
    rw [cds_ja_add_retry] at h
    exact absurd h.symm hr
  | succ fuel ih =>
    intro w r h hr extra
    have e : fuel + 1 + extra = (fuel + extra) + 1 := by omega
    rw [e, cds_ja_add_retry_succ]
    rw [cds_ja_add_retry_succ] at h
    rcases hp : cds_ja_add_pass A key new_node w.tree_depth (w.tree_depth - 1) 1
        w.root (w.mem w.root) w.root 0 w with ⟨again, ret, w1⟩ | _ | _
    · rw [hp] at h
      simp only [Res.ok_bind] at h ⊢
      cases again with
      | true =>
        simp only [if_true] at h ⊢
        exact ih w1 r h hr extra
      | false =>
        simpa using h
    · rw [hp] at h
      simpa using h
    · rw [hp] at h
      simpa using h

theorem cds_ja_add_mono (A : Arch) (fuel : Nat) (w : World) (key new_node : Nat)
    (r : Res (Int × World)) (h : cds_ja_add A fuel w key new_node = r) (hr : r ≠ Res.nofuel)
    (extra : Nat) : cds_ja_add A (fuel + extra) w key new_node = r := by
  unfold cds_ja_add at h ⊢
  by_cases hk : key > w.key_max
  · simpa [hk] using h
  · simp only [hk, if_false] at h ⊢
    exact cds_ja_add_retry_mono A key new_node fuel w r h hr extra

theorem Res.eq_abort_of_aborts {α : Type} (r : Res α) (h : r.aborts = true) : r = Res.abort := by
  cases r with
  | ok a => simp [Res.aborts] at h
  | abort => rfl
  | nofuel => simp [Res.aborts] at h

/-! ## Lookup completeness, soundness, absent keys (C1, C2, C3) -/

/-- C1 (the code breaks it): in an 8-bit array (64-bit build) the keys 0..29 are
added, each with its own node, and all thirty adds return 0.  The root node is
a pigeon node by then (fallback at the 29th add), and the add of key 29 attached
in place under it: `cds_ja_lookup (ja, 29)` returns the tagged pointer of the
root node itself (shape 7), not the node added under 29, and the chain that
starts at that pointer does not hold the node either. -/
theorem C1_lookup_after_attach_under_pigeon :
    ∃ o : Observation,
      observe Arch.bits64 8 (test_adds (List.range 30)) 29 = Res.ok o ∧
      o.rets = List.replicate 30 0 ∧
      o.found = o.root ∧ o.found ≠ 0 ∧ ja_node_type Arch.bits64 o.found = Res.ok 7 ∧
      o.found ≠ test_node 29 ∧ test_node 29 ∉ o.chain :=
  ⟨⟨List.replicate 30 0, 1049639, 1, 1049639, [1049639]⟩,
    by decide, by decide, by decide, by decide, by decide, by decide, by decide⟩

/-- C2 (the code breaks it): in a 16-bit array that holds one node, added under
key 2048, `cds_ja_lookup (ja, 0)` returns the list made of that node, although
0 and 2048 are different keys, both at most `key_max`. -/
theorem C2_lookup_returns_node_of_other_key :
    ∃ o : Observation,
      observe Arch.bits64 16 [(2048, test_node 2048)] 0 = Res.ok o ∧
      o.rets = [0] ∧ o.found = test_node 2048 ∧ test_node 2048 ∈ o.chain ∧
      (0 : Nat) ≠ 2048 ∧ 2048 ≤ UINT16_MAX :=
  ⟨⟨[0], 1048640, 0, 131136, [131136]⟩,
    by decide, by decide, by decide, by decide, by decide, by decide⟩

/-- C3 (the code breaks it): in a 16-bit array whose only added key is 4096,
`cds_ja_lookup (ja, 2048)` is not NULL although 2048 was never added. -/
theorem C3_absent_key_found :
    ∃ o : Observation,
      observe Arch.bits64 16 [(4096, test_node 4096)] 2048 = Res.ok o ∧
      o.rets = [0] ∧ o.found ≠ 0 ∧ 2048 ∉ [4096] ∧ 2048 ≤ UINT16_MAX :=
  ⟨⟨[0], 1048640, 0, 262208, [262208]⟩,
    by decide, by decide, by decide, by decide, by decide⟩

/-! ## Result of add (C4, C5) -/

/-- C4 (the code breaks it): in an 8-bit array (64-bit build) the adds of the keys
0..26 and 128 return 0; the next add, of key 27, recompacts the full linear
node into a pool node whose first pool is full once the old children are
copied, and the assertion that follows the insertion of the new child fails:
the call does not return, whatever the number of passes allowed. -/
theorem C4_add_aborts_when_new_child_overflows_pool :
    (∃ o : Observation,
      observe Arch.bits64 8 (test_adds (List.range 27 ++ [128])) 128 = Res.ok o ∧
      o.rets = List.replicate 28 0) ∧
    ∀ fuel : Nat,
      cds_ja_add Arch.bits64 (1 + fuel)
        (world_of (run_adds Arch.bits64 1 8 (test_adds (List.range 27 ++ [128]))))
        27 (test_node 27) = Res.abort := by
  refine ⟨⟨⟨List.replicate 28 0, 1048868, 0, 8256, [8256]⟩, by decide, by decide⟩, ?_⟩
  intro fuel
  refine cds_ja_add_mono Arch.bits64 1 _ 27 (test_node 27) Res.abort ?_ (by simp) fuel
  exact Res.eq_abort_of_aborts _ (by decide)

/-- C5: `cds_ja_add` with a key above `key_max` returns `-EINVAL` and leaves the
whole state (root, nodes, shadow table, fallback counter) as it was. -/
theorem C5_add_rejects_key_above_key_max (A : Arch) (fuel : Nat) (w : World)
    (key new_node : Nat) (h : key > w.key_max) :
    cds_ja_add A fuel w key new_node = Res.ok (-EINVAL, w) := by
  simp [cds_ja_add, h]

/-- C5 at an 8-bit array that holds three keys, for key 256. -/
theorem C5_add_rejects_key_above_key_max_witness :
    256 > (world_of (run_adds Arch.bits64 1 8 (test_adds [1, 2, 3]))).key_max ∧
    cds_ja_add Arch.bits64 1 (world_of (run_adds Arch.bits64 1 8 (test_adds [1, 2, 3])))
        256 (test_node 256) =
      Res.ok (-EINVAL, world_of (run_adds Arch.bits64 1 8 (test_adds [1, 2, 3]))) :=
  ⟨by decide, C5_add_rejects_key_above_key_max Arch.bits64 1 _ 256 (test_node 256) (by decide)⟩

/-! ## Range rejection on lookup (C6) -/

/-- C6: `cds_ja_lookup` with a key above `key_max` returns NULL, whatever the
array holds. -/
theorem C6_lookup_rejects_key_above_key_max (A : Arch) (w : World) (key : Nat)
    (h : key > w.key_max) : cds_ja_lookup A w key = Res.ok 0 := by
  simp [cds_ja_lookup, h]

/-- C6 at a 16-bit array that holds two keys, for key 65536. -/
theorem C6_lookup_rejects_key_above_key_max_witness :
    65536 > (world_of (run_adds Arch.bits64 1 16 (test_adds [0, 256]))).key_max ∧
    cds_ja_lookup Arch.bits64 (world_of (run_adds Arch.bits64 1 16 (test_adds [0, 256])))
        65536 = Res.ok 0 :=
  ⟨by decide, C6_lookup_rejects_key_above_key_max Arch.bits64 _ 65536 (by decide)⟩

/-! ## Duplicate chaining, independence of keys (C7, C8) -/

/-- C7 (the code breaks it): in a 16-bit array where one node was added under key
2048, a single node is added under key 0 (N = 1); the list that
`cds_ja_lookup (ja, 0)` returns has two entries, the first of which is the
node added under 2048. -/
theorem C7_chain_mixes_keys :
    ∃ o : Observation,
      observe Arch.bits64 16 [(2048, test_node 2048), (0, test_node 0)] 0 = Res.ok o ∧
      o.rets = [0, 0] ∧ o.chain = [test_node 2048, test_node 0] ∧ o.chain.length ≠ 1 :=
  ⟨⟨[0, 0], 1048640, 0, 131136, [131136, 64]⟩, by decide, by decide, by decide, by decide⟩

/-- C8 (the code breaks it): in a 16-bit array that holds one node under key 4096,
the add of a node under the other key 6144 changes the members of the list
that `cds_ja_lookup (ja, 4096)` returns. -/
theorem C8_add_changes_list_of_other_key :
    ∃ before after : Observation,
      observe Arch.bits64 16 [(4096, test_node 4096)] 4096 = Res.ok before ∧
      observe Arch.bits64 16 [(4096, test_node 4096), (6144, test_node 6144)] 4096 =
        Res.ok after ∧
      after.rets = [0, 0] ∧
      before.chain = [test_node 4096] ∧
      after.chain = [test_node 4096, test_node 6144] ∧
      (6144 : Nat) ≠ 4096 ∧ 6144 ≤ UINT16_MAX :=
  ⟨⟨[0], 1048640, 0, 262208, [262208]⟩, ⟨[0, 0], 1048640, 0, 262208, [262208, 393280]⟩,
    by decide, by decide, by decide, by decide, by decide, by decide, by decide⟩

/-! ## Creation, key bytes (C9, C10) -/

/-- C9 (the code breaks it): for `key_bits = 64` the depth that `_cds_ja_new`
computes is 9, its assertion `tree_depth <= JA_MAX_DEPTH` fails and the call
does not return; for 8, 16 and 32 the depth is 2, 3 and 5 and a container is
returned. -/
theorem C9_new_64_fails_its_depth_assertion (A : Arch) :
    _cds_ja_new A World.boot 64 = Res.abort ∧
    (64 >>> JA_BITS_PER_BYTE) + 1 = 9 ∧ ¬ (9 ≤ JA_MAX_DEPTH) ∧
    (∀ key_bits ∈ [8, 16, 32],
      (key_bits >>> JA_BITS_PER_BYTE) + 1 ≤ JA_MAX_DEPTH ∧
      ∃ w, _cds_ja_new A World.boot key_bits = Res.ok (World.boot.brk, w) ∧
        w.tree_depth = (key_bits >>> JA_BITS_PER_BYTE) + 1) := by
  cases A
  · refine ⟨rfl, by decide, by decide, ?_⟩
    intro key_bits hk
    simp only [List.mem_cons, List.mem_singleton, List.not_mem_nil, or_false] at hk
    rcases hk with rfl | rfl | rfl
    · exact ⟨by decide, _, rfl, rfl⟩
    · exact ⟨by decide, _, rfl, rfl⟩
    · exact ⟨by decide, _, rfl, rfl⟩
  · refine ⟨rfl, by decide, by decide, ?_⟩
    intro key_bits hk
    simp only [List.mem_cons, List.mem_singleton, List.not_mem_nil, or_false] at hk
    rcases hk with rfl | rfl | rfl
    · exact ⟨by decide, _, rfl, rfl⟩
    · exact ⟨by decide, _, rfl, rfl⟩
    · exact ⟨by decide, _, rfl, rfl⟩

/-- C10 (the code breaks it): the byte used at level `i` is
`(key >> (3 * (d - i - 1))) & 0xFF`, the shift being a multiple of
`JA_BITS_PER_BYTE = 3`, not of 8: in a 16-bit array (depth 3) the level-1 byte
of key 256 is 32, not 1, and the keys 0 and 2048 have the same byte at both
levels. -/
theorem C10_key_byte_shift_is_three_per_level :
    (∀ d key i : Nat, lookup_iter_key d key i = (key >>> (3 * (d - i - 1))) % 256) ∧
    lookup_iter_key 3 256 1 = 32 ∧ (256 >>> (8 * (3 - 1 - 1))) % 256 = 1 ∧
    lookup_iter_key 3 2048 1 = lookup_iter_key 3 0 1 ∧
    lookup_iter_key 3 2048 2 = lookup_iter_key 3 0 2 :=
  ⟨fun _ _ _ => rfl, by decide, by decide, by decide, by decide⟩

/-! ## Bit arithmetic of tagged pointers and of `JA_ALIGN` -/

theorem and_high_mask (x w k : Nat) (hk : k ≤ w) (hx : x < 2 ^ w) :
    x &&& (2 ^ w - 1 - (2 ^ k - 1)) = 2 ^ k * (x / 2 ^ k) := by
  have hkw : 2 ^ k ≤ 2 ^ w := Nat.pow_le_pow_right (by decide) hk
  have hk1 : 1 ≤ 2 ^ k := Nat.one_le_two_pow
  have e : 2 ^ w - 1 - (2 ^ k - 1) = 2 ^ w - ((2 ^ k - 1) + 1) := by omega
  have hlt : 2 ^ k - 1 < 2 ^ w := by omega
  apply Nat.eq_of_testBit_eq
  intro i
  rw [Nat.testBit_and, e, Nat.testBit_two_pow_sub_succ hlt, Nat.testBit_two_pow_sub_one,
    Nat.testBit_mul_pow_two, ← Nat.shiftRight_eq_div_pow, Nat.testBit_shiftRight]
  by_cases h1 : i < k
  · have : ¬ (i ≥ k) := by omega
    simp [h1, this]
  · have h2 : i ≥ k := by omega
    have e2 : k + (i - k) = i := by omega
    by_cases h3 : i < w
    · simp [h1, h2, h3, e2]
    · have : x.testBit i = false := by
        apply Nat.testBit_lt_two_pow
        exact lt_of_lt_of_le hx (Nat.pow_le_pow_right (by decide) (by omega))
      simp [h1, h2, h3, e2, this]

theorem ja_node_ptr_eq (A : Arch) (x : Nat) (hx : x < 2 ^ CAA_BITS_PER_LONG A) :
    ja_node_ptr A x = 8 * (x / 8) := by
  have := and_high_mask x (CAA_BITS_PER_LONG A) 3 (by cases A <;> decide) hx
  simpa [ja_node_ptr, JA_PTR_MASK, JA_TYPE_MASK, JA_TYPE_MAX_NR, JA_TYPE_BITS] using this

theorem ja_node_ptr_le (A : Arch) (x : Nat) : ja_node_ptr A x ≤ x := Nat.and_le_left

theorem or_tag (x t : Nat) (ha : x % 8 = 0) (ht : t < 8) : x ||| t = x + t := by
  have h := Nat.mul_add_lt_is_or (i := 3) (b := t) (by simpa using ht) (x / 8)
  have e : 2 ^ 3 * (x / 8) = x := by omega
  rw [e] at h
  exact h.symm

theorem and_tag (x : Nat) : x &&& JA_TYPE_MASK = x % 8 := by
  have := Nat.and_pow_two_sub_one_eq_mod x 3
  simpa [JA_TYPE_MASK, JA_TYPE_MAX_NR, JA_TYPE_BITS] using this

theorem ja_node_flag_eq (node type : Nat) (ha : node % 8 = 0) (ht : type < 8) :
    ja_node_flag node type = Res.ok (node + type) := by
  simp [ja_node_flag, assert, JA_TYPE_BITS, ht, or_tag node type ha ht, bind, Res.bind, pure]

theorem ja_node_ptr_add_tag (A : Arch) (node t : Nat) (ha : node % 8 = 0) (ht : t < 8)
    (hx : node + 8 ≤ 2 ^ CAA_BITS_PER_LONG A) : ja_node_ptr A (node + t) = node := by
  rw [ja_node_ptr_eq A _ (by omega)]; omega

theorem ja_node_type_add_tag (A : Arch) (node t : Nat) (ha : node % 8 = 0) (ht : t < 8)
    (hn : node ≠ 0) (hx : node + 8 ≤ 2 ^ CAA_BITS_PER_LONG A) :
    ja_node_type A (node + t) = Res.ok t := by
  have e : (node + t) % 8 = t := by omega
  have e2 : t % 4294967296 = t := by omega
  simp [ja_node_type, ja_node_ptr_add_tag A node t ha ht hx, hn, and_tag, e, e2, assert,
    JA_TYPE_BITS, ht, bind, Res.bind, pure]

theorem ja_node_type_null (A : Arch) (x : Nat) (h : ja_node_ptr A x = 0) :
    ja_node_type A x = Res.ok NODE_INDEX_NULL := by
  simp [ja_node_type, h, pure]

theorem align_ptr_size_eq (A : Arch) (p : Nat) (hp : p + sizeof_ptr A ≤ 2 ^ CAA_BITS_PER_LONG A) :
    align_ptr_size A p = sizeof_ptr A * ((p + (sizeof_ptr A - 1)) / sizeof_ptr A) := by
  unfold align_ptr_size JA_ALIGN JA_ALIGN_MASK
  cases A
  · have h : p + 3 < 2 ^ 32 := by simp [sizeof_ptr, CAA_BITS_PER_LONG] at hp; omega
    have := and_high_mask (p + 3) 32 2 (by decide) h
    simp only [sizeof_ptr, CAA_BITS_PER_LONG] at *
    rw [Nat.mod_eq_of_lt h]
    simpa using this
  · have h : p + 7 < 2 ^ 64 := by simp [sizeof_ptr, CAA_BITS_PER_LONG] at hp; omega
    have := and_high_mask (p + 7) 64 3 (by decide) h
    simp only [sizeof_ptr, CAA_BITS_PER_LONG] at *
    rw [Nat.mod_eq_of_lt h]
    simpa using this

theorem sizeof_ptr_pos (A : Arch) : 0 < sizeof_ptr A := by cases A <;> decide

theorem sizeof_ptr_le (A : Arch) : sizeof_ptr A ≤ 8 := by cases A <;> decide

theorem align_ptr_size_ge (A : Arch) (p : Nat) (hp : p + sizeof_ptr A ≤ 2 ^ CAA_BITS_PER_LONG A) :
    p ≤ align_ptr_size A p ∧ align_ptr_size A p < p + sizeof_ptr A := by
  rw [align_ptr_size_eq A p hp]
  have hpos := sizeof_ptr_pos A
  generalize sizeof_ptr A = s at *
  have h1 := Nat.div_add_mod (p + (s - 1)) s
  have h2 := Nat.mod_lt (p + (s - 1)) hpos
  constructor <;> omega

/-! ## What `_ja_node_set_nth` returns and writes -/

theorem linear_exists_iff (w : World) (values n : Nat) :
    ∀ (todo i : Nat), linear_exists w values n todo i = true ↔
      ∃ j, j < todo ∧ w.mem (values + (i + j)) = n := by
  intro todo
  induction todo with
  | zero => intro i; simp [linear_exists]
  | succ todo ih =>
    intro i
    rw [linear_exists]
    by_cases h : w.mem (values + i) = n
    · simp only [h, if_true, true_iff]
      exact ⟨0, by omega, by simpa using h⟩
    · simp only [h, if_false]
      rw [ih (i + 1)]
      constructor
      · rintro ⟨j, hj, e⟩
        exact ⟨j + 1, by omega, by rw [← e]; congr 2; omega⟩
      · rintro ⟨j, hj, e⟩
        cases j with
        | zero => exact absurd (by simpa using e) h
        | succ j => exact ⟨j, by omega, by rw [← e]; congr 2; omega⟩

theorem linear_exists_eq (w : World) (node n cnt : Nat) :
    linear_exists w (node + 1) n cnt 0 = true ↔ key_present w node cnt n := by
  rw [linear_exists_iff]
  simp [key_present]

/-- The state after a successful `ja_linear_node_set_nth`. -/
theorem ja_linear_node_set_nth_inv (A : Arch) (type : cds_ja_type) (w w1 : World)
    (node shadow_node n child : Nat) (r : Int)
    (h : ja_linear_node_set_nth A type w node shadow_node n child = Res.ok (r, w1)) :
    (type.type_class = RCU_JA_LINEAR ∨ type.type_class = RCU_JA_POOL) ∧
    w.mem node ≤ type.max_linear_child ∧
    ((r = -EEXIST ∧ w1 = w ∧ key_present w node (w.mem node) n) ∨
     (r = -ENOSPC ∧ w1 = w ∧ ¬ key_present w node (w.mem node) n ∧
        w.mem node = type.max_linear_child) ∨
     (r = 0 ∧ ¬ key_present w node (w.mem node) n ∧ w.mem node < type.max_linear_child ∧
        w.mem (linear_slot A type node (w.mem node)) = 0 ∧
        ∃ s, w.ht shadow_node = some s ∧
          w1 = (((w.store (linear_slot A type node (w.mem node)) child).store
                  (node + 1 + w.mem node) n).store node ((w.mem node + 1) % 256)).inc_nr_child
                shadow_node s)) := by
  unfold ja_linear_node_set_nth at h
  simp only [assert, bind, Res.bind, pure] at h
  by_cases hc : type.type_class = RCU_JA_LINEAR ∨ type.type_class = RCU_JA_POOL
  · simp only [hc, if_true] at h
    by_cases hm : w.mem node ≤ type.max_linear_child
    · simp only [hm, if_true] at h
      refine ⟨hc, hm, ?_⟩
      by_cases he : linear_exists w (node + 1) n (w.mem node) 0 = true
      · simp only [he, if_true] at h
        injection h with h; injection h with h1 h2
        exact Or.inl ⟨h1.symm, h2.symm, (linear_exists_eq w node n _).1 he⟩
      · have hk : ¬ key_present w node (w.mem node) n := fun hk =>
          he ((linear_exists_eq w node n _).2 hk)
        simp only [he] at h
        by_cases hf : w.mem node ≥ type.max_linear_child
        · simp only [hf, if_true] at h
          injection h with h; injection h with h1 h2
          exact Or.inr (Or.inl ⟨h1.symm, h2.symm, hk, by omega⟩)
        · simp only [hf, if_false] at h
          by_cases hz : w.mem (align_ptr_size A (node + 1 + type.max_linear_child) +
              w.mem node * sizeof_ptr A) = 0
          · simp only [hz, if_true] at h
            unfold shadow_nr_child_inc at h
            cases hs : w.ht shadow_node with
            | none => simp [World.store, hs] at h
            | some s =>
              simp only [World.store, hs] at h
              injection h with h; injection h with h1 h2
              refine Or.inr (Or.inr ⟨h1.symm, hk, by omega, hz, s, rfl, ?_⟩)
              rw [← h2]
              rfl
          · simp [hz] at h
    · simp [hm] at h
  · simp [hc] at h

theorem ja_linear_node_set_nth_run (A : Arch) (type : cds_ja_type) (w : World)
    (node shadow_node n child : Nat)
    (hc : type.type_class = RCU_JA_LINEAR ∨ type.type_class = RCU_JA_POOL)
    (hm : w.mem node ≤ type.max_linear_child)
    (hz : w.mem node < type.max_linear_child →
      w.mem (linear_slot A type node (w.mem node)) = 0)
    (hs : w.ht shadow_node ≠ none) :
    ∃ r w1, ja_linear_node_set_nth A type w node shadow_node n child = Res.ok (r, w1) := by
  unfold ja_linear_node_set_nth
  simp only [assert, bind, Res.bind, pure, hc, hm, if_true]
  by_cases he : linear_exists w (node + 1) n (w.mem node) 0 = true
  · simp [he]
  · simp only [he]
    by_cases hf : w.mem node ≥ type.max_linear_child
    · simp [hf]
    · have hz1 := hz (by omega)
      unfold linear_slot at hz1
      simp only [hf, if_false, hz1, if_true]
      unfold shadow_nr_child_inc
      cases hs1 : w.ht shadow_node with
      | none => exact absurd hs1 hs
      | some s => simp [World.store, hs1]

theorem ja_pigeon_node_set_nth_inv (A : Arch) (type : cds_ja_type) (w w1 : World)
    (node shadow_node n child : Nat) (r : Int)
    (h : ja_pigeon_node_set_nth A type w node shadow_node n child = Res.ok (r, w1)) :
    type.type_class = RCU_JA_PIGEON ∧
    ((r = -EEXIST ∧ w1 = w ∧ w.mem (node + n * sizeof_ptr A) ≠ 0) ∨
     (r = 0 ∧ w.mem (node + n * sizeof_ptr A) = 0 ∧
        ∃ s, w.ht shadow_node = some s ∧
          w1 = (w.store (node + n * sizeof_ptr A) child).inc_nr_child shadow_node s)) := by
  unfold ja_pigeon_node_set_nth at h
  simp only [assert, bind, Res.bind, pure] at h
  by_cases hc : type.type_class = RCU_JA_PIGEON
  · simp only [hc, if_true] at h
    refine ⟨hc, ?_⟩
    by_cases hz : w.mem (node + n * sizeof_ptr A) = 0
    · simp only [hz, ne_eq, not_true, if_false] at h
      unfold shadow_nr_child_inc at h
      cases hs : w.ht shadow_node with
      | none => simp [World.store, hs] at h
      | some s =>
        simp only [World.store, hs] at h
        injection h with h; injection h with h1 h2
        refine Or.inr ⟨h1.symm, hz, s, rfl, ?_⟩
        rw [← h2]; rfl
    · simp only [ne_eq, hz, not_false_eq_true, if_true] at h
      injection h with h; injection h with h1 h2
      exact Or.inl ⟨h1.symm, h2.symm, hz⟩
  · simp [hc] at h

theorem ja_pigeon_node_set_nth_run (A : Arch) (type : cds_ja_type) (w : World)
    (node shadow_node n child : Nat) (hc : type.type_class = RCU_JA_PIGEON)
    (hs : w.ht shadow_node ≠ none) :
    ∃ r w1, ja_pigeon_node_set_nth A type w node shadow_node n child = Res.ok (r, w1) := by
  unfold ja_pigeon_node_set_nth
  simp only [assert, bind, Res.bind, pure, hc, if_true]
  by_cases hz : w.mem (node + n * sizeof_ptr A) = 0
  · simp only [hz, ne_eq, not_true, if_false]
    unfold shadow_nr_child_inc
    cases hs1 : w.ht shadow_node with
    | none => exact absurd hs1 hs
    | some s => simp [World.store, hs1]
  · simp [hz]

theorem ja_pool_node_set_nth_eq (A : Arch) (type : cds_ja_type) (w : World)
    (node shadow_node n child : Nat) (hc : type.type_class = RCU_JA_POOL) :
    ja_pool_node_set_nth A type w node shadow_node n child =
      ja_linear_node_set_nth A type w (pool_of type node n) shadow_node n child := by
  simp [ja_pool_node_set_nth, assert, hc, pool_of, bind, Res.bind]

/-- A non-zero result of `_ja_node_set_nth` leaves the state as it was. -/
theorem _ja_node_set_nth_nonzero (A : Arch) (type : cds_ja_type) (w w1 : World)
    (node shadow_node n child : Nat) (r : Int)
    (h : _ja_node_set_nth A type w node shadow_node n child = Res.ok (r, w1)) (hr : r ≠ 0) :
    w1 = w := by
  unfold _ja_node_set_nth at h
  cases hc : type.type_class <;> simp only [hc] at h
  · rcases ja_linear_node_set_nth_inv A type w w1 node shadow_node n child r h with
      ⟨_, _, ⟨_, e, _⟩ | ⟨_, e, _⟩ | ⟨e, _⟩⟩
    · exact e
    · exact e
    · exact absurd e hr
  · rw [ja_pool_node_set_nth_eq A type w node shadow_node n child hc] at h
    rcases ja_linear_node_set_nth_inv A type w w1 _ shadow_node n child r h with
      ⟨_, _, ⟨_, e, _⟩ | ⟨_, e, _⟩ | ⟨e, _⟩⟩
    · exact e
    · exact e
    · exact absurd e hr
  · rcases ja_pigeon_node_set_nth_inv A type w w1 node shadow_node n child r h with
      ⟨_, ⟨_, e, _⟩ | ⟨e, _⟩⟩
    · exact e
    · exact absurd e hr
  · exact absurd h (by simp)
  · simp only [pure] at h
    injection h with h; injection h with h1 h2
    exact h2.symm

theorem int_neg_ne (a b : Int) (h : a ≠ b) : -a ≠ -b := by omega

/-- C15: result of `_ja_node_set_nth`.  On a linear node, or on the pool of a
pool node that the byte is routed to, with in-band count `cnt` at most
`max_linear_child`, a NULL slot behind the used ones and a shadow: the result
is `-EEXIST` exactly when the byte is among the first `cnt` key bytes,
`-ENOSPC` exactly when it is not and `cnt = max_linear_child`, and 0 otherwise.
On a pigeon node with a shadow: `-EEXIST` exactly when the slot of the byte is
not NULL, 0 otherwise, never `-ENOSPC`.  On the NULL shape: `-ENOSPC`.  A
non-zero result leaves the whole state (node bytes, shadow count) as it was. -/
theorem C15_set_nth_result (A : Arch) (type : cds_ja_type) (w : World)
    (node shadow_node n child : Nat) :
    (∀ base : Nat,
      (type.type_class = RCU_JA_LINEAR ∧ base = node) ∨
        (type.type_class = RCU_JA_POOL ∧ base = pool_of type node n) →
      w.mem base ≤ type.max_linear_child →
      (w.mem base < type.max_linear_child →
        w.mem (linear_slot A type base (w.mem base)) = 0) →
      w.ht shadow_node ≠ none →
      ∃ r w1, _ja_node_set_nth A type w node shadow_node n child = Res.ok (r, w1) ∧
        (r = -EEXIST ↔ key_present w base (w.mem base) n) ∧
        (r = -ENOSPC ↔ ¬ key_present w base (w.mem base) n ∧
          w.mem base = type.max_linear_child) ∧
        (r = 0 ↔ ¬ key_present w base (w.mem base) n ∧ w.mem base < type.max_linear_child) ∧
        (r ≠ 0 → w1 = w)) ∧
    (type.type_class = RCU_JA_PIGEON → w.ht shadow_node ≠ none →
      ∃ r w1, _ja_node_set_nth A type w node shadow_node n child = Res.ok (r, w1) ∧
        (r = -EEXIST ↔ w.mem (node + n * sizeof_ptr A) ≠ 0) ∧
        (r = 0 ↔ w.mem (node + n * sizeof_ptr A) = 0) ∧
        r ≠ -ENOSPC ∧ (r ≠ 0 → w1 = w)) ∧
    (type.type_class = RCU_JA_NULL →
      _ja_node_set_nth A type w node shadow_node n child = Res.ok (-ENOSPC, w)) := by
  refine ⟨?_, ?_, ?_⟩
  · intro base hbase hm hz hs
    have hc : type.type_class = RCU_JA_LINEAR ∨ type.type_class = RCU_JA_POOL := by
      rcases hbase with ⟨h, _⟩ | ⟨h, _⟩
      · exact Or.inl h
      · exact Or.inr h
    have he : _ja_node_set_nth A type w node shadow_node n child =
        ja_linear_node_set_nth A type w base shadow_node n child := by
      rcases hbase with ⟨h, rfl⟩ | ⟨h, rfl⟩
      · simp [_ja_node_set_nth, h]
      · simp [_ja_node_set_nth, h, ja_pool_node_set_nth_eq A type w node shadow_node n child h]
    obtain ⟨r, w1, hrun⟩ :=
      ja_linear_node_set_nth_run A type w base shadow_node n child hc hm hz hs
    refine ⟨r, w1, by rw [he, hrun], ?_⟩
    have e1 : (-EEXIST : Int) ≠ 0 := by decide
    have e2 : (-ENOSPC : Int) ≠ 0 := by decide
    have e3 : (-EEXIST : Int) ≠ -ENOSPC := by decide
    rcases ja_linear_node_set_nth_inv A type w w1 base shadow_node n child r hrun with
      ⟨_, _, ⟨hr, hw, hk⟩ | ⟨hr, hw, hk, hf⟩ | ⟨hr, hk, hf, _, _⟩⟩
    · subst hr
      refine ⟨⟨fun _ => hk, fun _ => rfl⟩, ⟨fun h => absurd h e3, fun h => absurd hk h.1⟩,
        ⟨fun h => absurd h e1, fun h => absurd hk h.1⟩, fun _ => hw⟩
    · subst hr
      refine ⟨⟨fun h => absurd h.symm e3, fun h => absurd h hk⟩, ⟨fun _ => ⟨hk, hf⟩, fun _ => rfl⟩,
        ⟨fun h => absurd h e2, fun h => absurd hf (by omega)⟩, fun _ => hw⟩
    · subst hr
      refine ⟨⟨fun h => absurd h.symm e1, fun h => absurd h hk⟩,
        ⟨fun h => absurd h.symm e2, fun h => absurd h.2 (by omega)⟩,
        ⟨fun _ => ⟨hk, hf⟩, fun _ => rfl⟩, fun h => absurd rfl h⟩
  · intro hc hs
    have he : _ja_node_set_nth A type w node shadow_node n child =
        ja_pigeon_node_set_nth A type w node shadow_node n child := by
      simp [_ja_node_set_nth, hc]
    obtain ⟨r, w1, hrun⟩ := ja_pigeon_node_set_nth_run A type w node shadow_node n child hc hs
    refine ⟨r, w1, by rw [he, hrun], ?_⟩
    have e1 : (-EEXIST : Int) ≠ 0 := by decide
    have e2 : (-ENOSPC : Int) ≠ 0 := by decide
    have e3 : (-EEXIST : Int) ≠ -ENOSPC := by decide
    rcases ja_pigeon_node_set_nth_inv A type w w1 node shadow_node n child r hrun with
      ⟨_, ⟨hr, hw, hk⟩ | ⟨hr, hk, _⟩⟩
    · subst hr
      exact ⟨⟨fun _ => hk, fun _ => rfl⟩, ⟨fun h => absurd h e1, fun h => absurd h hk⟩,
        e3, fun _ => hw⟩
    · subst hr
      exact ⟨⟨fun h => absurd h.symm e1, fun h => absurd hk h⟩, ⟨fun _ => hk, fun _ => rfl⟩,
        fun h => e2 h.symm, fun h => absurd rfl h⟩
  · intro hc
    simp [_ja_node_set_nth, hc, pure]

/-! ## Reading a node after a write -/

@[simp] theorem World.store_mem (w : World) (a v x : Nat) :
    (w.store a v).mem x = if x = a then v else w.mem x := rfl

@[simp] theorem World.inc_nr_child_mem (w : World) (sh : Nat) (s : cds_ja_shadow_node) :
    (w.inc_nr_child sh s).mem = w.mem := rfl

theorem linear_scan_bounds (w : World) (values n : Nat) :
    ∀ (todo i : Nat), i ≤ linear_scan w values n todo i ∧
      linear_scan w values n todo i ≤ i + todo ∧
      (linear_scan w values n todo i < i + todo →
        w.mem (values + linear_scan w values n todo i) = n) ∧
      (∀ j, i ≤ j → j < linear_scan w values n todo i → w.mem (values + j) ≠ n) := by
  intro todo
  induction todo with
  | zero =>
    intro i
    simp only [linear_scan]
    exact ⟨le_refl _, by omega, fun h => absurd h (by omega), fun j h1 h2 => absurd h2 (by omega)⟩
  | succ todo ih =>
    intro i
    rw [linear_scan]
    by_cases h : w.mem (values + i) = n
    · rw [if_pos h]
      exact ⟨le_refl _, by omega, fun _ => h, fun j h1 h2 => absurd h2 (by omega)⟩
    · rw [if_neg h]
      obtain ⟨h1, h2, h3, h4⟩ := ih (i + 1)
      refine ⟨by omega, by omega, fun hlt => h3 (by omega), ?_⟩
      intro j hj1 hj2
      by_cases e : j = i
      · subst e; exact h
      · exact h4 j (by omega) hj2

theorem linear_scan_unique (w : World) (values n todo i k : Nat) (h1 : i ≤ k) (h2 : k ≤ i + todo)
    (h3 : k < i + todo → w.mem (values + k) = n)
    (h4 : ∀ j, i ≤ j → j < k → w.mem (values + j) ≠ n) :
    linear_scan w values n todo i = k := by
  obtain ⟨g1, g2, g3, g4⟩ := linear_scan_bounds w values n todo i
  rcases Nat.lt_trichotomy (linear_scan w values n todo i) k with hlt | heq | hgt
  · exact absurd (g3 (by omega)) (h4 _ g1 hlt)
  · exact heq
  · exact absurd (h3 (by omega)) (g4 k h1 hgt)

theorem linear_scan_congr (w w1 : World) (values n todo i : Nat)
    (h : ∀ j, i ≤ j → j < i + todo → w1.mem (values + j) = w.mem (values + j)) :
    linear_scan w1 values n todo i = linear_scan w values n todo i := by
  obtain ⟨g1, g2, g3, g4⟩ := linear_scan_bounds w values n todo i
  apply linear_scan_unique w1 values n todo i _ g1 g2
  · intro hlt; rw [h _ g1 hlt]; exact g3 hlt
  · intro j hj1 hj2; rw [h j hj1 (by omega)]; exact g4 j hj1 hj2

/-- The result of `ja_linear_node_get_nth` depends only on the cells of the node:
its count, its key bytes and its pointer slots. -/
theorem ja_linear_node_get_nth_congr (A : Arch) (type : cds_ja_type) (w w1 : World)
    (node n : Nat)
    (hcnt : w1.mem node = w.mem node)
    (hval : ∀ j, j < type.max_linear_child → w1.mem (node + 1 + j) = w.mem (node + 1 + j))
    (hptr : ∀ j, j < type.max_linear_child →
      w1.mem (linear_slot A type node j) = w.mem (linear_slot A type node j)) :
    ja_linear_node_get_nth A type w1 node n = ja_linear_node_get_nth A type w node n := by
  unfold ja_linear_node_get_nth ja_linear_node_get_nr_child
  simp only [assert, bind, Res.bind, pure, hcnt]
  by_cases hc : type.type_class = RCU_JA_LINEAR ∨ type.type_class = RCU_JA_POOL
  · simp only [hc, if_true]
    by_cases hm : w.mem node ≤ type.max_linear_child
    · simp only [hm, if_true]
      have hs : linear_scan w1 (node + 1) n (w.mem node) 0 =
          linear_scan w (node + 1) n (w.mem node) 0 :=
        linear_scan_congr w w1 (node + 1) n (w.mem node) 0
          (fun j _ hj => hval j (by omega))
      rw [hs]
      by_cases hmin : type.type_class ≠ RCU_JA_LINEAR ∨ w.mem node ≥ type.min_child
      · simp only [hmin, if_true]
        by_cases hf : linear_scan w (node + 1) n (w.mem node) 0 ≥ w.mem node
        · simp [hf]
        · simp only [hf, if_false]
          have := hptr (linear_scan w (node + 1) n (w.mem node) 0) (by omega)
          unfold linear_slot at this
          rw [this]
      · simp [hmin]
    · simp [hm]
  · simp [hc]

/-! ## Facts of the catalog -/

theorem ja_type_at_mem (A : Arch) (idx : Nat) (type : cds_ja_type)
    (h : ja_type_at A idx = Res.ok type) : type ∈ ja_types A := by
  unfold ja_type_at at h
  cases e : (ja_types A)[idx]? with
  | none => simp [e] at h
  | some t =>
    simp only [e] at h
    injection h with h
    subst h
    exact List.getElem?_mem e

theorem catalog_layout (A : Arch) : ∀ t ∈ ja_types A,
    t.max_linear_child < 256 ∧
    (t.type_class = RCU_JA_LINEAR → 0 < t.max_linear_child ∧ linear_extent A t ≤ 2 ^ t.order) ∧
    (t.type_class = RCU_JA_POOL →
      0 < t.max_linear_child ∧
      t.nr_pool_order ≤ 8 ∧ linear_extent A t ≤ 2 ^ t.pool_size_order ∧
      2 ^ t.nr_pool_order * 2 ^ t.pool_size_order ≤ 2 ^ t.order ∧
      2 ^ t.pool_size_order % 8 = 0) := by
  cases A <;> decide

/-! ## A successful insertion into a linear node, read back -/

theorem linear_slot_eq (A : Arch) (type : cds_ja_type) (base j : Nat)
    (ha : base % 8 = 0) (hC1 : 0 < type.max_linear_child)
    (hfit : base + linear_extent A type ≤ 2 ^ CAA_BITS_PER_LONG A) :
    linear_slot A type base j = base + linear_ptr_offset A type + j * sizeof_ptr A := by
  have hp := sizeof_ptr_pos A
  have hoff : 1 + type.max_linear_child ≤ linear_ptr_offset A type := by
    unfold linear_ptr_offset
    have h1 := Nat.div_add_mod (1 + type.max_linear_child + (sizeof_ptr A - 1)) (sizeof_ptr A)
    have h2 := Nat.mod_lt (1 + type.max_linear_child + (sizeof_ptr A - 1)) hp
    omega
  have hdvd : sizeof_ptr A ∣ base := by
    cases A
    · exact ⟨base / 4, by simp only [sizeof_ptr, CAA_BITS_PER_LONG]; omega⟩
    · exact ⟨base / 8, by simp only [sizeof_ptr, CAA_BITS_PER_LONG]; omega⟩
  obtain ⟨q, hq⟩ := hdvd
  unfold linear_slot
  rw [align_ptr_size_eq A _ (by unfold linear_extent at hfit; cases A <;>
    simp only [sizeof_ptr, CAA_BITS_PER_LONG] at * <;> omega)]
  unfold linear_ptr_offset
  have e : base + 1 + type.max_linear_child + (sizeof_ptr A - 1) =
      (1 + type.max_linear_child + (sizeof_ptr A - 1)) + sizeof_ptr A * q := by omega
  rw [e, Nat.add_mul_div_left _ _ hp, Nat.mul_add, hq]
  omega

theorem linear_slot_ge (A : Arch) (type : cds_ja_type) (base j : Nat)
    (ha : base % 8 = 0) (hC1 : 0 < type.max_linear_child)
    (hfit : base + linear_extent A type ≤ 2 ^ CAA_BITS_PER_LONG A) :
    base + 1 + type.max_linear_child ≤ linear_slot A type base j := by
  have hp := sizeof_ptr_pos A
  rw [linear_slot_eq A type base j ha hC1 hfit]
  unfold linear_ptr_offset
  have h1 := Nat.div_add_mod (1 + type.max_linear_child + (sizeof_ptr A - 1)) (sizeof_ptr A)
  have h2 := Nat.mod_lt (1 + type.max_linear_child + (sizeof_ptr A - 1)) hp
  omega

theorem linear_slot_inj (A : Arch) (type : cds_ja_type) (base i j : Nat)
    (h : linear_slot A type base i = linear_slot A type base j) : i = j := by
  unfold linear_slot at h
  have hp := sizeof_ptr_pos A
  have : i * sizeof_ptr A = j * sizeof_ptr A := by omega
  exact Nat.eq_of_mul_eq_mul_right hp this

theorem linear_slot_lt_extent (A : Arch) (type : cds_ja_type) (base j : Nat)
    (ha : base % 8 = 0) (hC1 : 0 < type.max_linear_child)
    (hfit : base + linear_extent A type ≤ 2 ^ CAA_BITS_PER_LONG A)
    (hj : j < type.max_linear_child) :
    linear_slot A type base j < base + linear_extent A type := by
  rw [linear_slot_eq A type base j ha hC1 hfit]
  have hp := sizeof_ptr_pos A
  have : j * sizeof_ptr A + sizeof_ptr A ≤ type.max_linear_child * sizeof_ptr A := by
    have := Nat.mul_le_mul_right (sizeof_ptr A) (Nat.succ_le_of_lt hj)
    simpa [Nat.succ_mul] using this
  unfold linear_extent
  omega

/-- The cells of a state after a successful `ja_linear_node_set_nth`. -/
theorem linear_set_mem (A : Arch) (type : cds_ja_type) (w w1 : World)
    (base sh b c : Nat)
    (hset : ja_linear_node_set_nth A type w base sh b c = Res.ok (0, w1)) :
    ∀ x, w1.mem x =
      if x = base then (w.mem base + 1) % 256
      else if x = base + 1 + w.mem base then b
      else if x = linear_slot A type base (w.mem base) then c
      else w.mem x := by
  rcases ja_linear_node_set_nth_inv A type w w1 base sh b c 0 hset with
    ⟨_, _, ⟨hr, _⟩ | ⟨hr, _⟩ | ⟨_, _, _, _, s, _, hw⟩⟩
  · exact absurd hr (by decide)
  · exact absurd hr (by decide)
  · intro x
    rw [hw]
    simp

theorem linear_set_get_same (A : Arch) (type : cds_ja_type) (w w1 : World)
    (base sh b c : Nat)
    (ha : base % 8 = 0) (hC1 : 0 < type.max_linear_child)
    (hfit : base + linear_extent A type ≤ 2 ^ CAA_BITS_PER_LONG A)
    (hC : type.max_linear_child < 256)
    (hmin : type.type_class = RCU_JA_LINEAR → type.min_child ≤ w.mem base + 1)
    (hc : ja_node_ptr A c ≠ 0)
    (hset : ja_linear_node_set_nth A type w base sh b c = Res.ok (0, w1)) :
    ja_linear_node_get_nth A type w1 base b =
      Res.ok (c, some (linear_slot A type base (w.mem base))) := by
  have hmem := linear_set_mem A type w w1 base sh b c hset
  rcases ja_linear_node_set_nth_inv A type w w1 base sh b c 0 hset with
    ⟨hcls, hm, ⟨hr, _⟩ | ⟨hr, _⟩ | ⟨_, hk, hlt, _, _⟩⟩
  · exact absurd hr (by decide)
  · exact absurd hr (by decide)
  · have hsl := linear_slot_ge A type base (w.mem base) ha hC1 hfit
    have e0 : w1.mem base = w.mem base + 1 := by
      rw [hmem]; simp; omega
    have hscan : linear_scan w1 (base + 1) b (w.mem base + 1) 0 = w.mem base := by
      apply linear_scan_unique
      · omega
      · omega
      · intro _
        rw [hmem]
        have : base + 1 + w.mem base ≠ base := by omega
        simp [this]
      · intro j _ hj
        rw [hmem]
        have h1 : base + 1 + j ≠ base := by omega
        have h2 : base + 1 + j ≠ base + 1 + w.mem base := by omega
        have h3 : base + 1 + j ≠ linear_slot A type base (w.mem base) := by omega
        simp only [h1, h2, h3, if_false]
        exact fun e => hk ⟨j, hj, e⟩
    have eslot : w1.mem (linear_slot A type base (w.mem base)) = c := by
      rw [hmem]
      have h1 : linear_slot A type base (w.mem base) ≠ base := by omega
      have h2 : linear_slot A type base (w.mem base) ≠ base + 1 + w.mem base := by omega
      simp [h1, h2]
    unfold ja_linear_node_get_nth ja_linear_node_get_nr_child
    simp only [assert, bind, Res.bind, pure, hcls, if_true, e0]
    have hle : w.mem base + 1 ≤ type.max_linear_child := by omega
    have hmin2 : type.type_class ≠ RCU_JA_LINEAR ∨ w.mem base + 1 ≥ type.min_child := by
      by_cases hl : type.type_class = RCU_JA_LINEAR
      · exact Or.inr (hmin hl)
      · exact Or.inl hl
    have hnf : ¬ (w.mem base ≥ w.mem base + 1) := by omega
    unfold linear_slot at eslot
    simp only [hle, hmin2, if_true, hscan, hnf, if_false, eslot, ne_eq, hc, not_false_eq_true,
      linear_slot]

theorem linear_set_get_other (A : Arch) (type : cds_ja_type) (w w1 : World)
    (base sh b c b' : Nat)
    (ha : base % 8 = 0) (hC1 : 0 < type.max_linear_child)
    (hfit : base + linear_extent A type ≤ 2 ^ CAA_BITS_PER_LONG A)
    (hC : type.max_linear_child < 256)
    (hmin : type.type_class = RCU_JA_LINEAR → type.min_child ≤ w.mem base)
    (hb : b' ≠ b)
    (hset : ja_linear_node_set_nth A type w base sh b c = Res.ok (0, w1)) :
    ja_linear_node_get_nth A type w1 base b' = ja_linear_node_get_nth A type w base b' := by
  have hmem := linear_set_mem A type w w1 base sh b c hset
  rcases ja_linear_node_set_nth_inv A type w w1 base sh b c 0 hset with
    ⟨hcls, hm, ⟨hr, _⟩ | ⟨hr, _⟩ | ⟨_, hk, hlt, _, _⟩⟩
  · exact absurd hr (by decide)
  · exact absurd hr (by decide)
  · have hsl := linear_slot_ge A type base (w.mem base) ha hC1 hfit
    have e0 : w1.mem base = w.mem base + 1 := by
      rw [hmem]; simp; omega
    have hval : ∀ j, j < w.mem base → w1.mem (base + 1 + j) = w.mem (base + 1 + j) := by
      intro j hj
      rw [hmem]
      have h1 : base + 1 + j ≠ base := by omega
      have h2 : base + 1 + j ≠ base + 1 + w.mem base := by omega
      have h3 : base + 1 + j ≠ linear_slot A type base (w.mem base) := by omega
      simp only [h1, h2, h3, if_false]
    have hlast : w1.mem (base + 1 + w.mem base) = b := by
      rw [hmem]
      have : base + 1 + w.mem base ≠ base := by omega
      simp [this]
    obtain ⟨g1, g2, g3, g4⟩ := linear_scan_bounds w (base + 1) b' (w.mem base) 0
    have hle : w.mem base + 1 ≤ type.max_linear_child := by omega
    have hmin1 : type.type_class ≠ RCU_JA_LINEAR ∨ w.mem base ≥ type.min_child := by
      by_cases hl : type.type_class = RCU_JA_LINEAR
      · exact Or.inr (hmin hl)
      · exact Or.inl hl
    have hmin2 : type.type_class ≠ RCU_JA_LINEAR ∨ w.mem base + 1 ≥ type.min_child := by
      rcases hmin1 with h | h
      · exact Or.inl h
      · exact Or.inr (by omega)
    unfold ja_linear_node_get_nth ja_linear_node_get_nr_child
    simp only [assert, bind, Res.bind, pure, hcls, if_true, e0, hle, hm, hmin1, hmin2]
    by_cases hfound : linear_scan w (base + 1) b' (w.mem base) 0 < w.mem base
    · have hscan : linear_scan w1 (base + 1) b' (w.mem base + 1) 0 =
          linear_scan w (base + 1) b' (w.mem base) 0 := by
        apply linear_scan_unique
        · omega
        · omega
        · intro _
          rw [hval _ hfound]
          exact g3 (by omega)
        · intro j hj1 hj2
          rw [hval j (by omega)]
          exact g4 j hj1 hj2
      have hn1 : ¬ (linear_scan w (base + 1) b' (w.mem base) 0 ≥ w.mem base + 1) := by omega
      have hn2 : ¬ (linear_scan w (base + 1) b' (w.mem base) 0 ≥ w.mem base) := by omega
      have eslot : w1.mem (linear_slot A type base (linear_scan w (base + 1) b' (w.mem base) 0)) =
          w.mem (linear_slot A type base (linear_scan w (base + 1) b' (w.mem base) 0)) := by
        rw [hmem]
        have hs2 := linear_slot_ge A type base (linear_scan w (base + 1) b' (w.mem base) 0) ha hC1 hfit
        have h1 : linear_slot A type base (linear_scan w (base + 1) b' (w.mem base) 0) ≠ base := by
          omega
        have h2 : linear_slot A type base (linear_scan w (base + 1) b' (w.mem base) 0) ≠
            base + 1 + w.mem base := by omega
        have h3 : linear_slot A type base (linear_scan w (base + 1) b' (w.mem base) 0) ≠
            linear_slot A type base (w.mem base) := by
          intro e
          have := linear_slot_inj A type base _ _ e
          omega
        simp only [h1, h2, h3, if_false]
      unfold linear_slot at eslot
      simp only [hscan, hn1, hn2, if_false, eslot]
    · have hscan : linear_scan w1 (base + 1) b' (w.mem base + 1) 0 = w.mem base + 1 := by
        apply linear_scan_unique
        · omega
        · omega
        · intro h; omega
        · intro j hj1 hj2
          by_cases e : j = w.mem base
          · subst e; rw [hlast]; exact fun e => hb e.symm
          · rw [hval j (by omega)]
            exact g4 j hj1 (by omega)
      have hn1 : linear_scan w (base + 1) b' (w.mem base) 0 ≥ w.mem base := by omega
      simp [hscan, hn1]

theorem ja_node_get_nth_eq (A : Arch) (w : World) (node_flag n node idx : Nat)
    (type : cds_ja_type) (hp : ja_node_ptr A node_flag = node) (hnz : node ≠ 0)
    (hidx : ja_node_type A node_flag = Res.ok idx) (hT : ja_type_at A idx = Res.ok type) :
    ja_node_get_nth A w node_flag n =
      match type.type_class with
      | RCU_JA_LINEAR => ja_linear_node_get_nth A type w node n
      | RCU_JA_POOL => ja_pool_node_get_nth A type w node n
      | RCU_JA_PIGEON => ja_pigeon_node_get_nth A type w node n
      | _ => Res.abort := by
  unfold ja_node_get_nth
  simp only [hp, assert, ne_eq, hnz, not_false_eq_true, if_true, hidx, hT, bind, Res.bind]

theorem ja_pool_node_get_nth_eq (A : Arch) (type : cds_ja_type) (w : World) (node n : Nat)
    (hc : type.type_class = RCU_JA_POOL) :
    ja_pool_node_get_nth A type w node n =
      ja_linear_node_get_nth A type w (pool_of type node n) n := by
  simp [ja_pool_node_get_nth, assert, hc, pool_of, bind, Res.bind]

/-- The pool of a byte: index below the number of pools, base inside the node. -/
theorem pool_of_eq (type : cds_ja_type) (node n : Nat) (hn : n < 256)
    (hnpo : type.nr_pool_order ≤ 8) :
    ∃ k, k < 2 ^ type.nr_pool_order ∧ pool_of type node n = node + k * 2 ^ type.pool_size_order := by
  refine ⟨n >>> (CHAR_BIT - type.nr_pool_order), ?_, ?_⟩
  · rw [Nat.shiftRight_eq_div_pow]
    apply Nat.div_lt_of_lt_mul
    have : 2 ^ (CHAR_BIT - type.nr_pool_order) * 2 ^ type.nr_pool_order = 256 := by
      rw [← Nat.pow_add]
      have : CHAR_BIT - type.nr_pool_order + type.nr_pool_order = 8 := by
        simp only [CHAR_BIT]; omega
      rw [this]
    omega
  · simp [pool_of, Nat.shiftLeft_eq]

theorem pool_layout (A : Arch) (type : cds_ja_type) (node k : Nat) (ha : node % 8 = 0)
    (hk : k < 2 ^ type.nr_pool_order)
    (hS8 : 2 ^ type.pool_size_order % 8 = 0)
    (hE : linear_extent A type ≤ 2 ^ type.pool_size_order)
    (hO : 2 ^ type.nr_pool_order * 2 ^ type.pool_size_order ≤ 2 ^ type.order)
    (hfit : node + 2 ^ type.order ≤ 2 ^ CAA_BITS_PER_LONG A) :
    (node + k * 2 ^ type.pool_size_order) % 8 = 0 ∧
    node + k * 2 ^ type.pool_size_order + linear_extent A type ≤ 2 ^ CAA_BITS_PER_LONG A := by
  have h1 : (k + 1) * 2 ^ type.pool_size_order ≤
      2 ^ type.nr_pool_order * 2 ^ type.pool_size_order :=
    Nat.mul_le_mul_right _ (Nat.succ_le_of_lt hk)
  rw [Nat.succ_mul] at h1
  have h2 : (k * 2 ^ type.pool_size_order) % 8 = 0 := by
    rw [Nat.mul_mod, hS8]; simp
  constructor <;> omega

/-- The assertion on `min_child` apart, `ja_linear_node_get_nth` does not depend on
`min_child`: on a node that holds at least `min_child` children the read is the
one of the shape whose `min_child` is 0. -/
theorem ja_linear_node_get_nth_min (A : Arch) (type : cds_ja_type) (w : World) (node n : Nat)
    (hmin : type.type_class = RCU_JA_LINEAR → type.min_child ≤ w.mem node) :
    ja_linear_node_get_nth A type w node n =
      ja_linear_node_get_nth A { type with min_child := 0 } w node n := by
  unfold ja_linear_node_get_nth ja_linear_node_get_nr_child
  simp only [assert, bind, Res.bind, pure]
  by_cases hc : type.type_class = RCU_JA_LINEAR ∨ type.type_class = RCU_JA_POOL
  · simp only [hc, if_true]
    by_cases hm : w.mem node ≤ type.max_linear_child
    · simp only [hm, if_true]
      have h1 : type.type_class ≠ RCU_JA_LINEAR ∨ w.mem node ≥ type.min_child := by
        by_cases hl : type.type_class = RCU_JA_LINEAR
        · exact Or.inr (hmin hl)
        · exact Or.inl hl
      have h2 : type.type_class ≠ RCU_JA_LINEAR ∨ w.mem node ≥ 0 := Or.inr (Nat.zero_le _)
      rw [if_pos h1, if_pos h2]
    · simp only [hm, if_false]
  · simp only [hc, if_false]

/-- What `ja_node_get_nth` returns on a node after a successful
`_ja_node_set_nth (node, b, c)`: `c` for the byte `b` when a linear node holds at
least `min_child` children after the insertion, and for another byte what it
returned before, or what the scan finds in the node as it was. -/
theorem set_nth_visible_local (A : Arch) (type : cds_ja_type) (w w1 : World)
    (node_flag node idx sh b c : Nat)
    (hT : ja_type_at A idx = Res.ok type)
    (hp : ja_node_ptr A node_flag = node) (hnz : node ≠ 0)
    (hidx : ja_node_type A node_flag = Res.ok idx)
    (ha : node % 8 = 0)
    (hfit : node + 2 ^ type.order ≤ 2 ^ CAA_BITS_PER_LONG A)
    (hb : b < 256) (hc : ja_node_ptr A c ≠ 0)
    (hmin : type.type_class = RCU_JA_LINEAR → type.min_child ≤ w1.mem node)
    (hset : _ja_node_set_nth A type w node sh b c = Res.ok (0, w1)) :
    (∃ slot, ja_node_get_nth A w1 node_flag b = Res.ok (c, some slot)) ∧
    ∀ b', b' < 256 → b' ≠ b →
      ((type.type_class = RCU_JA_LINEAR → type.min_child ≤ w.mem node) →
        ja_node_get_nth A w1 node_flag b' = ja_node_get_nth A w node_flag b') ∧
      (type.type_class = RCU_JA_LINEAR →
        ja_node_get_nth A w1 node_flag b' =
          ja_linear_node_get_nth A { type with min_child := 0 } w node b') := by
  have hcat := catalog_layout A type (ja_type_at_mem A idx type hT)
  obtain ⟨hC, hlin, hpool⟩ := hcat
  have hget := fun w n => ja_node_get_nth_eq A w node_flag n node idx type hp hnz hidx hT
  unfold _ja_node_set_nth at hset
  have hall : type.type_class = RCU_JA_LINEAR ∨ type.type_class = RCU_JA_POOL ∨
      type.type_class = RCU_JA_PIGEON ∨ type.type_class = RCU_JA_NR_TYPES ∨
      type.type_class = RCU_JA_NULL := by
    cases type.type_class <;> simp
  rcases hall with hcls | hcls | hcls | hcls | hcls <;> simp only [hcls] at hset
  · -- linear
    obtain ⟨hC1, hE⟩ := hlin hcls
    have hfit1 : node + linear_extent A type ≤ 2 ^ CAA_BITS_PER_LONG A := by omega
    have hcnt : w1.mem node = w.mem node + 1 := by
      have hmem := linear_set_mem A type w w1 node sh b c hset node
      rw [if_pos rfl] at hmem
      rcases ja_linear_node_set_nth_inv A type w w1 node sh b c 0 hset with
        ⟨_, _, ⟨hr, _⟩ | ⟨hr, _⟩ | ⟨_, _, hlt, _, _⟩⟩
      · exact absurd hr (by decide)
      · exact absurd hr (by decide)
      · rw [hmem]
        exact Nat.mod_eq_of_lt (by omega)
    constructor
    · have h := linear_set_get_same A type w w1 node sh b c ha hC1 hfit1 hC
        (fun _ => by rw [← hcnt]; exact hmin hcls) hc hset
      exact ⟨_, by rw [hget, hcls]; exact h⟩
    · intro b' _ hne
      constructor
      · intro hmin0
        rw [hget, hget, hcls]
        exact linear_set_get_other A type w w1 node sh b c b' ha hC1 hfit1 hC
          hmin0 hne hset
      · intro _
        refine (hget w1 b').trans ?_
        have hm := ja_linear_node_get_nth_min A type w1 node b' hmin
        have ho := linear_set_get_other A { type with min_child := 0 } w w1 node sh b c b' ha hC1
          hfit1 hC (fun _ => Nat.zero_le _) hne hset
        rw [← ho, ← hm, hcls]
  · -- pool
    obtain ⟨hC1, hnpo, hE, hO, hS8⟩ := hpool hcls
    rw [ja_pool_node_set_nth_eq A type w node sh b c hcls] at hset
    obtain ⟨k, hk, hbase⟩ := pool_of_eq type node b hb hnpo
    obtain ⟨hka, hkfit⟩ := pool_layout A type node k ha hk hS8 hE hO hfit
    have hnl : type.type_class = RCU_JA_LINEAR → False := by rw [hcls]; intro h; cases h
    constructor
    · have h := linear_set_get_same A type w w1 (pool_of type node b) sh b c
        (by rw [hbase]; exact hka) hC1 (by rw [hbase]; exact hkfit) hC
        (fun h => absurd h (fun h => hnl h)) hc hset
      exact ⟨_, by
        rw [hget, hcls]
        simp only
        rw [ja_pool_node_get_nth_eq A type w1 node b hcls]
        exact h⟩
    · intro b' hb' hne
      refine ⟨fun _ => ?_, fun h => absurd h (fun h => hnl h)⟩
      rw [hget, hget, hcls]
      simp only
      rw [ja_pool_node_get_nth_eq A type w1 node b' hcls,
        ja_pool_node_get_nth_eq A type w node b' hcls]
      obtain ⟨k', hk', hbase'⟩ := pool_of_eq type node b' hb' hnpo
      obtain ⟨hka', hkfit'⟩ := pool_layout A type node k' ha hk' hS8 hE hO hfit
      rw [hbase] at hset
      rw [hbase']
      by_cases hkk : k' = k
      · subst hkk
        exact linear_set_get_other A type w w1 _ sh b c b' hka hC1 hkfit hC
          (fun h => absurd h (fun h => hnl h)) hne hset
      · -- another pool: its cells are not written
        have hmem := linear_set_mem A type w w1 _ sh b c hset
        rcases ja_linear_node_set_nth_inv A type w w1 _ sh b c 0 hset with
          ⟨_, _, ⟨hr, _⟩ | ⟨hr, _⟩ | ⟨_, _, hlt, _, _⟩⟩
        · exact absurd hr (by decide)
        · exact absurd hr (by decide)
        · have hsep : node + k * 2 ^ type.pool_size_order + 2 ^ type.pool_size_order ≤
              node + k' * 2 ^ type.pool_size_order ∨
              node + k' * 2 ^ type.pool_size_order + 2 ^ type.pool_size_order ≤
              node + k * 2 ^ type.pool_size_order := by
            rcases Nat.lt_or_gt_of_ne hkk with h | h
            · right
              have := Nat.mul_le_mul_right (2 ^ type.pool_size_order) (Nat.succ_le_of_lt h)
              rw [Nat.succ_mul] at this
              omega
            · left
              have := Nat.mul_le_mul_right (2 ^ type.pool_size_order) (Nat.succ_le_of_lt h)
              rw [Nat.succ_mul] at this
              omega
          have hw1 := linear_slot_ge A type (node + k * 2 ^ type.pool_size_order)
            (w.mem (node + k * 2 ^ type.pool_size_order)) hka hC1 hkfit
          have hw2 := linear_slot_lt_extent A type (node + k * 2 ^ type.pool_size_order)
            (w.mem (node + k * 2 ^ type.pool_size_order)) hka hC1 hkfit hlt
          have hoff : 1 + type.max_linear_child ≤ linear_extent A type := by
            have := linear_slot_ge A type (node + k' * 2 ^ type.pool_size_order) 0 hka' hC1 hkfit'
            have := linear_slot_lt_extent A type (node + k' * 2 ^ type.pool_size_order) 0
              hka' hC1 hkfit' hC1
            omega
          have hframe : ∀ x, node + k' * 2 ^ type.pool_size_order ≤ x →
              x < node + k' * 2 ^ type.pool_size_order + linear_extent A type →
              w1.mem x = w.mem x := by
            intro x hx1 hx2
            rw [hmem]
            have h1 : x ≠ node + k * 2 ^ type.pool_size_order := by omega
            have h2 : x ≠ node + k * 2 ^ type.pool_size_order + 1 +
                w.mem (node + k * 2 ^ type.pool_size_order) := by omega
            have h3 : x ≠ linear_slot A type (node + k * 2 ^ type.pool_size_order)
                (w.mem (node + k * 2 ^ type.pool_size_order)) := by omega
            simp only [h1, h2, h3, if_false]
          apply ja_linear_node_get_nth_congr
          · exact hframe _ (le_refl _) (by omega)
          · intro j hj
            exact hframe _ (by omega) (by omega)
          · intro j hj
            have g1 := linear_slot_ge A type (node + k' * 2 ^ type.pool_size_order) j
              hka' hC1 hkfit'
            have g2 := linear_slot_lt_extent A type (node + k' * 2 ^ type.pool_size_order) j
              hka' hC1 hkfit' hj
            exact hframe _ (by omega) g2
  · -- pigeon
    rcases ja_pigeon_node_set_nth_inv A type w w1 node sh b c 0 hset with
      ⟨_, ⟨hr, _⟩ | ⟨_, _, s, _, hw⟩⟩
    · exact absurd hr (by decide)
    · have hpp := sizeof_ptr_pos A
      constructor
      · refine ⟨node + b * sizeof_ptr A, ?_⟩
        rw [hget, hcls]
        simp [ja_pigeon_node_get_nth, assert, hcls, hw, bind, Res.bind, pure]
      · intro b' _ hne
        refine ⟨fun _ => ?_, fun h => absurd h (by rw [hcls]; intro h; cases h)⟩
        rw [hget, hget, hcls]
        have : node + b' * sizeof_ptr A ≠ node + b * sizeof_ptr A := by
          intro e
          have : b' * sizeof_ptr A = b * sizeof_ptr A := by omega
          exact hne (Nat.eq_of_mul_eq_mul_right hpp this)
        simp [ja_pigeon_node_get_nth, assert, hcls, hw, this, bind, Res.bind, pure]
  · exact absurd hset (by simp)
  · simp only [pure] at hset
    injection hset with h; injection h with h1 h2
    exact absurd h1 (by decide)

/-- C14 (amended): a successful `_ja_node_set_nth (node, b, c)` on a node of the
catalog is visible and local.  The node is aligned and lies in the address
space, `c` has a non-NULL pointer part, and a node of the linear class holds at
least `min_child` children after the insertion (what `ja_linear_node_get_nth`
asserts when it reads the node).  Then `ja_node_get_nth (node, b)` returns `c`
afterwards.  For every other byte `b'`: when the node held at least `min_child`
children before the insertion too (or is not of the linear class),
`ja_node_get_nth (node, b')` returns afterwards what it returned before; and for
a node of the linear class, whatever its count before, it returns afterwards what
the scan of `ja_linear_node_get_nth` finds in the node as it was before the
insertion (the read of the shape with the assertion on `min_child` left out). -/
theorem C14_set_nth_visible_and_local (A : Arch) (type : cds_ja_type) (w w1 : World)
    (node_flag node idx sh b c : Nat)
    (hT : ja_type_at A idx = Res.ok type)
    (hp : ja_node_ptr A node_flag = node) (hnz : node ≠ 0)
    (hidx : ja_node_type A node_flag = Res.ok idx)
    (ha : node % 8 = 0)
    (hfit : node + 2 ^ type.order ≤ 2 ^ CAA_BITS_PER_LONG A)
    (hb : b < 256) (hc : ja_node_ptr A c ≠ 0)
    (hmin : type.type_class = RCU_JA_LINEAR → type.min_child ≤ w1.mem node)
    (hset : _ja_node_set_nth A type w node sh b c = Res.ok (0, w1)) :
    (∃ slot, ja_node_get_nth A w1 node_flag b = Res.ok (c, some slot)) ∧
    ∀ b', b' < 256 → b' ≠ b →
      ((type.type_class = RCU_JA_LINEAR → type.min_child ≤ w.mem node) →
        ja_node_get_nth A w1 node_flag b' = ja_node_get_nth A w node_flag b') ∧
      (type.type_class = RCU_JA_LINEAR →
        ja_node_get_nth A w1 node_flag b' =
          ja_linear_node_get_nth A { type with min_child := 0 } w node b') :=
  set_nth_visible_local A type w w1 node_flag node idx sh b c hT hp hnz hidx ha hfit hb hc hmin
    hset

/-! ## Creation: configured fields, rejected widths (C11, C12) -/

/-- C11 (the code breaks it for 64): in a fresh process `_cds_ja_new` returns a
container with `tree_depth = ceil (key_bits / 8) + 1` and
`key_max = 2 ^ key_bits - 1` for `key_bits` 8, 16 and 32; for 64 the depth is 9,
above `JA_MAX_DEPTH`, the call ends in its failed assertion
`tree_depth <= JA_MAX_DEPTH` and there is no container whose fields could have
the values of the claim. -/
theorem C11_new_configures_depth_and_key_max (A : Arch) :
    (∃ w1, _cds_ja_new A World.boot 8 = Res.ok (World.boot.brk, w1) ∧
      w1.tree_depth = (8 + 7) / 8 + 1 ∧ w1.key_max = 2 ^ 8 - 1) ∧
    (∃ w1, _cds_ja_new A World.boot 16 = Res.ok (World.boot.brk, w1) ∧
      w1.tree_depth = (16 + 7) / 8 + 1 ∧ w1.key_max = 2 ^ 16 - 1) ∧
    (∃ w1, _cds_ja_new A World.boot 32 = Res.ok (World.boot.brk, w1) ∧
      w1.tree_depth = (32 + 7) / 8 + 1 ∧ w1.key_max = 2 ^ 32 - 1) ∧
    (64 >>> JA_BITS_PER_BYTE) + 1 = (64 + 7) / 8 + 1 ∧
    ¬ ((64 + 7) / 8 + 1 ≤ JA_MAX_DEPTH) ∧
    _cds_ja_new A World.boot 64 = Res.abort := by
  cases A <;>
  exact ⟨⟨_, rfl, by decide, by decide⟩, ⟨_, rfl, by decide, by decide⟩,
    ⟨_, rfl, by decide, by decide⟩, by decide, by decide, rfl⟩

/-- C12: for a `key_bits` other than 8, 16, 32 and 64, `_cds_ja_new` returns
NULL; the shadow table and the fields of the container in the state are as
before the call, every cell allocated before the call keeps its value, and the
block of the container, when it was allocated, has been handed to `free`. -/
theorem C12_new_rejects_invalid_width (A : Arch) (w : World) (key_bits : Nat)
    (h : key_bits ∉ [8, 16, 32, 64]) (hb : w.brk ≠ 0) :
    ∃ w1, _cds_ja_new A w key_bits = Res.ok (0, w1) ∧
      w1.ht = w.ht ∧ w1.root = w.root ∧ w1.tree_depth = w.tree_depth ∧
      w1.key_max = w.key_max ∧ w1.nr_fallback = w.nr_fallback ∧
      (∀ x, x < w.brk → w1.mem x = w.mem x) ∧
      ((w1.brk = w.brk ∧ w1.freed = w.freed) ∨ w1.freed = w.brk :: w.freed) := by
  simp only [List.mem_cons, List.mem_singleton, List.not_mem_nil, or_false, not_or] at h
  obtain ⟨h8, h16, h32, h64⟩ := h
  have hc : calloc w sizeof_cds_ja = (0, { w with oracle := w.oracle.tail }) ∨
      calloc w sizeof_cds_ja = (w.brk,
        { w with
          mem := fun x => if w.brk ≤ x ∧ x < w.brk + sizeof_cds_ja then 0 else w.mem x,
          brk := w.brk + (sizeof_cds_ja + 15) / 16 * 16,
          oracle := w.oracle.tail }) := by
    unfold calloc
    cases ho : w.oracle with
    | nil => exact Or.inr rfl
    | cons b rest =>
      cases b
      · exact Or.inl rfl
      · exact Or.inr rfl
  rcases hc with hc | hc
  · have e : _cds_ja_new A w key_bits = Res.ok (0, { w with oracle := w.oracle.tail }) := by
      simp [_cds_ja_new, hc, pure]
    exact ⟨_, e, rfl, rfl, rfl, rfl, rfl, fun _ _ => rfl, Or.inl ⟨rfl, rfl⟩⟩
  · have e : _cds_ja_new A w key_bits = Res.ok (0, free { w with
          mem := fun x => if w.brk ≤ x ∧ x < w.brk + sizeof_cds_ja then 0 else w.mem x,
          brk := w.brk + (sizeof_cds_ja + 15) / 16 * 16,
          oracle := w.oracle.tail } w.brk) := by
      simp only [_cds_ja_new, hc, hb, pure, if_false, h8, h16, h32, h64]
    refine ⟨_, e, rfl, rfl, rfl, rfl, rfl, ?_, Or.inr rfl⟩
    intro x hx
    show (if w.brk ≤ x ∧ x < w.brk + sizeof_cds_ja then 0 else w.mem x) = w.mem x
    rw [if_neg (by omega)]

theorem C12_new_rejects_invalid_width_witness :
    ∃ w1, _cds_ja_new Arch.bits64 World.boot 24 = Res.ok (0, w1) ∧
      w1.ht = World.boot.ht ∧ w1.root = World.boot.root ∧
      w1.tree_depth = World.boot.tree_depth ∧
      w1.key_max = World.boot.key_max ∧ w1.nr_fallback = World.boot.nr_fallback ∧
      (∀ x, x < World.boot.brk → w1.mem x = World.boot.mem x) ∧
      ((w1.brk = World.boot.brk ∧ w1.freed = World.boot.freed) ∨
        w1.freed = World.boot.brk :: World.boot.freed) :=
  C12_new_rejects_invalid_width Arch.bits64 World.boot 24 (by decide) (by decide)

/-! ## Accessors of one node (C14, C15) -/

/-- C14, as stated, fails: a zero-filled node of shape 2 (linear, `min_child` 3)
has the layout of a linear node with no child; `_ja_node_set_nth` of byte 5
returns 0 on it, and `ja_node_get_nth` of byte 5 then ends in the failed
assertion `nr_child >= type->min_child` instead of returning the child.  After
the insertion of a second child, under the byte 7, the read of byte 5 still ends
in that assertion; the insertion of a third child, under the byte 9, returns 0
and changes the read of byte 5, which now returns its child. -/
theorem C14_get_nth_aborts_below_min_child :
    (∃ w, node_with Arch.bits64 2 [(5, test_node 5)] = Res.ok ([0], w)) ∧
    node_with_get Arch.bits64 2 [(5, test_node 5)] 5 = Res.abort ∧
    node_with_get Arch.bits64 2 [(5, test_node 5), (7, test_node 7)] 5 = Res.abort ∧
    node_with_get Arch.bits64 2 [(5, test_node 5), (7, test_node 7), (9, test_node 9)] 5 =
      Res.ok ([0, 0, 0], test_node 5, some (World.boot.brk + 8)) :=
  ⟨⟨_, rfl⟩, by decide, by decide, by decide⟩

/-- C14 (amended) on the node of shape 2 (64-bit build, `min_child` 3) that holds
two children, under the bytes 5 and 7, for the insertion of a third child under
the byte 9: the read of byte 9 returns the new child, and the read of byte 5
returns what the scan finds in the node as it was before the insertion. -/
theorem C14_set_nth_visible_and_local_witness :
    (∃ slot, ja_node_get_nth Arch.bits64
        (world_of (node_with Arch.bits64 2
          [(5, test_node 5), (7, test_node 7), (9, test_node 9)]))
        (World.boot.brk + 2) 9 = Res.ok (test_node 9, some slot)) ∧
    ja_node_get_nth Arch.bits64
        (world_of (node_with Arch.bits64 2
          [(5, test_node 5), (7, test_node 7), (9, test_node 9)]))
        (World.boot.brk + 2) 5 =
      ja_linear_node_get_nth Arch.bits64 ⟨RCU_JA_LINEAR, 0, 7, 7, 6, 0, 0⟩
        (world_of (node_with Arch.bits64 2 [(5, test_node 5), (7, test_node 7)]))
        World.boot.brk 5 :=
  have h := C14_set_nth_visible_and_local Arch.bits64 ⟨RCU_JA_LINEAR, 3, 7, 7, 6, 0, 0⟩
    (world_of (node_with Arch.bits64 2 [(5, test_node 5), (7, test_node 7)]))
    (world_of (node_with Arch.bits64 2 [(5, test_node 5), (7, test_node 7), (9, test_node 9)]))
    (World.boot.brk + 2) World.boot.brk 2 World.boot.brk 9 (test_node 9)
    rfl (by decide) (by decide) (by decide) (by decide) (by decide) (by decide) (by decide)
    (fun _ => by decide) rfl
  ⟨h.1, (h.2 5 (by decide) (by decide)).2 rfl⟩

theorem C15_set_nth_result_witness :
    ∃ r w1, _ja_node_set_nth Arch.bits64 ⟨RCU_JA_LINEAR, 1, 3, 3, 5, 0, 0⟩
        (world_of (node_with Arch.bits64 1 [(7, test_node 7)])) World.boot.brk World.boot.brk
        7 (test_node 9) = Res.ok (r, w1) ∧
      (r = -EEXIST ↔
        key_present (world_of (node_with Arch.bits64 1 [(7, test_node 7)])) World.boot.brk
          ((world_of (node_with Arch.bits64 1 [(7, test_node 7)])).mem World.boot.brk) 7) ∧
      (r = -ENOSPC ↔
        ¬ key_present (world_of (node_with Arch.bits64 1 [(7, test_node 7)])) World.boot.brk
          ((world_of (node_with Arch.bits64 1 [(7, test_node 7)])).mem World.boot.brk) 7 ∧
        (world_of (node_with Arch.bits64 1 [(7, test_node 7)])).mem World.boot.brk = 3) ∧
      (r = 0 ↔
        ¬ key_present (world_of (node_with Arch.bits64 1 [(7, test_node 7)])) World.boot.brk
          ((world_of (node_with Arch.bits64 1 [(7, test_node 7)])).mem World.boot.brk) 7 ∧
        (world_of (node_with Arch.bits64 1 [(7, test_node 7)])).mem World.boot.brk < 3) ∧
      (r ≠ 0 → w1 = world_of (node_with Arch.bits64 1 [(7, test_node 7)])) :=
  (C15_set_nth_result Arch.bits64 ⟨RCU_JA_LINEAR, 1, 3, 3, 5, 0, 0⟩
    (world_of (node_with Arch.bits64 1 [(7, test_node 7)])) World.boot.brk World.boot.brk
    7 (test_node 9)).1 World.boot.brk (Or.inl ⟨rfl, rfl⟩) (by decide) (fun _ => by decide)
    (by decide)

/-! ## Recompaction into a pool shape (C16, C17) -/

/-- C16 (the code breaks it): 64-bit build, 8-bit array with the keys 1..27 and
255; all 28 adds return 0, key 0 is absent, the root node is a full linear node
of shape 4.  `ja_node_recompact_add` of byte 0 with a non-NULL child on this
node, with no allocation failing, does not return 0 with a new node: it ends in
the failed assertion that follows the insertion of the new child. -/
theorem C16_recompact_add_aborts_on_full_pool :
    observe Arch.bits64 8 (test_adds ((List.range 27).map (· + 1) ++ [255])) 0 =
      Res.ok ⟨List.replicate 28 0, 1048868, 0, 0, []⟩ ∧
    root_shape_after Arch.bits64 8 (test_adds ((List.range 27).map (· + 1) ++ [255])) =
      Res.ok 4 ∧
    test_node 0 ≠ 0 ∧
    recompact_root_after Arch.bits64 8 (test_adds ((List.range 27).map (· + 1) ++ [255]))
      0 (test_node 0) = Res.abort := by
  decide

/-- C17 (the code breaks it for step 5): 32-bit build, 8-bit array, root node of
shape 4 with 25 children, recompaction towards shape 5 (2 pools of 24).  With
12 and 13 children routed to the two pools no insertion returns `-ENOSPC` and
the new node has shape 5.  With 25 children routed to pool 0 the copy (step 4)
overflows and the call produces a node of shape 7, counting one fallback.  With
24 children routed to pool 0 and the new child routed to pool 0 too, the copy
succeeds, the insertion of the new child (step 5) returns `-ENOSPC`, and the
call ends in the failed assertion that follows it instead of producing a node
of shape 7. -/
theorem C17_no_fallback_for_new_child :
    recompact_root_after Arch.bits32 8
        (test_adds (List.range 12 ++ (List.range 13).map (· + 128))) 200 (test_node 200) =
      Res.ok (4, 0, 5, 0) ∧
    recompact_root_after Arch.bits32 8 (test_adds (List.range 25)) 200 (test_node 200) =
      Res.ok (4, 0, 7, 1) ∧
    root_shape_after Arch.bits32 8 (test_adds (List.range 24 ++ [128])) = Res.ok 4 ∧
    recompact_root_after Arch.bits32 8 (test_adds (List.range 24 ++ [128])) 24 (test_node 24) =
      Res.abort := by
  decide

/-! ## Effects of the primitives -/

theorem Res.bind_eq_ok {α β : Type} (x : Res α) (f : α → Res β) (b : β) :
    (x >>= f) = Res.ok b ↔ ∃ a, x = Res.ok a ∧ f a = Res.ok b := by
  cases x <;> simp [bind, Res.bind]

theorem assert_eq_ok (c : Prop) [Decidable c] (u : Unit) : assert c = Res.ok u ↔ c := by
  unfold assert
  by_cases h : c <;> simp [h]

theorem Kept.kept_refl (w : World) : Kept w w := ⟨rfl, rfl, rfl, Nat.le_refl _, fun h => h⟩

theorem Kept.kept_trans {w w1 w2 : World} (h1 : Kept w w1) (h2 : Kept w1 w2) : Kept w w2 :=
  ⟨h2.root.trans h1.root, h2.tree_depth.trans h1.tree_depth, h2.key_max.trans h1.key_max,
    Nat.le_trans h1.brk_le h2.brk_le, fun h => h2.brk_al (h1.brk_al h)⟩

theorem Frame.frame_refl (lo : Nat) (V P : Nat → Prop) (w : World) : Frame lo V P w w :=
  fun _ => Or.inl rfl

theorem Frame.frame_trans {lo : Nat} {V P : Nat → Prop} {w w1 w2 : World}
    (h1 : Frame lo V P w w1) (h2 : Frame lo V P w1 w2) : Frame lo V P w w2 := by
  intro x
  rcases h2 x with e2 | e2
  · rcases h1 x with e1 | e1
    · exact Or.inl (e2.trans e1)
    · exact Or.inr ⟨e1.1, by rw [e2]; exact e1.2⟩
  · exact Or.inr e2

theorem Frame.mono {lo : Nat} {V P Q : Nat → Prop} {w w1 : World}
    (h : Frame lo V P w w1) (hpq : ∀ x, P x → Q x) : Frame lo V Q w w1 := by
  intro x
  rcases h x with e | ⟨e1 | e1, e2⟩
  · exact Or.inl e
  · exact Or.inr ⟨Or.inl e1, e2⟩
  · exact Or.inr ⟨Or.inr (hpq x e1), e2⟩

theorem Frame.of_mem_eq {lo : Nat} {V P : Nat → Prop} {w w1 : World} (h : w1.mem = w.mem) :
    Frame lo V P w w1 := fun x => Or.inl (by rw [h])

/-- The values of the cells stay in `V` across a frame. -/
theorem Frame.values {lo : Nat} {V P : Nat → Prop} {w w1 : World}
    (h : Frame lo V P w w1) (hV : ∀ y, V (w.mem y)) : ∀ y, V (w1.mem y) := by
  intro y
  rcases h y with e | e
  · rw [e]; exact hV y
  · exact e.2

theorem OracleUse.oracle_refl (w : World) (ret : Int) : OracleUse w w ret :=
  ⟨[], rfl, fun h => absurd h (List.not_mem_nil _)⟩

/-- Two calls in sequence, the first of which went through no failure. -/
theorem OracleUse.oracle_trans {w w1 w2 : World} {r1 r2 : Int}
    (h1 : OracleUse w w1 r1) (hr : r1 ≠ -ENOMEM) (h2 : OracleUse w1 w2 r2) :
    OracleUse w w2 r2 := by
  obtain ⟨u1, e1, f1⟩ := h1
  obtain ⟨u2, e2, f2⟩ := h2
  refine ⟨u1 ++ u2, by rw [e1, e2, List.append_assoc], ?_⟩
  intro hf
  rcases List.mem_append.1 hf with h | h
  · exact absurd (f1 h) hr
  · exact f2 h

theorem OracleUse.of_eq {w w1 : World} (ret : Int) (h : w1.oracle = w.oracle) :
    OracleUse w w1 ret :=
  ⟨[], by rw [h]; rfl, fun h => absurd h (List.not_mem_nil _)⟩

theorem OracleUse.ret {w w1 : World} {r : Int} (h : OracleUse w w1 r) (r2 : Int)
    (hr : r = -ENOMEM → r2 = -ENOMEM) : OracleUse w w1 r2 := by
  obtain ⟨u, e, f⟩ := h
  exact ⟨u, e, fun hf => hr (f hf)⟩

/-- The two outcomes of `calloc`. -/
theorem calloc_cases (w : World) (size : Nat) :
    (calloc w size = (0, { w with oracle := w.oracle.tail }) ∧ w.oracle.head? = some false) ∨
    (calloc w size = (w.brk,
      { w with
        mem := fun x => if w.brk ≤ x ∧ x < w.brk + size then 0 else w.mem x,
        brk := w.brk + (size + 15) / 16 * 16,
        oracle := w.oracle.tail }) ∧ w.oracle.head? ≠ some false) := by
  unfold calloc
  cases ho : w.oracle with
  | nil => exact Or.inr ⟨rfl, by simp⟩
  | cons b rest =>
    cases b
    · exact Or.inl ⟨rfl, rfl⟩
    · exact Or.inr ⟨rfl, by simp⟩

theorem oracle_tail_use (l : List Bool) (ret : Int) (h : l.head? = some false → ret = -ENOMEM) :
    ∃ used, l = used ++ l.tail ∧ (false ∈ used → ret = -ENOMEM) := by
  cases l with
  | nil => exact ⟨[], rfl, fun h => absurd h (List.not_mem_nil _)⟩
  | cons b rest =>
    refine ⟨[b], rfl, ?_⟩
    intro hf
    have : b = false := by
      rcases List.mem_singleton.1 hf with e
      exact e.symm
    subst this
    exact h rfl

/-- The two outcomes of `rcuja_shadow_set`. -/
theorem rcuja_shadow_set_cases (w : World) (new_node inherit : Nat) :
    (rcuja_shadow_set w new_node inherit = (0, { w with oracle := w.oracle.tail })) ∨
    (rcuja_shadow_set w new_node inherit = (new_node,
      { w with
        ht := fun x => if x = new_node then some ⟨0, 0⟩ else w.ht x,
        oracle := w.oracle.tail }) ∧ w.oracle.head? ≠ some false ∧ w.ht new_node = none) := by
  unfold rcuja_shadow_set
  cases ho : w.oracle with
  | nil =>
    cases hh : w.ht new_node with
    | none => exact Or.inr ⟨by simp, by simp, rfl⟩
    | some s => exact Or.inl (by simp)
  | cons b rest =>
    cases b
    · exact Or.inl rfl
    · cases hh : w.ht new_node with
      | none => exact Or.inr ⟨by simp, by simp, rfl⟩
      | some s => exact Or.inl (by simp)

/-- The two outcomes of `rcuja_shadow_clear`. -/
theorem rcuja_shadow_clear_cases (w : World) (node sh flags : Nat) :
    (rcuja_shadow_clear w node sh flags = (-ENOENT, w) ∧ w.ht node = none) ∨
    (∃ w1, rcuja_shadow_clear w node sh flags = (0, w1) ∧ w.ht node ≠ none ∧
      w1.mem = w.mem ∧ w1.brk = w.brk ∧ w1.oracle = w.oracle ∧ w1.root = w.root ∧
      w1.tree_depth = w.tree_depth ∧ w1.key_max = w.key_max ∧
      w1.nr_fallback = w.nr_fallback ∧
      w1.ht = fun x => if x = node then none else w.ht x) := by
  unfold rcuja_shadow_clear
  cases hh : w.ht node with
  | none => exact Or.inl ⟨rfl, rfl⟩
  | some s =>
    by_cases hf : flags &&& RCUJA_SHADOW_CLEAR_FREE_NODE ≠ 0
    · exact Or.inr ⟨free { w with ht := fun x => if x = node then none else w.ht x } node,
        by simp only []; rw [if_pos hf], by simp, rfl, rfl, rfl, rfl, rfl, rfl, rfl, rfl⟩
    · exact Or.inr ⟨{ w with ht := fun x => if x = node then none else w.ht x },
        by simp only []; rw [if_neg hf], by simp, rfl, rfl, rfl, rfl, rfl, rfl, rfl, rfl⟩

/-! ## Cells written by `_ja_node_set_nth` -/

/-- The state after a call of `_ja_node_set_nth`. -/
theorem set_nth_post (A : Arch) (type : cds_ja_type) (w w1 : World)
    (node sh n child : Nat) (r : Int)
    (h : _ja_node_set_nth A type w node sh n child = Res.ok (r, w1)) :
    (r ≠ 0 ∧ w1 = w) ∨
    (r = 0 ∧ ∃ s, w.ht sh = some s ∧
      ((∃ base, ((type.type_class = RCU_JA_LINEAR ∧ base = node) ∨
            (type.type_class = RCU_JA_POOL ∧ base = pool_of type node n)) ∧
          w.mem base < type.max_linear_child ∧
          w1 = (((w.store (linear_slot A type base (w.mem base)) child).store
                  (base + 1 + w.mem base) n).store base ((w.mem base + 1) % 256)).inc_nr_child
                sh s) ∨
       (type.type_class = RCU_JA_PIGEON ∧
          w1 = (w.store (node + n * sizeof_ptr A) child).inc_nr_child sh s))) := by
  by_cases hr : r = 0
  · subst hr
    right
    refine ⟨rfl, ?_⟩
    unfold _ja_node_set_nth at h
    cases hc : type.type_class <;> simp only [hc] at h
    · rcases ja_linear_node_set_nth_inv A type w w1 node sh n child 0 h with
        ⟨_, _, ⟨e, _⟩ | ⟨e, _⟩ | ⟨_, _, hlt, _, s, hs, hw⟩⟩
      · exact absurd e (by decide)
      · exact absurd e (by decide)
      · exact ⟨s, hs, Or.inl ⟨node, Or.inl ⟨rfl, rfl⟩, hlt, hw⟩⟩
    · rw [ja_pool_node_set_nth_eq A type w node sh n child hc] at h
      rcases ja_linear_node_set_nth_inv A type w w1 _ sh n child 0 h with
        ⟨_, _, ⟨e, _⟩ | ⟨e, _⟩ | ⟨_, _, hlt, _, s, hs, hw⟩⟩
      · exact absurd e (by decide)
      · exact absurd e (by decide)
      · exact ⟨s, hs, Or.inl ⟨_, Or.inr ⟨rfl, rfl⟩, hlt, hw⟩⟩
    · rcases ja_pigeon_node_set_nth_inv A type w w1 node sh n child 0 h with
        ⟨_, ⟨e, _⟩ | ⟨_, _, s, hs, hw⟩⟩
      · exact absurd e (by decide)
      · exact ⟨s, hs, Or.inr ⟨rfl, hw⟩⟩
    all_goals first
      | (simp at h; done)
      | (have h' : (Res.ok (-ENOSPC, w) : Res (Int × World)) = Res.ok (0, w1) := h
         injection h' with h'
         injection h' with h' _
         exact absurd h' (by decide))
  · exact Or.inl ⟨hr, _ja_node_set_nth_nonzero A type w w1 node sh n child r h hr⟩

/-- What `_ja_node_set_nth` keeps: everything but cells and the child count of the
shadow. -/
theorem set_nth_fields (A : Arch) (type : cds_ja_type) (w w1 : World)
    (node sh n child : Nat) (r : Int)
    (h : _ja_node_set_nth A type w node sh n child = Res.ok (r, w1)) :
    w1.brk = w.brk ∧ w1.oracle = w.oracle ∧ w1.root = w.root ∧
    w1.tree_depth = w.tree_depth ∧ w1.key_max = w.key_max ∧
    w1.nr_fallback = w.nr_fallback ∧ w1.freed = w.freed ∧
    (∀ x, x ≠ sh → w1.ht x = w.ht x) ∧
    (∀ s, w.ht sh = some s → ∃ s1, w1.ht sh = some s1 ∧
      s1.fallback_removal_count = s.fallback_removal_count ∧
      (r ≠ 0 → s1.nr_child = s.nr_child) ∧ (r = 0 → s1.nr_child = s.nr_child + 1)) := by
  rcases set_nth_post A type w w1 node sh n child r h with ⟨hr, e⟩ | ⟨hr, s, hs, hw⟩
  · subst e
    exact ⟨rfl, rfl, rfl, rfl, rfl, rfl, rfl, fun _ _ => rfl,
      fun s hs => ⟨s, hs, rfl, fun _ => rfl, fun h0 => absurd h0 hr⟩⟩
  · have key : ∀ w' : World, w1 = w'.inc_nr_child sh s → w'.brk = w.brk →
        w'.oracle = w.oracle → w'.root = w.root → w'.tree_depth = w.tree_depth →
        w'.key_max = w.key_max → w'.nr_fallback = w.nr_fallback → w'.freed = w.freed →
        w'.ht = w.ht →
        w1.brk = w.brk ∧ w1.oracle = w.oracle ∧ w1.root = w.root ∧
        w1.tree_depth = w.tree_depth ∧ w1.key_max = w.key_max ∧
        w1.nr_fallback = w.nr_fallback ∧ w1.freed = w.freed ∧
        (∀ x, x ≠ sh → w1.ht x = w.ht x) ∧
        (∀ s, w.ht sh = some s → ∃ s1, w1.ht sh = some s1 ∧
          s1.fallback_removal_count = s.fallback_removal_count ∧
          (r ≠ 0 → s1.nr_child = s.nr_child) ∧ (r = 0 → s1.nr_child = s.nr_child + 1)) := by
      intro w' e h1 h2 h3 h4 h5 h6 h7 h8
      subst e
      refine ⟨h1, h2, h3, h4, h5, h6, h7, ?_, ?_⟩
      · intro x hx
        simp [World.inc_nr_child, hx, h8]
      · intro s' hs'
        rw [hs] at hs'
        injection hs' with hs'
        subst hs'
        exact ⟨⟨s.nr_child + 1, s.fallback_removal_count⟩, by simp [World.inc_nr_child],
          rfl, fun h0 => absurd hr h0, fun _ => rfl⟩
    rcases hw with ⟨base, _, _, hw⟩ | ⟨_, hw⟩
    · exact key _ hw rfl rfl rfl rfl rfl rfl rfl rfl
    · exact key _ hw rfl rfl rfl rfl rfl rfl rfl rfl

theorem set_nth_kept (A : Arch) (type : cds_ja_type) (w w1 : World)
    (node sh n child : Nat) (r : Int)
    (h : _ja_node_set_nth A type w node sh n child = Res.ok (r, w1)) : Kept w w1 := by
  obtain ⟨h1, _, h3, h4, h5, _⟩ := set_nth_fields A type w w1 node sh n child r h
  exact ⟨h3, h4, h5, by rw [h1], fun h => by rw [h1]; exact h⟩

theorem catalog_coarse (A : Arch) : ∀ t ∈ ja_types A,
    t.max_linear_child ≤ 28 ∧ t.nr_pool_order ≤ 8 ∧
    2 ^ t.nr_pool_order * 2 ^ t.pool_size_order ≤ 1024 ∧ t.order ≤ 11 ∧
    (t.type_class = RCU_JA_PIGEON → 256 * sizeof_ptr A ≤ 2 ^ t.order) := by
  cases A <;> decide

/-- The pointer array of a linear node starts within 8 bytes after the key bytes,
or wraps around. -/
theorem align_ptr_size_cases (A : Arch) (p : Nat) (hp : p < 2 ^ CAA_BITS_PER_LONG A + 2048) :
    (p ≤ align_ptr_size A p ∧ align_ptr_size A p < p + 8) ∨
      align_ptr_size A p + 2 ^ CAA_BITS_PER_LONG A ≤ p + 7 := by
  by_cases h : p + sizeof_ptr A ≤ 2 ^ CAA_BITS_PER_LONG A
  · have := align_ptr_size_ge A p h
    have := sizeof_ptr_le A
    left; omega
  · right
    have h1 : align_ptr_size A p ≤ (p + (sizeof_ptr A - 1)) % 2 ^ CAA_BITS_PER_LONG A := by
      unfold align_ptr_size JA_ALIGN JA_ALIGN_MASK
      exact Nat.and_le_left
    have h2 := sizeof_ptr_le A
    have h3 := sizeof_ptr_pos A
    have hb : 4096 ≤ 2 ^ CAA_BITS_PER_LONG A := by cases A <;> decide
    obtain ⟨M, hM⟩ : ∃ M, M = 2 ^ CAA_BITS_PER_LONG A := ⟨_, rfl⟩
    rw [← hM] at h h1 hb hp ⊢
    have h4 : (p + (sizeof_ptr A - 1)) % M = p + (sizeof_ptr A - 1) - M := by
      rw [Nat.mod_eq_sub_mod (by omega), Nat.mod_eq_of_lt (by omega)]
    omega

/-- The cells of a linear node (or pool) at `base` that an insertion writes are
near `base`. -/
theorem linear_cells_near (A : Arch) (type : cds_ja_type) (node base cnt off : Nat)
    (hC : type.max_linear_child ≤ 28) (hcnt : cnt < type.max_linear_child)
    (hnode : node < 2 ^ CAA_BITS_PER_LONG A) (hb : base = node + off) (hoff : off < 1024) :
    near node base ∧ near node (base + 1 + cnt) ∧ near node (linear_slot A type base cnt) := by
  have hp := sizeof_ptr_le A
  have hm : cnt * sizeof_ptr A ≤ 27 * 8 := Nat.mul_le_mul (by omega) hp
  refine ⟨Or.inl (by omega), Or.inl (by omega), ?_⟩
  unfold linear_slot
  have hal := align_ptr_size_cases A (base + 1 + type.max_linear_child) (by omega)
  obtain ⟨M, hM⟩ : ∃ M, M = 2 ^ CAA_BITS_PER_LONG A := ⟨_, rfl⟩
  rw [← hM] at hal hnode
  rcases hal with h | h
  · exact Or.inl (by omega)
  · exact Or.inr (by omega)

/-- The cells that a call of `_ja_node_set_nth` on the node at `node` writes are
near `node`; they receive the child, the key byte or a count. -/
theorem set_nth_near (A : Arch) (type : cds_ja_type) (w w1 : World)
    (node sh n child : Nat) (r : Int) (hT : type ∈ ja_types A)
    (hnode : node < 2 ^ CAA_BITS_PER_LONG A) (hn : n < 256)
    (h : _ja_node_set_nth A type w node sh n child = Res.ok (r, w1)) :
    ∀ x, w1.mem x = w.mem x ∨ (near node x ∧ (w1.mem x = child ∨ w1.mem x < 256)) := by
  obtain ⟨hC, hnpo, hpool, _, _⟩ := catalog_coarse A type hT
  rcases set_nth_post A type w w1 node sh n child r h with ⟨_, e⟩ | ⟨_, s, _, hw⟩
  · subst e; exact fun _ => Or.inl rfl
  · rcases hw with ⟨base, hbase, hlt, hw⟩ | ⟨_, hw⟩
    · have hoff : ∃ off, base = node + off ∧ off < 1024 := by
        rcases hbase with ⟨_, e⟩ | ⟨_, e⟩
        · exact ⟨0, by omega, by omega⟩
        · obtain ⟨k, hk, e2⟩ := pool_of_eq type node n hn hnpo
          refine ⟨k * 2 ^ type.pool_size_order, by rw [e, e2], ?_⟩
          have h1 : (k + 1) * 2 ^ type.pool_size_order ≤
              2 ^ type.nr_pool_order * 2 ^ type.pool_size_order :=
            Nat.mul_le_mul_right _ (Nat.succ_le_of_lt hk)
          rw [Nat.succ_mul] at h1
          have h2 : 0 < 2 ^ type.pool_size_order := Nat.two_pow_pos _
          omega
      obtain ⟨off, hb, hoff⟩ := hoff
      obtain ⟨n1, n2, n3⟩ := linear_cells_near A type node base (w.mem base) off hC hlt hnode hb hoff
      intro x
      rw [hw]
      simp only [World.inc_nr_child_mem, World.store_mem]
      by_cases e1 : x = base
      · right; rw [if_pos e1]
        exact ⟨e1 ▸ n1, Or.inr (Nat.mod_lt _ (by decide))⟩
      · rw [if_neg e1]
        by_cases e2 : x = base + 1 + w.mem base
        · right; rw [if_pos e2]
          exact ⟨e2 ▸ n2, Or.inr hn⟩
        · rw [if_neg e2]
          by_cases e3 : x = linear_slot A type base (w.mem base)
          · right; rw [if_pos e3]
            exact ⟨e3 ▸ n3, Or.inl rfl⟩
          · rw [if_neg e3]; exact Or.inl rfl
    · intro x
      rw [hw]
      simp only [World.inc_nr_child_mem, World.store_mem]
      by_cases e1 : x = node + n * sizeof_ptr A
      · right; rw [if_pos e1]
        have hp := sizeof_ptr_le A
        have : n * sizeof_ptr A ≤ 255 * 8 := Nat.mul_le_mul (by omega) hp
        exact ⟨Or.inl (by omega), Or.inl rfl⟩
      · rw [if_neg e1]; exact Or.inl rfl

/-- On a node that is aligned and lies in the address space, the cells that
`_ja_node_set_nth` writes are cells of the node. -/
theorem set_nth_inside (A : Arch) (type : cds_ja_type) (w w1 : World)
    (node sh n child : Nat) (r : Int) (hT : type ∈ ja_types A)
    (ha : node % 8 = 0) (hfit : node + 2 ^ type.order ≤ 2 ^ CAA_BITS_PER_LONG A)
    (hn : n < 256)
    (h : _ja_node_set_nth A type w node sh n child = Res.ok (r, w1)) :
    ∀ x, w1.mem x = w.mem x ∨
      ((node ≤ x ∧ x < node + 2 ^ type.order) ∧ (w1.mem x = child ∨ w1.mem x < 256)) := by
  obtain ⟨hC, hnpo, hpool, _, hpig⟩ := catalog_coarse A type hT
  obtain ⟨_, hlin, hpl⟩ := catalog_layout A type hT
  rcases set_nth_post A type w w1 node sh n child r h with ⟨_, e⟩ | ⟨_, s, _, hw⟩
  · subst e; exact fun _ => Or.inl rfl
  · rcases hw with ⟨base, hbase, hlt, hw⟩ | ⟨hc, hw⟩
    · have hb : base % 8 = 0 ∧ node ≤ base ∧ 0 < type.max_linear_child ∧
          base + linear_extent A type ≤ node + 2 ^ type.order := by
        rcases hbase with ⟨hc, e⟩ | ⟨hc, e⟩
        · obtain ⟨h1, h2⟩ := hlin hc
          subst e
          exact ⟨ha, Nat.le_refl _, h1, by omega⟩
        · obtain ⟨h1, _, hE, hO, hS8⟩ := hpl hc
          obtain ⟨k, hk, e2⟩ := pool_of_eq type node n hn hnpo
          have h3 : (k + 1) * 2 ^ type.pool_size_order ≤
              2 ^ type.nr_pool_order * 2 ^ type.pool_size_order :=
            Nat.mul_le_mul_right _ (Nat.succ_le_of_lt hk)
          rw [Nat.succ_mul] at h3
          have h4 : (k * 2 ^ type.pool_size_order) % 8 = 0 := by
            rw [Nat.mul_mod, hS8]; simp
          rw [e, e2]
          exact ⟨by omega, by omega, h1, by omega⟩
      obtain ⟨hb8, hge, hC1, hext⟩ := hb
      have hfit2 : base + linear_extent A type ≤ 2 ^ CAA_BITS_PER_LONG A := by omega
      have s1 := linear_slot_ge A type base (w.mem base) hb8 hC1 hfit2
      have s2 := linear_slot_lt_extent A type base (w.mem base) hb8 hC1 hfit2 hlt
      intro x
      rw [hw]
      simp only [World.inc_nr_child_mem, World.store_mem]
      by_cases e1 : x = base
      · right; rw [if_pos e1]
        exact ⟨by omega, Or.inr (Nat.mod_lt _ (by decide))⟩
      · rw [if_neg e1]
        by_cases e2 : x = base + 1 + w.mem base
        · right; rw [if_pos e2]
          exact ⟨by omega, Or.inr hn⟩
        · rw [if_neg e2]
          by_cases e3 : x = linear_slot A type base (w.mem base)
          · right; rw [if_pos e3]
            exact ⟨by omega, Or.inl rfl⟩
          · rw [if_neg e3]; exact Or.inl rfl
    · intro x
      rw [hw]
      simp only [World.inc_nr_child_mem, World.store_mem]
      by_cases e1 : x = node + n * sizeof_ptr A
      · right; rw [if_pos e1]
        have hp := sizeof_ptr_pos A
        have : n * sizeof_ptr A + sizeof_ptr A ≤ 256 * sizeof_ptr A := by
          have := Nat.mul_le_mul_right (sizeof_ptr A) (Nat.succ_le_of_lt hn)
          rw [Nat.succ_mul] at this
          exact this
        have := hpig hc
        exact ⟨by omega, Or.inl rfl⟩
      · rw [if_neg e1]; exact Or.inl rfl

/-! ## The copy loops and the passes of `ja_node_recompact_add` -/

theorem ja_linear_node_get_ith_pos_inv (A : Arch) (type : cds_ja_type) (w : World)
    (node i v iter : Nat)
    (h : ja_linear_node_get_ith_pos A type w node i = Res.ok (v, iter)) :
    v < 256 ∧ ∃ a, w.mem a = iter := by
  unfold ja_linear_node_get_ith_pos ja_linear_node_get_nr_child at h
  simp only [Res.bind_eq_ok, assert_eq_ok, Res.pure_eq] at h
  obtain ⟨_, _, _, _, _, _, h⟩ := h
  injection h with h
  injection h with hv hi
  exact ⟨hv ▸ Nat.mod_lt _ (by decide), _, hi⟩

/-- A property of the state that every successful insertion into the new node
keeps is kept by the copy of the children of one linear node (or pool). -/
theorem recompact_copy_linear_ind (A : Arch) (old_type new_type : cds_ja_type)
    (old_node new_node new_sh : Nat) (Inv : World → Prop)
    (hstep : ∀ w w1 v iter, Inv w → v < 256 → (∃ a, w.mem a = iter) →
      _ja_node_set_nth A new_type w new_node new_sh v iter = Res.ok (0, w1) → Inv w1) :
    ∀ todo i w e,
      recompact_copy_linear A old_type new_type old_node new_node new_sh todo i w = Res.ok e →
      Inv w → Inv e.world ∧ (∀ w1, e = CopyEnd.toosmall w1 → new_type.type_class = RCU_JA_POOL) := by
  intro todo
  induction todo with
  | zero =>
    intro i w e h hi
    rw [recompact_copy_linear] at h
    injection h with h
    subst h
    exact ⟨hi, fun _ h => by cases h⟩
  | succ todo ih =>
    intro i w e h hi
    rw [recompact_copy_linear] at h
    rw [Res.bind_eq_ok] at h
    obtain ⟨⟨v, iter⟩, hg, h⟩ := h
    obtain ⟨hv, hit⟩ := ja_linear_node_get_ith_pos_inv A old_type w old_node i v iter hg
    simp only at h
    by_cases hz : iter = 0
    · rw [if_pos hz] at h
      exact ih (i + 1) w e h hi
    · rw [if_neg hz, Res.bind_eq_ok] at h
      obtain ⟨⟨ret, w1⟩, hs, h⟩ := h
      simp only at h
      by_cases hp : new_type.type_class = RCU_JA_POOL ∧ ret ≠ 0
      · rw [if_pos hp] at h
        injection h with h
        subst h
        have e := _ja_node_set_nth_nonzero A new_type w w1 new_node new_sh v iter ret hs hp.2
        subst e
        exact ⟨hi, fun _ _ => hp.1⟩
      · rw [if_neg hp, Res.bind_eq_ok] at h
        obtain ⟨_, ha, h⟩ := h
        rw [assert_eq_ok] at ha
        subst ha
        exact ih (i + 1) w1 e h (hstep w w1 v iter hi hv hit hs)

/-- The same for the copy of the children of all the pools of a pool node. -/
theorem recompact_copy_pools_ind (A : Arch) (old_type new_type : cds_ja_type)
    (old_node new_node new_sh : Nat) (Inv : World → Prop)
    (hstep : ∀ w w1 v iter, Inv w → v < 256 → (∃ a, w.mem a = iter) →
      _ja_node_set_nth A new_type w new_node new_sh v iter = Res.ok (0, w1) → Inv w1) :
    ∀ todo pool_nr w e,
      recompact_copy_pools A old_type new_type old_node new_node new_sh todo pool_nr w =
        Res.ok e →
      Inv w → Inv e.world ∧ (∀ w1, e = CopyEnd.toosmall w1 → new_type.type_class = RCU_JA_POOL) := by
  intro todo
  induction todo with
  | zero =>
    intro i w e h hi
    rw [recompact_copy_pools] at h
    injection h with h
    subst h
    exact ⟨hi, fun _ h => by cases h⟩
  | succ todo ih =>
    intro i w e h hi
    rw [recompact_copy_pools] at h
    simp only [Res.bind_eq_ok] at h
    obtain ⟨pool, _, nr_child, _, r, hr, h⟩ := h
    have h1 := recompact_copy_linear_ind A old_type new_type pool new_node new_sh Inv hstep
      nr_child 0 w r hr hi
    cases r with
    | toosmall w1 =>
      simp only [Res.pure_eq] at h
      injection h with h
      subst h
      exact h1
    | finished w1 =>
      exact ih (i + 1) w1 e h h1.1

/-- The steps of one pass of `ja_node_recompact_add` that returns. -/
theorem ja_node_recompact_add_pass_inv (A : Arch) (w : World) (fallback : Bool)
    (new_type_index : Nat) (old_type : cds_ja_type)
    (old_node shadow_node old_node_flag n child : Nat) (r : PassEnd)
    (h : ja_node_recompact_add_pass A w fallback new_type_index old_type old_node shadow_node
      old_node_flag n child = Res.ok r) :
    ∃ new_type, ja_type_at A new_type_index = Res.ok new_type ∧
    ∃ nd wa, calloc w (1 <<< new_type.order) = (nd, wa) ∧
    ((nd = 0 ∧ r = PassEnd.returned (-ENOMEM) old_node_flag wa) ∨
     (nd ≠ 0 ∧ new_type_index < 8 ∧
      ∃ ns wb, rcuja_shadow_set wa nd shadow_node = (ns, wb) ∧
      ((ns = 0 ∧ r = PassEnd.returned (-ENOMEM) old_node_flag (free wb nd)) ∨
       (ns ≠ 0 ∧
        ∃ w3, (if fallback then
            shadow_set_fallback_removal_count wb ns JA_FALLBACK_REMOVAL_COUNT
          else pure wb) = Res.ok w3 ∧
        old_type.type_class ≠ RCU_JA_PIGEON ∧
        ∃ e : CopyEnd,
          (∀ Inv : World → Prop,
            (∀ w' w1 v iter, Inv w' → v < 256 → (∃ a, w'.mem a = iter) →
              _ja_node_set_nth A new_type w' nd ns v iter = Res.ok (0, w1) → Inv w1) →
            Inv w3 → Inv e.world) ∧
          ((∃ w4, e = CopyEnd.toosmall w4 ∧ new_type.type_class = RCU_JA_POOL ∧
              r = PassEnd.toosmall nd ns w4) ∨
           (∃ w4 w5, e = CopyEnd.finished w4 ∧
              _ja_node_set_nth A new_type w4 nd ns n child = Res.ok (0, w5) ∧
              ((old_node = 0 ∧ r = PassEnd.returned 0 (nd ||| new_type_index) w5) ∨
               (old_node ≠ 0 ∧ ∃ w6,
                  rcuja_shadow_clear w5 old_node shadow_node RCUJA_SHADOW_CLEAR_FREE_NODE =
                    (0, w6) ∧
                  r = PassEnd.returned 0 (nd ||| new_type_index) w6)))))))) := by
  unfold ja_node_recompact_add_pass at h
  rw [Res.bind_eq_ok] at h
  obtain ⟨new_type, hT, h⟩ := h
  refine ⟨new_type, hT, ?_⟩
  unfold alloc_cds_ja_node at h
  cases hc : calloc w (1 <<< new_type.order) with
  | mk nd wa =>
  refine ⟨nd, wa, rfl, ?_⟩
  simp only [hc] at h
  by_cases hnd : nd = 0
  · rw [if_pos hnd] at h
    injection h with h
    exact Or.inl ⟨hnd, h.symm⟩
  · rw [if_neg hnd, Res.bind_eq_ok] at h
    obtain ⟨new_node_flag, hf, h⟩ := h
    have hidx : new_type_index < 8 ∧ new_node_flag = nd ||| new_type_index := by
      unfold ja_node_flag at hf
      simp only [Res.bind_eq_ok, assert_eq_ok, Res.pure_eq] at hf
      obtain ⟨_, h1, h2⟩ := hf
      injection h2 with h2
      exact ⟨by simpa [JA_TYPE_BITS] using h1, h2.symm⟩
    obtain ⟨hidx, hflag⟩ := hidx
    subst hflag
    refine Or.inr ⟨hnd, hidx, ?_⟩
    cases hs : rcuja_shadow_set wa nd shadow_node with
    | mk ns wb =>
    refine ⟨ns, wb, rfl, ?_⟩
    simp only [hs] at h
    by_cases hns : ns = 0
    · rw [if_pos hns] at h
      injection h with h
      exact Or.inl ⟨hns, h.symm⟩
    · rw [if_neg hns, Res.bind_eq_ok] at h
      obtain ⟨w3, h3, h⟩ := h
      rw [Res.bind_eq_ok] at h
      obtain ⟨_, hpig, h⟩ := h
      rw [assert_eq_ok] at hpig
      rw [Res.bind_eq_ok] at h
      obtain ⟨e, hcopy, h⟩ := h
      refine Or.inr ⟨hns, w3, h3, hpig, e, ?_, ?_⟩
      · intro Inv hstep hi
        cases hcl : old_type.type_class <;> simp only [hcl] at hcopy
        · simp only [Res.bind_eq_ok] at hcopy
          obtain ⟨nr, _, hcopy⟩ := hcopy
          exact (recompact_copy_linear_ind A old_type new_type old_node nd ns Inv hstep
            nr 0 w3 e hcopy hi).1
        · exact (recompact_copy_pools_ind A old_type new_type old_node nd ns Inv hstep
            _ 0 w3 e hcopy hi).1
        · exact absurd hcopy (by simp)
        · exact absurd hcopy (by simp)
        · injection hcopy with hcopy
          subst hcopy
          exact hi
      · cases e with
        | toosmall w4 =>
          left
          simp only [Res.pure_eq] at h
          injection h with h
          refine ⟨w4, rfl, ?_, h.symm⟩
          cases hcl : old_type.type_class <;> simp only [hcl] at hcopy
          · simp only [Res.bind_eq_ok] at hcopy
            obtain ⟨nr, _, hcopy⟩ := hcopy
            exact (recompact_copy_linear_ind A old_type new_type old_node nd ns
              (fun _ => True) (fun _ _ _ _ _ _ _ _ => trivial) nr 0 w3 _ hcopy trivial).2 w4 rfl
          · exact (recompact_copy_pools_ind A old_type new_type old_node nd ns
              (fun _ => True) (fun _ _ _ _ _ _ _ _ => trivial) _ 0 w3 _ hcopy trivial).2 w4 rfl
          · exact absurd hcopy (by simp)
          · exact absurd hcopy (by simp)
          · injection hcopy with hcopy
            cases hcopy
        | finished w4 =>
          right
          simp only [Res.bind_eq_ok] at h
          obtain ⟨⟨ret, w5⟩, hset, h⟩ := h
          simp only [Res.bind_eq_ok, assert_eq_ok] at h
          obtain ⟨_, hret, h⟩ := h
          subst hret
          refine ⟨w4, w5, rfl, hset, ?_⟩
          by_cases ho : old_node = 0
          · left
            simp only [ho, ne_eq, not_true, if_false, Res.pure_eq] at h
            injection h with h
            exact ⟨ho, h.symm⟩
          · right
            simp only [ne_eq, ho, not_false_eq_true, if_true] at h
            cases hcl : rcuja_shadow_clear w5 old_node shadow_node RCUJA_SHADOW_CLEAR_FREE_NODE with
            | mk ret2 w6 =>
            simp only [hcl, Res.bind_eq_ok, assert_eq_ok, Res.pure_eq] at h
            obtain ⟨_, hr2, h⟩ := h
            subst hr2
            injection h with h
            exact ⟨ho, w6, rfl, h.symm⟩

/-! ## Effects of the allocator and of the shadow table -/

theorem Same.same_refl (w : World) : Same w w := ⟨rfl, rfl, rfl, rfl, rfl, rfl⟩

theorem Same.same_trans {w w1 w2 : World} (h1 : Same w w1) (h2 : Same w1 w2) : Same w w2 :=
  ⟨h2.mem.trans h1.mem, h2.brk.trans h1.brk, h2.root.trans h1.root,
    h2.tree_depth.trans h1.tree_depth, h2.key_max.trans h1.key_max,
    h2.nr_fallback.trans h1.nr_fallback⟩

theorem Same.kept {w w1 : World} (h : Same w w1) : Kept w w1 :=
  ⟨h.root, h.tree_depth, h.key_max, by rw [h.brk], fun e => by rw [h.brk]; exact e⟩

theorem Same.frame {w w1 : World} (h : Same w w1) (lo : Nat) (V P : Nat → Prop) :
    Frame lo V P w w1 := Frame.of_mem_eq h.mem

theorem free_same (w : World) (p : Nat) : Same w (free w p) := ⟨rfl, rfl, rfl, rfl, rfl, rfl⟩

theorem calloc_eff (w wa : World) (size nd : Nat) (h : calloc w size = (nd, wa)) :
    Kept w wa ∧ wa.nr_fallback = w.nr_fallback ∧ wa.ht = w.ht ∧
    OracleUse w wa (if nd = 0 then -ENOMEM else 0) ∧
    (nd ≠ 0 → nd = w.brk ∧ w.brk + size ≤ wa.brk) ∧
    ∀ (lo : Nat) (V P : Nat → Prop), lo ≤ w.brk → V 0 → Frame lo V P w wa := by
  rcases calloc_cases w size with ⟨e, ho⟩ | ⟨e, ho⟩
  · rw [e] at h
    injection h with h1 h2
    subst h1; subst h2
    refine ⟨⟨rfl, rfl, rfl, Nat.le_refl _, fun h => h⟩, rfl, rfl, ?_, fun h => absurd rfl h,
      fun _ _ _ _ _ => Frame.of_mem_eq rfl⟩
    exact oracle_tail_use w.oracle _ (fun _ => rfl)
  · rw [e] at h
    injection h with h1 h2
    subst h1; subst h2
    have hsz : size ≤ (size + 15) / 16 * 16 := by omega
    refine ⟨⟨rfl, rfl, rfl, Nat.le_add_right _ _, fun h => ?_⟩, rfl, rfl, ?_,
      fun _ => ⟨rfl, by show w.brk + size ≤ w.brk + (size + 15) / 16 * 16; omega⟩, ?_⟩
    · show (w.brk + (size + 15) / 16 * 16) % 16 = 0
      omega
    · exact oracle_tail_use w.oracle _ (fun h => absurd h ho)
    · intro lo V P hlo hV0 x
      show (if w.brk ≤ x ∧ x < w.brk + size then 0 else w.mem x) = w.mem x ∨ _
      by_cases hx : w.brk ≤ x ∧ x < w.brk + size
      · right
        refine ⟨Or.inl (by omega), ?_⟩
        show V (if w.brk ≤ x ∧ x < w.brk + size then 0 else w.mem x)
        rw [if_pos hx]
        exact hV0
      · left
        rw [if_neg hx]

theorem rcuja_shadow_set_eff (w wb : World) (nd inherit ns : Nat)
    (h : rcuja_shadow_set w nd inherit = (ns, wb)) :
    Same w wb ∧ OracleUse w wb (if ns = 0 then -ENOMEM else 0) ∧
    (ns ≠ 0 → ns = nd ∧ w.ht nd = none ∧
      wb.ht = fun x => if x = nd then some ⟨0, 0⟩ else w.ht x) := by
  rcases rcuja_shadow_set_cases w nd inherit with e | ⟨e, ho, hn⟩
  · rw [e] at h
    injection h with h1 h2
    subst h1; subst h2
    exact ⟨⟨rfl, rfl, rfl, rfl, rfl, rfl⟩, oracle_tail_use w.oracle _ (fun _ => rfl),
      fun h => absurd rfl h⟩
  · rw [e] at h
    injection h with h1 h2
    subst h1; subst h2
    exact ⟨⟨rfl, rfl, rfl, rfl, rfl, rfl⟩, oracle_tail_use w.oracle _ (fun h => absurd h ho),
      fun _ => ⟨rfl, hn, rfl⟩⟩

theorem rcuja_shadow_clear_eff (w w1 : World) (node sh flags : Nat)
    (h : rcuja_shadow_clear w node sh flags = (0, w1)) :
    Same w w1 ∧ w1.oracle = w.oracle ∧ w.ht node ≠ none ∧
    w1.ht = fun x => if x = node then none else w.ht x := by
  rcases rcuja_shadow_clear_cases w node sh flags with ⟨e, _⟩ | ⟨w2, e, h1, h2, h3, h4, h5, h6,
    h7, h8, h9⟩
  · rw [e] at h
    injection h with h1 _
    exact absurd h1 (by decide)
  · rw [e] at h
    injection h with _ h0
    subst h0
    exact ⟨⟨h2, h3, h5, h6, h7, h8⟩, h4, h1, h9⟩

theorem shadow_set_fallback_removal_count_eff (w w1 : World) (sh v : Nat)
    (h : shadow_set_fallback_removal_count w sh v = Res.ok w1) :
    Same w w1 ∧ w1.oracle = w.oracle ∧
    ∃ s, w.ht sh = some s ∧
      w1.ht = fun x => if x = sh then some { s with fallback_removal_count := v } else w.ht x := by
  unfold shadow_set_fallback_removal_count at h
  cases hs : w.ht sh with
  | none => simp [hs] at h
  | some s =>
    simp only [hs] at h
    injection h with h
    subst h
    exact ⟨⟨rfl, rfl, rfl, rfl, rfl, rfl⟩, rfl, s, rfl, rfl⟩

theorem set_nth_oracle (A : Arch) (type : cds_ja_type) (w w1 : World)
    (node sh n child : Nat) (r : Int)
    (h : _ja_node_set_nth A type w node sh n child = Res.ok (r, w1)) :
    w1.oracle = w.oracle ∧ w1.nr_fallback = w.nr_fallback ∧ w1.brk = w.brk := by
  obtain ⟨h1, h2, _, _, _, h6, _⟩ := set_nth_fields A type w w1 node sh n child r h
  exact ⟨h2, h6, h1⟩

/-! ## Effect of one pass of `ja_node_recompact_add` -/

theorem OracleUse.enomem {w w1 w2 : World} {r1 r2 : Int}
    (h1 : OracleUse w w1 r1) (h2 : OracleUse w1 w2 r2) : OracleUse w w2 (-ENOMEM) := by
  obtain ⟨u1, e1, _⟩ := h1
  obtain ⟨u2, e2, _⟩ := h2
  exact ⟨u1 ++ u2, by rw [e1, e2, List.append_assoc], fun _ => rfl⟩

theorem OracleUse.same {w w1 w2 : World} {r : Int}
    (h1 : OracleUse w w1 r) (h2 : w2.oracle = w1.oracle) : OracleUse w w2 r := by
  obtain ⟨u1, e1, f1⟩ := h1
  exact ⟨u1, by rw [e1, h2], f1⟩

theorem set_nth_frame_fresh (A : Arch) (type : cds_ja_type) (w w1 : World)
    (nd sh n child : Nat) (r : Int) (lo : Nat) (V P : Nat → Prop)
    (hT : type ∈ ja_types A) (hlo : lo ≤ nd) (ha : nd % 8 = 0)
    (hfit : nd + 2 ^ type.order ≤ 2 ^ CAA_BITS_PER_LONG A) (hn : n < 256)
    (hsmall : ∀ v, v < 256 → V v) (hchild : V child)
    (h : _ja_node_set_nth A type w nd sh n child = Res.ok (r, w1)) : Frame lo V P w w1 := by
  intro x
  rcases set_nth_inside A type w w1 nd sh n child r hT ha hfit hn h x with e | ⟨e1, e2⟩
  · exact Or.inl e
  · refine Or.inr ⟨Or.inl (by omega), ?_⟩
    rcases e2 with e2 | e2
    · rw [e2]; exact hchild
    · exact hsmall _ e2

theorem set_nth_frame_near (A : Arch) (type : cds_ja_type) (w w1 : World)
    (node sh n child : Nat) (r : Int) (lo : Nat) (V : Nat → Prop)
    (hT : type ∈ ja_types A) (hnode : node < 2 ^ CAA_BITS_PER_LONG A) (hn : n < 256)
    (hsmall : ∀ v, v < 256 → V v) (hchild : V child)
    (h : _ja_node_set_nth A type w node sh n child = Res.ok (r, w1)) :
    Frame lo V (near node) w w1 := by
  intro x
  rcases set_nth_near A type w w1 node sh n child r hT hnode hn h x with e | ⟨e1, e2⟩
  · exact Or.inl e
  · refine Or.inr ⟨Or.inr e1, ?_⟩
    rcases e2 with e2 | e2
    · rw [e2]; exact hchild
    · exact hsmall _ e2

/-- What a pass of `ja_node_recompact_add` keeps. -/
theorem ja_node_recompact_add_pass_fields (A : Arch) (w : World) (fallback : Bool)
    (new_type_index : Nat) (old_type : cds_ja_type)
    (old_node shadow_node old_node_flag n child : Nat) (r : PassEnd)
    (h : ja_node_recompact_add_pass A w fallback new_type_index old_type old_node shadow_node
      old_node_flag n child = Res.ok r) :
    r.world.nr_fallback = w.nr_fallback ∧ Kept w r.world ∧ OracleUse w r.world r.ret := by
  obtain ⟨new_type, hT, nd, wa, hc, hcase⟩ := ja_node_recompact_add_pass_inv A w fallback
    new_type_index old_type old_node shadow_node old_node_flag n child r h
  obtain ⟨ka, na, _, oa, _, _⟩ := calloc_eff w wa _ nd hc
  rcases hcase with ⟨hnd, hr⟩ | ⟨hnd, _, ns, wb, hs, hcase⟩
  · subst hr
    rw [if_pos hnd] at oa
    exact ⟨na, ka, oa⟩
  · rw [if_neg hnd] at oa
    obtain ⟨sb, ob, _⟩ := rcuja_shadow_set_eff wa wb nd shadow_node ns hs
    rcases hcase with ⟨hns, hr⟩ | ⟨hns, w3, h3, _, e, hcopy, hcase⟩
    · subst hr
      exact ⟨(sb.nr_fallback).trans na, ka.kept_trans (sb.kept.kept_trans (free_same wb nd).kept),
        OracleUse.enomem oa (OracleUse.same ob rfl)⟩
    · rw [if_neg hns] at ob
      have s3 : Same wb w3 ∧ w3.oracle = wb.oracle := by
        cases fallback
        · simp only [Bool.false_eq_true, if_false, Res.pure_eq] at h3
          injection h3 with h3
          subst h3
          exact ⟨Same.same_refl _, rfl⟩
        · simp only [if_true] at h3
          obtain ⟨h1, h2, _⟩ := shadow_set_fallback_removal_count_eff wb w3 ns _ h3
          exact ⟨h1, h2⟩
      have o3 : OracleUse w w3 0 :=
        OracleUse.same (OracleUse.oracle_trans oa (by decide) ob) s3.2
      have k3 : Kept w w3 := ka.kept_trans (sb.kept.kept_trans s3.1.kept)
      have n3 : w3.nr_fallback = w.nr_fallback :=
        (s3.1.nr_fallback.trans sb.nr_fallback).trans na
      have hstep : ∀ (w' w1 : World) (v iter : Nat) (r0 : Int),
          (w'.nr_fallback = w.nr_fallback ∧ Kept w w' ∧ OracleUse w w' 0) →
          _ja_node_set_nth A new_type w' nd ns v iter = Res.ok (r0, w1) →
          (w1.nr_fallback = w.nr_fallback ∧ Kept w w1 ∧ OracleUse w w1 0) := by
        intro w' w1 v iter r0 hi hset
        obtain ⟨h1, h2, _⟩ := set_nth_oracle A new_type w' w1 nd ns v iter r0 hset
        exact ⟨h2.trans hi.1, hi.2.1.kept_trans (set_nth_kept A new_type w' w1 nd ns v iter r0 hset),
          OracleUse.same hi.2.2 h1⟩
      have he := hcopy (fun w' => w'.nr_fallback = w.nr_fallback ∧ Kept w w' ∧ OracleUse w w' 0)
        (fun w' w1 v iter hi _ _ hset => hstep w' w1 v iter 0 hi hset) ⟨n3, k3, o3⟩
      rcases hcase with ⟨w4, he4, _, hr⟩ | ⟨w4, w5, he4, hset, hcase⟩
      · subst hr; subst he4
        exact he
      · subst he4
        have h5 := hstep w4 w5 n child 0 he hset
        rcases hcase with ⟨_, hr⟩ | ⟨_, w6, hcl, hr⟩
        · subst hr
          exact h5
        · subst hr
          obtain ⟨s6, o6, _⟩ := rcuja_shadow_clear_eff w5 w6 old_node shadow_node _ hcl
          exact ⟨s6.nr_fallback.trans h5.1, h5.2.1.kept_trans s6.kept, OracleUse.same h5.2.2 o6⟩

/-- The cells that a pass of `ja_node_recompact_add` writes are those of the block
it allocates. -/
theorem ja_node_recompact_add_pass_frame (A : Arch) (w : World) (fallback : Bool)
    (new_type_index : Nat) (old_type : cds_ja_type)
    (old_node shadow_node old_node_flag n child : Nat) (r : PassEnd)
    (h : ja_node_recompact_add_pass A w fallback new_type_index old_type old_node shadow_node
      old_node_flag n child = Res.ok r)
    (lo B : Nat) (V P : Nat → Prop) (hlo : lo ≤ w.brk) (hB : r.world.brk ≤ B)
    (hal : w.brk % 16 = 0) (hVC : VClosed A lo B V) (hV : ∀ y, V (w.mem y))
    (hchild : V child) (hn : n < 256) :
    Frame lo V P w r.world := by
  obtain ⟨new_type, hT, nd, wa, hc, hcase⟩ := ja_node_recompact_add_pass_inv A w fallback
    new_type_index old_type old_node shadow_node old_node_flag n child r h
  obtain ⟨ka, _, _, _, hfresh, fa⟩ := calloc_eff w wa _ nd hc
  have fa := fa lo V P hlo (hVC.small 0 (by decide))
  rcases hcase with ⟨hnd, hr⟩ | ⟨hnd, _, ns, wb, hs, hcase⟩
  · subst hr
    exact fa
  · obtain ⟨sb, _, _⟩ := rcuja_shadow_set_eff wa wb nd shadow_node ns hs
    rcases hcase with ⟨hns, hr⟩ | ⟨hns, w3, h3, _, e, hcopy, hcase⟩
    · subst hr
      exact fa.frame_trans ((sb.same_trans (free_same wb nd)).frame lo V P)
    · have s3 : Same wb w3 := by
        cases fallback
        · simp only [Bool.false_eq_true, if_false, Res.pure_eq] at h3
          injection h3 with h3
          subst h3
          exact Same.same_refl _
        · simp only [if_true] at h3
          exact (shadow_set_fallback_removal_count_eff wb w3 ns _ h3).1
      have f3 : Frame lo V P w w3 := fa.frame_trans ((sb.same_trans s3).frame lo V P)
      have b3 : w3.brk = wa.brk := s3.brk.trans sb.brk
      obtain ⟨hnd1, hnd2⟩ := hfresh hnd
      have hTm := ja_type_at_mem A new_type_index new_type hT
      have hstep : ∀ (w' w1 : World) (v iter : Nat) (r0 : Int),
          (w'.brk = wa.brk ∧ (wa.brk ≤ B → Frame lo V P w w')) → v < 256 →
          ((∃ a, w'.mem a = iter) ∨ V iter) →
          _ja_node_set_nth A new_type w' nd ns v iter = Res.ok (r0, w1) →
          (w1.brk = wa.brk ∧ (wa.brk ≤ B → Frame lo V P w w1)) := by
        intro w' w1 v iter r0 hi hv hiter hset
        obtain ⟨_, _, h1⟩ := set_nth_oracle A new_type w' w1 nd ns v iter r0 hset
        refine ⟨h1.trans hi.1, fun hB' => (hi.2 hB').frame_trans ?_⟩
        have htop := hVC.top
        have h2 : (1 : Nat) <<< new_type.order = 2 ^ new_type.order := by
          rw [Nat.shiftLeft_eq, Nat.one_mul]
        rw [h2] at hnd2
        have hVi : V iter := by
          rcases hiter with ⟨a, ha⟩ | hv
          · rw [← ha]; exact (hi.2 hB').values hV a
          · exact hv
        exact set_nth_frame_fresh A new_type w' w1 nd ns v iter r0 lo V P hTm
          (by omega) (by omega) (by omega) hv hVC.small hVi hset
      have he := hcopy (fun w' => w'.brk = wa.brk ∧ (wa.brk ≤ B → Frame lo V P w w'))
        (fun w' w1 v iter hi hv hit hset => hstep w' w1 v iter 0 hi hv (Or.inl hit) hset)
        ⟨b3, fun _ => f3⟩
      rcases hcase with ⟨w4, he4, _, hr⟩ | ⟨w4, w5, he4, hset, hcase⟩
      · subst hr; subst he4
        exact he.2 (by rw [← he.1]; exact hB)
      · subst he4
        have h5 := hstep w4 w5 n child 0 he hn (Or.inr hchild) hset
        rcases hcase with ⟨_, hr⟩ | ⟨_, w6, hcl, hr⟩
        · subst hr
          exact h5.2 (by rw [← h5.1]; exact hB)
        · subst hr
          obtain ⟨s6, _, _⟩ := rcuja_shadow_clear_eff w5 w6 old_node shadow_node _ hcl
          have hb6 : wa.brk ≤ B := by rw [← h5.1, ← s6.brk]; exact hB
          exact (h5.2 hb6).frame_trans (s6.frame lo V P)

/-! ## The passes of `ja_node_recompact_add` -/

theorem ja_type_at_pigeon (A : Arch) (t : cds_ja_type)
    (h : ja_type_at A ((1 <<< JA_TYPE_BITS) - 1) = Res.ok t) :
    t.type_class = RCU_JA_PIGEON ∧ 256 * sizeof_ptr A ≤ 2 ^ t.order := by
  cases A
  · have e : ja_type_at Arch.bits32 ((1 <<< JA_TYPE_BITS) - 1) =
        Res.ok ⟨RCU_JA_PIGEON, 89, 256, 0, 10, 0, 0⟩ := by decide
    rw [e] at h
    injection h with h
    subst h
    exact ⟨rfl, by decide⟩
  · have e : ja_type_at Arch.bits64 ((1 <<< JA_TYPE_BITS) - 1) =
        Res.ok ⟨RCU_JA_PIGEON, 101, 256, 0, 11, 0, 0⟩ := by decide
    rw [e] at h
    injection h with h
    subst h
    exact ⟨rfl, by decide⟩

/-- A pass that targets the pigeon shape does not jump to `fallback_toosmall`. -/
theorem pigeon_pass_not_toosmall (A : Arch) (w : World) (fallback : Bool)
    (old_type : cds_ja_type) (old_node shadow_node old_node_flag n child : Nat)
    (nn ns : Nat) (w1 : World) :
    ja_node_recompact_add_pass A w fallback ((1 <<< JA_TYPE_BITS) - 1) old_type old_node
      shadow_node old_node_flag n child ≠ Res.ok (PassEnd.toosmall nn ns w1) := by
  intro h
  obtain ⟨new_type, hT, nd, wa, _, hcase⟩ := ja_node_recompact_add_pass_inv A w fallback _
    old_type old_node shadow_node old_node_flag n child _ h
  have hp := (ja_type_at_pigeon A new_type hT).1
  rcases hcase with ⟨_, hr⟩ | ⟨_, _, _, _, _, hcase⟩
  · cases hr
  · rcases hcase with ⟨_, hr⟩ | ⟨_, _, _, _, _, _, hcase⟩
    · cases hr
    · rcases hcase with ⟨_, _, hpool, _⟩ | ⟨_, _, _, _, hcase⟩
      · rw [hp] at hpool
        cases hpool
      · rcases hcase with ⟨_, hr⟩ | ⟨_, _, _, hr⟩ <;> cases hr

/-- The passes of a call of `ja_node_recompact_add` that returns: one pass, or a
pass that jumps to `fallback_toosmall` followed by one pass that targets the
pigeon shape. -/
theorem ja_node_recompact_add_inv (A : Arch) (w : World) (old_type_index : Nat)
    (old_type : cds_ja_type) (old_node shadow_node old_node_flag n child : Nat)
    (ret : Int) (flag : Nat) (w1 : World)
    (h : ja_node_recompact_add A w old_type_index old_type old_node shadow_node old_node_flag
      n child = Res.ok (ret, flag, w1)) :
    ja_node_recompact_add_pass A w false
        (if shadow_node = 0 ∨ old_type_index = NODE_INDEX_NULL then 0 else old_type_index + 1)
        old_type old_node shadow_node old_node_flag n child =
      Res.ok (PassEnd.returned ret flag w1) ∨
    ∃ nn ns w' w2,
      ja_node_recompact_add_pass A w false
          (if shadow_node = 0 ∨ old_type_index = NODE_INDEX_NULL then 0 else old_type_index + 1)
          old_type old_node shadow_node old_node_flag n child =
        Res.ok (PassEnd.toosmall nn ns w') ∧
      rcuja_shadow_clear w' nn ns RCUJA_SHADOW_CLEAR_FREE_NODE = (0, w2) ∧
      ja_node_recompact_add_pass A { w2 with nr_fallback := w2.nr_fallback + 1 } true
          ((1 <<< JA_TYPE_BITS) - 1) old_type old_node shadow_node old_node_flag n child =
        Res.ok (PassEnd.returned ret flag w1) := by
  unfold ja_node_recompact_add at h
  rw [ja_node_recompact_add_loop, Res.bind_eq_ok] at h
  obtain ⟨r, hp, h⟩ := h
  cases r with
  | returned ret' flag' w' =>
    simp only [Res.pure_eq] at h
    injection h with h
    injection h with h1 h
    injection h with h2 h3
    subst h1; subst h2; subst h3
    exact Or.inl hp
  | toosmall nn ns w' =>
    right
    simp only at h
    cases hcl : rcuja_shadow_clear w' nn ns RCUJA_SHADOW_CLEAR_FREE_NODE with
    | mk r2 w2 =>
    simp only [hcl, Res.bind_eq_ok, assert_eq_ok] at h
    obtain ⟨_, hr2, h⟩ := h
    subst hr2
    rw [ja_node_recompact_add_loop, Res.bind_eq_ok] at h
    obtain ⟨r, hp2, h⟩ := h
    cases r with
    | returned ret' flag' w'' =>
      simp only [Res.pure_eq] at h
      injection h with h
      injection h with h1 h
      injection h with h2 h3
      subst h1; subst h2; subst h3
      exact ⟨nn, ns, w', w2, hp, hcl, hp2⟩
    | toosmall nn2 ns2 w'' =>
      exact absurd hp2 (pigeon_pass_not_toosmall A _ true old_type old_node shadow_node
        old_node_flag n child nn2 ns2 w'')

/-! ## No pass runs out of iterations -/

theorem Res.bind_eq_nofuel {α β : Type} (x : Res α) (f : α → Res β) :
    (x >>= f) = Res.nofuel ↔ x = Res.nofuel ∨ ∃ a, x = Res.ok a ∧ f a = Res.nofuel := by
  cases x <;> simp [bind, Res.bind]

theorem assert_ne_nofuel (c : Prop) [Decidable c] : assert c ≠ Res.nofuel := by
  unfold assert
  by_cases h : c <;> simp [h]

theorem set_nth_ne_nofuel (A : Arch) (type : cds_ja_type) (w : World)
    (node sh n child : Nat) : _ja_node_set_nth A type w node sh n child ≠ Res.nofuel := by
  have hinc : ∀ (w' : World), shadow_nr_child_inc w' sh ≠ Res.nofuel := by
    intro w'
    unfold shadow_nr_child_inc
    cases w'.ht sh with
    | none => simp
    | some s => simp
  have hlin : ∀ base, ja_linear_node_set_nth A type w base sh n child ≠ Res.nofuel := by
    intro base
    unfold ja_linear_node_set_nth
    intro h
    simp only [Res.bind_eq_nofuel, assert_ne_nofuel, false_or, assert_eq_ok] at h
    obtain ⟨_, _, _, _, h⟩ := h
    split at h
    · cases h
    · split at h
      · cases h
      · simp only [Res.bind_eq_nofuel, assert_ne_nofuel, false_or, assert_eq_ok] at h
        obtain ⟨_, _, h⟩ := h
        rcases h with h | ⟨_, _, h⟩
        · exact hinc _ h
        · cases h
  unfold _ja_node_set_nth
  cases type.type_class
  · exact hlin node
  · unfold ja_pool_node_set_nth
    intro h
    simp only [Res.bind_eq_nofuel, assert_ne_nofuel, false_or, assert_eq_ok] at h
    obtain ⟨_, _, h⟩ := h
    exact hlin _ h
  · unfold ja_pigeon_node_set_nth
    intro h
    simp only [Res.bind_eq_nofuel, assert_ne_nofuel, false_or, assert_eq_ok] at h
    obtain ⟨_, _, h⟩ := h
    split at h
    · cases h
    · rw [Res.bind_eq_nofuel] at h
      rcases h with h | ⟨_, _, h⟩
      · exact hinc _ h
      · cases h
  · simp
  · simp

theorem recompact_copy_linear_ne_nofuel (A : Arch) (old_type new_type : cds_ja_type)
    (old_node new_node new_sh : Nat) :
    ∀ todo i w,
      recompact_copy_linear A old_type new_type old_node new_node new_sh todo i w ≠
        Res.nofuel := by
  intro todo
  induction todo with
  | zero => intro i w; rw [recompact_copy_linear]; simp
  | succ todo ih =>
    intro i w h
    rw [recompact_copy_linear, Res.bind_eq_nofuel] at h
    rcases h with h | ⟨⟨v, iter⟩, _, h⟩
    · unfold ja_linear_node_get_ith_pos ja_linear_node_get_nr_child at h
      simp [Res.bind_eq_nofuel, assert_ne_nofuel] at h
    · simp only at h
      split at h
      · exact ih _ _ h
      · rw [Res.bind_eq_nofuel] at h
        rcases h with h | ⟨⟨ret, w1⟩, _, h⟩
        · exact set_nth_ne_nofuel A new_type w new_node new_sh v iter h
        · simp only at h
          split at h
          · cases h
          · simp only [Res.bind_eq_nofuel, assert_ne_nofuel, false_or] at h
            obtain ⟨_, _, h⟩ := h
            exact ih _ _ h

theorem recompact_copy_pools_ne_nofuel (A : Arch) (old_type new_type : cds_ja_type)
    (old_node new_node new_sh : Nat) :
    ∀ todo i w,
      recompact_copy_pools A old_type new_type old_node new_node new_sh todo i w ≠
        Res.nofuel := by
  intro todo
  induction todo with
  | zero => intro i w; rw [recompact_copy_pools]; simp
  | succ todo ih =>
    intro i w h
    rw [recompact_copy_pools] at h
    simp only [Res.bind_eq_nofuel] at h
    rcases h with h | ⟨pool, _, h⟩
    · unfold ja_pool_node_get_ith_pool at h
      simp [Res.bind_eq_nofuel, assert_ne_nofuel] at h
    · rcases h with h | ⟨nr, _, h⟩
      · unfold ja_linear_node_get_nr_child at h
        simp [Res.bind_eq_nofuel, assert_ne_nofuel] at h
      · rcases h with h | ⟨r, _, h⟩
        · exact recompact_copy_linear_ne_nofuel A old_type new_type pool new_node new_sh _ _ _ h
        · cases r with
          | toosmall w1 => cases h
          | finished w1 => exact ih _ _ h

theorem ja_node_recompact_add_pass_ne_nofuel (A : Arch) (w : World) (fallback : Bool)
    (new_type_index : Nat) (old_type : cds_ja_type)
    (old_node shadow_node old_node_flag n child : Nat) :
    ja_node_recompact_add_pass A w fallback new_type_index old_type old_node shadow_node
      old_node_flag n child ≠ Res.nofuel := by
  intro h
  unfold ja_node_recompact_add_pass at h
  rw [Res.bind_eq_nofuel] at h
  rcases h with h | ⟨new_type, _, h⟩
  · unfold ja_type_at at h
    split at h <;> cases h
  · simp only at h
    split at h
    · cases h
    · rw [Res.bind_eq_nofuel] at h
      rcases h with h | ⟨flag, _, h⟩
      · unfold ja_node_flag at h
        simp [Res.bind_eq_nofuel, assert_ne_nofuel] at h
      · split at h
        · cases h
        · rw [Res.bind_eq_nofuel] at h
          rcases h with h | ⟨w3, _, h⟩
          · split at h
            · unfold shadow_set_fallback_removal_count at h
              split at h <;> cases h
            · cases h
          · simp only [Res.bind_eq_nofuel, assert_ne_nofuel, false_or] at h
            obtain ⟨_, _, h⟩ := h
            rcases h with h | ⟨e, _, h⟩
            · split at h
              · simp only [Res.bind_eq_nofuel] at h
                rcases h with h | ⟨_, _, h⟩
                · unfold ja_linear_node_get_nr_child at h
                  simp [Res.bind_eq_nofuel, assert_ne_nofuel] at h
                · exact recompact_copy_linear_ne_nofuel _ _ _ _ _ _ _ _ _ h
              · exact recompact_copy_pools_ne_nofuel _ _ _ _ _ _ _ _ _ h
              · cases h
              · cases h
            · cases e with
              | toosmall w4 => cases h
              | finished w4 =>
                simp only [Res.bind_eq_nofuel] at h
                rcases h with h | ⟨⟨ret, w5⟩, _, h⟩
                · exact set_nth_ne_nofuel _ _ _ _ _ _ _ h
                · simp only [assert_ne_nofuel, false_or] at h
                  obtain ⟨_, _, h⟩ := h
                  split at h
                  · simp only [Res.bind_eq_nofuel, assert_ne_nofuel, false_or] at h
                    obtain ⟨_, _, h⟩ := h
                    cases h
                  · cases h

/-- Two passes are enough: `ja_node_recompact_add` does not run out of passes. -/
theorem ja_node_recompact_add_ne_nofuel (A : Arch) (w : World) (old_type_index : Nat)
    (old_type : cds_ja_type) (old_node shadow_node old_node_flag n child : Nat) :
    ja_node_recompact_add A w old_type_index old_type old_node shadow_node old_node_flag
      n child ≠ Res.nofuel := by
  unfold ja_node_recompact_add
  rw [ja_node_recompact_add_loop]
  intro h
  rw [Res.bind_eq_nofuel] at h
  rcases h with h | ⟨r, _, h⟩
  · exact ja_node_recompact_add_pass_ne_nofuel _ _ _ _ _ _ _ _ _ _ h
  · cases r with
    | returned ret flag w1 => cases h
    | toosmall nn ns w1 =>
      simp only at h
      simp only [Res.bind_eq_nofuel, assert_ne_nofuel, false_or] at h
      obtain ⟨_, _, h⟩ := h
      rw [ja_node_recompact_add_loop, Res.bind_eq_nofuel] at h
      rcases h with h | ⟨r, hp, h⟩
      · exact ja_node_recompact_add_pass_ne_nofuel _ _ _ _ _ _ _ _ _ _ h
      · cases r with
        | returned ret flag w1 => cases h
        | toosmall nn2 ns2 w2 =>
          exact pigeon_pass_not_toosmall A _ true old_type old_node shadow_node
            old_node_flag n child nn2 ns2 w2 hp

/-! ## Fallback accounting (C18) -/

/-- The node that a successful pass after a fallback hands back: tagged pointer
to the block allocated by the pass, whose shadow holds the removal count. -/
theorem fallback_pass_shadow (A : Arch) (w : World) (new_type_index : Nat)
    (old_type : cds_ja_type) (old_node shadow_node old_node_flag n child : Nat)
    (flag : Nat) (w1 : World)
    (h : ja_node_recompact_add_pass A w true new_type_index old_type old_node shadow_node
      old_node_flag n child = Res.ok (PassEnd.returned 0 flag w1))
    (hold : old_node ≠ w.brk) :
    flag = w.brk ||| new_type_index ∧ w.brk ≠ 0 ∧ w.brk + 16 ≤ w1.brk ∧
    ∃ s, w1.ht w.brk = some s ∧ s.fallback_removal_count = JA_FALLBACK_REMOVAL_COUNT := by
  obtain ⟨new_type, hT, nd, wa, hc, hcase⟩ := ja_node_recompact_add_pass_inv A w true
    new_type_index old_type old_node shadow_node old_node_flag n child _ h
  obtain ⟨_, _, _, _, hfresh, _⟩ := calloc_eff w wa _ nd hc
  rcases hcase with ⟨_, hr⟩ | ⟨hnd, _, ns, wb, hs, hcase⟩
  · injection hr with hr _ _
    exact absurd hr (by decide)
  · obtain ⟨hnd1, hnd2⟩ := hfresh hnd
    obtain ⟨sb, _, hb⟩ := rcuja_shadow_set_eff wa wb nd shadow_node ns hs
    rcases hcase with ⟨_, hr⟩ | ⟨hns, w3, h3, _, e, hcopy, hcase⟩
    · injection hr with hr _ _
      exact absurd hr (by decide)
    · obtain ⟨hns1, _, hbht⟩ := hb hns
      simp only [if_true] at h3
      obtain ⟨s3, _, s0, hs0, h3ht⟩ := shadow_set_fallback_removal_count_eff wb w3 ns _ h3
      have hsz : 16 ≤ wa.brk - w.brk := by
        rcases calloc_cases w (1 <<< new_type.order) with ⟨e, _⟩ | ⟨e, _⟩
        · rw [e] at hc
          injection hc with hc _
          exact absurd hc.symm hnd
        · rw [e] at hc
          injection hc with _ hc
          subst hc
          have : 1 ≤ (1 : Nat) <<< new_type.order := by
            rw [Nat.shiftLeft_eq, Nat.one_mul]; exact Nat.one_le_two_pow
          show 16 ≤ w.brk + (1 <<< new_type.order + 15) / 16 * 16 - w.brk
          omega
      have hstep : ∀ (w' w1 : World) (v iter : Nat),
          (w'.brk = wa.brk ∧ ∃ s, w'.ht nd = some s ∧
            s.fallback_removal_count = JA_FALLBACK_REMOVAL_COUNT) →
          _ja_node_set_nth A new_type w' nd ns v iter = Res.ok (0, w1) →
          (w1.brk = wa.brk ∧ ∃ s, w1.ht nd = some s ∧
            s.fallback_removal_count = JA_FALLBACK_REMOVAL_COUNT) := by
        intro w' w1 v iter hi hset
        obtain ⟨h1, _, _, _, _, _, _, _, h9⟩ := set_nth_fields A new_type w' w1 nd ns v iter 0 hset
        obtain ⟨s, hs, hf⟩ := hi.2
        rw [hns1] at h9
        obtain ⟨s1, hs1, hf1, _⟩ := h9 s hs
        exact ⟨h1.trans hi.1, s1, hs1, hf1.trans hf⟩
      have h30 : w3.brk = wa.brk ∧ ∃ s, w3.ht nd = some s ∧
          s.fallback_removal_count = JA_FALLBACK_REMOVAL_COUNT := by
        refine ⟨s3.brk.trans sb.brk, ⟨s0.nr_child, JA_FALLBACK_REMOVAL_COUNT⟩, ?_, rfl⟩
        rw [h3ht, hns1]
        simp
      have he := hcopy _ (fun w' w1 v iter hi _ _ hset => hstep w' w1 v iter hi hset) h30
      rcases hcase with ⟨_, _, _, hr⟩ | ⟨w4, w5, he4, hset, hcase⟩
      · cases hr
      · subst he4
        have h5 := hstep _ w5 n child he hset
        rcases hcase with ⟨_, hr⟩ | ⟨_, w6, hcl, hr⟩
        · injection hr with _ hr1 hr2
          subst hr1; subst hr2
          rw [hnd1] at h5 ⊢
          exact ⟨rfl, hnd1 ▸ hnd, by omega, h5.2⟩
        · injection hr with _ hr1 hr2
          subst hr1; subst hr2
          obtain ⟨s6, _, _, h6ht⟩ := rcuja_shadow_clear_eff w5 w1 old_node shadow_node _ hcl
          rw [hnd1] at h5 ⊢
          refine ⟨rfl, hnd1 ▸ hnd, by rw [s6.brk]; omega, ?_⟩
          obtain ⟨s, hs, hf⟩ := h5.2
          refine ⟨s, ?_, hf⟩
          rw [h6ht]
          simp only
          rw [if_neg (fun e => hold e.symm)]
          exact hs

/-- C18: a call of `ja_node_recompact_add` makes at most two passes, the second
after a jump to `fallback_toosmall`: it does not run out of the two passes, and
a pass that targets the pigeon shape never jumps to `fallback_toosmall`.  When
the call returns, `ja->nr_fallback` is unchanged if the first pass returned and
is one more if the first pass jumped to `fallback_toosmall`; in the latter case
a result of 0 comes with a tagged pointer of shape 7 to a node whose shadow has
`fallback_removal_count = JA_FALLBACK_REMOVAL_COUNT = 8`. -/
theorem C18_fallback_accounting (A : Arch) (w : World) (old_type_index : Nat)
    (old_type : cds_ja_type) (old_node shadow_node old_node_flag n child : Nat)
    (hal : w.brk % 16 = 0) (hold : old_node < w.brk) :
    ja_node_recompact_add A w old_type_index old_type old_node shadow_node old_node_flag
      n child ≠ Res.nofuel ∧
    (∀ (w' : World) (fallback : Bool) (flag' nn ns : Nat) (w'' : World),
      ja_node_recompact_add_pass A w' fallback ((1 <<< JA_TYPE_BITS) - 1) old_type old_node
        shadow_node flag' n child ≠ Res.ok (PassEnd.toosmall nn ns w'')) ∧
    JA_FALLBACK_REMOVAL_COUNT = 8 ∧
    ∀ (ret : Int) (flag : Nat) (w1 : World),
      ja_node_recompact_add A w old_type_index old_type old_node shadow_node old_node_flag
        n child = Res.ok (ret, flag, w1) →
      w1.brk ≤ 2 ^ CAA_BITS_PER_LONG A →
      ((∃ r f w',
          ja_node_recompact_add_pass A w false
            (if shadow_node = 0 ∨ old_type_index = NODE_INDEX_NULL then 0
              else old_type_index + 1)
            old_type old_node shadow_node old_node_flag n child =
          Res.ok (PassEnd.returned r f w')) →
        w1.nr_fallback = w.nr_fallback) ∧
      ((∃ nn ns w',
          ja_node_recompact_add_pass A w false
            (if shadow_node = 0 ∨ old_type_index = NODE_INDEX_NULL then 0
              else old_type_index + 1)
            old_type old_node shadow_node old_node_flag n child =
          Res.ok (PassEnd.toosmall nn ns w')) →
        w1.nr_fallback = w.nr_fallback + 1 ∧
        (ret = 0 →
          ja_node_type A flag = Res.ok 7 ∧
          ∃ s, w1.ht (ja_node_ptr A flag) = some s ∧
            s.fallback_removal_count = JA_FALLBACK_REMOVAL_COUNT)) := by
  refine ⟨ja_node_recompact_add_ne_nofuel A w old_type_index old_type old_node shadow_node
    old_node_flag n child, ?_, rfl, ?_⟩
  · intro w' fallback flag' nn ns w''
    exact pigeon_pass_not_toosmall A w' fallback old_type old_node shadow_node flag' n child
      nn ns w''
  · intro ret flag w1 h hB
    rcases ja_node_recompact_add_inv A w old_type_index old_type old_node shadow_node
      old_node_flag n child ret flag w1 h with h1 | ⟨nn, ns, w', w2, h1, hcl, h2⟩
    · obtain ⟨hn, _, _⟩ := ja_node_recompact_add_pass_fields A w false _ old_type old_node
        shadow_node old_node_flag n child _ h1
      refine ⟨fun _ => hn, ?_⟩
      rintro ⟨nn, ns, w', h3⟩
      rw [h1] at h3
      cases h3
    · obtain ⟨hn1, k1, _⟩ := ja_node_recompact_add_pass_fields A w false _ old_type old_node
        shadow_node old_node_flag n child _ h1
      obtain ⟨hn2, k2, _⟩ := ja_node_recompact_add_pass_fields A _ true _ old_type old_node
        shadow_node old_node_flag n child _ h2
      obtain ⟨s2, _, _, _⟩ := rcuja_shadow_clear_eff w' w2 nn ns _ hcl
      constructor
      · rintro ⟨r, f, w'', h3⟩
        rw [h1] at h3
        cases h3
      · intro _
        have hnr : w1.nr_fallback = w.nr_fallback + 1 := by
          have e1 : w1.nr_fallback = w2.nr_fallback + 1 := hn2
          have e2 : w2.nr_fallback = w'.nr_fallback := s2.nr_fallback
          have e3 : w'.nr_fallback = w.nr_fallback := hn1
          omega
        refine ⟨hnr, ?_⟩
        intro hret
        subst hret
        have hb2 : w.brk ≤ w2.brk := by
          have := k1.brk_le
          have e : w2.brk = w'.brk := s2.brk
          show w.brk ≤ w2.brk
          rw [e]; exact this
        have hal2 : w2.brk % 16 = 0 := by
          have := k1.brk_al hal
          have e : w2.brk = w'.brk := s2.brk
          rw [e]; exact this
        obtain ⟨hflag, hnz, hbrk, s, hs, hf⟩ := fallback_pass_shadow A _ _ old_type old_node
          shadow_node old_node_flag n child flag w1 h2
          (by show old_node ≠ w2.brk; omega)
        have hflag' : flag = w2.brk + 7 := by
          rw [hflag]
          exact or_tag w2.brk 7 (by omega) (by decide)
        have hbrk' : w2.brk + 16 ≤ w1.brk := hbrk
        have hnz' : w2.brk ≠ 0 := hnz
        have hs' : w1.ht w2.brk = some s := hs
        rw [hflag']
        refine ⟨ja_node_type_add_tag A w2.brk 7 (by omega) (by decide) hnz' (by omega), ?_⟩
        rw [ja_node_ptr_add_tag A w2.brk 7 (by omega) (by decide) (by omega)]
        exact ⟨s, hs', hf⟩

/-- C18 at the full linear root node (shape 4, 32-bit build) of an 8-bit array that
holds the keys 0..24, all routed to the first pool of shape 5 (the call falls
back, see C17). -/
theorem C18_fallback_accounting_witness :
    ((world_of (run_adds Arch.bits32 1 8 (test_adds (List.range 25)))).brk % 16 = 0 ∧
      1048752 < (world_of (run_adds Arch.bits32 1 8 (test_adds (List.range 25)))).brk) ∧
    ja_node_recompact_add Arch.bits32
        (world_of (run_adds Arch.bits32 1 8 (test_adds (List.range 25)))) 4
        ⟨RCU_JA_LINEAR, 10, 25, 25, 7, 0, 0⟩ 1048752 1048752 1048756 200 (test_node 200) ≠
      Res.nofuel ∧
    ∀ (ret : Int) (flag : Nat) (w1 : World),
      ja_node_recompact_add Arch.bits32
          (world_of (run_adds Arch.bits32 1 8 (test_adds (List.range 25)))) 4
          ⟨RCU_JA_LINEAR, 10, 25, 25, 7, 0, 0⟩ 1048752 1048752 1048756 200 (test_node 200) =
        Res.ok (ret, flag, w1) →
      w1.brk ≤ 2 ^ CAA_BITS_PER_LONG Arch.bits32 →
      (∃ nn ns w',
          ja_node_recompact_add_pass Arch.bits32
            (world_of (run_adds Arch.bits32 1 8 (test_adds (List.range 25)))) false
            (if (1048752 : Nat) = 0 ∨ (4 : Nat) = NODE_INDEX_NULL then 0 else 4 + 1)
            ⟨RCU_JA_LINEAR, 10, 25, 25, 7, 0, 0⟩ 1048752 1048752 1048756 200 (test_node 200) =
          Res.ok (PassEnd.toosmall nn ns w')) →
        w1.nr_fallback =
          (world_of (run_adds Arch.bits32 1 8 (test_adds (List.range 25)))).nr_fallback + 1 ∧
        (ret = 0 →
          ja_node_type Arch.bits32 flag = Res.ok 7 ∧
          ∃ s, w1.ht (ja_node_ptr Arch.bits32 flag) = some s ∧
            s.fallback_removal_count = JA_FALLBACK_REMOVAL_COUNT) :=
  ⟨⟨by decide, by decide⟩,
    (C18_fallback_accounting Arch.bits32
      (world_of (run_adds Arch.bits32 1 8 (test_adds (List.range 25)))) 4
      ⟨RCU_JA_LINEAR, 10, 25, 25, 7, 0, 0⟩ 1048752 1048752 1048756 200 (test_node 200)
      (by decide) (by decide)).1,
    fun ret flag w1 h hB =>
      ((C18_fallback_accounting Arch.bits32
        (world_of (run_adds Arch.bits32 1 8 (test_adds (List.range 25)))) 4
        ⟨RCU_JA_LINEAR, 10, 25, 25, 7, 0, 0⟩ 1048752 1048752 1048756 200 (test_node 200)
        (by decide) (by decide)).2.2.2 ret flag w1 h hB).2⟩

/-! ## Effect of `ja_node_recompact_add` and of `ja_node_set_nth` -/

/-- The setting of a call made between the states `w1` and `w1'` of a call that
runs from `w` to `w2`. -/
theorem Ctx.step {A : Arch} {lo B : Nat} {V P : Nat → Prop} {w w1 w1' w2 : World}
    (c : Ctx A lo B V w w2) (k1 : Kept w w1) (f1 : Frame lo V P w w1) (k2 : Kept w1' w2) :
    Ctx A lo B V w1 w1' :=
  ⟨Nat.le_trans c.lo_le k1.brk_le, Nat.le_trans k2.brk_le c.le_B, k1.brk_al c.al, c.closed,
    f1.values c.vals⟩

theorem ja_node_ptr_lt (A : Arch) (x : Nat) : ja_node_ptr A x < 2 ^ CAA_BITS_PER_LONG A := by
  have h : ja_node_ptr A x ≤ JA_PTR_MASK A := Nat.and_le_right
  have h2 : JA_PTR_MASK A < 2 ^ CAA_BITS_PER_LONG A := by cases A <;> decide
  omega

/-- The tagged pointer that a pass hands back. -/
theorem ja_node_recompact_add_pass_flag (A : Arch) (w : World) (fallback : Bool)
    (new_type_index : Nat) (old_type : cds_ja_type)
    (old_node shadow_node old_node_flag n child : Nat) (ret : Int) (flag : Nat) (w1 : World)
    (h : ja_node_recompact_add_pass A w fallback new_type_index old_type old_node shadow_node
      old_node_flag n child = Res.ok (PassEnd.returned ret flag w1)) :
    (ret ≠ 0 → flag = old_node_flag) ∧
    (ret = 0 → flag = w.brk ||| new_type_index ∧ new_type_index < 8 ∧ w.brk ≠ 0 ∧
      w.brk < w1.brk) := by
  obtain ⟨_, k, _⟩ := ja_node_recompact_add_pass_fields A w fallback new_type_index old_type
    old_node shadow_node old_node_flag n child _ h
  obtain ⟨new_type, hT, nd, wa, hc, hcase⟩ := ja_node_recompact_add_pass_inv A w fallback
    new_type_index old_type old_node shadow_node old_node_flag n child _ h
  obtain ⟨_, _, _, _, hfresh, _⟩ := calloc_eff w wa _ nd hc
  have hsz : nd ≠ 0 → w.brk < wa.brk := by
    intro hnd
    have := (hfresh hnd).2
    have : 1 ≤ (1 : Nat) <<< new_type.order := by
      rw [Nat.shiftLeft_eq, Nat.one_mul]; exact Nat.one_le_two_pow
    omega
  rcases hcase with ⟨_, hr⟩ | ⟨hnd, hidx, ns, wb, hs, hcase⟩
  · injection hr with hr1 hr2 _
    subst hr1; subst hr2
    exact ⟨fun _ => rfl, fun h0 => absurd h0 (by decide)⟩
  · obtain ⟨sb, _, _⟩ := rcuja_shadow_set_eff wa wb nd shadow_node ns hs
    rcases hcase with ⟨_, hr⟩ | ⟨hns, w3, h3, _, e, hcopy, hcase⟩
    · injection hr with hr1 hr2 _
      subst hr1; subst hr2
      exact ⟨fun _ => rfl, fun h0 => absurd h0 (by decide)⟩
    · have hb3 : wa.brk ≤ w3.brk := by
        cases fallback
        · simp only [Bool.false_eq_true, if_false, Res.pure_eq] at h3
          injection h3 with h3
          subst h3
          rw [sb.brk]
        · simp only [if_true] at h3
          rw [(shadow_set_fallback_removal_count_eff wb w3 ns _ h3).1.brk, sb.brk]
      have he := hcopy (fun w' => wa.brk ≤ w'.brk)
        (fun w' w1 v iter hi _ _ hset => by
          show wa.brk ≤ w1.brk
          rw [(set_nth_oracle A new_type w' w1 nd ns v iter 0 hset).2.2]; exact hi) hb3
      rcases hcase with ⟨_, _, _, hr⟩ | ⟨w4, w5, he4, hset, hcase⟩
      · cases hr
      · subst he4
        have h5 : wa.brk ≤ w5.brk := by
          rw [(set_nth_oracle A new_type _ w5 nd ns n child 0 hset).2.2]; exact he
        have hnd1 := (hfresh hnd).1
        have := hsz hnd
        rcases hcase with ⟨_, hr⟩ | ⟨_, w6, hcl, hr⟩
        · injection hr with hr1 hr2 hr3
          subst hr1; subst hr2; subst hr3
          exact ⟨fun h0 => absurd rfl h0,
            fun _ => ⟨by rw [hnd1], hidx, hnd1 ▸ hnd, by omega⟩⟩
        · injection hr with hr1 hr2 hr3
          subst hr1; subst hr2; subst hr3
          obtain ⟨s6, _, _, _⟩ := rcuja_shadow_clear_eff w5 _ old_node shadow_node _ hcl
          exact ⟨fun h0 => absurd rfl h0,
            fun _ => ⟨by rw [hnd1], hidx, hnd1 ▸ hnd, by rw [s6.brk]; omega⟩⟩

/-- A pass that jumps to `fallback_toosmall` targets a pool shape. -/
theorem ja_node_recompact_add_pass_toosmall (A : Arch) (w : World) (fallback : Bool)
    (new_type_index : Nat) (old_type : cds_ja_type)
    (old_node shadow_node old_node_flag n child nn ns : Nat) (w1 : World)
    (h : ja_node_recompact_add_pass A w fallback new_type_index old_type old_node shadow_node
      old_node_flag n child = Res.ok (PassEnd.toosmall nn ns w1)) :
    ∃ nt, ja_type_at A new_type_index = Res.ok nt ∧ nt.type_class = RCU_JA_POOL := by
  obtain ⟨new_type, hT, nd, wa, _, hcase⟩ := ja_node_recompact_add_pass_inv A w fallback
    new_type_index old_type old_node shadow_node old_node_flag n child _ h
  refine ⟨new_type, hT, ?_⟩
  rcases hcase with ⟨_, hr⟩ | ⟨_, _, _, _, _, hcase⟩
  · cases hr
  · rcases hcase with ⟨_, hr⟩ | ⟨_, _, _, _, _, _, hcase⟩
    · cases hr
    · rcases hcase with ⟨_, _, hpool, _⟩ | ⟨_, _, _, _, hcase⟩
      · exact hpool
      · rcases hcase with ⟨_, hr⟩ | ⟨_, _, _, hr⟩ <;> cases hr

/-- The effect of `ja_node_recompact_add`: it writes into the blocks it allocates
only; a result other than 0 leaves `*old_node_flag` as it was, and 0 comes with
a tagged pointer to a new block, of the next shape or, after a fallback from a
pool shape, of shape 7. -/
theorem ja_node_recompact_add_eff (A : Arch) (w : World) (old_type_index : Nat)
    (old_type : cds_ja_type) (old_node shadow_node old_node_flag n child : Nat)
    (ret : Int) (flag : Nat) (w1 : World)
    (h : ja_node_recompact_add A w old_type_index old_type old_node shadow_node old_node_flag
      n child = Res.ok (ret, flag, w1)) :
    Kept w w1 ∧ OracleUse w w1 ret ∧ (ret ≠ 0 → flag = old_node_flag) ∧
    (ret = 0 → ∃ nd t, flag = nd ||| t ∧ w.brk ≤ nd ∧ nd < w1.brk ∧ nd ≠ 0 ∧
      (w.brk % 16 = 0 → nd % 16 = 0) ∧ t < 8 ∧
      (t = (if shadow_node = 0 ∨ old_type_index = NODE_INDEX_NULL then 0
          else old_type_index + 1) ∨
        (t = 7 ∧ ∃ nt, ja_type_at A (if shadow_node = 0 ∨ old_type_index = NODE_INDEX_NULL
            then 0 else old_type_index + 1) = Res.ok nt ∧ nt.type_class = RCU_JA_POOL))) ∧
    ∀ (lo B : Nat) (V P : Nat → Prop), Ctx A lo B V w w1 → V child → n < 256 →
      Frame lo V P w w1 := by
  rcases ja_node_recompact_add_inv A w old_type_index old_type old_node shadow_node
    old_node_flag n child ret flag w1 h with h1 | ⟨nn, ns, w', w2, h1, hcl, h2⟩
  · obtain ⟨_, k, o⟩ := ja_node_recompact_add_pass_fields A w false _ old_type old_node
      shadow_node old_node_flag n child _ h1
    obtain ⟨f1, f2⟩ := ja_node_recompact_add_pass_flag A w false _ old_type old_node
      shadow_node old_node_flag n child ret flag w1 h1
    refine ⟨k, o, f1, ?_, ?_⟩
    · intro h0
      obtain ⟨e1, e2, e3, e4⟩ := f2 h0
      exact ⟨w.brk, _, e1, Nat.le_refl _, e4, e3, fun h => h, e2, Or.inl rfl⟩
    · intro lo B V P c hch hn
      exact ja_node_recompact_add_pass_frame A w false _ old_type old_node shadow_node
        old_node_flag n child _ h1 lo B V P c.lo_le c.le_B c.al c.closed c.vals hch hn
  · obtain ⟨_, k1, o1⟩ := ja_node_recompact_add_pass_fields A w false _ old_type old_node
      shadow_node old_node_flag n child _ h1
    obtain ⟨_, k2, o2⟩ := ja_node_recompact_add_pass_fields A _ true _ old_type old_node
      shadow_node old_node_flag n child _ h2
    obtain ⟨f1, f2⟩ := ja_node_recompact_add_pass_flag A _ true _ old_type old_node
      shadow_node old_node_flag n child ret flag w1 h2
    obtain ⟨s2, os2, _, _⟩ := rcuja_shadow_clear_eff w' w2 nn ns _ hcl
    have k12 : Kept w { w2 with nr_fallback := w2.nr_fallback + 1 } :=
      k1.kept_trans ⟨s2.root, s2.tree_depth, s2.key_max, by show w'.brk ≤ w2.brk; rw [s2.brk],
        fun e => by show w2.brk % 16 = 0; rw [s2.brk]; exact e⟩
    have o12 : OracleUse w { w2 with nr_fallback := w2.nr_fallback + 1 } 0 :=
      OracleUse.same o1 os2
    refine ⟨k12.kept_trans k2, OracleUse.oracle_trans o12 (by decide) o2, f1, ?_, ?_⟩
    · intro h0
      obtain ⟨e1, e2, e3, e4⟩ := f2 h0
      refine ⟨w2.brk, _, e1, k12.brk_le, e4, e3, k12.brk_al, e2, Or.inr ⟨by decide, ?_⟩⟩
      exact ja_node_recompact_add_pass_toosmall A w false _ old_type old_node shadow_node
        old_node_flag n child nn ns w' h1
    · intro lo B V P c hch hn
      have hB1 : w'.brk ≤ B := by
        have := k2.brk_le
        have e : w2.brk = w'.brk := s2.brk
        have := c.le_B
        have h3 : w'.brk ≤ w1.brk := by rw [← e]; exact k2.brk_le
        omega
      have fr1 := ja_node_recompact_add_pass_frame A w false _ old_type old_node shadow_node
        old_node_flag n child _ h1 lo B V P c.lo_le hB1 c.al c.closed c.vals hch hn
      have fr12 : Frame lo V P w { w2 with nr_fallback := w2.nr_fallback + 1 } :=
        fr1.frame_trans (Frame.of_mem_eq s2.mem)
      have fr2 := ja_node_recompact_add_pass_frame A _ true _ old_type old_node shadow_node
        old_node_flag n child _ h2 lo B V P (Nat.le_trans c.lo_le k12.brk_le) c.le_B
        (k12.brk_al c.al) c.closed (fr12.values c.vals) hch hn
      exact fr12.frame_trans fr2

theorem ja_type_at_null (A : Arch) (t : cds_ja_type)
    (h : ja_type_at A NODE_INDEX_NULL = Res.ok t) : t.type_class = RCU_JA_NULL := by
  cases A
  · have e : ja_type_at Arch.bits32 NODE_INDEX_NULL = Res.ok ⟨RCU_JA_NULL, 0, 0, 0, 0, 0, 0⟩ := by
      decide
    rw [e] at h
    injection h with h
    subst h
    rfl
  · have e : ja_type_at Arch.bits64 NODE_INDEX_NULL =
        Res.ok ⟨RCU_JA_NULL, 0, 256, 0, 0, 0, 0⟩ := by decide
    rw [e] at h
    injection h with h
    subst h
    rfl

/-- The effect of `ja_node_set_nth`: an insertion in place writes near the node,
a recompaction writes into the blocks it allocates; a result other than 0
leaves `*node_flag` as it was. -/
theorem ja_node_set_nth_eff (A : Arch) (w : World) (node_flag n child sh : Nat)
    (ret : Int) (flag : Nat) (w1 : World)
    (h : ja_node_set_nth A w node_flag n child sh = Res.ok (ret, flag, w1)) :
    Kept w w1 ∧ OracleUse w w1 ret ∧ (ret ≠ 0 → flag = node_flag) ∧
    (ret = 0 → (flag = node_flag ∧ ja_node_ptr A node_flag ≠ 0) ∨
      ∃ ti, ja_node_type A node_flag = Res.ok ti ∧
      ∃ nd t, flag = nd ||| t ∧ w.brk ≤ nd ∧ nd < w1.brk ∧ nd ≠ 0 ∧
        (w.brk % 16 = 0 → nd % 16 = 0) ∧ t < 8 ∧
        (t = (if sh = 0 ∨ ti = NODE_INDEX_NULL then 0 else ti + 1) ∨
          (t = 7 ∧ ∃ nt, ja_type_at A (if sh = 0 ∨ ti = NODE_INDEX_NULL then 0 else ti + 1) =
            Res.ok nt ∧ nt.type_class = RCU_JA_POOL))) ∧
    ∀ (lo B : Nat) (V : Nat → Prop), Ctx A lo B V w w1 → V child → n < 256 →
      Frame lo V (fun x => ret = 0 ∧ ja_node_ptr A node_flag ≠ 0 ∧ nearp A node_flag x) w w1 := by
  unfold ja_node_set_nth at h
  simp only [Res.bind_eq_ok] at h
  obtain ⟨ti, hti, type, hT, ⟨ret0, w0⟩, hset, h⟩ := h
  simp only at h
  by_cases he : ret0 = -ENOSPC
  · rw [if_pos he] at h
    have e0 := _ja_node_set_nth_nonzero A type w w0 _ sh n child ret0 hset
      (by rw [he]; decide)
    subst e0
    obtain ⟨k, o, f1, f2, fr⟩ := ja_node_recompact_add_eff A w0 ti type _ sh node_flag n child
      ret flag w1 h
    refine ⟨k, o, f1, fun h0 => Or.inr ⟨ti, hti, f2 h0⟩, ?_⟩
    intro lo B V c hch hn
    exact fr lo B V _ c hch hn
  · rw [if_neg he] at h
    simp only [Res.pure_eq] at h
    injection h with h
    injection h with h1 h
    injection h with h2 h3
    subst h1; subst h2; subst h3
    obtain ⟨ho, _, _⟩ := set_nth_oracle A type w _ _ sh n child _ hset
    have hnz : ret0 = 0 → ja_node_ptr A node_flag ≠ 0 := by
      intro h0 hp
      rw [ja_node_type_null A node_flag hp] at hti
      injection hti with hti
      subst hti
      have hc := ja_type_at_null A type hT
      unfold _ja_node_set_nth at hset
      simp only [hc, Res.pure_eq] at hset
      injection hset with hset
      injection hset with hset _
      exact he hset.symm
    refine ⟨set_nth_kept A type w _ _ sh n child _ hset, OracleUse.of_eq _ ho,
      fun _ => rfl, fun h0 => Or.inl ⟨rfl, hnz h0⟩, ?_⟩
    intro lo B V c hch hn
    by_cases h0 : ret0 = 0
    · have := set_nth_frame_near A type w _ (ja_node_ptr A node_flag) sh n child ret0 lo V
        (ja_type_at_mem A ti type hT) (ja_node_ptr_lt A node_flag) hn c.closed.small hch hset
      exact this.mono (fun x hx => ⟨h0, hnz h0, hx⟩)
    · have e0 := _ja_node_set_nth_nonzero A type w _ _ sh n child ret0 hset h0
      rw [e0]
      exact Frame.frame_refl _ _ _ _

/-! ## What `ja_node_get_nth` returns -/

theorem ja_linear_node_get_nth_inv (A : Arch) (type : cds_ja_type) (w : World)
    (base n child : Nat) (slot : Option Nat)
    (h : ja_linear_node_get_nth A type w base n = Res.ok (child, slot)) :
    (slot = none ∧ child = 0) ∨
    (∃ i, i < type.max_linear_child ∧ slot = some (linear_slot A type base i) ∧
      child = w.mem (linear_slot A type base i) ∧ ja_node_ptr A child ≠ 0) := by
  unfold ja_linear_node_get_nth ja_linear_node_get_nr_child at h
  simp only [Res.bind_eq_ok, assert_eq_ok, Res.pure_eq] at h
  obtain ⟨_, _, nr, ⟨_, _, hnr⟩, _, hle, _, _, h⟩ := h
  injection hnr with hnr
  subst hnr
  split at h
  · injection h with h
    injection h with h1 h2
    exact Or.inl ⟨h2.symm, h1.symm⟩
  · rename_i hi
    simp only [Res.bind_eq_ok, assert_eq_ok] at h
    obtain ⟨_, hp, h⟩ := h
    injection h with h
    injection h with h1 h2
    refine Or.inr ⟨linear_scan w (base + 1) n (w.mem base) 0, by omega, h2.symm, h1.symm, ?_⟩
    rw [← h1]; exact hp

/-- The child that `ja_node_get_nth` returns is NULL or the content of the slot
it reports, which is near the node. -/
theorem ja_node_get_nth_inv (A : Arch) (w : World) (node_flag n child : Nat)
    (slot : Option Nat) (hn : n < 256)
    (h : ja_node_get_nth A w node_flag n = Res.ok (child, slot)) :
    ja_node_ptr A node_flag ≠ 0 ∧
    ((slot = none ∧ child = 0) ∨
      ∃ p, slot = some p ∧ child = w.mem p ∧ nearp A node_flag p) := by
  unfold ja_node_get_nth at h
  simp only [Res.bind_eq_ok, assert_eq_ok] at h
  obtain ⟨_, hnz, ti, _, type, hT, h⟩ := h
  refine ⟨hnz, ?_⟩
  have hTm := ja_type_at_mem A ti type hT
  obtain ⟨hC, hnpo, hpool, _, _⟩ := catalog_coarse A type hTm
  have hlin : ∀ base off, base = ja_node_ptr A node_flag + off → off < 1024 →
      ja_linear_node_get_nth A type w base n = Res.ok (child, slot) →
      ((slot = none ∧ child = 0) ∨
        ∃ p, slot = some p ∧ child = w.mem p ∧ nearp A node_flag p) := by
    intro base off hb hoff hl
    rcases ja_linear_node_get_nth_inv A type w base n child slot hl with e | ⟨i, hi, e1, e2, _⟩
    · exact Or.inl e
    · exact Or.inr ⟨_, e1, e2, (linear_cells_near A type _ base i off hC hi
        (ja_node_ptr_lt A node_flag) hb hoff).2.2⟩
  cases hc : type.type_class <;> simp only [hc] at h
  · exact hlin _ 0 rfl (by decide) h
  · rw [ja_pool_node_get_nth_eq A type w _ n hc] at h
    obtain ⟨k, hk, e2⟩ := pool_of_eq type (ja_node_ptr A node_flag) n hn hnpo
    refine hlin _ (k * 2 ^ type.pool_size_order) e2 ?_ h
    have h1 : (k + 1) * 2 ^ type.pool_size_order ≤
        2 ^ type.nr_pool_order * 2 ^ type.pool_size_order :=
      Nat.mul_le_mul_right _ (Nat.succ_le_of_lt hk)
    rw [Nat.succ_mul] at h1
    have h2 : 0 < 2 ^ type.pool_size_order := Nat.two_pow_pos _
    omega
  · unfold ja_pigeon_node_get_nth at h
    simp only [Res.bind_eq_ok, assert_eq_ok, Res.pure_eq] at h
    obtain ⟨_, _, h⟩ := h
    injection h with h
    injection h with h1 h2
    refine Or.inr ⟨_, h2.symm, h1.symm, Or.inl ⟨Nat.le_add_right _ _, ?_⟩⟩
    have hp := sizeof_ptr_le A
    have : n * sizeof_ptr A ≤ 255 * 8 := Nat.mul_le_mul (by omega) hp
    omega
  · cases h
  · cases h

/-! ## Effect of the parts of `ja_attach_node` and of `ja_chain_node` -/

theorem ja_node_ptr_zero (A : Arch) : ja_node_ptr A 0 = 0 := by
  unfold ja_node_ptr
  exact Nat.zero_and _

theorem ja_type_at_zero (A : Arch) (t : cds_ja_type)
    (h : ja_type_at A 0 = Res.ok t) : t.type_class = RCU_JA_LINEAR := by
  cases A
  · have e : ja_type_at Arch.bits32 0 = Res.ok ⟨RCU_JA_LINEAR, 1, 1, 1, 3, 0, 0⟩ := by decide
    rw [e] at h
    injection h with h
    subst h
    rfl
  · have e : ja_type_at Arch.bits64 0 = Res.ok ⟨RCU_JA_LINEAR, 1, 1, 1, 4, 0, 0⟩ := by decide
    rw [e] at h
    injection h with h
    subst h
    rfl

theorem attach_iter_key_lt (d key i : Nat) : attach_iter_key d key i < 256 :=
  Nat.mod_lt _ (by decide)

theorem lookup_iter_key_lt (d key i : Nat) : lookup_iter_key d key i < 256 :=
  Nat.mod_lt _ (by decide)

/-- An insertion under the NULL node creates a node of shape 0 in a new block. -/
theorem ja_node_set_nth_null_eff (A : Arch) (w : World) (n child : Nat)
    (ret : Int) (flag : Nat) (w1 : World)
    (h : ja_node_set_nth A w 0 n child 0 = Res.ok (ret, flag, w1)) :
    Kept w w1 ∧ OracleUse w w1 ret ∧
    (ret = 0 → ∃ nd, flag = nd ||| 0 ∧ w.brk ≤ nd ∧ nd < w1.brk ∧ nd ≠ 0 ∧
      (w.brk % 16 = 0 → nd % 16 = 0)) ∧
    ∀ (lo B : Nat) (V P : Nat → Prop), Ctx A lo B V w w1 → V child → n < 256 →
      Frame lo V P w w1 := by
  obtain ⟨k, o, _, f2, fr⟩ := ja_node_set_nth_eff A w 0 n child 0 ret flag w1 h
  refine ⟨k, o, ?_, ?_⟩
  · intro h0
    rcases f2 h0 with ⟨_, hp⟩ | ⟨ti, _, nd, t, e1, e2, e3, e4, e5, _, e6⟩
    · exact absurd (ja_node_ptr_zero A) hp
    · simp only [true_or, if_true] at e6
      rcases e6 with e6 | ⟨_, nt, hnt, hpool⟩
      · subst e6
        exact ⟨nd, e1, e2, e3, e4, e5⟩
      · rw [ja_type_at_zero A nt hnt] at hpool
        cases hpool
  · intro lo B V P c hch hn
    exact (fr lo B V c hch hn).mono (fun x hx => absurd (ja_node_ptr_zero A) hx.2.1)

/-- The loop of `ja_attach_node` that creates the nodes of the new branch writes
into the blocks it allocates only. -/
theorem ja_attach_node_loop_eff (A : Arch) (key : Nat) :
    ∀ (todo i flag : Nat) (created : List Nat) (w : World) (ret : Int) (flag' : Nat)
      (created' : List Nat) (w1 : World),
      ja_attach_node_loop A key todo i flag created w = Res.ok (ret, flag', created', w1) →
      Kept w w1 ∧ OracleUse w w1 ret ∧
      (ret = 0 → (todo = 0 ∧ flag' = flag) ∨
        ∃ nd, flag' = nd ||| 0 ∧ w.brk ≤ nd ∧ nd < w1.brk ∧ nd ≠ 0 ∧
          (w.brk % 16 = 0 → nd % 16 = 0)) ∧
      ∀ (lo B : Nat) (V P : Nat → Prop), Ctx A lo B V w w1 → V flag →
        Frame lo V P w w1 ∧ V flag' := by
  intro todo
  induction todo with
  | zero =>
    intro i flag created w ret flag' created' w1 h
    rw [ja_attach_node_loop] at h
    simp only [Res.pure_eq] at h
    injection h with h
    injection h with h1 h
    injection h with h2 h
    injection h with h3 h4
    subst h1; subst h2; subst h3; subst h4
    exact ⟨Kept.kept_refl _, OracleUse.oracle_refl _ _, fun _ => Or.inl ⟨rfl, rfl⟩,
      fun lo B V P _ hf => ⟨Frame.frame_refl _ _ _ _, hf⟩⟩
  | succ todo ih =>
    intro i flag created w ret flag' created' w1 h
    rw [ja_attach_node_loop] at h
    simp only [Res.bind_eq_ok] at h
    obtain ⟨⟨ret0, dest, w0⟩, hset, h⟩ := h
    simp only at h
    obtain ⟨k0, o0, f0, fr0⟩ := ja_node_set_nth_null_eff A w _ flag ret0 dest w0 hset
    by_cases hr : ret0 ≠ 0
    · rw [if_pos hr] at h
      simp only [Res.pure_eq] at h
      injection h with h
      injection h with h1 h
      injection h with h2 h
      injection h with h3 h4
      subst h1; subst h2; subst h3; subst h4
      exact ⟨k0, o0, fun h0 => absurd h0 hr,
        fun lo B V P c hf => ⟨fr0 lo B V P c hf (attach_iter_key_lt _ _ _), hf⟩⟩
    · rw [if_neg hr] at h
      have hr0 : ret0 = 0 := by
        by_cases e : ret0 = 0
        · exact e
        · exact absurd e hr
      subst hr0
      simp only [Res.bind_eq_ok] at h
      obtain ⟨created1, _, h⟩ := h
      obtain ⟨k1, o1, f1, fr1⟩ := ih _ dest created1 w0 ret flag' created' w1 h
      obtain ⟨nd, e1, e2, e3, e4, e5⟩ := f0 rfl
      refine ⟨k0.kept_trans k1, OracleUse.oracle_trans o0 (by decide) o1, ?_, ?_⟩
      · intro h0
        right
        rcases f1 h0 with ⟨_, e⟩ | ⟨nd', e1', e2', e3', e4', e5'⟩
        · rw [e]
          exact ⟨nd, e1, e2, Nat.lt_of_lt_of_le e3 k1.brk_le, e4, e5⟩
        · exact ⟨nd', e1', Nat.le_trans k0.brk_le e2', e3', e4',
            fun h => e5' (k0.brk_al h)⟩
      · intro lo B V P c hf
        have fr := fr0 lo B V P (c.step (Kept.kept_refl w) (Frame.frame_refl lo V P w) k1) hf
          (attach_iter_key_lt _ _ _)
        have hVd : V dest := by
          rw [e1]
          exact c.closed.fresh nd 0 (Nat.le_trans c.lo_le e2)
            (Nat.lt_of_lt_of_le e3 (Nat.le_trans k1.brk_le c.le_B)) (e5 c.al) (by decide)
        obtain ⟨fr', hV'⟩ := fr1 lo B V P (c.step k0 fr (Kept.kept_refl w1)) hVd
        exact ⟨fr.frame_trans fr', hV'⟩

theorem ja_attach_node_unwind_eff (A : Arch) :
    ∀ (created : List Nat) (i : Nat) (w w1 : World),
      ja_attach_node_unwind A created i w = Res.ok w1 → Same w w1 ∧ w1.oracle = w.oracle := by
  intro created
  induction created with
  | nil =>
    intro i w w1 h
    rw [ja_attach_node_unwind] at h
    injection h with h
    subst h
    exact ⟨Same.same_refl _, rfl⟩
  | cons c rest ih =>
    intro i w w1 h
    rw [ja_attach_node_unwind] at h
    simp only at h
    cases hcl : rcuja_shadow_clear w (ja_node_ptr A c) 0
        (if i ≠ 0 then RCUJA_SHADOW_CLEAR_FREE_LOCK ||| RCUJA_SHADOW_CLEAR_FREE_NODE
          else RCUJA_SHADOW_CLEAR_FREE_LOCK) with
    | mk tmpret w0 =>
    simp only [hcl, Res.bind_eq_ok, assert_eq_ok] at h
    obtain ⟨_, ht, h⟩ := h
    subst ht
    obtain ⟨s0, o0, _, _⟩ := rcuja_shadow_clear_eff w w0 _ 0 _ hcl
    obtain ⟨s1, o1⟩ := ih (i + 1) w0 w1 h
    exact ⟨s0.same_trans s1, o1.trans o0⟩

theorem ja_chain_node_eff (w : World) (head node : Nat) (ret : Int) (w1 : World)
    (h : ja_chain_node w head node = (ret, w1)) :
    (ret = -ENOENT ∧ w1 = w) ∨
    (ret = 0 ∧ w1 = (w.store node (w.mem head)).store head node) := by
  unfold ja_chain_node at h
  simp only at h
  split at h
  · injection h with h1 h2
    exact Or.inl ⟨h1.symm, h2.symm⟩
  · injection h with h1 h2
    exact Or.inr ⟨h1.symm, h2.symm⟩

theorem store_same_but_mem (w : World) (a v : Nat) : Kept w (w.store a v) :=
  ⟨rfl, rfl, rfl, Nat.le_refl _, fun h => h⟩

theorem store_frame (w : World) (a v lo : Nat) (V P : Nat → Prop) (hP : P a) (hV : V v) :
    Frame lo V P w (w.store a v) := by
  intro x
  rw [World.store_mem]
  by_cases e : x = a
  · rw [if_pos e]
    exact Or.inr ⟨Or.inr (e ▸ hP), hV⟩
  · rw [if_neg e]
    exact Or.inl rfl

/-- The effect of the part of `ja_attach_node` that builds and publishes the new
branch.  A result other than 0 comes with writes into the new blocks and into
the link of the user node only.  A result of 0 comes with such writes and with
writes near the node the branch is attached to, followed by the store of the
new tagged pointer through `node_flag_ptr`. -/
theorem ja_attach_node_branch_eff (A : Arch) (w : World)
    (node_flag_ptr node_flag key level child_node shadow_node : Nat)
    (ret : Int) (created : List Nat) (w1 : World)
    (h : ja_attach_node_branch A w node_flag_ptr node_flag key level child_node shadow_node =
      Res.ok (ret, created, w1)) :
    Kept w w1 ∧ OracleUse w w1 ret ∧
    ((ret ≠ 0 ∧ ∀ (lo B : Nat) (V : Nat → Prop), Ctx A lo B V w w1 → V child_node →
        Frame lo V (fun x => x = child_node) w w1) ∨
     (ret = 0 ∧ ∃ w' pub, w1 = w'.store node_flag_ptr pub ∧ Kept w w' ∧
        ((level ≤ 1 ∧
            ((w.tree_depth - level = 0 ∧ pub = child_node) ∨
              ∃ nd, pub = nd ||| 0 ∧ w.brk ≤ nd ∧ nd < w'.brk ∧ nd ≠ 0 ∧
                (w.brk % 16 = 0 → nd % 16 = 0))) ∨
         (1 < level ∧
            ((pub = node_flag ∧ ja_node_ptr A node_flag ≠ 0) ∨
              ∃ ti, ja_node_type A node_flag = Res.ok ti ∧
              ∃ nd t, pub = nd ||| t ∧ w.brk ≤ nd ∧ nd < w'.brk ∧ nd ≠ 0 ∧
                (w.brk % 16 = 0 → nd % 16 = 0) ∧ t < 8 ∧
                (t = (if shadow_node = 0 ∨ ti = NODE_INDEX_NULL then 0 else ti + 1) ∨
                  (t = 7 ∧ ∃ nt,
                    ja_type_at A (if shadow_node = 0 ∨ ti = NODE_INDEX_NULL then 0
                      else ti + 1) = Res.ok nt ∧ nt.type_class = RCU_JA_POOL))))) ∧
        ∀ (lo B : Nat) (V : Nat → Prop), Ctx A lo B V w w1 → V child_node →
          (1 < level → V node_flag) →
          Frame lo V (fun x => x = child_node ∨
            (1 < level ∧ ja_node_ptr A node_flag ≠ 0 ∧ nearp A node_flag x)) w w' ∧
          V pub)) := by
  unfold ja_attach_node_branch at h
  simp only at h
  cases hs : rcuja_shadow_set (w.store child_node 0) (ja_node_ptr A child_node) 0 with
  | mk iss w2 =>
  simp only [hs] at h
  obtain ⟨s2, o2, _⟩ := rcuja_shadow_set_eff _ w2 _ 0 iss hs
  have k2 : Kept w w2 := (store_same_but_mem w child_node 0).kept_trans s2.kept
  have fr2 : ∀ (lo : Nat) (V P : Nat → Prop), (∀ v, v < 256 → V v) → P child_node →
      Frame lo V P w w2 := fun lo V P hsm hP =>
    (store_frame w child_node 0 lo V P hP (hsm 0 (by decide))).frame_trans (s2.frame lo V P)
  have o2' : OracleUse w w2 (if iss = 0 then -ENOMEM else 0) := by
    obtain ⟨u, e, f⟩ := o2
    exact ⟨u, e, f⟩
  by_cases hi : iss = 0
  · rw [if_pos hi] at h
    simp only [Res.pure_eq] at h
    injection h with h
    injection h with h1 h
    injection h with h2 h3
    subst h1; subst h3
    rw [if_pos hi] at o2'
    exact ⟨k2, o2', Or.inl ⟨by decide, fun lo B V c _ => fr2 lo V _ c.closed.small rfl⟩⟩
  · rw [if_neg hi] at h o2'
    simp only [Res.bind_eq_ok] at h
    obtain ⟨created0, _, ⟨retl, flag1, created1, w3⟩, hl, h⟩ := h
    simp only at h
    obtain ⟨k3, o3, f3, fr3⟩ := ja_attach_node_loop_eff A key _ _ _ _ w2 retl flag1 created1 w3 hl
    have k23 := k2.kept_trans k3
    have o23 : OracleUse w w3 retl := OracleUse.oracle_trans o2' (by decide) o3
    have fr23 : ∀ (lo B : Nat) (V P : Nat → Prop) (w9 : World), Kept w3 w9 →
        Ctx A lo B V w w9 → V child_node → P child_node → Frame lo V P w w3 ∧ V flag1 := by
      intro lo B V P w9 k9 c hch hP
      have f2 := fr2 lo V P c.closed.small hP
      obtain ⟨f3', hV⟩ := fr3 lo B V P (c.step k2 f2 k9) hch
      exact ⟨f2.frame_trans f3', hV⟩
    by_cases hr : retl ≠ 0
    · rw [if_pos hr] at h
      simp only [Res.pure_eq] at h
      injection h with h
      injection h with h1 h
      injection h with h2 h3
      subst h1; subst h3
      exact ⟨k23, o23, Or.inl ⟨hr, fun lo B V c hch =>
        (fr23 lo B V (fun x => x = child_node) _ (Kept.kept_refl _) c hch rfl).1⟩⟩
    · rw [if_neg hr] at h
      have hr0 : retl = 0 := by
        by_cases e : retl = 0
        · exact e
        · exact absurd e hr
      subst hr0
      have hpub3 : (w.tree_depth - level = 0 ∧ flag1 = child_node) ∨
          ∃ nd, flag1 = nd ||| 0 ∧ w.brk ≤ nd ∧ nd < w3.brk ∧ nd ≠ 0 ∧
            (w.brk % 16 = 0 → nd % 16 = 0) := by
        have e : w2.tree_depth = w.tree_depth := k2.tree_depth
        rcases f3 rfl with ⟨e1, e2⟩ | ⟨nd, e1, e2, e3, e4, e5⟩
        · rw [e] at e1
          exact Or.inl ⟨e1, e2⟩
        · exact Or.inr ⟨nd, e1, Nat.le_trans k2.brk_le e2, e3, e4, fun h => e5 (k2.brk_al h)⟩
      by_cases hlv : level > 1
      · rw [if_pos hlv] at h
        simp only [Res.bind_eq_ok] at h
        obtain ⟨⟨ret1, dest, w4⟩, hset, h⟩ := h
        simp only at h
        obtain ⟨k4, o4, f4a, f4b, fr4⟩ := ja_node_set_nth_eff A w3 node_flag _ flag1 shadow_node
          ret1 dest w4 hset
        have k34 := k23.kept_trans k4
        have o34 : OracleUse w w4 ret1 := OracleUse.oracle_trans o23 (by decide) o4
        by_cases hr1 : ret1 ≠ 0
        · rw [if_pos hr1] at h
          simp only [Res.pure_eq] at h
          injection h with h
          injection h with h1 h
          injection h with h2 h3
          subst h1; subst h3
          refine ⟨k34, o34, Or.inl ⟨hr1, ?_⟩⟩
          intro lo B V c hch
          obtain ⟨f3', hV⟩ := fr23 lo B V (fun x => x = child_node) _ k4 c hch rfl
          have f4 := fr4 lo B V (c.step k23 f3' (Kept.kept_refl _)) hV (attach_iter_key_lt _ _ _)
          exact f3'.frame_trans (f4.mono (fun x hx => absurd hx.1 hr1))
        · rw [if_neg hr1] at h
          have hr10 : ret1 = 0 := by
            by_cases e : ret1 = 0
            · exact e
            · exact absurd e hr1
          subst hr10
          simp only [Res.bind_eq_ok, Res.pure_eq] at h
          obtain ⟨created2, _, h⟩ := h
          injection h with h
          injection h with h1 h
          injection h with h2 h3
          subst h1; subst h3
          refine ⟨k34.kept_trans (store_same_but_mem _ _ _), OracleUse.same o34 rfl,
            Or.inr ⟨rfl, w4, dest, rfl, k34, Or.inr ⟨hlv, ?_⟩, ?_⟩⟩
          · rcases f4b rfl with e | ⟨ti, hti, nd, t, e1, e2, e3, e4, e5, e6, e7⟩
            · exact Or.inl e
            · exact Or.inr ⟨ti, hti, nd, t, e1, Nat.le_trans k23.brk_le e2, e3, e4,
                fun h => e5 (k23.brk_al h), e6, e7⟩
          · intro lo B V c hch hnf
            have c4 : Ctx A lo B V w w4 := ⟨c.lo_le, c.le_B, c.al, c.closed, c.vals⟩
            obtain ⟨f3', hV⟩ := fr23 lo B V (fun x => x = child_node ∨
              (1 < level ∧ ja_node_ptr A node_flag ≠ 0 ∧ nearp A node_flag x)) _ k4 c4 hch
              (Or.inl rfl)
            have f4 := fr4 lo B V (c4.step k23 f3' (Kept.kept_refl _)) hV
              (attach_iter_key_lt _ _ _)
            refine ⟨f3'.frame_trans (f4.mono (fun x hx => Or.inr ⟨hlv, hx.2.1, hx.2.2⟩)), ?_⟩
            rcases f4b rfl with ⟨e, _⟩ | ⟨ti, hti, nd, t, e1, e2, e3, e4, e5, e6, e7⟩
            · rw [e]; exact hnf hlv
            · rw [e1]
              exact c.closed.fresh nd t
                (Nat.le_trans c.lo_le (Nat.le_trans k23.brk_le e2))
                (Nat.lt_of_lt_of_le e3 c4.le_B) (e5 (k23.brk_al c.al)) e6
      · rw [if_neg hlv] at h
        simp only [Res.pure_eq] at h
        injection h with h
        injection h with h1 h
        injection h with h2 h3
        subst h1; subst h3
        refine ⟨k23.kept_trans (store_same_but_mem _ _ _), OracleUse.same o23 rfl,
          Or.inr ⟨rfl, w3, flag1, rfl, k23, Or.inl ⟨by omega, hpub3⟩, ?_⟩⟩
        intro lo B V c hch _
        have c3 : Ctx A lo B V w w3 := ⟨c.lo_le, c.le_B, c.al, c.closed, c.vals⟩
        exact fr23 lo B V _ _ (Kept.kept_refl _) c3 hch (Or.inl rfl)

/-! ## Effect of `ja_attach_node` and of `cds_ja_add` -/

theorem ja_node_type_lt (A : Arch) (x ti : Nat) (hp : ja_node_ptr A x ≠ 0)
    (h : ja_node_type A x = Res.ok ti) : ti < 8 := by
  unfold ja_node_type at h
  rw [if_neg hp] at h
  simp only [Res.bind_eq_ok, assert_eq_ok, Res.pure_eq] at h
  obtain ⟨_, h1, h2⟩ := h
  injection h2 with h2
  rw [← h2]
  simpa [JA_TYPE_BITS] using h1

/-- The effect of `ja_attach_node`, see `ja_attach_node_branch_eff`. -/
theorem ja_attach_node_eff (A : Arch) (w : World)
    (node_flag_ptr node_flag parent_node_flag key level child_node : Nat)
    (ret : Int) (w1 : World)
    (h : ja_attach_node A w node_flag_ptr node_flag parent_node_flag key level child_node =
      Res.ok (ret, w1)) :
    ja_node_ptr A node_flag ≠ 0 ∧ Kept w w1 ∧ OracleUse w w1 ret ∧
    ((ret ≠ 0 ∧ ∀ (lo B : Nat) (V : Nat → Prop), Ctx A lo B V w w1 → V child_node →
        Frame lo V (fun x => x = child_node) w w1) ∨
     (ret = 0 ∧ ∃ w' pub, w1 = w'.store node_flag_ptr pub ∧ Kept w w' ∧
        ((level ≤ 1 ∧
            ((w.tree_depth - level = 0 ∧ pub = child_node) ∨
              ∃ nd, pub = nd ||| 0 ∧ w.brk ≤ nd ∧ nd < w'.brk ∧ nd ≠ 0 ∧
                (w.brk % 16 = 0 → nd % 16 = 0))) ∨
         (1 < level ∧
            (pub = node_flag ∨
              ∃ ti, ja_node_type A node_flag = Res.ok ti ∧
              ∃ nd t, pub = nd ||| t ∧ w.brk ≤ nd ∧ nd < w'.brk ∧ nd ≠ 0 ∧
                (w.brk % 16 = 0 → nd % 16 = 0) ∧ t < 8 ∧ (t = ti + 1 ∨ t = 7)))) ∧
        ∀ (lo B : Nat) (V : Nat → Prop), Ctx A lo B V w w1 → V child_node →
          (1 < level → V node_flag) →
          Frame lo V (fun x => x = child_node ∨
            (1 < level ∧ nearp A node_flag x)) w w' ∧
          V pub)) := by
  unfold ja_attach_node at h
  simp only [Res.bind_eq_ok, assert_eq_ok] at h
  obtain ⟨_, hnz, h⟩ := h
  refine ⟨hnz, ?_⟩
  by_cases hsh : rcuja_shadow_lookup_lock w (ja_node_ptr A node_flag) = 0
  · rw [if_pos hsh] at h
    simp only [Res.pure_eq] at h
    injection h with h
    injection h with h1 h2
    subst h1; subst h2
    exact ⟨Kept.kept_refl _, OracleUse.oracle_refl _ _,
      Or.inl ⟨by decide, fun lo B V _ _ => Frame.frame_refl _ _ _ _⟩⟩
  · rw [if_neg hsh] at h
    by_cases hpc : ja_node_ptr A parent_node_flag ≠ 0 ∧
        (if ja_node_ptr A parent_node_flag ≠ 0 then
          rcuja_shadow_lookup_lock w (ja_node_ptr A parent_node_flag) else 0) = 0
    · rw [if_pos hpc] at h
      simp only [Res.pure_eq] at h
      injection h with h
      injection h with h1 h2
      subst h1; subst h2
      exact ⟨Kept.kept_refl _, OracleUse.oracle_refl _ _,
        Or.inl ⟨by decide, fun lo B V _ _ => Frame.frame_refl _ _ _ _⟩⟩
    · rw [if_neg hpc] at h
      simp only [Res.bind_eq_ok] at h
      obtain ⟨⟨retb, created, wb⟩, hb, w2, hu, h⟩ := h
      simp only [Res.pure_eq] at h
      injection h with h
      injection h with h1 h2
      subst h1
      have e1 : w1 = w2 := by
        rw [← h2]
        simp only [rcuja_shadow_unlock, ite_self]
      subst e1
      obtain ⟨kb, ob, hcase⟩ := ja_attach_node_branch_eff A w node_flag_ptr node_flag key level
        child_node _ retb created wb hb
      simp only at hu
      rcases hcase with ⟨hr, fr⟩ | ⟨hr, w', pub, e, k', hpub, fr⟩
      · rw [if_pos hr] at hu
        obtain ⟨su, ou⟩ := ja_attach_node_unwind_eff A created 0 wb w1 hu
        refine ⟨kb.kept_trans su.kept, OracleUse.same ob ou, Or.inl ⟨hr, ?_⟩⟩
        intro lo B V c hch
        have cb : Ctx A lo B V w wb := ⟨c.lo_le, by rw [← su.brk]; exact c.le_B, c.al,
          c.closed, c.vals⟩
        exact (fr lo B V cb hch).frame_trans (su.frame lo V _)
      · subst hr
        simp only [ne_eq, not_true, if_false, Res.pure_eq] at hu
        injection hu with hu
        subst hu
        refine ⟨kb, ob, Or.inr ⟨rfl, w', pub, e, k', ?_, ?_⟩⟩
        · rcases hpub with hp | ⟨hl, hp⟩
          · exact Or.inl hp
          · refine Or.inr ⟨hl, ?_⟩
            rcases hp with ⟨hp, _⟩ | ⟨ti, hti, nd, t, e1, e2, e3, e4, e5, e6, e7⟩
            · exact Or.inl hp
            · refine Or.inr ⟨ti, hti, nd, t, e1, e2, e3, e4, e5, e6, ?_⟩
              have hti8 := ja_node_type_lt A node_flag ti hnz hti
              have hne : ¬ (rcuja_shadow_lookup_lock w (ja_node_ptr A node_flag) = 0 ∨
                  ti = NODE_INDEX_NULL) := by
                intro hh
                rcases hh with hh | hh
                · exact hsh hh
                · unfold NODE_INDEX_NULL at hh; omega
              rw [if_neg hne] at e7
              rcases e7 with e7 | ⟨e7, _⟩
              · exact Or.inl e7
              · exact Or.inr e7
        · intro lo B V c hch hnf
          obtain ⟨f, hV⟩ := fr lo B V c hch hnf
          exact ⟨f.mono (fun x hx => hx.elim Or.inl (fun h => Or.inr ⟨h.1, h.2.2⟩)), hV⟩

theorem nearp_self (A : Arch) (v : Nat) : nearp A v (ja_node_ptr A v) :=
  Or.inl ⟨Nat.le_refl _, by omega⟩

/-- The effect of one pass of `cds_ja_add`: besides the blocks it allocates and the
link of the new node, a pass writes only when it returns 0, and then near nodes
that cells point to and through `node_flag_ptr`. -/
theorem cds_ja_add_pass_eff (A : Arch) (key new_node tree_depth : Nat) :
    ∀ (todo i nfp nf pnf p2nf : Nat) (w : World) (again : Bool) (ret : Int) (w1 : World),
      cds_ja_add_pass A key new_node tree_depth todo i nfp nf pnf p2nf w =
        Res.ok (again, ret, w1) →
      Kept w w1 ∧ OracleUse w w1 ret ∧ (again = true → ret ≠ 0 ∧ ret ≠ -ENOMEM) ∧
      ∀ (lo B : Nat) (V : Nat → Prop), Ctx A lo B V w w1 → V new_node → V nf →
        (1 < i → V pnf) →
        Frame lo V (fun x => x = new_node ∨
          (ret = 0 ∧ (x = nfp ∨ ∃ v, V v ∧ nearp A v x))) w w1 := by
  have hattach : ∀ (i nfp pnf p2nf : Nat) (w : World) (ret : Int) (w1 : World),
      ja_attach_node A w nfp pnf p2nf key i new_node = Res.ok (ret, w1) →
      Kept w w1 ∧ OracleUse w w1 ret ∧
      ∀ (lo B : Nat) (V : Nat → Prop), Ctx A lo B V w w1 → V new_node →
        (1 < i → V pnf) →
        Frame lo V (fun x => x = new_node ∨
          (ret = 0 ∧ (x = nfp ∨ ∃ v, V v ∧ nearp A v x))) w w1 := by
    intro i nfp pnf p2nf w ret w1 h
    obtain ⟨_, k, o, hcase⟩ := ja_attach_node_eff A w nfp pnf p2nf key i new_node ret w1 h
    refine ⟨k, o, ?_⟩
    intro lo B V c hn hp
    rcases hcase with ⟨_, fr⟩ | ⟨hr, w', pub, e, k', _, fr⟩
    · exact (fr lo B V c hn).mono (fun x hx => Or.inl hx)
    · obtain ⟨f, hV⟩ := fr lo B V c hn hp
      rw [e]
      refine (f.mono ?_).frame_trans (store_frame w' nfp pub lo V _ (Or.inr ⟨hr, Or.inl rfl⟩) hV)
      intro x hx
      rcases hx with hx | ⟨hl, hx⟩
      · exact Or.inl hx
      · exact Or.inr ⟨hr, Or.inr ⟨pnf, hp hl, hx⟩⟩
  have hchain : ∀ (nfp nf : Nat) (w : World) (ret : Int) (w1 : World),
      ja_chain_node w (ja_node_ptr A nf) new_node = (ret, w1) →
      Kept w w1 ∧ OracleUse w w1 ret ∧ (ret = -ENOENT ∨ ret = 0) ∧
      ∀ (lo B : Nat) (V : Nat → Prop), Ctx A lo B V w w1 → V new_node → V nf →
        Frame lo V (fun x => x = new_node ∨
          (ret = 0 ∧ (x = nfp ∨ ∃ v, V v ∧ nearp A v x))) w w1 := by
    intro nfp nf w ret w1 h
    rcases ja_chain_node_eff w _ new_node ret w1 h with ⟨hr, e⟩ | ⟨hr, e⟩
    · subst e
      exact ⟨Kept.kept_refl _, OracleUse.oracle_refl _ _, Or.inl hr,
        fun lo B V _ _ _ => Frame.frame_refl _ _ _ _⟩
    · subst e
      refine ⟨(store_same_but_mem _ _ _).kept_trans (store_same_but_mem _ _ _),
        OracleUse.of_eq _ rfl, Or.inr hr, ?_⟩
      intro lo B V c hn hnf
      exact (store_frame w new_node _ lo V _ (Or.inl rfl) (c.vals _)).frame_trans
        (store_frame _ _ new_node lo V _ (Or.inr ⟨hr, Or.inr ⟨nf, hnf, nearp_self A nf⟩⟩) hn)
  intro todo
  induction todo with
  | zero =>
    intro i nfp nf pnf p2nf w again ret w1 h
    rw [cds_ja_add_pass] at h
    by_cases hz : ja_node_ptr A nf = 0
    · rw [if_pos hz] at h
      simp only [Res.bind_eq_ok, Res.pure_eq] at h
      obtain ⟨⟨ret0, w0⟩, ha, h⟩ := h
      injection h with h
      injection h with h1 h
      injection h with h2 h3
      subst h2; subst h3
      obtain ⟨k, o, fr⟩ := hattach i nfp pnf p2nf w _ _ ha
      refine ⟨k, o, ?_, fun lo B V c hn _ hp => fr lo B V c hn hp⟩
      intro hag
      rw [← h1] at hag
      have := of_decide_eq_true hag
      rw [this]
      exact ⟨by decide, by decide⟩
    · rw [if_neg hz] at h
      simp only [Res.pure_eq] at h
      cases hc : ja_chain_node w (ja_node_ptr A nf) new_node with
      | mk ret0 w0 =>
      rw [hc] at h
      injection h with h
      injection h with h1 h
      injection h with h2 h3
      subst h2; subst h3
      obtain ⟨k, o, hr, fr⟩ := hchain nfp nf w _ _ hc
      refine ⟨k, o, ?_, fun lo B V c hn hnf _ => fr lo B V c hn hnf⟩
      intro hag
      rw [← h1] at hag
      have := of_decide_eq_true hag
      rw [this]
      exact ⟨by decide, by decide⟩
  | succ todo ih =>
    intro i nfp nf pnf p2nf w again ret w1 h
    rw [cds_ja_add_pass] at h
    by_cases hz : ja_node_ptr A nf = 0
    · rw [if_pos hz] at h
      simp only [Res.bind_eq_ok, Res.pure_eq] at h
      obtain ⟨⟨ret0, w0⟩, ha, h⟩ := h
      injection h with h
      injection h with h1 h
      injection h with h2 h3
      subst h2; subst h3
      obtain ⟨k, o, fr⟩ := hattach i nfp pnf p2nf w _ _ ha
      refine ⟨k, o, ?_, fun lo B V c hn _ hp => fr lo B V c hn hp⟩
      intro hag
      rw [← h1] at hag
      rcases of_decide_eq_true hag with e | e <;> rw [e] <;> exact ⟨by decide, by decide⟩
    · rw [if_neg hz] at h
      simp only [Res.bind_eq_ok] at h
      obtain ⟨⟨nf1, slot⟩, hg, h⟩ := h
      simp only at h
      obtain ⟨_, hslot⟩ := ja_node_get_nth_inv A w nf _ nf1 slot (lookup_iter_key_lt _ _ _) hg
      obtain ⟨k, o, hag, fr⟩ := ih _ _ _ _ _ _ _ _ _ h
      refine ⟨k, o, hag, ?_⟩
      intro lo B V c hn hnf hp
      have hV1 : V nf1 := by
        rcases hslot with ⟨_, e⟩ | ⟨p, _, e, _⟩
        · rw [e]; exact c.closed.small 0 (by decide)
        · rw [e]; exact c.vals p
      refine (fr lo B V c hn hV1 (fun _ => hnf)).mono ?_
      intro x hx
      rcases hx with hx | ⟨hr, hx | hx⟩
      · exact Or.inl hx
      · rcases hslot with ⟨e, _⟩ | ⟨p, e, _, hnear⟩
        · rw [e] at hx
          exact Or.inr ⟨hr, Or.inl hx⟩
        · rw [e] at hx
          simp only at hx
          exact Or.inr ⟨hr, Or.inr ⟨nf, hnf, hx ▸ hnear⟩⟩
      · exact Or.inr ⟨hr, Or.inr hx⟩

/-- The effect of the passes of `cds_ja_add`. -/
theorem cds_ja_add_retry_eff (A : Arch) (key new_node : Nat) :
    ∀ (fuel : Nat) (w : World) (ret : Int) (w1 : World),
      cds_ja_add_retry A key new_node fuel w = Res.ok (ret, w1) →
      Kept w w1 ∧ OracleUse w w1 ret ∧
      ∀ (lo B : Nat) (V : Nat → Prop), Ctx A lo B V w w1 → V new_node →
        Frame lo V (fun x => x = new_node ∨
          (ret = 0 ∧ (x = w.root ∨ ∃ v, V v ∧ nearp A v x))) w w1 := by
  intro fuel
  induction fuel with
  | zero =>
    intro w ret w1 h
    rw [cds_ja_add_retry] at h
    cases h
  | succ fuel ih =>
    intro w ret w1 h
    rw [cds_ja_add_retry] at h
    simp only [Res.bind_eq_ok] at h
    obtain ⟨⟨again, ret0, w0⟩, hp, h⟩ := h
    simp only at h
    obtain ⟨k0, o0, hag, fr0⟩ := cds_ja_add_pass_eff A key new_node _ _ _ _ _ _ _ w again ret0
      w0 hp
    cases again with
    | false =>
      simp only [Bool.false_eq_true, if_false, Res.pure_eq] at h
      injection h with h
      injection h with h1 h2
      subst h1; subst h2
      exact ⟨k0, o0, fun lo B V c hn =>
        fr0 lo B V c hn (c.vals _) (fun h => absurd h (by decide))⟩
    | true =>
      simp only [if_true] at h
      obtain ⟨k1, o1, fr1⟩ := ih w0 ret w1 h
      obtain ⟨hr0, hr1⟩ := hag rfl
      refine ⟨k0.kept_trans k1, OracleUse.oracle_trans o0 hr1 o1, ?_⟩
      intro lo B V c hn
      have f0 := (fr0 lo B V (c.step (Kept.kept_refl w)
        (Frame.frame_refl lo V (fun _ => False) w) k1) hn (c.vals _)
        (fun h => absurd h (by decide))).mono
        (Q := fun x => x = new_node ∨ (ret = 0 ∧ (x = w.root ∨ ∃ v, V v ∧ nearp A v x)))
        (fun x hx => hx.elim Or.inl (fun h => absurd h.1 hr0))
      have f1 := fr1 lo B V (c.step k0 f0 (Kept.kept_refl w1)) hn
      rw [k0.root] at f1
      exact f0.frame_trans f1

/-- The effect of `cds_ja_add`. -/
theorem cds_ja_add_eff (A : Arch) (fuel : Nat) (w : World) (key new_node : Nat)
    (ret : Int) (w1 : World)
    (h : cds_ja_add A fuel w key new_node = Res.ok (ret, w1)) :
    Kept w w1 ∧ OracleUse w w1 ret ∧
    ∀ (lo B : Nat) (V : Nat → Prop), Ctx A lo B V w w1 → V new_node →
      Frame lo V (fun x => x = new_node ∨
        (ret = 0 ∧ (x = w.root ∨ ∃ v, V v ∧ nearp A v x))) w w1 := by
  unfold cds_ja_add at h
  by_cases hk : key > w.key_max
  · rw [if_pos hk] at h
    simp only [Res.pure_eq] at h
    injection h with h
    injection h with h1 h2
    subst h1; subst h2
    exact ⟨Kept.kept_refl _, OracleUse.oracle_refl _ _,
      fun lo B V _ _ => Frame.frame_refl _ _ _ _⟩
  · rw [if_neg hk] at h
    exact cds_ja_add_retry_eff A key new_node fuel w ret w1 h

/-! ## The root slot across one pass of `cds_ja_add` -/

theorem clear_not_near (A : Arch) (r v : Nat) (hr : 2048 ≤ r) (h : clear_of A r v) :
    ¬ nearp A v r := by
  intro hn
  unfold clear_of at h
  unfold nearp near at hn
  omega

theorem two_pow_bits (A : Arch) :
    2 ^ CAA_BITS_PER_LONG A % 16 = 0 ∧ 4096 ≤ 2 ^ CAA_BITS_PER_LONG A := by
  cases A <;> decide

/-- A tagged pointer to an aligned block of the address space. -/
theorem fresh_flag (A : Arch) (b t : Nat) (hb : b < 2 ^ CAA_BITS_PER_LONG A)
    (ha : b % 16 = 0) (ht : t < 8) :
    b ||| t = b + t ∧ ja_node_ptr A (b ||| t) = b ∧
    (b ≠ 0 → ja_node_type A (b ||| t) = Res.ok t) := by
  obtain ⟨h1, _⟩ := two_pow_bits A
  have hfit : b + 8 ≤ 2 ^ CAA_BITS_PER_LONG A := by omega
  have e := or_tag b t (by omega) ht
  rw [e]
  exact ⟨rfl, ja_node_ptr_add_tag A b t (by omega) ht hfit,
    fun hnz => ja_node_type_add_tag A b t (by omega) ht hnz hfit⟩

theorem clear_of_closed (A : Arch) (r lo : Nat) (hr : 4096 ≤ r) (hlo : r < lo) :
    VClosed A lo (2 ^ CAA_BITS_PER_LONG A) (clear_of A r) := by
  refine ⟨?_, ?_, Nat.le_refl _⟩
  · intro v hv
    have := ja_node_ptr_le A v
    exact Or.inl (by omega)
  · intro b t h1 h2 h3 h4
    right
    rw [(fresh_flag A b t h2 h3 h4).2.1]
    omega

theorem Good.ctx {A : Arch} {w w1 : World} (hg : Good A w)
    (hB : w1.brk ≤ 2 ^ CAA_BITS_PER_LONG A) :
    Ctx A w.brk (2 ^ CAA_BITS_PER_LONG A) (clear_of A w.root) w w1 :=
  ⟨Nat.le_refl _, hB, hg.brk_al, clear_of_closed A w.root w.brk hg.root_ge hg.root_lt,
    hg.cells⟩

/-- The root slot across a call of `ja_attach_node`: the call leaves its content,
or it stores through `node_flag_ptr`, which is the root slot, a tagged pointer
of shape 0 at level 1, and at a higher level `node_flag` itself or a pointer of
the shape that follows the one of `node_flag`, or of shape 7. -/
theorem ja_attach_node_root (A : Arch) (w : World)
    (nfp nf pnf key level child_node : Nat) (ret : Int) (w1 : World)
    (h : ja_attach_node A w nfp nf pnf key level child_node = Res.ok (ret, w1))
    (hg : Good A w) (hB : w1.brk ≤ 2 ^ CAA_BITS_PER_LONG A)
    (hch : clear_of A w.root child_node) (hne : child_node ≠ w.root)
    (hnf : 1 < level → clear_of A w.root nf) :
    w1.mem w.root = w.mem w.root ∨
    (ret = 0 ∧ nfp = w.root ∧
      ((level ≤ 1 ∧ ja_node_type A (w1.mem w.root) = Res.ok 0) ∨
       (1 < level ∧ (w1.mem w.root = nf ∨ ∃ ti t, ja_node_type A nf = Res.ok ti ∧
          ja_node_type A (w1.mem w.root) = Res.ok t ∧ t < 8 ∧ (t = ti + 1 ∨ t = 7))))) := by
  obtain ⟨hnz, k, _, hcase⟩ := ja_attach_node_eff A w nfp nf pnf key level child_node ret w1 h
  have c := hg.ctx hB
  have hroot : ∀ (P : Nat → Prop) (w' : World), ¬ P w.root →
      Frame w.brk (clear_of A w.root) P w w' → w'.mem w.root = w.mem w.root := by
    intro P w' hP f
    rcases f w.root with e | ⟨e | e, _⟩
    · exact e
    · have := hg.root_lt
      omega
    · exact absurd e hP
  rcases hcase with ⟨_, fr⟩ | ⟨hr, w', pub, e, k', hpub, fr⟩
  · exact Or.inl (hroot _ w1 (fun e => hne e.symm) (fr _ _ _ c hch))
  · obtain ⟨f, _⟩ := fr _ _ _ c hch hnf
    have e' : w'.mem w.root = w.mem w.root := by
      apply hroot _ w' _ f
      intro hx
      rcases hx with hx | ⟨hl, hx⟩
      · exact hne hx.symm
      · exact clear_not_near A w.root nf (by have := hg.root_ge; omega) (hnf hl) hx
    by_cases hp : nfp = w.root
    · have e1 : w1.mem w.root = pub := by
        rw [e, World.store_mem, if_pos hp.symm]
      have hb' : w'.brk ≤ 2 ^ CAA_BITS_PER_LONG A := by
        rw [e] at hB
        exact hB
      have hal' : w'.brk % 16 = 0 := k'.brk_al hg.brk_al
      have hfresh : ∀ nd t, pub = nd ||| t → nd < w'.brk → nd ≠ 0 →
          (w.brk % 16 = 0 → nd % 16 = 0) → t < 8 →
          ja_node_type A (w1.mem w.root) = Res.ok t := by
        intro nd t e2 e3 e4 e5 e6
        rw [e1, e2]
        exact (fresh_flag A nd t (by omega) (e5 hg.brk_al) e6).2.2 e4
      rcases hpub with ⟨hl, hp1⟩ | ⟨hl, hp1⟩
      · rcases hp1 with ⟨hd, _⟩ | ⟨nd, e2, _, e3, e4, e5⟩
        · have := hg.depth
          omega
        · exact Or.inr ⟨hr, hp, Or.inl ⟨hl, hfresh nd 0 e2 e3 e4 e5 (by decide)⟩⟩
      · rcases hp1 with hp1 | ⟨ti, hti, nd, t, e2, _, e3, e4, e5, e6, e7⟩
        · exact Or.inr ⟨hr, hp, Or.inr ⟨hl, Or.inl (by rw [e1, hp1])⟩⟩
        · exact Or.inr ⟨hr, hp, Or.inr ⟨hl, Or.inr
            ⟨ti, t, hti, hfresh nd t e2 e3 e4 e5 e6, e6, e7⟩⟩⟩
    · left
      rw [e, World.store_mem, if_neg (fun e => hp e.symm)]
      exact e'

theorem shape_step_same (s : Nat) : ShapeStep s s := Or.inl rfl

/-- The root slot across one pass of `cds_ja_add`. -/
theorem cds_ja_add_pass_root (A : Arch) (key new_node tree_depth : Nat) :
    ∀ (todo i nfp nf pnf p2nf : Nat) (w : World) (again : Bool) (ret : Int) (w1 : World),
      cds_ja_add_pass A key new_node tree_depth todo i nfp nf pnf p2nf w =
        Res.ok (again, ret, w1) →
      Good A w → w1.brk ≤ 2 ^ CAA_BITS_PER_LONG A →
      clear_of A w.root new_node → new_node ≠ w.root →
      clear_of A w.root nf → (1 < i → clear_of A w.root pnf) →
      (nfp = w.root →
        (i = 1 ∧ nf = w.mem w.root) ∨
        (i = 2 ∧ ja_node_ptr A nf = 0 ∧ pnf = w.mem w.root ∧ ja_node_ptr A pnf ≠ 0)) →
      w1.mem w.root = w.mem w.root ∨
      (ret = 0 ∧ ∃ s s', ja_node_type A (w.mem w.root) = Res.ok s ∧
        ja_node_type A (w1.mem w.root) = Res.ok s' ∧ ShapeStep s s') := by
  have hattach : ∀ (i nfp nf pnf p2nf : Nat) (w : World) (ret : Int) (w1 : World),
      ja_node_ptr A nf = 0 →
      ja_attach_node A w nfp pnf p2nf key i new_node = Res.ok (ret, w1) →
      Good A w → w1.brk ≤ 2 ^ CAA_BITS_PER_LONG A →
      clear_of A w.root new_node → new_node ≠ w.root →
      (1 < i → clear_of A w.root pnf) →
      (nfp = w.root →
        (i = 1 ∧ nf = w.mem w.root) ∨
        (i = 2 ∧ ja_node_ptr A nf = 0 ∧ pnf = w.mem w.root ∧ ja_node_ptr A pnf ≠ 0)) →
      w1.mem w.root = w.mem w.root ∨
      (ret = 0 ∧ ∃ s s', ja_node_type A (w.mem w.root) = Res.ok s ∧
        ja_node_type A (w1.mem w.root) = Res.ok s' ∧ ShapeStep s s') := by
    intro i nfp nf pnf p2nf w ret w1 hz h hg hB hch hne hp hinv
    rcases ja_attach_node_root A w nfp pnf p2nf key i new_node ret w1 h hg hB hch hne hp with
      e | ⟨hr, hnfp, hcase⟩
    · exact Or.inl e
    · rcases hinv hnfp with ⟨hi, hnf⟩ | ⟨hi, _, hpnf, hpnz⟩
      · rcases hcase with ⟨_, ht⟩ | ⟨hl, _⟩
        · refine Or.inr ⟨hr, NODE_INDEX_NULL, 0, ?_, ht, Or.inr (Or.inl ⟨rfl, rfl⟩)⟩
          rw [← hnf]
          exact ja_node_type_null A nf hz
        · omega
      · rcases hcase with ⟨hl, _⟩ | ⟨_, hin | ⟨ti, t, hti, ht, ht8, hstep⟩⟩
        · omega
        · left
          rw [hin, hpnf]
        · refine Or.inr ⟨hr, ti, t, by rw [← hpnf]; exact hti, ht, ?_⟩
          rcases hstep with e | e
          · exact Or.inr (Or.inr (Or.inl ⟨by omega, e⟩))
          · exact Or.inr (Or.inr (Or.inr e))
  intro todo
  induction todo with
  | zero =>
    intro i nfp nf pnf p2nf w again ret w1 h hg hB hch hne hnf hp hinv
    rw [cds_ja_add_pass] at h
    by_cases hz : ja_node_ptr A nf = 0
    · rw [if_pos hz] at h
      simp only [Res.bind_eq_ok, Res.pure_eq] at h
      obtain ⟨⟨ret0, w0⟩, ha, h⟩ := h
      injection h with h
      injection h with h1 h
      injection h with h2 h3
      subst h2; subst h3
      exact hattach i nfp nf pnf p2nf w _ _ hz ha hg hB hch hne hp hinv
    · rw [if_neg hz] at h
      simp only [Res.pure_eq] at h
      cases hc : ja_chain_node w (ja_node_ptr A nf) new_node with
      | mk ret0 w0 =>
      rw [hc] at h
      injection h with h
      injection h with h1 h
      injection h with h2 h3
      subst h2; subst h3
      left
      rcases ja_chain_node_eff w _ new_node _ _ hc with ⟨_, e⟩ | ⟨_, e⟩
      · rw [e]
      · rw [e, World.store_mem, World.store_mem]
        have h1 : w.root ≠ ja_node_ptr A nf := by
          intro e2
          exact clear_not_near A w.root nf (by have := hg.root_ge; omega) hnf
            (e2 ▸ nearp_self A nf)
        rw [if_neg h1, if_neg (fun e => hne e.symm)]
  | succ todo ih =>
    intro i nfp nf pnf p2nf w again ret w1 h hg hB hch hne hnf hp hinv
    rw [cds_ja_add_pass] at h
    by_cases hz : ja_node_ptr A nf = 0
    · rw [if_pos hz] at h
      simp only [Res.bind_eq_ok, Res.pure_eq] at h
      obtain ⟨⟨ret0, w0⟩, ha, h⟩ := h
      injection h with h
      injection h with h1 h
      injection h with h2 h3
      subst h2; subst h3
      exact hattach i nfp nf pnf p2nf w _ _ hz ha hg hB hch hne hp hinv
    · rw [if_neg hz] at h
      simp only [Res.bind_eq_ok] at h
      obtain ⟨⟨nf1, slot⟩, hget, h⟩ := h
      simp only at h
      obtain ⟨_, hslot⟩ := ja_node_get_nth_inv A w nf _ nf1 slot (lookup_iter_key_lt _ _ _) hget
      have hV1 : clear_of A w.root nf1 := by
        rcases hslot with ⟨_, e⟩ | ⟨p, _, e, _⟩
        · rw [e]
          exact (clear_of_closed A w.root w.brk hg.root_ge hg.root_lt).small 0 (by decide)
        · rw [e]; exact hg.cells p
      refine ih _ _ _ _ _ _ _ _ _ h hg hB hch hne hV1 (fun _ => hnf) ?_
      intro hroot
      rcases hslot with ⟨e, e0⟩ | ⟨p, e, _, hnear⟩
      · rw [e] at hroot
        simp only at hroot
        rcases hinv hroot with ⟨hi, hnfR⟩ | ⟨_, hz', _⟩
        · exact Or.inr ⟨by omega, by rw [e0]; exact ja_node_ptr_zero A, hnfR, hz⟩
        · exact absurd hz' hz
      · rw [e] at hroot
        simp only at hroot
        exact absurd (hroot ▸ hnear)
          (clear_not_near A w.root nf (by have := hg.root_ge; omega) hnf)

/-! ## Shape monotonicity at the root slot (C20) -/

theorem ja_node_type_le (A : Arch) (x s : Nat) (h : ja_node_type A x = Res.ok s) : s ≤ 8 := by
  by_cases hp : ja_node_ptr A x = 0
  · rw [ja_node_type_null A x hp] at h
    injection h with h
    rw [← h]
    decide
  · have := ja_node_type_lt A x s hp h
    omega

theorem shape_rank_mono (s s' : Nat) (hs : s ≤ 8) (h : ShapeStep s s') :
    shape_rank s ≤ shape_rank s' := by
  unfold ShapeStep NODE_INDEX_NULL at h
  unfold shape_rank NODE_INDEX_NULL
  rcases h with h | ⟨h1, h2⟩ | ⟨h1, h2⟩ | h
  · rw [h]
  · subst h1; subst h2; decide
  · subst h2
    rw [if_neg (by omega), if_neg (by omega)]
    omega
  · subst h
    by_cases e : s = 8
    · rw [if_pos e]; exact Nat.zero_le _
    · rw [if_neg e, if_neg (by decide)]
      omega

/-- A pass of `cds_ja_add` keeps the state good. -/
theorem cds_ja_add_pass_good (A : Arch) (key new_node tree_depth : Nat)
    (todo i nfp nf pnf p2nf : Nat) (w : World) (again : Bool) (ret : Int) (w1 : World)
    (h : cds_ja_add_pass A key new_node tree_depth todo i nfp nf pnf p2nf w =
      Res.ok (again, ret, w1))
    (hg : Good A w) (hB : w1.brk ≤ 2 ^ CAA_BITS_PER_LONG A)
    (hch : clear_of A w.root new_node) (hnf : clear_of A w.root nf)
    (hp : 1 < i → clear_of A w.root pnf) : Good A w1 := by
  obtain ⟨k, _, _, fr⟩ := cds_ja_add_pass_eff A key new_node tree_depth todo i nfp nf pnf p2nf w
    again ret w1 h
  have f := fr _ _ _ (hg.ctx hB) hch hnf hp
  refine ⟨by rw [k.root]; exact hg.root_ge,
    by rw [k.root]; exact Nat.lt_of_lt_of_le hg.root_lt k.brk_le,
    k.brk_al hg.brk_al, by rw [k.tree_depth]; exact hg.depth, ?_⟩
  rw [k.root]
  exact f.values hg.cells

/-- The root slot across the passes of `cds_ja_add`. -/
theorem cds_ja_add_retry_root (A : Arch) (key new_node : Nat) :
    ∀ (fuel : Nat) (w : World) (ret : Int) (w1 : World),
      cds_ja_add_retry A key new_node fuel w = Res.ok (ret, w1) →
      Good A w → w1.brk ≤ 2 ^ CAA_BITS_PER_LONG A →
      clear_of A w.root new_node → new_node ≠ w.root →
      (w1.mem w.root = w.mem w.root ∨
        ∃ s s', ja_node_type A (w.mem w.root) = Res.ok s ∧
          ja_node_type A (w1.mem w.root) = Res.ok s' ∧ ShapeStep s s') ∧
      Good A w1 := by
  intro fuel
  induction fuel with
  | zero =>
    intro w ret w1 h
    rw [cds_ja_add_retry] at h
    cases h
  | succ fuel ih =>
    intro w ret w1 h hg hB hch hne
    rw [cds_ja_add_retry] at h
    simp only [Res.bind_eq_ok] at h
    obtain ⟨⟨again, ret0, w0⟩, hp, h⟩ := h
    simp only at h
    obtain ⟨k0, _, hag, _⟩ := cds_ja_add_pass_eff A key new_node _ _ _ _ _ _ _ w again ret0 w0 hp
    have hpass : ∀ hB0 : w0.brk ≤ 2 ^ CAA_BITS_PER_LONG A,
        (w0.mem w.root = w.mem w.root ∨
          (ret0 = 0 ∧ ∃ s s', ja_node_type A (w.mem w.root) = Res.ok s ∧
            ja_node_type A (w0.mem w.root) = Res.ok s' ∧ ShapeStep s s')) ∧ Good A w0 :=
      fun hB0 =>
      ⟨cds_ja_add_pass_root A key new_node _ _ _ _ _ _ _ w again ret0 w0 hp hg hB0 hch hne
        (hg.cells _) (fun h => absurd h (by decide)) (fun _ => Or.inl ⟨rfl, rfl⟩),
       cds_ja_add_pass_good A key new_node _ _ _ _ _ _ _ w again ret0 w0 hp hg hB0 hch
        (hg.cells _) (fun h => absurd h (by decide))⟩
    cases again with
    | false =>
      simp only [Bool.false_eq_true, if_false, Res.pure_eq] at h
      injection h with h
      injection h with h1 h2
      subst h1; subst h2
      obtain ⟨h1, h2⟩ := hpass hB
      exact ⟨h1.elim Or.inl (fun h => Or.inr h.2), h2⟩
    | true =>
      simp only [if_true] at h
      obtain ⟨k1, _, _⟩ := cds_ja_add_retry_eff A key new_node fuel w0 ret w1 h
      obtain ⟨h1, h2⟩ := hpass (Nat.le_trans k1.brk_le hB)
      have e0 : w0.mem w.root = w.mem w.root := by
        rcases h1 with e | ⟨e, _⟩
        · exact e
        · exact absurd e (hag rfl).1
      have hr := ih w0 ret w1 h h2 hB (by rw [k0.root]; exact hch) (by rw [k0.root]; exact hne)
      rw [k0.root, e0] at hr
      exact hr

/-- The root slot across a call of `cds_ja_add` in a good state: its content is
unchanged, or the shape index of the node it references makes one step; the
state stays good. -/
theorem cds_ja_add_root (A : Arch) (fuel : Nat) (w : World) (key new_node : Nat)
    (ret : Int) (w1 : World)
    (h : cds_ja_add A fuel w key new_node = Res.ok (ret, w1))
    (hg : Good A w) (hB : w1.brk ≤ 2 ^ CAA_BITS_PER_LONG A)
    (hch : clear_of A w.root new_node) (hne : new_node ≠ w.root) :
    (w1.mem w.root = w.mem w.root ∨
      ∃ s s', ja_node_type A (w.mem w.root) = Res.ok s ∧
        ja_node_type A (w1.mem w.root) = Res.ok s' ∧ ShapeStep s s') ∧
    Good A w1 := by
  unfold cds_ja_add at h
  by_cases hk : key > w.key_max
  · rw [if_pos hk] at h
    simp only [Res.pure_eq] at h
    injection h with h
    injection h with h1 h2
    subst h1; subst h2
    exact ⟨Or.inl rfl, hg⟩
  · rw [if_neg hk] at h
    exact cds_ja_add_retry_root A key new_node fuel w ret w1 h hg hB hch hne

theorem root_trace_head (A : Arch) (fuel : Nat) (adds : List (Nat × Nat)) (w : World)
    (l : List Nat) (b : Nat) (h : root_trace A fuel adds w = Res.ok (l, b)) :
    w.brk ≤ b ∧ ∃ s l', l = s :: l' ∧ ja_node_type A (w.mem w.root) = Res.ok s := by
  induction adds generalizing w l b with
  | nil =>
    rw [root_trace] at h
    simp only [Res.bind_eq_ok, Res.pure_eq] at h
    obtain ⟨s, hs, h⟩ := h
    injection h with h
    injection h with h1 h2
    exact ⟨by rw [h2], s, [], h1.symm, hs⟩
  | cons kn rest ih =>
    obtain ⟨key, node⟩ := kn
    rw [root_trace] at h
    simp only [Res.bind_eq_ok, Res.pure_eq] at h
    obtain ⟨s, hs, ⟨ret, w1⟩, hadd, ⟨l1, b1⟩, hrest, h⟩ := h
    injection h with h
    injection h with h1 h2
    obtain ⟨k, _, _⟩ := cds_ja_add_eff A fuel w key node ret w1 hadd
    obtain ⟨hb, _⟩ := ih w1 l1 b1 hrest
    simp only at h2
    exact ⟨by rw [← h2]; exact Nat.le_trans k.brk_le hb, s, l1, h1.symm, hs⟩

/-- Shape monotonicity at the root slot: in a state where no node overlaps the
root slot (every new container is one), for every sequence of calls of `cds_ja_add` that return, with user nodes
away from the root slot and blocks allocated within the address space, the
shape index of the node that the root slot references makes, from one add to
the next, one of these steps: the same index, from the NULL shape to 0, from
`i` to `i + 1`, or a jump to 7; it never decreases, the NULL shape counting as
the lowest.  And every recompaction (`ja_node_recompact_add` returning 0, for
the node of any slot) hands back a node of index `i + 1` for an old index `i`,
of index 0 for the NULL shape, or of index 7. -/
theorem root_shape_monotone (A : Arch) (fuel : Nat) (adds : List (Nat × Nat)) (w : World)
    (shapes : List Nat) (brk : Nat)
    (hg : Good A w)
    (hnodes : ∀ kn ∈ adds, clear_of A w.root kn.2 ∧ kn.2 ≠ w.root)
    (h : root_trace A fuel adds w = Res.ok (shapes, brk))
    (hB : brk ≤ 2 ^ CAA_BITS_PER_LONG A) :
    List.Chain' (fun s s' => ShapeStep s s' ∧ shape_rank s ≤ shape_rank s') shapes ∧
    ∀ (w0 : World) (old_type_index : Nat) (old_type : cds_ja_type)
      (old_node shadow_node old_node_flag n child flag : Nat) (w1 : World),
      ja_node_recompact_add A w0 old_type_index old_type old_node shadow_node old_node_flag
        n child = Res.ok (0, flag, w1) →
      w0.brk % 16 = 0 → w1.brk ≤ 2 ^ CAA_BITS_PER_LONG A →
      ja_node_ptr A flag ≠ 0 ∧
      (ja_node_type A flag =
          Res.ok (if shadow_node = 0 ∨ old_type_index = NODE_INDEX_NULL then 0
            else old_type_index + 1) ∨
        ja_node_type A flag = Res.ok 7) := by
  refine ⟨?_, ?_⟩
  swap
  · intro w0 oti ot old_node sh old_flag n child flag w1 hr hal hB1
    obtain ⟨_, _, _, f2, _⟩ := ja_node_recompact_add_eff A w0 oti ot old_node sh old_flag n child
      0 flag w1 hr
    obtain ⟨nd, t, e1, _, e3, e4, e5, e6, e7⟩ := f2 rfl
    obtain ⟨_, g2, g3⟩ := fresh_flag A nd t (by omega) (e5 hal) e6
    rw [e1, g2]
    refine ⟨e4, ?_⟩
    rcases e7 with e7 | ⟨e7, _⟩
    · left; rw [g3 e4, e7]
    · right; rw [g3 e4, e7]
  induction adds generalizing w shapes brk with
  | nil =>
    obtain ⟨_, s, l', e, _⟩ := root_trace_head A fuel [] w shapes brk h
    rw [root_trace] at h
    simp only [Res.bind_eq_ok, Res.pure_eq] at h
    obtain ⟨s, hs, h⟩ := h
    injection h with h
    injection h with h1 h2
    rw [← h1]
    exact List.chain'_singleton s
  | cons kn rest ih =>
    obtain ⟨key, node⟩ := kn
    rw [root_trace] at h
    simp only [Res.bind_eq_ok, Res.pure_eq] at h
    obtain ⟨s, hs, ⟨ret, w1⟩, hadd, ⟨l1, b1⟩, hrest, h⟩ := h
    injection h with h
    injection h with h1 h2
    simp only at h1 h2
    subst h2
    obtain ⟨hb1, s1, l', e1, hs1⟩ := root_trace_head A fuel rest w1 l1 b1 hrest
    obtain ⟨hn1, hn2⟩ := hnodes (key, node) (List.mem_cons_self _ _)
    obtain ⟨k, _, _⟩ := cds_ja_add_eff A fuel w key node ret w1 hadd
    obtain ⟨hstep, hg1⟩ := cds_ja_add_root A fuel w key node ret w1 hadd hg
      (Nat.le_trans hb1 hB) hn1 hn2
    have hrest' := ih w1 l1 b1 hg1
      (fun kn hkn => by rw [k.root]; exact hnodes kn (List.mem_cons_of_mem _ hkn)) hrest hB
    rw [← h1, e1]
    rw [e1] at hrest'
    refine List.Chain'.cons ?_ hrest'
    have hss : ShapeStep s s1 := by
      rw [k.root] at hs1
      rcases hstep with e | ⟨t, t', ht, ht', hst⟩
      · rw [e, hs] at hs1
        injection hs1 with hs1
        rw [hs1]
        exact shape_step_same s1
      · rw [hs] at ht
        rw [hs1] at ht'
        injection ht with ht
        injection ht' with ht'
        rw [ht, ht']
        exact hst
    exact ⟨hss, shape_rank_mono s s1 (ja_node_type_le A _ s hs) hss⟩

/-- A new 8-bit container (64-bit build) is a good state. -/
theorem new_world_good : Good Arch.bits64 (world_of (run_adds Arch.bits64 1 8 [])) := by
  refine ⟨by decide, by decide, by decide, by decide, ?_⟩
  intro x
  have e : (world_of (run_adds Arch.bits64 1 8 [])).mem x = 0 := by
    show (if _ then 0 else 0) = 0
    split <;> rfl
  rw [e]
  left
  decide

/-- The adds of the keys 0..30 to a new 8-bit container (64-bit build): the root
goes from the NULL shape through the shapes 0, 1, 2, 3 and 4 to shape 7. -/
theorem root_shape_monotone_example :
    List.Chain' (fun s s' => ShapeStep s s' ∧ shape_rank s ≤ shape_rank s')
      [8, 0, 1, 1, 2, 2, 2, 2, 3, 3, 3, 3, 3, 3, 3, 4, 4, 4, 4, 4, 4, 4, 4, 4, 4, 4, 4, 4, 4,
        7, 7, 7] :=
  And.left <| root_shape_monotone Arch.bits64 1 (test_adds (List.range 31))
    (world_of (run_adds Arch.bits64 1 8 [])) _ 1051680 new_world_good
    (by
      intro kn hkn
      simp only [test_adds, List.mem_map, List.mem_range] at hkn
      obtain ⟨k, hk, e⟩ := hkn
      subst e
      have hr : (world_of (run_adds Arch.bits64 1 8 [])).root = 1048576 := by decide
      rw [hr]
      have h1 : test_node k ≤ 64 * 31 := by unfold test_node; omega
      have h2 := ja_node_ptr_le Arch.bits64 (test_node k)
      exact ⟨Or.inl (by show ja_node_ptr Arch.bits64 (test_node k) + 2048 ≤ 1048576; omega),
        by show test_node k ≠ 1048576; omega⟩)
    (by decide) (by decide)

/-! ## Shape of the node behind a slot of a pigeon node (C20) -/

/-- C20 (the code breaks it for a slot other than the root slot): 64-bit build,
16-bit container (depth 3), adds only, each of them returning 0.  The adds of the
29 keys 8, 16, ..., 232 (first bytes 1..29) leave a pigeon root (tagged pointer
1050103, shape 7) whose slot for the byte 0, the cell at 1050096, is NULL.  The
add of key 0 with the node at 64 attaches under the pigeon node and leaves in
that slot the tagged pointer of the pigeon node itself: shape 7.  The next add,
of key 0 with the node at 128 (or of key 2048, whose two bytes are 0 and 0 as
well), goes from the pigeon node to the pigeon node, finds its slot for the byte
0 taken and chains the new node onto the pigeon node as onto a list head, which
stores 128 in the first cell of the node, the slot for the byte 0: shape 0 after
shape 7.  The root slot holds 1050103 all along, and the lookup of key 24 returns
its node 1600 in each of these states. -/
theorem C20_slot_shape_decreases :
    observe Arch.bits64 16
      (test_adds ((List.range 29).map (fun k => (k + 1) * 8)) ++ [(0, 64), (0, 128)]) 24 =
      Res.ok ⟨List.replicate 31 0, 1050103, 1, 1600, [1600]⟩ ∧
    observe Arch.bits64 16
      (test_adds ((List.range 29).map (fun k => (k + 1) * 8)) ++ [(0, 64), (2048, 128)]) 24 =
      Res.ok ⟨List.replicate 31 0, 1050103, 1, 1600, [1600]⟩ ∧
    [lookup_iter_key 3 0 1, lookup_iter_key 3 0 2, lookup_iter_key 3 2048 1,
      lookup_iter_key 3 2048 2] = [0, 0, 0, 0] ∧
    ja_node_get_nth Arch.bits64 (world_of (run_adds Arch.bits64 1 16
      (test_adds ((List.range 29).map (fun k => (k + 1) * 8))))) 1050103 0 =
      Res.ok (0, some 1050096) ∧
    ja_node_get_nth Arch.bits64 (world_of (run_adds Arch.bits64 1 16
      (test_adds ((List.range 29).map (fun k => (k + 1) * 8)) ++ [(0, 64)]))) 1050103 0 =
      Res.ok (1050103, some 1050096) ∧
    ja_node_get_nth Arch.bits64 (world_of (run_adds Arch.bits64 1 16
      (test_adds ((List.range 29).map (fun k => (k + 1) * 8)) ++ [(0, 64), (0, 128)])))
      1050103 0 = Res.ok (128, some 1050096) ∧
    ja_node_get_nth Arch.bits64 (world_of (run_adds Arch.bits64 1 16
      (test_adds ((List.range 29).map (fun k => (k + 1) * 8)) ++ [(0, 64), (2048, 128)])))
      1050103 0 = Res.ok (128, some 1050096) ∧
    observe Arch.bits64 16 (test_adds ((List.range 29).map (fun k => (k + 1) * 8))) 24 =
      Res.ok ⟨List.replicate 29 0, 1050103, 1, 1600, [1600]⟩ ∧
    observe Arch.bits64 16
      (test_adds ((List.range 29).map (fun k => (k + 1) * 8)) ++ [(0, 64)]) 24 =
      Res.ok ⟨List.replicate 30 0, 1050103, 1, 1600, [1600]⟩ ∧
    ja_node_type Arch.bits64 0 = Res.ok NODE_INDEX_NULL ∧
    ja_node_type Arch.bits64 1050103 = Res.ok 7 ∧
    ja_node_type Arch.bits64 128 = Res.ok 0 ∧
    ¬ ShapeStep 7 0 ∧ ¬ shape_rank 7 ≤ shape_rank 0 := by
  refine ⟨by decide, by decide, by decide, by decide, by decide, by decide, by decide,
    by decide, by decide, by decide, by decide, by decide, ?_, by decide⟩
  unfold ShapeStep NODE_INDEX_NULL
  decide

/-! ## The copy loops of `ja_node_recompact_add`, child by child -/

theorem ja_linear_node_get_ith_pos_eq (A : Arch) (type : cds_ja_type) (w : World)
    (node i v iter : Nat)
    (h : ja_linear_node_get_ith_pos A type w node i = Res.ok (v, iter)) :
    i < w.mem node ∧ v < 256 ∧ iter = w.mem (linear_slot A type node i) := by
  unfold ja_linear_node_get_ith_pos ja_linear_node_get_nr_child at h
  simp only [Res.bind_eq_ok, assert_eq_ok, Res.pure_eq] at h
  obtain ⟨_, _, nr, ⟨_, _, hnr⟩, _, hi, h⟩ := h
  injection hnr with hnr
  subst hnr
  injection h with h
  injection h with hv hi2
  exact ⟨hi, hv ▸ Nat.mod_lt _ (by decide), hi2.symm⟩

/-- A property of the position in the old node and of the state, kept by the skip
of an empty slot and by the insertion of the child of a used slot into the new
node, holds when the copy of the children of one linear node (or pool) ends. -/
theorem recompact_copy_linear_idx (A : Arch) (old_type new_type : cds_ja_type)
    (old_node new_node new_sh : Nat) (Inv : Nat → World → Prop)
    (hskip : ∀ i w, Inv i w → i < w.mem old_node →
      w.mem (linear_slot A old_type old_node i) = 0 → Inv (i + 1) w)
    (hstep : ∀ i w w1 v, Inv i w → i < w.mem old_node → v < 256 →
      w.mem (linear_slot A old_type old_node i) ≠ 0 →
      _ja_node_set_nth A new_type w new_node new_sh v
        (w.mem (linear_slot A old_type old_node i)) = Res.ok (0, w1) → Inv (i + 1) w1) :
    ∀ todo i w e,
      recompact_copy_linear A old_type new_type old_node new_node new_sh todo i w = Res.ok e →
      Inv i w →
      (∀ w1, e = CopyEnd.finished w1 → Inv (i + todo) w1) ∧
      (∀ w1, e = CopyEnd.toosmall w1 →
        new_type.type_class = RCU_JA_POOL ∧ ∃ j, Inv j w1) := by
  intro todo
  induction todo with
  | zero =>
    intro i w e h hi
    rw [recompact_copy_linear] at h
    injection h with h
    subst h
    refine ⟨fun w1 h1 => ?_, fun _ h => ?_⟩
    · injection h1 with h1
      subst h1
      exact hi
    · cases h
  | succ todo ih =>
    intro i w e h hi
    rw [recompact_copy_linear] at h
    rw [Res.bind_eq_ok] at h
    obtain ⟨⟨v, iter⟩, hg, h⟩ := h
    obtain ⟨hlt, hv, hit⟩ := ja_linear_node_get_ith_pos_eq A old_type w old_node i v iter hg
    subst hit
    simp only at h
    have hidx : i + (todo + 1) = i + 1 + todo := by omega
    rw [hidx]
    by_cases hz : w.mem (linear_slot A old_type old_node i) = 0
    · rw [if_pos hz] at h
      exact ih (i + 1) w e h (hskip i w hi hlt hz)
    · rw [if_neg hz, Res.bind_eq_ok] at h
      obtain ⟨⟨ret, w1⟩, hs, h⟩ := h
      simp only at h
      by_cases hp : new_type.type_class = RCU_JA_POOL ∧ ret ≠ 0
      · rw [if_pos hp] at h
        injection h with h
        subst h
        have e := _ja_node_set_nth_nonzero A new_type w w1 new_node new_sh v _ ret hs hp.2
        subst e
        refine ⟨fun _ h => ?_, fun w2 h2 => ?_⟩
        · cases h
        · injection h2 with h2
          subst h2
          exact ⟨hp.1, i, hi⟩
      · rw [if_neg hp, Res.bind_eq_ok] at h
        obtain ⟨_, ha, h⟩ := h
        rw [assert_eq_ok] at ha
        subst ha
        exact ih (i + 1) w1 e h (hstep i w w1 v hi hlt hv hz hs)

/-- The same for the copy of the children of the pools `pool_nr ..` of a pool
node: a property of the state kept by the insertion of any child of a used slot of
one of these pools holds at the end. -/
theorem recompact_copy_pools_idx (A : Arch) (old_type new_type : cds_ja_type)
    (old_node new_node new_sh K : Nat) (Inv : World → Prop)
    (hstep : ∀ k i w w1 v, Inv w → k < K →
      i < w.mem (old_node + (k <<< old_type.pool_size_order)) → v < 256 →
      w.mem (linear_slot A old_type (old_node + (k <<< old_type.pool_size_order)) i) ≠ 0 →
      _ja_node_set_nth A new_type w new_node new_sh v
        (w.mem (linear_slot A old_type (old_node + (k <<< old_type.pool_size_order)) i)) =
        Res.ok (0, w1) → Inv w1) :
    ∀ todo pool_nr w e, pool_nr + todo ≤ K →
      recompact_copy_pools A old_type new_type old_node new_node new_sh todo pool_nr w =
        Res.ok e →
      Inv w → Inv e.world ∧ (∀ w1, e = CopyEnd.toosmall w1 → new_type.type_class = RCU_JA_POOL) := by
  intro todo
  induction todo with
  | zero =>
    intro i w e _ h hi
    rw [recompact_copy_pools] at h
    injection h with h
    subst h
    exact ⟨hi, fun _ h => by cases h⟩
  | succ todo ih =>
    intro k w e hK h hi
    rw [recompact_copy_pools] at h
    simp only [Res.bind_eq_ok] at h
    obtain ⟨pool, hpool, nr_child, _, r, hr, h⟩ := h
    have hp : pool = old_node + (k <<< old_type.pool_size_order) := by
      unfold ja_pool_node_get_ith_pool at hpool
      simp only [Res.bind_eq_ok, assert_eq_ok, Res.pure_eq] at hpool
      obtain ⟨_, _, hpool⟩ := hpool
      injection hpool with hpool
      exact hpool.symm
    subst hp
    have h1 := recompact_copy_linear_idx A old_type new_type _ new_node new_sh
      (fun _ w => Inv w) (fun _ _ hi _ _ => hi)
      (fun i w w1 v hi hlt hv hz hs => hstep k i w w1 v hi (by omega) hlt hv hz hs)
      nr_child 0 w r hr hi
    cases r with
    | toosmall w1 =>
      simp only [Res.pure_eq] at h
      injection h with h
      subst h
      obtain ⟨hc, j, hj⟩ := h1.2 w1 rfl
      exact ⟨hj, fun _ _ => hc⟩
    | finished w1 =>
      exact ih (k + 1) w1 e (by omega) h (h1.1 w1 rfl)

/-- The steps of one pass of `ja_node_recompact_add` that has its new node and the
shadow of it, with the copy loop that it runs. -/
theorem ja_node_recompact_add_pass_copy (A : Arch) (w : World) (fallback : Bool)
    (new_type_index : Nat) (old_type : cds_ja_type)
    (old_node shadow_node old_node_flag n child : Nat) (r : PassEnd)
    (h : ja_node_recompact_add_pass A w fallback new_type_index old_type old_node shadow_node
      old_node_flag n child = Res.ok r) :
    ∃ new_type, ja_type_at A new_type_index = Res.ok new_type ∧
    ∃ nd wa, calloc w (1 <<< new_type.order) = (nd, wa) ∧
    ((nd = 0 ∧ r = PassEnd.returned (-ENOMEM) old_node_flag wa) ∨
     (nd ≠ 0 ∧ new_type_index < 8 ∧
      ∃ ns wb, rcuja_shadow_set wa nd shadow_node = (ns, wb) ∧
      ((ns = 0 ∧ r = PassEnd.returned (-ENOMEM) old_node_flag (free wb nd)) ∨
       (ns ≠ 0 ∧
        ∃ w3, (if fallback then
            shadow_set_fallback_removal_count wb ns JA_FALLBACK_REMOVAL_COUNT
          else pure wb) = Res.ok w3 ∧
        ∃ e : CopyEnd,
          ((old_type.type_class = RCU_JA_LINEAR ∧
              recompact_copy_linear A old_type new_type old_node nd ns (w3.mem old_node) 0 w3 =
                Res.ok e) ∨
           (old_type.type_class = RCU_JA_POOL ∧
              recompact_copy_pools A old_type new_type old_node nd ns
                (1 <<< old_type.nr_pool_order) 0 w3 = Res.ok e) ∨
           (old_type.type_class = RCU_JA_NULL ∧ e = CopyEnd.finished w3)) ∧
          ((∃ w4, e = CopyEnd.toosmall w4 ∧ r = PassEnd.toosmall nd ns w4) ∨
           (∃ w4 w5, e = CopyEnd.finished w4 ∧
              _ja_node_set_nth A new_type w4 nd ns n child = Res.ok (0, w5) ∧
              ((old_node = 0 ∧ r = PassEnd.returned 0 (nd ||| new_type_index) w5) ∨
               (old_node ≠ 0 ∧ ∃ w6,
                  rcuja_shadow_clear w5 old_node shadow_node RCUJA_SHADOW_CLEAR_FREE_NODE =
                    (0, w6) ∧
                  r = PassEnd.returned 0 (nd ||| new_type_index) w6)))))))) := by
  unfold ja_node_recompact_add_pass at h
  rw [Res.bind_eq_ok] at h
  obtain ⟨new_type, hT, h⟩ := h
  refine ⟨new_type, hT, ?_⟩
  unfold alloc_cds_ja_node at h
  cases hc : calloc w (1 <<< new_type.order) with
  | mk nd wa =>
  refine ⟨nd, wa, rfl, ?_⟩
  simp only [hc] at h
  by_cases hnd : nd = 0
  · rw [if_pos hnd] at h
    injection h with h
    exact Or.inl ⟨hnd, h.symm⟩
  · rw [if_neg hnd, Res.bind_eq_ok] at h
    obtain ⟨new_node_flag, hf, h⟩ := h
    have hidx : new_type_index < 8 ∧ new_node_flag = nd ||| new_type_index := by
      unfold ja_node_flag at hf
      simp only [Res.bind_eq_ok, assert_eq_ok, Res.pure_eq] at hf
      obtain ⟨_, h1, h2⟩ := hf
      injection h2 with h2
      exact ⟨by simpa [JA_TYPE_BITS] using h1, h2.symm⟩
    obtain ⟨hidx, hflag⟩ := hidx
    subst hflag
    refine Or.inr ⟨hnd, hidx, ?_⟩
    cases hs : rcuja_shadow_set wa nd shadow_node with
    | mk ns wb =>
    refine ⟨ns, wb, rfl, ?_⟩
    simp only [hs] at h
    by_cases hns : ns = 0
    · rw [if_pos hns] at h
      injection h with h
      exact Or.inl ⟨hns, h.symm⟩
    · rw [if_neg hns, Res.bind_eq_ok] at h
      obtain ⟨w3, h3, h⟩ := h
      rw [Res.bind_eq_ok] at h
      obtain ⟨_, hpig, h⟩ := h
      rw [assert_eq_ok] at hpig
      rw [Res.bind_eq_ok] at h
      obtain ⟨e, hcopy, h⟩ := h
      refine Or.inr ⟨hns, w3, h3, e, ?_, ?_⟩
      · cases hcl : old_type.type_class <;> simp only [hcl] at hcopy
        · left
          unfold ja_linear_node_get_nr_child at hcopy
          simp only [Res.bind_eq_ok, assert_eq_ok, Res.pure_eq] at hcopy
          obtain ⟨nr, ⟨_, _, hnr⟩, hcopy⟩ := hcopy
          injection hnr with hnr
          subst hnr
          exact ⟨rfl, hcopy⟩
        · right; left
          exact ⟨rfl, hcopy⟩
        · exact absurd hcopy (by simp)
        · exact absurd hcopy (by simp)
        · right; right
          injection hcopy with hcopy
          exact ⟨rfl, hcopy.symm⟩
      · cases e with
        | toosmall w4 =>
          left
          simp only [Res.pure_eq] at h
          injection h with h
          exact ⟨w4, rfl, h.symm⟩
        | finished w4 =>
          right
          simp only [Res.bind_eq_ok] at h
          obtain ⟨⟨ret, w5⟩, hset, h⟩ := h
          simp only [Res.bind_eq_ok, assert_eq_ok] at h
          obtain ⟨_, hret, h⟩ := h
          subst hret
          refine ⟨w4, w5, rfl, hset, ?_⟩
          by_cases ho : old_node = 0
          · left
            simp only [ho, ne_eq, not_true, if_false, Res.pure_eq] at h
            injection h with h
            exact ⟨ho, h.symm⟩
          · right
            simp only [ne_eq, ho, not_false_eq_true, if_true] at h
            cases hcl : rcuja_shadow_clear w5 old_node shadow_node RCUJA_SHADOW_CLEAR_FREE_NODE with
            | mk ret2 w6 =>
            simp only [hcl, Res.bind_eq_ok, assert_eq_ok, Res.pure_eq] at h
            obtain ⟨_, hr2, h⟩ := h
            subst hr2
            injection h with h
            exact ⟨ho, w6, rfl, h.symm⟩

/-! ## Tagged pointers (C21) -/

/-- C21: for a pointer `p` aligned on 8 bytes and a shape `s` below 8,
`ja_node_flag (p, s)` returns a tagged pointer whose `ja_node_ptr` is `p` and
whose `ja_node_type` is `s` when `p` is not NULL and `NODE_INDEX_NULL` (8) when
`p` is NULL; and `ja_node_type` is 8 for every tagged pointer whose pointer part is
NULL, whatever its tag bits. -/
theorem C21_tagged_pointer_decoding (A : Arch) (p s : Nat)
    (hp : p < 2 ^ CAA_BITS_PER_LONG A) (ha : p % 8 = 0) (hs : s < 8) :
    (∃ f, ja_node_flag p s = Res.ok f ∧ ja_node_ptr A f = p ∧
      ja_node_type A f = Res.ok (if p = 0 then NODE_INDEX_NULL else s)) ∧
    ∀ x, ja_node_ptr A x = 0 → ja_node_type A x = Res.ok 8 := by
  have h8 : p + 8 ≤ 2 ^ CAA_BITS_PER_LONG A := by
    have h2 := (two_pow_bits A).1
    obtain ⟨M, hM⟩ : ∃ M, M = 2 ^ CAA_BITS_PER_LONG A := ⟨_, rfl⟩
    rw [← hM] at hp h2 ⊢
    omega
  refine ⟨⟨p + s, ja_node_flag_eq p s ha hs, ja_node_ptr_add_tag A p s ha hs h8, ?_⟩,
    fun x hx => ja_node_type_null A x hx⟩
  by_cases h0 : p = 0
  · rw [if_pos h0]
    exact ja_node_type_null A _ (by rw [ja_node_ptr_add_tag A p s ha hs h8]; exact h0)
  · rw [if_neg h0]
    exact ja_node_type_add_tag A p s ha hs h0 h8

/-- C21 at the pointer 1048576 with the shape 5, 64-bit build. -/
theorem C21_tagged_pointer_decoding_witness :
    (∃ f, ja_node_flag 1048576 5 = Res.ok f ∧ ja_node_ptr Arch.bits64 f = 1048576 ∧
      ja_node_type Arch.bits64 f = Res.ok (if 1048576 = 0 then NODE_INDEX_NULL else 5)) ∧
    ∀ x, ja_node_ptr Arch.bits64 x = 0 → ja_node_type Arch.bits64 x = Res.ok 8 :=
  C21_tagged_pointer_decoding Arch.bits64 1048576 5 (by decide) (by decide) (by decide)

/-! ## The columns of the catalog (C22, C23, C25) -/

/-- C22 (as stated, refuted): in both catalogs `min_child` of shape 1 is not less
than `max_child` of shape 0 (both are 1), and `min_child` of shape 2 is not less
than `max_child` of shape 1 (both are 3). -/
theorem C22_hysteresis_not_strict_at_1_2 :
    (∃ t0 t1 t2, ja_type_at Arch.bits32 0 = Res.ok t0 ∧ ja_type_at Arch.bits32 1 = Res.ok t1 ∧
      ja_type_at Arch.bits32 2 = Res.ok t2 ∧
      ¬ t1.min_child < t0.max_child ∧ ¬ t2.min_child < t1.max_child) ∧
    (∃ t0 t1 t2, ja_type_at Arch.bits64 0 = Res.ok t0 ∧ ja_type_at Arch.bits64 1 = Res.ok t1 ∧
      ja_type_at Arch.bits64 2 = Res.ok t2 ∧
      ¬ t1.min_child < t0.max_child ∧ ¬ t2.min_child < t1.max_child) :=
  ⟨⟨_, _, _, rfl, rfl, rfl, by decide, by decide⟩, ⟨_, _, _, rfl, rfl, rfl, by decide, by decide⟩⟩

/-- C22 (amended): in both catalogs, for every shape index `k` in 1..7,
`min_child` of shape `k` is at most `max_child` of shape `k - 1`, and it is less
than it for `k` in 3..7. -/
theorem C22_hysteresis (A : Arch) (k : Nat) (h1 : 1 ≤ k) (h7 : k ≤ 7) :
    ∃ t t', ja_type_at A (k - 1) = Res.ok t ∧ ja_type_at A k = Res.ok t' ∧
      t'.min_child ≤ t.max_child ∧ (3 ≤ k → t'.min_child < t.max_child) := by
  interval_cases k <;> cases A <;> exact ⟨_, _, rfl, rfl, by decide, by decide⟩

/-- C22 (amended) at shape 3 of the 64-bit catalog: `5 < 7`. -/
theorem C22_hysteresis_witness :
    ∃ t t', ja_type_at Arch.bits64 (3 - 1) = Res.ok t ∧ ja_type_at Arch.bits64 3 = Res.ok t' ∧
      t'.min_child ≤ t.max_child ∧ (3 ≤ 3 → t'.min_child < t.max_child) :=
  C22_hysteresis Arch.bits64 3 (by decide) (by decide)

/-- C23: both catalogs have at least `JA_TYPE_MAX_NR` (8) entries, and for every
shape index `k` in 0..6, `max_child` of shape `k` is at least `min_child` of shape
`k + 1`. -/
theorem C23_catalog_overlap (A : Arch) (k : Nat) (h6 : k ≤ 6) :
    JA_TYPE_MAX_NR = 8 ∧ JA_TYPE_MAX_NR ≤ (ja_types A).length ∧
    ∃ t t', ja_type_at A k = Res.ok t ∧ ja_type_at A (k + 1) = Res.ok t' ∧
      t.max_child ≥ t'.min_child := by
  refine ⟨by decide, by cases A <;> decide, ?_⟩
  interval_cases k <;> cases A <;> exact ⟨_, _, rfl, rfl, by decide⟩

/-- C23 at shape 4 of the 32-bit catalog: `25 ≥ 20`. -/
theorem C23_catalog_overlap_witness :
    JA_TYPE_MAX_NR = 8 ∧ JA_TYPE_MAX_NR ≤ (ja_types Arch.bits32).length ∧
    ∃ t t', ja_type_at Arch.bits32 4 = Res.ok t ∧ ja_type_at Arch.bits32 (4 + 1) = Res.ok t' ∧
      t.max_child ≥ t'.min_child :=
  C23_catalog_overlap Arch.bits32 4 (by decide)

/-- C25: in both catalogs `max_child` increases strictly from each shape index in
0..6 to the next; in the 64-bit catalog the `max_child` of the indices 0..8 are
1, 3, 7, 14, 28, 54, 104, 256, 256 and the orders of the indices 0..7 are
4, 5, 6, 7, 8, 9, 10, 11. -/
theorem C25_catalog_table (A : Arch) (k : Nat) (h6 : k ≤ 6) :
    (∃ t t', ja_type_at A k = Res.ok t ∧ ja_type_at A (k + 1) = Res.ok t' ∧
      t.max_child < t'.max_child) ∧
    (ja_types Arch.bits64).map (fun t => t.max_child) = [1, 3, 7, 14, 28, 54, 104, 256, 256] ∧
    ((ja_types Arch.bits64).take 8).map (fun t => t.order) = [4, 5, 6, 7, 8, 9, 10, 11] := by
  refine ⟨?_, by decide, by decide⟩
  interval_cases k <;> cases A <;> exact ⟨_, _, rfl, rfl, by decide⟩

/-- C25 at shape 6 of the 32-bit catalog: `92 < 256`. -/
theorem C25_catalog_table_witness :
    (∃ t t', ja_type_at Arch.bits32 6 = Res.ok t ∧ ja_type_at Arch.bits32 (6 + 1) = Res.ok t' ∧
      t.max_child < t'.max_child) ∧
    (ja_types Arch.bits64).map (fun t => t.max_child) = [1, 3, 7, 14, 28, 54, 104, 256, 256] ∧
    ((ja_types Arch.bits64).take 8).map (fun t => t.order) = [4, 5, 6, 7, 8, 9, 10, 11] :=
  C25_catalog_table Arch.bits32 6 (by decide)

/-! ## The layout of a node inside its block (C24) -/

/-- The sizes of the catalog, with the offset of the pointer slots computed by
`align_ptr_size` for a node at address 0. -/
theorem catalog_sizes (A : Arch) : ∀ t ∈ (ja_types A).take 8,
    (t.type_class = RCU_JA_LINEAR ∨ t.type_class = RCU_JA_POOL ∨ t.type_class = RCU_JA_PIGEON) ∧
    (t.type_class = RCU_JA_LINEAR →
      align_ptr_size A (1 + t.max_linear_child) + t.max_linear_child * sizeof_ptr A ≤
        2 ^ t.order) ∧
    (t.type_class = RCU_JA_POOL →
      align_ptr_size A (1 + t.max_linear_child) + t.max_linear_child * sizeof_ptr A ≤
        2 ^ t.pool_size_order ∧
      2 ^ t.nr_pool_order * 2 ^ t.pool_size_order ≤ 2 ^ t.order) ∧
    (t.type_class = RCU_JA_PIGEON → 256 * sizeof_ptr A ≤ 2 ^ t.order) := by
  cases A <;> decide

theorem ja_type_at_take (A : Arch) (k : Nat) (type : cds_ja_type) (hk : k ≤ 7)
    (hT : ja_type_at A k = Res.ok type) : type ∈ (ja_types A).take 8 := by
  interval_cases k <;> cases A <;>
    (injection hT with hT; subst hT; decide)

/-- The count, the key bytes and the pointer slots of a linear node (or pool) lie
in the `linear_extent` bytes that start at its address. -/
theorem linear_cells_inside (A : Arch) (type : cds_ja_type) (base j : Nat)
    (ha : base % 8 = 0) (hC1 : 0 < type.max_linear_child)
    (hfit : base + linear_extent A type ≤ 2 ^ CAA_BITS_PER_LONG A)
    (hj : j < type.max_linear_child) :
    base + 1 + j < linear_slot A type base j ∧
    base + 1 + type.max_linear_child ≤ linear_slot A type base j ∧
    linear_slot A type base j + sizeof_ptr A ≤ base + linear_extent A type := by
  have h1 := linear_slot_ge A type base j ha hC1 hfit
  refine ⟨by omega, h1, ?_⟩
  rw [linear_slot_eq A type base j ha hC1 hfit]
  have : j * sizeof_ptr A + sizeof_ptr A ≤ type.max_linear_child * sizeof_ptr A := by
    have := Nat.mul_le_mul_right (sizeof_ptr A) (Nat.succ_le_of_lt hj)
    rw [Nat.succ_mul] at this
    exact this
  unfold linear_extent
  omega

/-- The blocks of two different pools of a pool node do not overlap. -/
theorem pool_sep (S node k k' : Nat) (h : k ≠ k') :
    node + k * S + S ≤ node + k' * S ∨ node + k' * S + S ≤ node + k * S := by
  rcases Nat.lt_or_gt_of_ne h with h | h
  · left
    have := Nat.mul_le_mul_right S (Nat.succ_le_of_lt h)
    rw [Nat.succ_mul] at this
    omega
  · right
    have := Nat.mul_le_mul_right S (Nat.succ_le_of_lt h)
    rw [Nat.succ_mul] at this
    omega

/-- The block of the pool `k` of a pool node lies in the block of the node. -/
theorem pool_inside (type : cds_ja_type) (node k : Nat) (hk : k < 2 ^ type.nr_pool_order)
    (hO : 2 ^ type.nr_pool_order * 2 ^ type.pool_size_order ≤ 2 ^ type.order) :
    node + k * 2 ^ type.pool_size_order + 2 ^ type.pool_size_order ≤ node + 2 ^ type.order := by
  have h1 : (k + 1) * 2 ^ type.pool_size_order ≤
      2 ^ type.nr_pool_order * 2 ^ type.pool_size_order :=
    Nat.mul_le_mul_right _ (Nat.succ_le_of_lt hk)
  rw [Nat.succ_mul] at h1
  omega

/-- The linear layout that `_ja_node_set_nth` and `ja_node_get_nth` work on for the
byte `n`: the node itself for a linear node, the pool of `n` for a pool node.  It
is aligned and its `linear_extent` bytes lie in the block of the node. -/
theorem linear_base (A : Arch) (type : cds_ja_type) (node n : Nat) (hT : type ∈ ja_types A)
    (ha : node % 8 = 0) (hfit : node + 2 ^ type.order ≤ 2 ^ CAA_BITS_PER_LONG A)
    (hn : n < 256) (base : Nat)
    (hbase : (type.type_class = RCU_JA_LINEAR ∧ base = node) ∨
      (type.type_class = RCU_JA_POOL ∧ base = pool_of type node n)) :
    base % 8 = 0 ∧ node ≤ base ∧ 0 < type.max_linear_child ∧
    type.max_linear_child < 256 ∧
    base + linear_extent A type ≤ node + 2 ^ type.order ∧
    base + linear_extent A type ≤ 2 ^ CAA_BITS_PER_LONG A := by
  obtain ⟨hC, hlin, hpl⟩ := catalog_layout A type hT
  rcases hbase with ⟨hc, e⟩ | ⟨hc, e⟩
  · obtain ⟨h1, h2⟩ := hlin hc
    subst e
    exact ⟨ha, Nat.le_refl _, h1, hC, by omega, by omega⟩
  · obtain ⟨h1, hnpo, hE, hO, hS8⟩ := hpl hc
    obtain ⟨k, hk, e2⟩ := pool_of_eq type node n hn hnpo
    have h3 := pool_inside type node k hk hO
    have h4 : (k * 2 ^ type.pool_size_order) % 8 = 0 := by
      rw [Nat.mul_mod, hS8]; simp
    rw [e, e2]
    exact ⟨by omega, by omega, h1, hC, by omega, by omega⟩

/-- The slot that `ja_node_get_nth` returns lies in the block of the node, and the
result depends on the cells of that block only. -/
theorem ja_node_get_nth_inside (A : Arch) (type : cds_ja_type) (w : World)
    (node_flag node idx n : Nat) (hk : idx ≤ 7)
    (hT : ja_type_at A idx = Res.ok type)
    (hp : ja_node_ptr A node_flag = node) (hnz : node ≠ 0)
    (hidx : ja_node_type A node_flag = Res.ok idx)
    (ha : node % 8 = 0) (hfit : node + 2 ^ type.order ≤ 2 ^ CAA_BITS_PER_LONG A)
    (hn : n < 256) :
    (∀ child slot, ja_node_get_nth A w node_flag n = Res.ok (child, some slot) →
      node ≤ slot ∧ slot + sizeof_ptr A ≤ node + 2 ^ type.order) ∧
    (∀ w' : World, (∀ x, node ≤ x → x < node + 2 ^ type.order → w'.mem x = w.mem x) →
      ja_node_get_nth A w' node_flag n = ja_node_get_nth A w node_flag n) := by
  have hTm := ja_type_at_mem A idx type hT
  have hget := fun w => ja_node_get_nth_eq A w node_flag n node idx type hp hnz hidx hT
  obtain ⟨_, _, _, hpig⟩ := catalog_sizes A type (ja_type_at_take A idx type hk hT)
  have hlinear : ∀ base, ((type.type_class = RCU_JA_LINEAR ∧ base = node) ∨
      (type.type_class = RCU_JA_POOL ∧ base = pool_of type node n)) →
      (∀ child slot, ja_linear_node_get_nth A type w base n = Res.ok (child, some slot) →
        node ≤ slot ∧ slot + sizeof_ptr A ≤ node + 2 ^ type.order) ∧
      (∀ w' : World, (∀ x, node ≤ x → x < node + 2 ^ type.order → w'.mem x = w.mem x) →
        ja_linear_node_get_nth A type w' base n = ja_linear_node_get_nth A type w base n) := by
    intro base hbase
    obtain ⟨hb8, hge, hC1, _, hext, hfit2⟩ := linear_base A type node n hTm ha hfit hn base hbase
    constructor
    · intro child slot hg
      rcases ja_linear_node_get_nth_inv A type w base n child (some slot) hg with
        ⟨h1, _⟩ | ⟨i, hi, h1, _⟩
      · cases h1
      · injection h1 with h1
        subst h1
        obtain ⟨_, g1, g2⟩ := linear_cells_inside A type base i hb8 hC1 hfit2 hi
        exact ⟨by omega, by omega⟩
    · intro w' hw'
      apply ja_linear_node_get_nth_congr
      · exact hw' _ hge (by
          have := linear_cells_inside A type base 0 hb8 hC1 hfit2 hC1
          have := sizeof_ptr_pos A
          omega)
      · intro j hj
        obtain ⟨g0, g1, g2⟩ := linear_cells_inside A type base j hb8 hC1 hfit2 hj
        exact hw' _ (by omega) (by omega)
      · intro j hj
        obtain ⟨g0, g1, g2⟩ := linear_cells_inside A type base j hb8 hC1 hfit2 hj
        have := sizeof_ptr_pos A
        exact hw' _ (by omega) (by omega)
  cases hcls : type.type_class
  · obtain ⟨h1, h2⟩ := hlinear node (Or.inl ⟨hcls, rfl⟩)
    constructor
    · intro child slot hg
      rw [hget, hcls] at hg
      exact h1 child slot hg
    · intro w' hw'
      rw [hget, hget, hcls]
      exact h2 w' hw'
  · obtain ⟨h1, h2⟩ := hlinear _ (Or.inr ⟨hcls, rfl⟩)
    constructor
    · intro child slot hg
      rw [hget, hcls] at hg
      simp only at hg
      rw [ja_pool_node_get_nth_eq A type w node n hcls] at hg
      exact h1 child slot hg
    · intro w' hw'
      rw [hget, hget, hcls]
      simp only
      rw [ja_pool_node_get_nth_eq A type w' node n hcls,
        ja_pool_node_get_nth_eq A type w node n hcls]
      exact h2 w' hw'
  · have hp := sizeof_ptr_pos A
    have hin : n * sizeof_ptr A + sizeof_ptr A ≤ 256 * sizeof_ptr A := by
      have := Nat.mul_le_mul_right (sizeof_ptr A) (Nat.succ_le_of_lt hn)
      rw [Nat.succ_mul] at this
      exact this
    have hsz := hpig hcls
    constructor
    · intro child slot hg
      rw [hget, hcls] at hg
      simp only [ja_pigeon_node_get_nth, Res.bind_eq_ok, assert_eq_ok, Res.pure_eq] at hg
      obtain ⟨_, _, hg⟩ := hg
      injection hg with hg
      injection hg with _ hg
      injection hg with hg
      subst hg
      exact ⟨by omega, by omega⟩
    · intro w' hw'
      rw [hget, hget, hcls]
      simp only [ja_pigeon_node_get_nth]
      rw [hw' (node + n * sizeof_ptr A) (by omega) (by omega)]
  · constructor
    · intro child slot hg
      rw [hget, hcls] at hg
      cases hg
    · intro w' _
      rw [hget, hget, hcls]
  · constructor
    · intro child slot hg
      rw [hget, hcls] at hg
      cases hg
    · intro w' _
      rw [hget, hget, hcls]

/-- C24: for every shape `k` in 0..7 of both catalogs, with `C` the
`max_linear_child` of the shape and `P` the pointer size: a linear shape has
`align_ptr_size (1 + C) + C * P ≤ 2 ^ order`, a pool shape has
`align_ptr_size (1 + C) + C * P ≤ 2 ^ pool_size_order` and
`2 ^ nr_pool_order * 2 ^ pool_size_order ≤ 2 ^ order`, the pigeon shape has
`256 * P ≤ 2 ^ order`.  Hence, for a node of the shape allocated on an aligned
address with its `2 ^ order` bytes in the address space and a byte `n`: the cells
that `_ja_node_set_nth` changes are cells of the node, the slot that
`ja_node_get_nth` returns lies in the node, and the result of `ja_node_get_nth`
depends on the cells of the node only. -/
theorem C24_node_size_suffices (A : Arch) (k : Nat) (type : cds_ja_type)
    (hk : k ≤ 7) (hT : ja_type_at A k = Res.ok type) :
    (type.type_class = RCU_JA_LINEAR →
      align_ptr_size A (1 + type.max_linear_child) + type.max_linear_child * sizeof_ptr A ≤
        2 ^ type.order) ∧
    (type.type_class = RCU_JA_POOL →
      align_ptr_size A (1 + type.max_linear_child) + type.max_linear_child * sizeof_ptr A ≤
        2 ^ type.pool_size_order ∧
      2 ^ type.nr_pool_order * 2 ^ type.pool_size_order ≤ 2 ^ type.order) ∧
    (type.type_class = RCU_JA_PIGEON → 256 * sizeof_ptr A ≤ 2 ^ type.order) ∧
    ∀ (w : World) (node_flag node n : Nat), ja_node_ptr A node_flag = node → node ≠ 0 →
      ja_node_type A node_flag = Res.ok k → node % 8 = 0 →
      node + 2 ^ type.order ≤ 2 ^ CAA_BITS_PER_LONG A → n < 256 →
      (∀ (sh child : Nat) (r : Int) (w1 : World),
        _ja_node_set_nth A type w node sh n child = Res.ok (r, w1) →
        ∀ x, w1.mem x ≠ w.mem x → node ≤ x ∧ x < node + 2 ^ type.order) ∧
      (∀ child slot, ja_node_get_nth A w node_flag n = Res.ok (child, some slot) →
        node ≤ slot ∧ slot + sizeof_ptr A ≤ node + 2 ^ type.order) ∧
      (∀ w' : World, (∀ x, node ≤ x → x < node + 2 ^ type.order → w'.mem x = w.mem x) →
        ja_node_get_nth A w' node_flag n = ja_node_get_nth A w node_flag n) := by
  obtain ⟨_, h1, h2, h3⟩ := catalog_sizes A type (ja_type_at_take A k type hk hT)
  refine ⟨h1, h2, h3, ?_⟩
  intro w node_flag node n hp hnz hidx ha hfit hn
  obtain ⟨g1, g2⟩ := ja_node_get_nth_inside A type w node_flag node k n hk hT hp hnz hidx ha
    hfit hn
  refine ⟨?_, g1, g2⟩
  intro sh child r w1 hset x hx
  rcases set_nth_inside A type w w1 node sh n child r (ja_type_at_mem A k type hT) ha hfit hn
    hset x with h | ⟨h, _⟩
  · exact absurd h hx
  · exact h

/-- C24 at the shape 6 of the 64-bit catalog: 4 pools of 256 bytes, each with 26
key bytes and 26 slots, in a block of 1024 bytes. -/
theorem C24_node_size_suffices_witness :
    ja_type_at Arch.bits64 6 = Res.ok ⟨RCU_JA_POOL, 51, 104, 26, 10, 2, 8⟩ ∧
    align_ptr_size Arch.bits64 (1 + 26) + 26 * sizeof_ptr Arch.bits64 ≤ 2 ^ 8 ∧
    2 ^ 2 * 2 ^ 8 ≤ 2 ^ 10 :=
  ⟨rfl, (C24_node_size_suffices Arch.bits64 6 ⟨RCU_JA_POOL, 51, 104, 26, 10, 2, 8⟩
    (by decide) rfl).2.1 rfl⟩

/-! ## Routing of a byte to a pool (C28) -/

/-- The cells that `ja_linear_node_set_nth` changes lie in the `linear_extent`
bytes of the linear node (or pool). -/
theorem linear_set_frame (A : Arch) (type : cds_ja_type) (w w1 : World)
    (base sh b c : Nat) (r : Int)
    (ha : base % 8 = 0) (hC1 : 0 < type.max_linear_child)
    (hfit : base + linear_extent A type ≤ 2 ^ CAA_BITS_PER_LONG A)
    (hset : ja_linear_node_set_nth A type w base sh b c = Res.ok (r, w1)) :
    ∀ x, w1.mem x ≠ w.mem x → base ≤ x ∧ x < base + linear_extent A type := by
  intro x hx
  rcases ja_linear_node_set_nth_inv A type w w1 base sh b c r hset with
    ⟨_, _, ⟨_, e, _⟩ | ⟨_, e, _⟩ | ⟨hr, _, hlt, _, _⟩⟩
  · subst e; exact absurd rfl hx
  · subst e; exact absurd rfl hx
  · subst hr
    have hmem := linear_set_mem A type w w1 base sh b c hset x
    obtain ⟨g0, g1, g2⟩ := linear_cells_inside A type base (w.mem base) ha hC1 hfit hlt
    have hp := sizeof_ptr_pos A
    by_cases e1 : x = base
    · omega
    · by_cases e2 : x = base + 1 + w.mem base
      · omega
      · by_cases e3 : x = linear_slot A type base (w.mem base)
        · omega
        · rw [if_neg e1, if_neg e2, if_neg e3] at hmem
          exact absurd hmem hx

/-- C26 (the code breaks it for a pigeon node): 64-bit build, 8-bit array.  After
the adds of the keys 0..28 the root node is a pigeon node (tagged pointer 1049639,
shape 7) whose slot for the byte 29 is NULL.  The add of key 29 with the node at
1920 attaches it under this node without recompaction: the root slot still holds
1049639, and the slot of the pigeon node for the byte 29 holds 1049639, the tagged
pointer to the pigeon node itself, instead of 1920; the slot for the byte 28, filled
by the recompaction, holds its child 1856. -/
theorem C26_pigeon_in_place_attach_publishes_node :
    root_get_nth_after Arch.bits64 8 (test_adds (List.range 29)) 29 = Res.ok (0, 1049639) ∧
    root_get_nth_after Arch.bits64 8 (test_adds (List.range 30)) 29 =
      Res.ok (1049639, 1049639) ∧
    root_get_nth_after Arch.bits64 8 (test_adds (List.range 30)) 28 =
      Res.ok (test_node 28, 1049639) ∧
    ja_node_type Arch.bits64 1049639 = Res.ok 7 ∧ test_node 29 = 1920 ∧ test_node 28 = 1856 := by
  decide

/-- C27 (the code breaks it): 64-bit build, 16-bit array (depth 3), add of key 256
(bytes 1 and 0) with the node at 64 to the empty container.  The add returns 0, the
root slot holds 1048640 and the lookup of the key finds the list of the node 64;
two nodes of shape 0 with one child each are created;
the node of the second level holds its child under the byte 0, the low byte of the
key, but the root node holds its child under the byte 32, which is
`(256 >> 3) & 0xff`, and nothing under the byte 1, the high byte of the key. -/
theorem C27_branch_bytes_use_shift_of_3 :
    observe Arch.bits64 16 [(256, 64)] 256 = Res.ok ⟨[0], 1048640, 0, 64, [64]⟩ ∧
    (world_of (run_adds Arch.bits64 1 16 [(256, 64)])).tree_depth = 3 ∧
    ja_node_type Arch.bits64 1048640 = Res.ok 0 ∧
    node_children Arch.bits64 (world_of (run_adds Arch.bits64 1 16 [(256, 64)])) 1048640 =
      [(32, 1048624)] ∧
    ja_node_type Arch.bits64 1048624 = Res.ok 0 ∧
    node_children Arch.bits64 (world_of (run_adds Arch.bits64 1 16 [(256, 64)])) 1048624 =
      [(0, 64)] ∧
    (256 >>> 8) % 256 = 1 ∧ 256 % 256 = 0 ∧ (256 >>> 3) % 256 = 32 ∧
    root_get_nth_after Arch.bits64 16 [(256, 64)] 1 = Res.ok (0, 1048640) := by
  decide

/-! ## The layout invariant of linear nodes and pools (C29) -/

/-- A linear layout of a node is aligned and lies in the block of the node. -/
theorem is_base_geom (A : Arch) (type : cds_ja_type) (node base : Nat) (hT : type ∈ ja_types A)
    (ha : node % 8 = 0) (hfit : node + 2 ^ type.order ≤ 2 ^ CAA_BITS_PER_LONG A)
    (hb : is_base type node base) :
    base % 8 = 0 ∧ node ≤ base ∧ 0 < type.max_linear_child ∧
    type.max_linear_child < 256 ∧
    base + linear_extent A type ≤ node + 2 ^ type.order ∧
    base + linear_extent A type ≤ 2 ^ CAA_BITS_PER_LONG A := by
  obtain ⟨hC, hlin, hpl⟩ := catalog_layout A type hT
  rcases hb with ⟨hc, e⟩ | ⟨hc, k, hk, e⟩
  · obtain ⟨h1, h2⟩ := hlin hc
    subst e
    exact ⟨ha, Nat.le_refl _, h1, hC, by omega, by omega⟩
  · obtain ⟨h1, hnpo, hE, hO, hS8⟩ := hpl hc
    have h3 := pool_inside type node k hk hO
    have h4 : (k * 2 ^ type.pool_size_order) % 8 = 0 := by
      rw [Nat.mul_mod, hS8]; simp
    rw [e]
    exact ⟨by omega, by omega, h1, hC, by omega, by omega⟩

/-- The layout that an access for the byte `n` works on is one of the linear
layouts of the node. -/
theorem routed_is_base (A : Arch) (type : cds_ja_type) (node n base : Nat)
    (hT : type ∈ ja_types A) (hn : n < 256)
    (hbase : (type.type_class = RCU_JA_LINEAR ∧ base = node) ∨
      (type.type_class = RCU_JA_POOL ∧ base = pool_of type node n)) :
    is_base type node base := by
  rcases hbase with h | ⟨hc, e⟩
  · exact Or.inl h
  · obtain ⟨_, _, hpl⟩ := catalog_layout A type hT
    obtain ⟨_, hnpo, _⟩ := hpl hc
    obtain ⟨k, hk, e2⟩ := pool_of_eq type node n hn hnpo
    exact Or.inr ⟨hc, k, hk, e.trans e2⟩

/-- Two different linear layouts of a node do not overlap. -/
theorem is_base_sep (A : Arch) (type : cds_ja_type) (node base base' : Nat)
    (hT : type ∈ ja_types A) (hb : is_base type node base) (hb' : is_base type node base')
    (hne : base ≠ base') :
    base + linear_extent A type ≤ base' ∨ base' + linear_extent A type ≤ base := by
  obtain ⟨hC, hlin, hpl⟩ := catalog_layout A type hT
  rcases hb with ⟨hc, e⟩ | ⟨hc, k, hk, e⟩
  · rcases hb' with ⟨_, e'⟩ | ⟨hc', _⟩
    · exact absurd (e.trans e'.symm) hne
    · rw [hc] at hc'; cases hc'
  · rcases hb' with ⟨hc', _⟩ | ⟨_, k', hk', e'⟩
    · rw [hc] at hc'; cases hc'
    · obtain ⟨h1, hnpo, hE, hO, hS8⟩ := hpl hc
      have hkk : k ≠ k' := by
        intro h
        subst h
        exact hne (e.trans e'.symm)
      rcases pool_sep (2 ^ type.pool_size_order) node k k' hkk with h | h
      · left; omega
      · right; omega

/-- The layout invariant depends on the bytes of the layout only. -/
theorem linear_inv_congr (A : Arch) (type : cds_ja_type) (w w1 : World) (base : Nat)
    (h : LinearInv A w type base)
    (ha : base % 8 = 0) (hC1 : 0 < type.max_linear_child)
    (hfit : base + linear_extent A type ≤ 2 ^ CAA_BITS_PER_LONG A)
    (hm : ∀ x, base ≤ x → x < base + linear_extent A type → w1.mem x = w.mem x) :
    LinearInv A w1 type base := by
  have hp := sizeof_ptr_pos A
  have g := fun j hj => linear_cells_inside A type base j ha hC1 hfit hj
  have h0 : w1.mem base = w.mem base := hm base (Nat.le_refl _) (by
    have := g 0 hC1
    omega)
  have hv : ∀ j, j < type.max_linear_child → w1.mem (base + 1 + j) = w.mem (base + 1 + j) := by
    intro j hj
    have := g j hj
    exact hm _ (by omega) (by omega)
  have hs : ∀ j, j < type.max_linear_child →
      w1.mem (linear_slot A type base j) = w.mem (linear_slot A type base j) := by
    intro j hj
    have := g j hj
    exact hm _ (by omega) (by omega)
  have hcnt := h.count
  refine ⟨by rw [h0]; exact hcnt, ?_, ?_, ?_⟩
  · intro i j hij hj
    rw [h0] at hj
    rw [hv i (by omega), hv j (by omega)]
    exact h.distinct i j hij hj
  · intro j hj
    rw [h0] at hj
    rw [hs j (by omega)]
    exact h.used j hj
  · intro j hj hj2
    rw [h0] at hj
    rw [hs j hj2]
    exact h.unused j hj hj2

/-- `ja_linear_node_set_nth` with a non-NULL child keeps the layout invariant; a
successful insertion raises the count by one. -/
theorem linear_inv_insert (A : Arch) (type : cds_ja_type) (w w1 : World)
    (base sh b c : Nat) (r : Int)
    (ha : base % 8 = 0) (hC1 : 0 < type.max_linear_child) (hC : type.max_linear_child < 256)
    (hfit : base + linear_extent A type ≤ 2 ^ CAA_BITS_PER_LONG A)
    (hinv : LinearInv A w type base) (hc : ja_node_ptr A c ≠ 0)
    (hset : ja_linear_node_set_nth A type w base sh b c = Res.ok (r, w1)) :
    LinearInv A w1 type base ∧ (r = 0 → w1.mem base = w.mem base + 1) ∧ (r ≠ 0 → w1 = w) := by
  rcases ja_linear_node_set_nth_inv A type w w1 base sh b c r hset with
    ⟨_, _, ⟨hr, e, _⟩ | ⟨hr, e, _⟩ | ⟨hr, hnp, hlt, _, _⟩⟩
  · subst e
    exact ⟨hinv, fun h => absurd (hr ▸ h) (by decide), fun _ => rfl⟩
  · subst e
    exact ⟨hinv, fun h => absurd (hr ▸ h) (by decide), fun _ => rfl⟩
  · subst hr
    have hmem := linear_set_mem A type w w1 base sh b c hset
    have hp := sizeof_ptr_pos A
    have g := fun j hj => linear_cells_inside A type base j ha hC1 hfit hj
    have h0 : w1.mem base = w.mem base + 1 := by
      rw [hmem base, if_pos rfl]
      exact Nat.mod_eq_of_lt (by omega)
    have hv : ∀ j, j < type.max_linear_child →
        w1.mem (base + 1 + j) = if j = w.mem base then b else w.mem (base + 1 + j) := by
      intro j hj
      have := g j hj
      rw [hmem (base + 1 + j), if_neg (by omega)]
      by_cases e : j = w.mem base
      · rw [if_pos (by omega), if_pos e]
      · rw [if_neg (by omega), if_neg e, if_neg (by
          have := g (w.mem base) hlt
          omega)]
    have hs : ∀ j, j < type.max_linear_child →
        w1.mem (linear_slot A type base j) =
          if j = w.mem base then c else w.mem (linear_slot A type base j) := by
      intro j hj
      have := g j hj
      rw [hmem (linear_slot A type base j), if_neg (by omega), if_neg (by omega)]
      by_cases e : j = w.mem base
      · rw [if_pos (by rw [e]), if_pos e]
      · rw [if_neg (fun h => e (linear_slot_inj A type base _ _ h)), if_neg e]
    refine ⟨⟨by omega, ?_, ?_, ?_⟩, fun _ => h0, fun h => absurd rfl h⟩
    · intro i j hij hj
      rw [h0] at hj
      rw [hv i (by omega), hv j (by omega), if_neg (by omega)]
      by_cases e : j = w.mem base
      · rw [if_pos e]
        intro hib
        exact hnp ⟨i, by omega, hib⟩
      · rw [if_neg e]
        exact hinv.distinct i j hij (by omega)
    · intro j hj
      rw [h0] at hj
      rw [hs j (by omega)]
      by_cases e : j = w.mem base
      · rw [if_pos e]; exact hc
      · rw [if_neg e]
        exact hinv.used j (by omega)
    · intro j hj hj2
      rw [h0] at hj
      rw [hs j hj2, if_neg (by omega)]
      exact hinv.unused j (by omega) hj2

/-- `_ja_node_set_nth` on a node of a linear or pool shape is
`ja_linear_node_set_nth` on one of the linear layouts of the node. -/
theorem set_nth_routed (A : Arch) (type : cds_ja_type) (w : World) (node sh n child : Nat)
    (hT : type ∈ ja_types A) (hn : n < 256)
    (hcl : type.type_class = RCU_JA_LINEAR ∨ type.type_class = RCU_JA_POOL) :
    ∃ base0, is_base type node base0 ∧
      ((type.type_class = RCU_JA_LINEAR ∧ base0 = node) ∨
        (type.type_class = RCU_JA_POOL ∧ base0 = pool_of type node n)) ∧
      _ja_node_set_nth A type w node sh n child =
        ja_linear_node_set_nth A type w base0 sh n child := by
  rcases hcl with hc | hc
  · refine ⟨node, routed_is_base A type node n node hT hn (Or.inl ⟨hc, rfl⟩),
      Or.inl ⟨hc, rfl⟩, ?_⟩
    unfold _ja_node_set_nth
    simp only [hc]
  · refine ⟨pool_of type node n, routed_is_base A type node n _ hT hn (Or.inr ⟨hc, rfl⟩),
      Or.inr ⟨hc, rfl⟩, ?_⟩
    unfold _ja_node_set_nth
    simp only [hc]
    exact ja_pool_node_set_nth_eq A type w node sh n child hc

/-- `_ja_node_set_nth` with a non-NULL child keeps the layout invariant of every
linear layout of the node: it works on one of them, whose count it raises by one
when it returns 0, and leaves the bytes of the others as they are. -/
theorem set_nth_linear_inv (A : Arch) (type : cds_ja_type) (w w1 : World)
    (node sh n child : Nat) (r : Int) (hT : type ∈ ja_types A)
    (ha : node % 8 = 0) (hfit : node + 2 ^ type.order ≤ 2 ^ CAA_BITS_PER_LONG A)
    (hn : n < 256) (hc : ja_node_ptr A child ≠ 0)
    (hcl : type.type_class = RCU_JA_LINEAR ∨ type.type_class = RCU_JA_POOL)
    (hinv : ∀ base, is_base type node base → LinearInv A w type base)
    (h : _ja_node_set_nth A type w node sh n child = Res.ok (r, w1)) :
    (∀ base, is_base type node base → LinearInv A w1 type base) ∧
    ∃ base0, is_base type node base0 ∧
      ((type.type_class = RCU_JA_LINEAR ∧ base0 = node) ∨
        (type.type_class = RCU_JA_POOL ∧ base0 = pool_of type node n)) ∧
      (r = 0 → w1.mem base0 = w.mem base0 + 1) ∧ (r ≠ 0 → w1 = w) ∧
      ∀ base, is_base type node base → base ≠ base0 →
        ∀ x, base ≤ x → x < base + linear_extent A type → w1.mem x = w.mem x := by
  obtain ⟨base0, hb0, hroute, e⟩ := set_nth_routed A type w node sh n child hT hn hcl
  rw [e] at h
  obtain ⟨a0, _, hC1, hC, _, hfit0⟩ := is_base_geom A type node base0 hT ha hfit hb0
  obtain ⟨i0, i1, i2⟩ := linear_inv_insert A type w w1 base0 sh n child r a0 hC1 hC hfit0
    (hinv base0 hb0) hc h
  have hfr := linear_set_frame A type w w1 base0 sh n child r a0 hC1 hfit0 h
  have hother : ∀ base, is_base type node base → base ≠ base0 →
      ∀ x, base ≤ x → x < base + linear_extent A type → w1.mem x = w.mem x := by
    intro base hb hne x hx1 hx2
    by_contra hx
    have := hfr x hx
    rcases is_base_sep A type node base base0 hT hb hb0 hne with h | h <;> omega
  refine ⟨?_, base0, hb0, hroute, i1, i2, hother⟩
  intro base hb
  by_cases hne : base = base0
  · subst hne; exact i0
  · obtain ⟨a1, _, _, _, _, hfit1⟩ := is_base_geom A type node base hT ha hfit hb
    exact linear_inv_congr A type w w1 base (hinv base hb) a1 hC1 hfit1 (hother base hb hne)

/-- The linear layouts of a zero-filled node satisfy the layout invariant. -/
theorem linear_inv_zero (A : Arch) (type : cds_ja_type) (w : World) (node : Nat)
    (hT : type ∈ ja_types A)
    (ha : node % 8 = 0) (hfit : node + 2 ^ type.order ≤ 2 ^ CAA_BITS_PER_LONG A)
    (hzero : ∀ x, node ≤ x → x < node + 2 ^ type.order → w.mem x = 0) :
    ∀ base, is_base type node base → LinearInv A w type base := by
  intro base hb
  obtain ⟨a0, hge, hC1, hC, hin, hfit0⟩ := is_base_geom A type node base hT ha hfit hb
  have hp := sizeof_ptr_pos A
  have g := fun j hj => linear_cells_inside A type base j a0 hC1 hfit0 hj
  have h0 : w.mem base = 0 := hzero base hge (by
    have := g 0 hC1
    omega)
  refine ⟨by rw [h0]; exact Nat.zero_le _, ?_, ?_, ?_⟩
  · intro i j _ hj
    rw [h0] at hj
    exact absurd hj (Nat.not_lt_zero _)
  · intro j hj
    rw [h0] at hj
    exact absurd hj (Nat.not_lt_zero _)
  · intro j _ hj
    have := g j hj
    exact hzero _ (by omega) (by omega)

/-- On a linear layout that satisfies the layout invariant and, for a linear
shape, holds at least `min_child` children, no assertion of
`ja_linear_node_get_nth` fails. -/
theorem ja_linear_node_get_nth_run (A : Arch) (type : cds_ja_type) (w : World) (base n : Nat)
    (hcl : type.type_class = RCU_JA_LINEAR ∨ type.type_class = RCU_JA_POOL)
    (hinv : LinearInv A w type base)
    (hmin : type.type_class = RCU_JA_LINEAR → type.min_child ≤ w.mem base) :
    ∃ child slot, ja_linear_node_get_nth A type w base n = Res.ok (child, slot) := by
  unfold ja_linear_node_get_nth ja_linear_node_get_nr_child
  have hm : type.type_class ≠ RCU_JA_LINEAR ∨ w.mem base ≥ type.min_child := by
    by_cases h : type.type_class = RCU_JA_LINEAR
    · exact Or.inr (hmin h)
    · exact Or.inl h
  simp only [assert, bind, Res.bind, pure, hcl, hinv.count, hm, if_true]
  by_cases hi : linear_scan w (base + 1) n (w.mem base) 0 ≥ w.mem base
  · simp [hi]
  · have hu := hinv.used _ (Nat.lt_of_not_ge hi)
    unfold linear_slot at hu
    simp [hi, hu]

/-- No assertion of `_ja_node_set_nth` fails on a node of a linear or pool shape
whose linear layouts satisfy the layout invariant and whose shadow exists. -/
theorem set_nth_run (A : Arch) (type : cds_ja_type) (w : World) (node sh n child : Nat)
    (hT : type ∈ ja_types A) (hn : n < 256)
    (hcl : type.type_class = RCU_JA_LINEAR ∨ type.type_class = RCU_JA_POOL)
    (hinv : ∀ base, is_base type node base → LinearInv A w type base)
    (hs : w.ht sh ≠ none) :
    ∃ r w1, _ja_node_set_nth A type w node sh n child = Res.ok (r, w1) := by
  obtain ⟨base0, hb0, _, e⟩ := set_nth_routed A type w node sh n child hT hn hcl
  rw [e]
  have hi := hinv base0 hb0
  exact ja_linear_node_set_nth_run A type w base0 sh n child hcl hi.count
    (fun h => hi.unused _ (Nat.le_refl _) h) hs

/-- The insertions of a list into a node whose linear layouts satisfy the layout
invariant all return, and the layouts satisfy the invariant at the end. -/
theorem set_all_linear_inv (A : Arch) (type : cds_ja_type) (node : Nat) (hT : type ∈ ja_types A)
    (ha : node % 8 = 0) (hfit : node + 2 ^ type.order ≤ 2 ^ CAA_BITS_PER_LONG A)
    (hcl : type.type_class = RCU_JA_LINEAR ∨ type.type_class = RCU_JA_POOL) :
    ∀ (sets : List (Nat × Nat)) (rets : List Int) (w : World),
      (∀ bc ∈ sets, bc.1 < 256 ∧ ja_node_ptr A bc.2 ≠ 0) →
      (∀ base, is_base type node base → LinearInv A w type base) → w.ht node ≠ none →
      ∃ rets1 w1, set_all A type node sets rets w = Res.ok (rets1, w1) ∧
        (∀ base, is_base type node base → LinearInv A w1 type base) ∧ w1.ht node ≠ none := by
  intro sets
  induction sets with
  | nil =>
    intro rets w _ hinv hs
    exact ⟨rets, w, rfl, hinv, hs⟩
  | cons bc rest ih =>
    intro rets w hsets hinv hs
    obtain ⟨b, child⟩ := bc
    obtain ⟨hb, hc⟩ := hsets (b, child) (List.mem_cons_self _ _)
    obtain ⟨r, w1, hset⟩ := set_nth_run A type w node node b child hT hb hcl hinv hs
    obtain ⟨hinv1, _⟩ := set_nth_linear_inv A type w w1 node node b child r hT ha hfit hb hc hcl
      hinv hset
    have hs1 : w1.ht node ≠ none := by
      obtain ⟨_, _, _, _, _, _, _, _, hsh⟩ := set_nth_fields A type w w1 node node b child r hset
      cases hh : w.ht node with
      | none => exact absurd hh hs
      | some s =>
        obtain ⟨s1, h1, _⟩ := hsh s hh
        rw [h1]
        exact fun h => by cases h
    obtain ⟨rets1, w2, h2, hinv2, hs2⟩ := ih (r :: rets) w1
      (fun bc hbc => hsets bc (List.mem_cons_of_mem _ hbc)) hinv1 hs1
    refine ⟨rets1, w2, ?_, hinv2, hs2⟩
    rw [set_all]
    simp only [hset, bind, Res.bind]
    exact h2

/-- C29: a node of a linear or pool shape of the catalog, zero-filled, aligned,
in the address space and with a shadow, goes through any sequence of
`_ja_node_set_nth` calls with bytes below 256 and children whose pointer part is
not NULL.  Every call returns (the assertions `nr_child <= max_linear_child` and
`pointers[nr_child] == NULL` hold), and at the end the node itself (linear shape)
or each of its pools (pool shape) satisfies the layout invariant: count at most
`max_linear_child`, the key bytes in use pairwise distinct, the slots in use not
NULL, the other slots NULL.  `ja_linear_node_get_nth` then returns for every byte:
the assertion on the returned pointer holds (for a linear shape the read asserts
beforehand that the count is at least `min_child`, which is assumed here). -/
theorem C29_linear_layout_invariant (A : Arch) (idx : Nat) (type : cds_ja_type)
    (hT : ja_type_at A idx = Res.ok type)
    (hcl : type.type_class = RCU_JA_LINEAR ∨ type.type_class = RCU_JA_POOL)
    (w : World) (node : Nat) (ha : node % 8 = 0)
    (hfit : node + 2 ^ type.order ≤ 2 ^ CAA_BITS_PER_LONG A)
    (hzero : ∀ x, node ≤ x → x < node + 2 ^ type.order → w.mem x = 0)
    (hsh : w.ht node ≠ none)
    (sets : List (Nat × Nat)) (hsets : ∀ bc ∈ sets, bc.1 < 256 ∧ ja_node_ptr A bc.2 ≠ 0) :
    ∃ rets w1, set_all A type node sets [] w = Res.ok (rets, w1) ∧
      ∀ base, is_base type node base →
        LinearInv A w1 type base ∧
        ∀ b, (type.type_class = RCU_JA_LINEAR → type.min_child ≤ w1.mem base) →
          ∃ child slot, ja_linear_node_get_nth A type w1 base b = Res.ok (child, slot) := by
  have hTm := ja_type_at_mem A idx type hT
  obtain ⟨rets, w1, h1, hinv, _⟩ := set_all_linear_inv A type node hTm ha hfit hcl sets [] w hsets
    (linear_inv_zero A type w node hTm ha hfit hzero) hsh
  refine ⟨rets, w1, h1, fun base hb => ⟨hinv base hb, fun b hmin => ?_⟩⟩
  exact ja_linear_node_get_nth_run A type w1 base b hcl (hinv base hb) hmin

/-- C29 on a zero-filled node of shape 1 (64-bit build) at 1048576, with the bytes
5 and 9. -/
theorem C29_linear_layout_invariant_witness :
    ∃ rets w1, set_all Arch.bits64 ⟨RCU_JA_LINEAR, 1, 3, 3, 5, 0, 0⟩ 1048576
        [(5, 64), (9, 128)] []
        { World.boot with ht := fun x => if x = 1048576 then some ⟨0, 0⟩ else none } =
        Res.ok (rets, w1) ∧
      ∀ base, is_base ⟨RCU_JA_LINEAR, 1, 3, 3, 5, 0, 0⟩ 1048576 base →
        LinearInv Arch.bits64 w1 ⟨RCU_JA_LINEAR, 1, 3, 3, 5, 0, 0⟩ base ∧
        ∀ b, ((⟨RCU_JA_LINEAR, 1, 3, 3, 5, 0, 0⟩ : cds_ja_type).type_class = RCU_JA_LINEAR →
            (⟨RCU_JA_LINEAR, 1, 3, 3, 5, 0, 0⟩ : cds_ja_type).min_child ≤ w1.mem base) →
          ∃ child slot, ja_linear_node_get_nth Arch.bits64 ⟨RCU_JA_LINEAR, 1, 3, 3, 5, 0, 0⟩ w1
            base b = Res.ok (child, slot) :=
  C29_linear_layout_invariant Arch.bits64 1 ⟨RCU_JA_LINEAR, 1, 3, 3, 5, 0, 0⟩ rfl (Or.inl rfl)
    { World.boot with ht := fun x => if x = 1048576 then some ⟨0, 0⟩ else none } 1048576
    (by decide) (by decide) (fun _ _ _ => rfl) (by decide) [(5, 64), (9, 128)] (by decide)

/-! ## The number of children of a node and the count of its shadow (C30) -/

theorem pool_count_zero (w : World) (type : cds_ja_type) (node : Nat) :
    ∀ K, (∀ k, k < K → w.mem (node + (k <<< type.pool_size_order)) = 0) →
      pool_count w type node K = 0 := by
  intro K
  induction K with
  | zero => intro _; rfl
  | succ K ih =>
    intro h
    rw [pool_count, ih (fun k hk => h k (by omega)), h K (by omega)]

theorem pigeon_count_zero (A : Arch) (w : World) (node : Nat) :
    ∀ K, (∀ k, k < K → w.mem (node + k * sizeof_ptr A) = 0) →
      pigeon_count A w node K = 0 := by
  intro K
  induction K with
  | zero => intro _; rfl
  | succ K ih =>
    intro h
    rw [pigeon_count, ih (fun k hk => h k (by omega)), if_pos (h K (by omega))]

theorem pool_count_mem (w w1 : World) (type : cds_ja_type) (node : Nat) (h : w1.mem = w.mem) :
    ∀ K, pool_count w1 type node K = pool_count w type node K := by
  intro K
  induction K with
  | zero => rfl
  | succ K ih => rw [pool_count, pool_count, ih, h]

theorem pigeon_count_mem (A : Arch) (w w1 : World) (node : Nat) (h : w1.mem = w.mem) :
    ∀ K, pigeon_count A w1 node K = pigeon_count A w node K := by
  intro K
  induction K with
  | zero => rfl
  | succ K ih => rw [pigeon_count, pigeon_count, ih, h]

/-- The number of children of a node depends on the cells only. -/
theorem node_nr_child_mem (A : Arch) (w w1 : World) (type : cds_ja_type) (node : Nat)
    (h : w1.mem = w.mem) : node_nr_child A w1 type node = node_nr_child A w type node := by
  unfold node_nr_child
  rw [pool_count_mem w w1 type node h, pigeon_count_mem A w w1 node h, h]

/-- The sum of the counts of the pools when one of them is raised by one. -/
theorem pool_count_bump (w w1 : World) (type : cds_ja_type) (node k0 : Nat) :
    ∀ K, (∀ k, k < K → k ≠ k0 →
        w1.mem (node + (k <<< type.pool_size_order)) =
          w.mem (node + (k <<< type.pool_size_order))) →
      (k0 < K → w1.mem (node + (k0 <<< type.pool_size_order)) =
        w.mem (node + (k0 <<< type.pool_size_order)) + 1) →
      pool_count w1 type node K = pool_count w type node K + (if k0 < K then 1 else 0) := by
  intro K
  induction K with
  | zero => intro _ _; rfl
  | succ K ih =>
    intro h hk0
    have ih' := ih (fun k hk => h k (by omega)) (fun hk => hk0 (by omega))
    rw [pool_count, pool_count, ih']
    by_cases e : K = k0
    · have h1 := hk0 (by omega)
      rw [← e] at h1
      rw [h1, if_neg (by omega), if_pos (by omega)]
      omega
    · rw [h K (by omega) e]
      by_cases e2 : k0 < K
      · rw [if_pos e2, if_pos (by omega)]
        omega
      · rw [if_neg e2, if_neg (by omega)]
        omega

/-- The number of non-NULL slots of a pigeon node when a NULL slot is filled. -/
theorem pigeon_count_bump (A : Arch) (w w1 : World) (node k0 : Nat) :
    ∀ K, (∀ k, k < K → k ≠ k0 →
        w1.mem (node + k * sizeof_ptr A) = w.mem (node + k * sizeof_ptr A)) →
      (k0 < K → w.mem (node + k0 * sizeof_ptr A) = 0 ∧ w1.mem (node + k0 * sizeof_ptr A) ≠ 0) →
      pigeon_count A w1 node K = pigeon_count A w node K + (if k0 < K then 1 else 0) := by
  intro K
  induction K with
  | zero => intro _ _; rfl
  | succ K ih =>
    intro h hk0
    have ih' := ih (fun k hk => h k (by omega)) (fun hk => hk0 (by omega))
    rw [pigeon_count, pigeon_count, ih']
    by_cases e : K = k0
    · subst e
      obtain ⟨h1, h2⟩ := hk0 (Nat.lt_succ_self K)
      rw [if_pos h1, if_neg h2, if_neg (Nat.lt_irrefl K), if_pos (Nat.lt_succ_self K)]
    · rw [h K (by omega) e]
      have e3 : (if k0 < K + 1 then (1 : Nat) else 0) = if k0 < K then 1 else 0 := by
        by_cases e2 : k0 < K
        · rw [if_pos e2, if_pos (Nat.lt_succ_of_lt e2)]
        · rw [if_neg e2, if_neg (by omega)]
      rw [e3]
      omega

/-- A zero-filled node holds no child. -/
theorem node_nr_child_zero (A : Arch) (type : cds_ja_type) (w : World) (node : Nat)
    (hT : type ∈ (ja_types A).take 8)
    (hzero : ∀ x, node ≤ x → x < node + 2 ^ type.order → w.mem x = 0) :
    node_nr_child A w type node = 0 := by
  obtain ⟨_, _, hpl, hpig⟩ := catalog_sizes A type hT
  have hpos : 0 < 2 ^ type.order := Nat.pow_pos (by decide)
  unfold node_nr_child
  cases hc : type.type_class <;> simp only
  · exact hzero node (Nat.le_refl _) (by omega)
  · obtain ⟨_, hO⟩ := hpl hc
    apply pool_count_zero
    intro k hk
    rw [Nat.shiftLeft_eq, Nat.one_mul] at hk
    rw [Nat.shiftLeft_eq]
    have := pool_inside type node k hk hO
    have hp2 : 0 < 2 ^ type.pool_size_order := Nat.pow_pos (by decide)
    exact hzero _ (by omega) (by omega)
  · apply pigeon_count_zero
    intro k hk
    have hsz := hpig hc
    have hp := sizeof_ptr_pos A
    have : k * sizeof_ptr A + sizeof_ptr A ≤ 256 * sizeof_ptr A := by
      have := Nat.mul_le_mul_right (sizeof_ptr A) (Nat.succ_le_of_lt hk)
      rw [Nat.succ_mul] at this
      exact this
    exact hzero _ (by omega) (by omega)

/-- A successful `_ja_node_set_nth` with a child other than 0 raises the number of
children of the node by one. -/
theorem set_nth_counts (A : Arch) (idx : Nat) (type : cds_ja_type) (w w1 : World)
    (node sh n child : Nat) (hk : idx ≤ 7) (hT : ja_type_at A idx = Res.ok type)
    (ha : node % 8 = 0) (hfit : node + 2 ^ type.order ≤ 2 ^ CAA_BITS_PER_LONG A)
    (hn : n < 256) (hchild : child ≠ 0)
    (h : _ja_node_set_nth A type w node sh n child = Res.ok (0, w1)) :
    node_nr_child A w1 type node = node_nr_child A w type node + 1 := by
  have hTm := ja_type_at_mem A idx type hT
  obtain ⟨hcls, _, _, hpig⟩ := catalog_sizes A type (ja_type_at_take A idx type hk hT)
  obtain ⟨hC, hlin, hpl⟩ := catalog_layout A type hTm
  have hlinear : type.type_class = RCU_JA_LINEAR ∨ type.type_class = RCU_JA_POOL →
      ∃ base0, is_base type node base0 ∧
        ((type.type_class = RCU_JA_LINEAR ∧ base0 = node) ∨
          (type.type_class = RCU_JA_POOL ∧ base0 = pool_of type node n)) ∧
        w1.mem base0 = w.mem base0 + 1 ∧
        ∀ x, w1.mem x ≠ w.mem x → base0 ≤ x ∧ x < base0 + linear_extent A type := by
    intro hcl
    obtain ⟨base0, hb0, hroute, e⟩ := set_nth_routed A type w node sh n child hTm hn hcl
    rw [e] at h
    obtain ⟨a0, _, hC1, _, _, hfit0⟩ := is_base_geom A type node base0 hTm ha hfit hb0
    refine ⟨base0, hb0, hroute, ?_, linear_set_frame A type w w1 base0 sh n child 0 a0 hC1 hfit0 h⟩
    rcases ja_linear_node_set_nth_inv A type w w1 base0 sh n child 0 h with
      ⟨_, _, ⟨hr, _⟩ | ⟨hr, _⟩ | ⟨_, _, hlt, _, _⟩⟩
    · exact absurd hr (by decide)
    · exact absurd hr (by decide)
    · rw [linear_set_mem A type w w1 base0 sh n child h base0, if_pos rfl]
      exact Nat.mod_eq_of_lt (by omega)
  unfold node_nr_child
  rcases hcls with hc | hc | hc
  · obtain ⟨base0, _, hroute, h1, _⟩ := hlinear (Or.inl hc)
    rcases hroute with ⟨_, e⟩ | ⟨hc', _⟩
    · subst e
      simp only [hc]
      exact h1
    · rw [hc] at hc'; cases hc'
  · obtain ⟨base0, hb0, hroute, h1, hfr⟩ := hlinear (Or.inr hc)
    obtain ⟨_, hnpo, hE, hO, hS8⟩ := hpl hc
    rcases hb0 with ⟨hc', _⟩ | ⟨_, k0, hk0, e0⟩
    · rw [hc] at hc'; cases hc'
    · simp only [hc]
      have hK : 1 <<< type.nr_pool_order = 2 ^ type.nr_pool_order := by
        rw [Nat.shiftLeft_eq, Nat.one_mul]
      rw [pool_count_bump w w1 type node k0 (1 <<< type.nr_pool_order), if_pos (by rw [hK]; exact hk0)]
      · intro k hk hne
        rw [Nat.shiftLeft_eq]
        by_contra hx
        have := hfr _ hx
        rw [hK] at hk
        rcases pool_sep (2 ^ type.pool_size_order) node k k0 hne with h | h <;> omega
      · intro _
        rw [Nat.shiftLeft_eq, ← e0]
        exact h1
  · simp only [hc]
    unfold _ja_node_set_nth at h
    simp only [hc] at h
    rcases ja_pigeon_node_set_nth_inv A type w w1 node sh n child 0 h with
      ⟨_, ⟨hr, _⟩ | ⟨_, hz, s, _, hw⟩⟩
    · exact absurd hr (by decide)
    · have hp := sizeof_ptr_pos A
      rw [pigeon_count_bump A w w1 node n JA_ENTRY_PER_NODE,
        if_pos (show n < JA_ENTRY_PER_NODE from hn)]
      · intro k _ hne
        rw [hw]
        simp only [World.inc_nr_child_mem, World.store_mem]
        rw [if_neg]
        intro e
        have : k * sizeof_ptr A = n * sizeof_ptr A := by omega
        exact hne (Nat.eq_of_mul_eq_mul_right hp this)
      · intro _
        refine ⟨hz, ?_⟩
        rw [hw]
        simpa [World.inc_nr_child_mem, World.store_mem] using hchild

/-- A property of the state that every successful insertion of a child of a used
slot of the old node into the new node keeps is kept by the copy loop of a pass of
`ja_node_recompact_add`. -/
theorem recompact_copy_ind2 (A : Arch) (old_type new_type : cds_ja_type)
    (old_node nd ns : Nat) (w3 : World) (e : CopyEnd) (Inv : World → Prop)
    (hcopy : (old_type.type_class = RCU_JA_LINEAR ∧
        recompact_copy_linear A old_type new_type old_node nd ns (w3.mem old_node) 0 w3 =
          Res.ok e) ∨
      (old_type.type_class = RCU_JA_POOL ∧
        recompact_copy_pools A old_type new_type old_node nd ns
          (1 <<< old_type.nr_pool_order) 0 w3 = Res.ok e) ∨
      (old_type.type_class = RCU_JA_NULL ∧ e = CopyEnd.finished w3))
    (hstep : ∀ (w' w1 : World) (v base i : Nat), Inv w' → v < 256 →
      is_base old_type old_node base → i < w'.mem base →
      w'.mem (linear_slot A old_type base i) ≠ 0 →
      _ja_node_set_nth A new_type w' nd ns v (w'.mem (linear_slot A old_type base i)) =
        Res.ok (0, w1) → Inv w1)
    (h0 : Inv w3) : Inv e.world := by
  rcases hcopy with ⟨hc, h⟩ | ⟨hc, h⟩ | ⟨_, h⟩
  · have := recompact_copy_linear_idx A old_type new_type old_node nd ns (fun _ w => Inv w)
      (fun _ _ hi _ _ => hi)
      (fun i w' w1 v hi hlt hv hz hs => hstep w' w1 v old_node i hi hv (Or.inl ⟨hc, rfl⟩) hlt hz hs)
      _ 0 w3 e h h0
    cases e with
    | finished w4 => exact this.1 w4 rfl
    | toosmall w4 =>
      obtain ⟨_, j, hj⟩ := this.2 w4 rfl
      exact hj
  · exact (recompact_copy_pools_idx A old_type new_type old_node nd ns
      (1 <<< old_type.nr_pool_order) Inv
      (fun k i w' w1 v hi hk hlt hv hz hs =>
        hstep w' w1 v _ i hi hv
          (Or.inr ⟨hc, k, by rwa [Nat.shiftLeft_eq, Nat.one_mul] at hk,
            by rw [Nat.shiftLeft_eq]⟩) hlt hz hs)
      _ 0 w3 e (by omega) h h0).1
  · subst h
    exact h0

/-- An insertion into the new node of a pass keeps the state of the pass and
raises the number of children of the new node by one. -/
theorem set_nth_building (A : Arch) (w w1 w2 : World) (R nd sh v iter nti : Nat)
    (new_type : cds_ja_type) (hT : ja_type_at A nti = Res.ok new_type) (hk : nti < 8)
    (hR : 4096 ≤ R) (hRn : R < nd) (ha : nd % 8 = 0)
    (hfit : nd + 2 ^ new_type.order ≤ 2 ^ CAA_BITS_PER_LONG A)
    (hb : Building A w R nd new_type w1)
    (hv : v < 256) (hlow : iter + 2048 ≤ R) (hp : ja_node_ptr A iter ≠ 0)
    (hset : _ja_node_set_nth A new_type w1 nd sh v iter = Res.ok (0, w2)) :
    Building A w R nd new_type w2 ∧ w2.brk = w1.brk ∧
    node_nr_child A w2 new_type nd = node_nr_child A w1 new_type nd + 1 := by
  have hTm := ja_type_at_mem A nti new_type hT
  have hcount := set_nth_counts A nti new_type w1 w2 nd sh v iter (by omega) hT ha hfit hv
    (fun e => hp (by rw [e]; exact ja_node_ptr_zero A)) hset
  have hin := set_nth_inside A new_type w1 w2 nd sh v iter 0 hTm ha hfit hv hset
  obtain ⟨hbrk, _⟩ := set_nth_fields A new_type w1 w2 nd sh v iter 0 hset
  have hinv : (new_type.type_class = RCU_JA_LINEAR ∨ new_type.type_class = RCU_JA_POOL) →
      (∀ base, is_base new_type nd base → LinearInv A w2 new_type base) := by
    intro hcl
    obtain ⟨h1, _⟩ := set_nth_linear_inv A new_type w1 w2 nd sh v iter 0 hTm
      ha hfit hv hp hcl (hb.inv hcl) hset
    exact h1
  refine ⟨⟨?_, ?_, fun hcl => hinv hcl⟩, hbrk, hcount⟩
  · intro x hx
    rcases hin x with h | ⟨_, h | h⟩
    · rw [h]; exact hb.low x hx
    · rw [h]; exact hlow
    · omega
  · intro x hx
    rcases hin x with h | ⟨h, _⟩
    · rw [h]; exact hb.frame x hx
    · omega

/-- A child that a pass of `ja_node_recompact_add` reads in a used slot of the old
node is a non-NULL pointer below the root slot. -/
theorem old_slot_building (A : Arch) (w w1 : World) (R nd old_node base i : Nat)
    (old_type new_type : cds_ja_type)
    (hTo : old_type ∈ ja_types A) (hRo : R < old_node) (hao : old_node % 8 = 0)
    (hfo : old_node + 2 ^ old_type.order ≤ nd) (hnd : nd ≤ 2 ^ CAA_BITS_PER_LONG A)
    (hinv : ∀ base, is_base old_type old_node base → LinearInv A w old_type base)
    (hb : Building A w R nd new_type w1)
    (hbase : is_base old_type old_node base) (hi : i < w1.mem base) :
    w1.mem (linear_slot A old_type base i) + 2048 ≤ R ∧
    ja_node_ptr A (w1.mem (linear_slot A old_type base i)) ≠ 0 := by
  obtain ⟨a0, hge, hC1, _, hin, hfit0⟩ := is_base_geom A old_type old_node base hTo hao
    (by omega) hbase
  have hi1 := linear_inv_congr A old_type w w1 base (hinv base hbase) a0 hC1 hfit0
    (fun x _ hx2 => hb.frame x (by omega))
  have hlt : i < old_type.max_linear_child := Nat.lt_of_lt_of_le hi hi1.count
  obtain ⟨_, g1, g2⟩ := linear_cells_inside A old_type base i a0 hC1 hfit0 hlt
  exact ⟨hb.low _ (by omega), hi1.used i hi⟩

/-- The copy loop of a pass of `ja_node_recompact_add` keeps the state of the
pass; from a linear old node to a linear new node it ends, when it does not jump
to `fallback_toosmall`, with as many children in the new node as in the old one. -/
theorem copy_building (A : Arch) (w w3 : World) (R nd ns nti old_node : Nat)
    (old_type new_type : cds_ja_type) (e : CopyEnd)
    (hT : ja_type_at A nti = Res.ok new_type) (hk : nti < 8)
    (hR : 4096 ≤ R) (hRn : R < nd) (ha : nd % 8 = 0)
    (hfit : nd + 2 ^ new_type.order ≤ 2 ^ CAA_BITS_PER_LONG A)
    (hsrc : old_type.type_class = RCU_JA_NULL ∨
      (old_type ∈ ja_types A ∧
        (old_type.type_class = RCU_JA_LINEAR ∨ old_type.type_class = RCU_JA_POOL) ∧
        R < old_node ∧ old_node % 8 = 0 ∧ old_node + 2 ^ old_type.order ≤ nd ∧
        ∀ base, is_base old_type old_node base → LinearInv A w old_type base))
    (hcopy : (old_type.type_class = RCU_JA_LINEAR ∧
        recompact_copy_linear A old_type new_type old_node nd ns (w3.mem old_node) 0 w3 =
          Res.ok e) ∨
      (old_type.type_class = RCU_JA_POOL ∧
        recompact_copy_pools A old_type new_type old_node nd ns
          (1 <<< old_type.nr_pool_order) 0 w3 = Res.ok e) ∨
      (old_type.type_class = RCU_JA_NULL ∧ e = CopyEnd.finished w3))
    (h3 : Building A w R nd new_type w3) (hz : node_nr_child A w3 new_type nd = 0) :
    Building A w R nd new_type e.world ∧ e.world.brk = w3.brk ∧
    (∀ w4, e = CopyEnd.finished w4 →
      (old_type.type_class = RCU_JA_NULL → node_nr_child A w4 new_type nd = 0) ∧
      (old_type.type_class = RCU_JA_LINEAR →
        node_nr_child A w4 new_type nd = w.mem old_node)) := by
  have hnull : ¬ (old_type.type_class = RCU_JA_NULL ∧
      (old_type.type_class = RCU_JA_LINEAR ∨ old_type.type_class = RCU_JA_POOL)) := by
    rintro ⟨h1, h2 | h2⟩ <;> (rw [h1] at h2; cases h2)
  rcases hcopy with ⟨hc, h⟩ | ⟨hc, h⟩ | ⟨hc, h⟩
  · -- linear old node: the position in the old node is the count of the new one
    rcases hsrc with hs | ⟨hTo, _, hRo, hao, hfo, hinv⟩
    · rw [hc] at hs; cases hs
    have hold : ∀ w1 i, Building A w R nd new_type w1 → i < w1.mem old_node →
        w1.mem (linear_slot A old_type old_node i) + 2048 ≤ R ∧
        ja_node_ptr A (w1.mem (linear_slot A old_type old_node i)) ≠ 0 :=
      fun w1 i hb hi => old_slot_building A w w1 R nd old_node old_node i old_type new_type hTo
        hRo hao hfo (Nat.le_trans (Nat.le_add_right _ _) hfit) hinv hb (Or.inl ⟨hc, rfl⟩) hi
    have := recompact_copy_linear_idx A old_type new_type old_node nd ns
      (fun i w1 => Building A w R nd new_type w1 ∧ w1.brk = w3.brk ∧
        node_nr_child A w1 new_type nd = i)
      (fun i w1 hi hlt hzero => by
        obtain ⟨_, hp⟩ := hold w1 i hi.1 hlt
        rw [hzero] at hp
        exact absurd (ja_node_ptr_zero A) hp)
      (fun i w1 w2 v hi hlt hv _ hset => by
        obtain ⟨hl, hp⟩ := hold w1 i hi.1 hlt
        obtain ⟨b2, hb2, hcnt⟩ := set_nth_building A w w1 w2 R nd ns v _ nti new_type hT hk hR
          hRn ha hfit hi.1 hv hl hp hset
        exact ⟨b2, hb2.trans hi.2.1, by rw [hcnt, hi.2.2]⟩)
      (w3.mem old_node) 0 w3 e h ⟨h3, rfl, hz⟩
    cases e with
    | finished w4 =>
      obtain ⟨b4, hb4, hcnt⟩ := this.1 w4 rfl
      refine ⟨b4, hb4, fun w4' he => ?_⟩
      injection he with he
      subst he
      refine ⟨fun hn => ?_, fun _ => ?_⟩
      · rw [hc] at hn; cases hn
      rw [hcnt, Nat.zero_add]
      exact h3.frame old_node (by
        have : 0 < 2 ^ old_type.order := Nat.pow_pos (by decide)
        omega)
    | toosmall w4 =>
      obtain ⟨_, j, b4, hb4, _⟩ := this.2 w4 rfl
      exact ⟨b4, hb4, fun w4' he => by cases he⟩
  · rcases hsrc with hs | ⟨hTo, _, hRo, hao, hfo, hinv⟩
    · rw [hc] at hs; cases hs
    have := recompact_copy_ind2 A old_type new_type old_node nd ns w3 e
      (fun w1 => Building A w R nd new_type w1 ∧ w1.brk = w3.brk)
      (Or.inr (Or.inl ⟨hc, h⟩))
      (fun w1 w2 v base i hi hv hbase hlt _ hset => by
        obtain ⟨hl, hp⟩ := old_slot_building A w w1 R nd old_node base i old_type new_type hTo
          hRo hao hfo (Nat.le_trans (Nat.le_add_right _ _) hfit) hinv hi.1 hbase hlt
        obtain ⟨b2, hb2, _⟩ := set_nth_building A w w1 w2 R nd ns v _ nti new_type hT hk hR hRn
          ha hfit hi.1 hv hl hp hset
        exact ⟨b2, hb2.trans hi.2⟩)
      ⟨h3, rfl⟩
    refine ⟨this.1, this.2, fun w4 _ => ⟨fun hn => ?_, fun hl => ?_⟩⟩
    · rw [hc] at hn; cases hn
    · rw [hc] at hl; cases hl
  · subst h
    refine ⟨h3, rfl, fun w4 he => ?_⟩
    injection he with he
    subst he
    refine ⟨fun _ => hz, fun hl => ?_⟩
    rw [hc] at hl; cases hl

theorem linear_inv_mem (A : Arch) (type : cds_ja_type) (w w1 : World) (base : Nat)
    (h : w1.mem = w.mem) (hi : LinearInv A w type base) : LinearInv A w1 type base :=
  ⟨by rw [h]; exact hi.count, by rw [h]; exact hi.distinct, by rw [h]; exact hi.used,
    by rw [h]; exact hi.unused⟩

theorem building_mem (A : Arch) (w w1 w2 : World) (R nd : Nat) (new_type : cds_ja_type)
    (h : w2.mem = w1.mem) (hb : Building A w R nd new_type w1) :
    Building A w R nd new_type w2 :=
  ⟨by rw [h]; exact hb.low, by rw [h]; exact hb.frame,
    fun hcl base hbase => linear_inv_mem A new_type w1 w2 base h (hb.inv hcl base hbase)⟩

/-- One pass of `ja_node_recompact_add` in a state whose cells other than the root
slot hold values below the root slot, with a child that is a non-NULL pointer
below the root slot and an old node that is well formed and lies between the root
slot and the allocator: the pass writes at or above the old value of the
allocator only, values below the root slot; when it returns 0 its new node is the
block at the old value of the allocator, its linear layouts satisfy the layout
invariant, and the new node holds one child, or one child more than a linear old
node. -/
theorem pass_tidy (A : Arch) (w : World) (fallback : Bool) (nti : Nat)
    (old_type : cds_ja_type) (old_node sh old_flag n child : Nat) (r : PassEnd) (R : Nat)
    (h : ja_node_recompact_add_pass A w fallback nti old_type old_node sh old_flag n child =
      Res.ok r)
    (hR : 4096 ≤ R) (hRb : R < w.brk) (hal : w.brk % 16 = 0)
    (hB : r.world.brk ≤ 2 ^ CAA_BITS_PER_LONG A)
    (hlow : ∀ x, x ≠ R → w.mem x + 2048 ≤ R)
    (hn : n < 256) (hchild : child + 2048 ≤ R) (hcp : ja_node_ptr A child ≠ 0)
    (hsrc : old_type.type_class = RCU_JA_NULL ∨
      (old_type ∈ ja_types A ∧
        (old_type.type_class = RCU_JA_LINEAR ∨ old_type.type_class = RCU_JA_POOL) ∧
        R < old_node ∧ old_node % 8 = 0 ∧ old_node + 2 ^ old_type.order ≤ w.brk ∧
        ∀ base, is_base old_type old_node base → LinearInv A w old_type base)) :
    (∀ x, x ≠ R → r.world.mem x + 2048 ≤ R) ∧
    (∀ x, x < w.brk → r.world.mem x = w.mem x) ∧
    ∀ flag w', r = PassEnd.returned 0 flag w' →
      ∃ new_type, ja_type_at A nti = Res.ok new_type ∧ nti < 8 ∧ flag = w.brk ||| nti ∧
        w.brk ≠ 0 ∧ w.brk + 2 ^ new_type.order ≤ w'.brk ∧
        (new_type.type_class = RCU_JA_LINEAR ∨ new_type.type_class = RCU_JA_POOL →
          ∀ base, is_base new_type w.brk base → LinearInv A w' new_type base) ∧
        (old_type.type_class = RCU_JA_NULL → node_nr_child A w' new_type w.brk = 1) ∧
        (old_type.type_class = RCU_JA_LINEAR →
          node_nr_child A w' new_type w.brk = w.mem old_node + 1) := by
  obtain ⟨new_type, hT, nd, wa, hc, hcase⟩ := ja_node_recompact_add_pass_copy A w fallback
    nti old_type old_node sh old_flag n child r h
  have h2 : (1 : Nat) <<< new_type.order = 2 ^ new_type.order := by
    rw [Nat.shiftLeft_eq, Nat.one_mul]
  rw [h2] at hc
  have hTm := ja_type_at_mem A nti new_type hT
  rcases calloc_cases w (2 ^ new_type.order) with ⟨hc0, _⟩ | ⟨hc1, _⟩
  · rw [hc] at hc0
    injection hc0 with e1 e2
    have hm : wa.mem = w.mem := by rw [e2]
    rcases hcase with ⟨_, hr⟩ | ⟨hnd, _⟩
    · subst hr
      refine ⟨fun x hx => ?_, fun x _ => ?_, fun flag w' hr => ?_⟩
      · show wa.mem x + 2048 ≤ R
        rw [hm]; exact hlow x hx
      · show wa.mem x = w.mem x
        rw [hm]
      · injection hr with hr
        exact absurd hr (by decide)
    · exact absurd e1 hnd
  · rw [hc] at hc1
    injection hc1 with e1 e2
    subst e1
    have fr_a : ∀ x, x < w.brk → wa.mem x = w.mem x := by
      intro x hx
      rw [e2]
      show (if w.brk ≤ x ∧ x < w.brk + 2 ^ new_type.order then 0 else w.mem x) = w.mem x
      rw [if_neg (by omega)]
    have low_a : ∀ x, x ≠ R → wa.mem x + 2048 ≤ R := by
      intro x hx
      rw [e2]
      show (if w.brk ≤ x ∧ x < w.brk + 2 ^ new_type.order then 0 else w.mem x) + 2048 ≤ R
      by_cases hx2 : w.brk ≤ x ∧ x < w.brk + 2 ^ new_type.order
      · rw [if_pos hx2]; omega
      · rw [if_neg hx2]; exact hlow x hx
    have z_a : ∀ x, w.brk ≤ x → x < w.brk + 2 ^ new_type.order → wa.mem x = 0 := by
      intro x hx1 hx2
      rw [e2]
      show (if w.brk ≤ x ∧ x < w.brk + 2 ^ new_type.order then 0 else w.mem x) = 0
      rw [if_pos ⟨hx1, hx2⟩]
    have brk_a : w.brk + 2 ^ new_type.order ≤ wa.brk := by
      rw [e2]
      show w.brk + 2 ^ new_type.order ≤ w.brk + (2 ^ new_type.order + 15) / 16 * 16
      omega
    have hpos : 0 < 2 ^ new_type.order := Nat.pow_pos (by decide)
    rcases hcase with ⟨hnd, hr⟩ | ⟨hnd, hidx, ns, wb, hs, hcase⟩
    · subst hr
      refine ⟨low_a, fr_a, fun flag w' hr => ?_⟩
      injection hr with hr
      exact absurd hr (by decide)
    obtain ⟨sb, _, _⟩ := rcuja_shadow_set_eff wa wb w.brk sh ns hs
    rcases hcase with ⟨_, hr⟩ | ⟨hns, w3, h3, e, hcopy, hcase⟩
    · subst hr
      have hm : (free wb w.brk).mem = wa.mem := sb.mem
      refine ⟨fun x hx => ?_, fun x hx => ?_, fun flag w' hr => ?_⟩
      · show (free wb w.brk).mem x + 2048 ≤ R
        rw [hm]; exact low_a x hx
      · show (free wb w.brk).mem x = w.mem x
        rw [hm]; exact fr_a x hx
      · injection hr with hr
        exact absurd hr (by decide)
    have s3 : Same wb w3 := by
      cases fallback
      · simp only [Bool.false_eq_true, if_false, Res.pure_eq] at h3
        injection h3 with h3
        subst h3
        exact Same.same_refl _
      · simp only [if_true] at h3
        exact (shadow_set_fallback_removal_count_eff wb w3 ns _ h3).1
    have b3 : w3.brk = wa.brk := s3.brk.trans sb.brk
    have m3 : w3.mem = wa.mem := s3.mem.trans sb.mem
    have hbe : e.world.brk = w3.brk :=
      recompact_copy_ind2 A old_type new_type old_node w.brk ns w3 e (fun w1 => w1.brk = w3.brk)
        hcopy
        (fun w1 w2 v base i hi _ _ _ _ hset =>
          (set_nth_fields A new_type w1 w2 w.brk ns v _ 0 hset).1.trans hi) rfl
    have hWa : wa.brk ≤ 2 ^ CAA_BITS_PER_LONG A := by
      rcases hcase with ⟨w4, he4, hr⟩ | ⟨w4, w5, he4, hset, hcase⟩
      · subst hr; subst he4
        have h1 : w4.brk = w3.brk := hbe
        have h2 : w4.brk ≤ 2 ^ CAA_BITS_PER_LONG A := hB
        omega
      · subst he4
        have h1 : w4.brk = w3.brk := hbe
        have hb5 := (set_nth_fields A new_type w4 w5 w.brk ns n child 0 hset).1
        rcases hcase with ⟨_, hr⟩ | ⟨_, w6, hcl, hr⟩
        · subst hr
          have h2 : w5.brk ≤ 2 ^ CAA_BITS_PER_LONG A := hB
          omega
        · subst hr
          obtain ⟨s6, _⟩ := rcuja_shadow_clear_eff w5 w6 old_node sh _ hcl
          have h2 : w6.brk ≤ 2 ^ CAA_BITS_PER_LONG A := hB
          have h3 := s6.brk
          omega
    have hfit : w.brk + 2 ^ new_type.order ≤ 2 ^ CAA_BITS_PER_LONG A := Nat.le_trans brk_a hWa
    have ha : w.brk % 8 = 0 := by omega
    have B3 : Building A w R w.brk new_type w3 :=
      ⟨by rw [m3]; exact low_a, by rw [m3]; exact fr_a,
        fun _ => linear_inv_zero A new_type w3 w.brk hTm ha hfit (by rw [m3]; exact z_a)⟩
    obtain ⟨Be, _, hcnt⟩ := copy_building A w w3 R w.brk ns nti old_node old_type new_type e hT
      hidx hR hRb ha hfit hsrc hcopy B3
      (node_nr_child_zero A new_type w3 w.brk (ja_type_at_take A nti new_type (by omega) hT)
        (by rw [m3]; exact z_a))
    rcases hcase with ⟨w4, he4, hr⟩ | ⟨w4, w5, he4, hset, hcase⟩
    · subst hr; subst he4
      exact ⟨Be.low, Be.frame, fun flag w' hr => by cases hr⟩
    · subst he4
      obtain ⟨B5, hb5, hc5⟩ := set_nth_building A w w4 w5 R w.brk ns n child nti new_type hT
        hidx hR hRb ha hfit Be hn hchild hcp hset
      have fin : ∀ w6 : World, w6.mem = w5.mem → w6.brk = w5.brk →
          r = PassEnd.returned 0 (w.brk ||| nti) w6 →
          (∀ x, x ≠ R → r.world.mem x + 2048 ≤ R) ∧
          (∀ x, x < w.brk → r.world.mem x = w.mem x) ∧
          ∀ flag w', r = PassEnd.returned 0 flag w' →
            ∃ new_type, ja_type_at A nti = Res.ok new_type ∧ nti < 8 ∧ flag = w.brk ||| nti ∧
              w.brk ≠ 0 ∧ w.brk + 2 ^ new_type.order ≤ w'.brk ∧
              (new_type.type_class = RCU_JA_LINEAR ∨ new_type.type_class = RCU_JA_POOL →
                ∀ base, is_base new_type w.brk base → LinearInv A w' new_type base) ∧
              (old_type.type_class = RCU_JA_NULL → node_nr_child A w' new_type w.brk = 1) ∧
              (old_type.type_class = RCU_JA_LINEAR →
                node_nr_child A w' new_type w.brk = w.mem old_node + 1) := by
        intro w6 hm6 hb6 hr
        subst hr
        have B6 := building_mem A w w5 w6 R w.brk new_type hm6 B5
        refine ⟨B6.low, B6.frame, fun flag w' hr => ?_⟩
        injection hr with _ hr1 hr2
        subst hr1; subst hr2
        obtain ⟨c1, c2⟩ := hcnt w4 rfl
        have e6 : node_nr_child A w6 new_type w.brk = node_nr_child A w4 new_type w.brk + 1 := by
          rw [node_nr_child_mem A w5 w6 new_type w.brk hm6, hc5]
        refine ⟨new_type, hT, hidx, rfl, hnd, ?_, B6.inv, fun hn => ?_, fun hl => ?_⟩
        · have h1 : w4.brk = w3.brk := hbe
          omega
        · rw [e6, c1 hn]
        · rw [e6, c2 hl]
      rcases hcase with ⟨_, hr⟩ | ⟨_, w6, hcl, hr⟩
      · exact fin w5 rfl rfl hr
      · obtain ⟨s6, _⟩ := rcuja_shadow_clear_eff w5 w6 old_node sh _ hcl
        exact fin w6 s6.mem s6.brk hr

/-! ## `ja_node_recompact_add` and `ja_node_set_nth` in a tidy state -/

/-- A call of `ja_node_recompact_add` in a state whose cells other than the root
slot hold values below the root slot: it writes at or above the old value of the
allocator only, values below the root slot; when it returns 0 the new node is a
pigeon node, or the node of the next shape at the old value of the allocator,
well laid out, which holds one child, or one child more than a linear old
node. -/
theorem recompact_tidy (A : Arch) (w : World) (oti : Nat) (old_type : cds_ja_type)
    (old_node sh old_flag n child : Nat) (ret : Int) (flag : Nat) (w1 : World) (R : Nat)
    (h : ja_node_recompact_add A w oti old_type old_node sh old_flag n child =
      Res.ok (ret, flag, w1))
    (hR : 4096 ≤ R) (hRb : R < w.brk) (hal : w.brk % 16 = 0)
    (hB : w1.brk ≤ 2 ^ CAA_BITS_PER_LONG A)
    (hlow : ∀ x, x ≠ R → w.mem x + 2048 ≤ R)
    (hn : n < 256) (hchild : child + 2048 ≤ R) (hcp : ja_node_ptr A child ≠ 0)
    (hsrc : old_type.type_class = RCU_JA_NULL ∨
      (old_type ∈ ja_types A ∧
        (old_type.type_class = RCU_JA_LINEAR ∨ old_type.type_class = RCU_JA_POOL) ∧
        R < old_node ∧ old_node % 8 = 0 ∧ old_node + 2 ^ old_type.order ≤ w.brk ∧
        ∀ base, is_base old_type old_node base → LinearInv A w old_type base)) :
    (∀ x, x ≠ R → w1.mem x + 2048 ≤ R) ∧
    (∀ x, x < w.brk → w1.mem x = w.mem x) ∧
    (ret ≠ 0 → flag = old_flag) ∧
    (ret = 0 → ∃ nd t new_type, flag = nd + t ∧ w.brk ≤ nd ∧ nd % 16 = 0 ∧ nd ≠ 0 ∧
      ja_type_at A t = Res.ok new_type ∧ nd + 2 ^ new_type.order ≤ w1.brk ∧
      (t = 7 ∨
        (t = (if sh = 0 ∨ oti = NODE_INDEX_NULL then 0 else oti + 1) ∧ nd = w.brk ∧
          (new_type.type_class = RCU_JA_LINEAR ∨ new_type.type_class = RCU_JA_POOL →
            ∀ base, is_base new_type nd base → LinearInv A w1 new_type base) ∧
          (old_type.type_class = RCU_JA_NULL → node_nr_child A w1 new_type nd = 1) ∧
          (old_type.type_class = RCU_JA_LINEAR →
            node_nr_child A w1 new_type nd = w.mem old_node + 1)))) := by
  rcases ja_node_recompact_add_inv A w oti old_type old_node sh old_flag n child
    ret flag w1 h with hp | ⟨nn, ns, w', w2, hp1, hcl, hp2⟩
  · obtain ⟨l1, f1, d1⟩ := pass_tidy A w false _ old_type old_node sh old_flag n child _ R hp
      hR hRb hal hB hlow hn hchild hcp hsrc
    obtain ⟨g1, _⟩ := ja_node_recompact_add_pass_flag A w false _ old_type old_node sh old_flag
      n child ret flag w1 hp
    refine ⟨l1, f1, g1, fun h0 => ?_⟩
    subst h0
    obtain ⟨new_type, hT, hidx, hflag, hnz, hsz, hinv, hcnt⟩ := d1 flag w1 rfl
    refine ⟨w.brk, _, new_type, ?_, Nat.le_refl _, hal, hnz, hT, hsz,
      Or.inr ⟨rfl, rfl, hinv, hcnt⟩⟩
    rw [hflag]
    exact or_tag w.brk _ (by omega) hidx
  · obtain ⟨_, k1, _⟩ := ja_node_recompact_add_pass_fields A w false _ old_type old_node sh
      old_flag n child _ hp1
    obtain ⟨_, k2, _⟩ := ja_node_recompact_add_pass_fields A _ true _ old_type old_node sh
      old_flag n child _ hp2
    obtain ⟨s2, _⟩ := rcuja_shadow_clear_eff w' w2 nn ns _ hcl
    have hb2 : ({ w2 with nr_fallback := w2.nr_fallback + 1 } : World).brk = w'.brk := s2.brk
    have hm2 : ({ w2 with nr_fallback := w2.nr_fallback + 1 } : World).mem = w'.mem := s2.mem
    have kb1 : w.brk ≤ w'.brk := k1.brk_le
    have kb2 : ({ w2 with nr_fallback := w2.nr_fallback + 1 } : World).brk ≤ w1.brk := k2.brk_le
    have hB1 : w'.brk ≤ 2 ^ CAA_BITS_PER_LONG A := by omega
    obtain ⟨l1, f1, _⟩ := pass_tidy A w false _ old_type old_node sh old_flag n child _ R hp1
      hR hRb hal hB1 hlow hn hchild hcp hsrc
    have hal2 : ({ w2 with nr_fallback := w2.nr_fallback + 1 } : World).brk % 16 = 0 := by
      rw [hb2]; exact k1.brk_al hal
    have hsrc2 : old_type.type_class = RCU_JA_NULL ∨
        (old_type ∈ ja_types A ∧
          (old_type.type_class = RCU_JA_LINEAR ∨ old_type.type_class = RCU_JA_POOL) ∧
          R < old_node ∧ old_node % 8 = 0 ∧
          old_node + 2 ^ old_type.order ≤
            ({ w2 with nr_fallback := w2.nr_fallback + 1 } : World).brk ∧
          ∀ base, is_base old_type old_node base →
            LinearInv A { w2 with nr_fallback := w2.nr_fallback + 1 } old_type base) := by
      rcases hsrc with hs | ⟨hTo, hclo, hRo, hao, hfo, hinv⟩
      · exact Or.inl hs
      · refine Or.inr ⟨hTo, hclo, hRo, hao, by omega, fun base hbase => ?_⟩
        obtain ⟨a0, _, hC1, _, hin, hfit0⟩ := is_base_geom A old_type old_node base hTo hao
          (by omega) hbase
        exact linear_inv_congr A old_type w _ base (hinv base hbase) a0 hC1 hfit0
          (fun x _ hx2 => by rw [hm2]; exact f1 x (by omega))
    obtain ⟨l2, f2, d2⟩ := pass_tidy A _ true _ old_type old_node sh old_flag n child _ R hp2
      hR (by rw [hb2]; omega) hal2 hB (by rw [hm2]; exact l1) hn hchild hcp hsrc2
    obtain ⟨g2, _⟩ := ja_node_recompact_add_pass_flag A _ true _ old_type old_node sh old_flag
      n child ret flag w1 hp2
    refine ⟨l2, fun x hx => ?_, g2, fun h0 => ?_⟩
    · have e1 : w1.mem x = ({ w2 with nr_fallback := w2.nr_fallback + 1 } : World).mem x :=
        f2 x (by rw [hb2]; omega)
      rw [e1, hm2]
      exact f1 x hx
    · subst h0
      obtain ⟨new_type, hT, hidx, hflag, hnz, hsz, _, _⟩ := d2 flag w1 rfl
      have h7 : (1 <<< JA_TYPE_BITS) - 1 = 7 := by decide
      rw [h7] at hT hflag
      rw [hb2] at hflag hnz hsz
      refine ⟨w'.brk, 7, new_type, ?_, kb1, k1.brk_al hal, hnz, hT, hsz, Or.inl rfl⟩
      rw [hflag]
      exact or_tag w'.brk 7 (by have := k1.brk_al hal; omega) (by decide)

/-- The shapes below 7 are the linear and pool shapes; a node of shape 7 is a
pigeon node. -/
theorem shape_class (A : Arch) (idx : Nat) (type : cds_ja_type) (hk : idx ≤ 7)
    (hT : ja_type_at A idx = Res.ok type) :
    3 ≤ type.order ∧
    (idx < 7 → type.type_class = RCU_JA_LINEAR ∨ type.type_class = RCU_JA_POOL) ∧
    (idx = 7 → type.type_class = RCU_JA_PIGEON) ∧
    (type.type_class = RCU_JA_LINEAR → type.max_child = type.max_linear_child ∧ idx ≤ 4) ∧
    (type.type_class = RCU_JA_POOL →
      type.max_child = 2 ^ type.nr_pool_order * type.max_linear_child) ∧
    (type.type_class = RCU_JA_PIGEON → type.max_child = 256) := by
  interval_cases idx <;> cases A <;>
    (injection hT with hT; subst hT; decide)

/-- The growth into the pool shape of two pools: its predecessor in the catalog is
a linear shape, and a full node of that shape with one child more holds at least
`min_child` children of the pool shape. -/
theorem catalog_grow_pool (A : Arch) (idx : Nat) (type new_type : cds_ja_type)
    (hT : ja_type_at A idx = Res.ok type) (hN : ja_type_at A (idx + 1) = Res.ok new_type)
    (hc : new_type.type_class = RCU_JA_POOL) (hp : new_type.nr_pool_order = 1) :
    new_type.min_child ≤ type.max_linear_child + 1 ∧ type.type_class = RCU_JA_LINEAR := by
  have hk : idx ≤ 7 := by
    by_contra hk
    have hlen : (ja_types A).length = 9 := by cases A <;> rfl
    have : (ja_types A)[idx + 1]? = none := List.getElem?_eq_none (by omega)
    simp [ja_type_at, this] at hN
  interval_cases idx <;> cases A <;>
    (injection hT with hT; injection hN with hN; subst hT; subst hN
     first
     | exact ⟨by decide, rfl⟩
     | exact absurd hc (by decide)
     | exact absurd hp (by decide))

/-- The first shape of the catalog is linear. -/
theorem type0_linear (A : Arch) (type : cds_ja_type) (hT : ja_type_at A 0 = Res.ok type) :
    type.type_class = RCU_JA_LINEAR := by
  cases A <;> (injection hT with hT; subst hT; rfl)

/-- The growth of the linear shapes: a full node of a linear shape with one child
more holds at least `min_child` children of the next shape. -/
theorem catalog_grow (A : Arch) (idx : Nat) (type new_type : cds_ja_type)
    (hT : ja_type_at A idx = Res.ok type) (hN : ja_type_at A (idx + 1) = Res.ok new_type)
    (hc : new_type.type_class = RCU_JA_LINEAR) :
    new_type.min_child ≤ type.max_linear_child + 1 ∧ type.type_class = RCU_JA_LINEAR := by
  have hk : idx ≤ 7 := by
    by_contra hk
    have hlen : (ja_types A).length = 9 := by cases A <;> rfl
    have : (ja_types A)[idx + 1]? = none := List.getElem?_eq_none (by omega)
    simp [ja_type_at, this] at hN
  interval_cases idx <;> cases A <;>
    (injection hT with hT; injection hN with hN; subst hT; subst hN
     first
     | exact ⟨by decide, rfl⟩
     | exact absurd hc (by decide))

theorem pool_count_congr (w w1 : World) (type : cds_ja_type) (node : Nat) :
    ∀ K, (∀ k, k < K → w1.mem (node + (k <<< type.pool_size_order)) =
        w.mem (node + (k <<< type.pool_size_order))) →
      pool_count w1 type node K = pool_count w type node K := by
  intro K
  induction K with
  | zero => intro _; rfl
  | succ K ih =>
    intro h
    rw [pool_count, pool_count, ih (fun k hk => h k (by omega)), h K (by omega)]

/-- The number of children of a pool node depends on the cells of its block
only. -/
theorem pool_nr_child_congr (A : Arch) (type : cds_ja_type) (w w1 : World) (nd : Nat)
    (hT : type ∈ ja_types A) (hc : type.type_class = RCU_JA_POOL)
    (hm : ∀ x, nd ≤ x → x < nd + 2 ^ type.order → w1.mem x = w.mem x) :
    node_nr_child A w1 type nd = node_nr_child A w type nd := by
  obtain ⟨_, _, hpool⟩ := catalog_layout A type hT
  obtain ⟨_, _, _, hO, _⟩ := hpool hc
  unfold node_nr_child
  simp only [hc]
  apply pool_count_congr
  intro k hk
  rw [Nat.shiftLeft_eq, Nat.one_mul] at hk
  rw [Nat.shiftLeft_eq]
  have := pool_inside type nd k hk hO
  have hp2 : 0 < 2 ^ type.pool_size_order := Nat.pow_pos (by decide)
  exact hm _ (by omega) (by omega)

theorem node_nr_child_linear (A : Arch) (type : cds_ja_type) (w : World) (nd : Nat)
    (hc : type.type_class = RCU_JA_LINEAR) : node_nr_child A w type nd = w.mem nd := by
  unfold node_nr_child
  simp only [hc]

/-- Whether a node is well formed depends on the cells of its block only. -/
theorem node_ok_congr (A : Arch) (type : cds_ja_type) (w w1 : World) (nd : Nat)
    (hT : type ∈ ja_types A) (ha : nd % 8 = 0)
    (hfit : nd + 2 ^ type.order ≤ 2 ^ CAA_BITS_PER_LONG A)
    (hm : ∀ x, nd ≤ x → x < nd + 2 ^ type.order → w1.mem x = w.mem x)
    (h : NodeOK A w type nd) : NodeOK A w1 type nd := by
  have hpos : 0 < 2 ^ type.order := Nat.pow_pos (by decide)
  refine ⟨fun base hbase => ?_, fun hc => ?_, fun hc hp => ?_⟩
  · obtain ⟨a0, hge, hC1, _, hin, hfit0⟩ := is_base_geom A type nd base hT ha hfit hbase
    exact linear_inv_congr A type w w1 base (h.1 base hbase) a0 hC1 hfit0
      (fun x hx1 hx2 => hm x (by omega) (by omega))
  · rw [hm nd (Nat.le_refl _) (by omega)]
    exact h.2.1 hc
  · rw [pool_nr_child_congr A type w w1 nd hT hc hm]
    exact h.2.2 hc hp

/-- A tidy state stays tidy when the cells between the root slot and the allocator
keep their content and the cells that change get values below the root slot. -/
theorem tidy_frame (A : Arch) (w w1 : World) (ht : Tidy A w)
    (hroot : w1.root = w.root) (hbrk : w.brk ≤ w1.brk)
    (hB : w1.brk ≤ 2 ^ CAA_BITS_PER_LONG A)
    (hlow : ∀ x, x ≠ w.root → w1.mem x + 2048 ≤ w.root)
    (hfr : ∀ x, w.root ≤ x → x < w.brk → w1.mem x = w.mem x) (hRb : w.root < w.brk) :
    Tidy A w1 := by
  refine ⟨by rw [hroot]; exact hlow, ?_⟩
  rw [hroot, hfr w.root (Nat.le_refl _) hRb]
  rcases ht.node with h | ⟨idx, type, nd, h1, h2, h3, h4, h5, h6, h7⟩
  · exact Or.inl h
  · refine Or.inr ⟨idx, type, nd, h1, h2, h3, h4, h5, by omega, ?_⟩
    exact node_ok_congr A type w w1 nd (ja_type_at_mem A idx type h3) (by omega) (by omega)
      (fun x hx1 hx2 => hfr x (by omega) (by omega)) h7

theorem type0_min_child (A : Arch) (type : cds_ja_type) (hT : ja_type_at A 0 = Res.ok type) :
    type.min_child = 1 := by
  cases A <;> (injection hT with hT; subst hT; rfl)

/-- A call of `ja_node_set_nth` in a state whose cells other than the root slot
hold values below the root slot, on the NULL node or on a well-formed node of a
linear or pool shape between the root slot and the allocator, with a child that is
a non-NULL pointer below the root slot: the call leaves the root slot as it is and
writes values below the root slot; when it fails it leaves the cells below the
allocator as they are; when it returns 0 the tagged pointer that it gives
references a pigeon node or a well-formed node. -/
theorem ja_node_set_nth_tidy (A : Arch) (w : World) (node_flag n child sh : Nat)
    (ret : Int) (flag : Nat) (w1 : World) (R : Nat)
    (h : ja_node_set_nth A w node_flag n child sh = Res.ok (ret, flag, w1))
    (hR : 4096 ≤ R) (hRb : R < w.brk) (hal : w.brk % 16 = 0)
    (hB : w1.brk ≤ 2 ^ CAA_BITS_PER_LONG A)
    (hlow : ∀ x, x ≠ R → w.mem x + 2048 ≤ R)
    (hn : n < 256) (hchild : child + 2048 ≤ R) (hcp : ja_node_ptr A child ≠ 0)
    (hnode : (node_flag = 0 ∧ sh = 0) ∨
      (sh ≠ 0 ∧ ∃ idx type nd, node_flag = nd + idx ∧ idx < 7 ∧
        ja_type_at A idx = Res.ok type ∧ R < nd ∧ nd % 16 = 0 ∧
        nd + 2 ^ type.order ≤ w.brk ∧ NodeOK A w type nd)) :
    (∀ x, x ≠ R → w1.mem x + 2048 ≤ R) ∧ w1.mem R = w.mem R ∧
    (ret ≠ 0 → ∀ x, x < w.brk → w1.mem x = w.mem x) ∧
    (ret = 0 → RootOK A w1 R flag) := by
  obtain ⟨kept, _⟩ := ja_node_set_nth_eff A w node_flag n child sh ret flag w1 h
  have hWb : w.brk ≤ 2 ^ CAA_BITS_PER_LONG A := Nat.le_trans kept.brk_le hB
  unfold ja_node_set_nth at h
  simp only [Res.bind_eq_ok] at h
  obtain ⟨ti, hti, type, hT, ⟨ret0, w0⟩, hset, h⟩ := h
  simp only at h
  -- the outcome of a recompaction
  have hrec : ∀ (old_type : cds_ja_type) (oti old_node : Nat),
      ja_node_recompact_add A w oti old_type old_node sh node_flag n child =
        Res.ok (ret, flag, w1) →
      (old_type.type_class = RCU_JA_NULL ∨
        (old_type ∈ ja_types A ∧
          (old_type.type_class = RCU_JA_LINEAR ∨ old_type.type_class = RCU_JA_POOL) ∧
          R < old_node ∧ old_node % 8 = 0 ∧ old_node + 2 ^ old_type.order ≤ w.brk ∧
          ∀ base, is_base old_type old_node base → LinearInv A w old_type base)) →
      (if sh = 0 ∨ oti = NODE_INDEX_NULL then 0 else oti + 1) < 7 →
      (∀ new_type, ja_type_at A (if sh = 0 ∨ oti = NODE_INDEX_NULL then 0 else oti + 1) =
          Res.ok new_type →
        new_type.type_class = RCU_JA_LINEAR ∨
          (new_type.type_class = RCU_JA_POOL ∧ new_type.nr_pool_order = 1) →
        (old_type.type_class = RCU_JA_NULL → new_type.min_child ≤ 1) ∧
        (old_type.type_class = RCU_JA_LINEAR → new_type.min_child ≤ w.mem old_node + 1) ∧
        (old_type.type_class = RCU_JA_NULL ∨ old_type.type_class = RCU_JA_LINEAR)) →
      (∀ x, x ≠ R → w1.mem x + 2048 ≤ R) ∧ w1.mem R = w.mem R ∧
      (ret ≠ 0 → ∀ x, x < w.brk → w1.mem x = w.mem x) ∧
      (ret = 0 → RootOK A w1 R flag) := by
    intro old_type oti old_node hr hsrc hlt hmin
    obtain ⟨l1, f1, _, d1⟩ := recompact_tidy A w oti old_type old_node sh node_flag n child ret
      flag w1 R hr hR hRb hal hB hlow hn hchild hcp hsrc
    refine ⟨l1, f1 R hRb, fun _ => f1, fun h0 => ?_⟩
    obtain ⟨nd, t, new_type, e1, e2, e3, e4, hTn, e5, e6⟩ := d1 h0
    have ht7 : t ≤ 7 := by
      rcases e6 with e | ⟨e, _⟩
      · omega
      · omega
    obtain ⟨ho, hcls, _⟩ := shape_class A t new_type ht7 hTn
    have h8 : (8 : Nat) ≤ 2 ^ new_type.order :=
      Nat.le_trans (by decide : 8 ≤ 2 ^ 3) (Nat.pow_le_pow_right (by decide) ho)
    by_cases h7 : t = 7
    · left
      rw [e1, h7]
      exact ja_node_type_add_tag A nd 7 (by omega) (by decide) e4 (by omega)
    · right
      rcases e6 with e | ⟨et, end_, hinv, hcnt⟩
      · exact absurd e h7
      · have hcl := hcls (by omega)
        obtain ⟨c1, c2⟩ := hcnt
        have hTn' := hTn
        rw [et] at hTn'
        have hge : new_type.type_class = RCU_JA_LINEAR ∨
            (new_type.type_class = RCU_JA_POOL ∧ new_type.nr_pool_order = 1) →
            new_type.min_child ≤ node_nr_child A w1 new_type nd := by
          intro hc
          obtain ⟨m1, m2, m3⟩ := hmin new_type hTn' hc
          rcases m3 with m3 | m3
          · rw [c1 m3]; exact m1 m3
          · rw [c2 m3]; exact m2 m3
        refine ⟨t, new_type, nd, e1, by omega, hTn, by omega, e3, e5, hinv hcl, fun hc => ?_,
          fun hc hp => hge (Or.inr ⟨hc, hp⟩)⟩
        rw [← node_nr_child_linear A new_type w1 nd hc]
        exact hge (Or.inl hc)
  rcases hnode with ⟨e1, e2⟩ | ⟨hsh, idx, type', nd, e1, hidx, hT', hRn, hand, hfit, hok⟩
  · -- the NULL node
    subst e1; subst e2
    rw [ja_node_type_null A 0 (ja_node_ptr_zero A)] at hti
    injection hti with hti
    subst hti
    have hc := ja_type_at_null A type hT
    unfold _ja_node_set_nth at hset
    simp only [hc, Res.pure_eq] at hset
    injection hset with hset
    injection hset with hs1 hs2
    subst hs1; subst hs2
    rw [if_pos rfl] at h
    refine hrec type _ _ h (Or.inl hc) (by simp) ?_
    intro new_type hTn _
    simp only [true_or, if_true] at hTn
    refine ⟨fun _ => ?_, fun hl => ?_, Or.inl hc⟩
    · rw [type0_min_child A new_type hTn]
    · rw [hc] at hl; cases hl
  · -- a node of a linear or pool shape
    have h8 : nd + 8 ≤ 2 ^ CAA_BITS_PER_LONG A := by
      obtain ⟨ho, _⟩ := shape_class A idx type' (by omega) hT'
      have : (8 : Nat) ≤ 2 ^ type'.order :=
        Nat.le_trans (by decide : 8 ≤ 2 ^ 3) (Nat.pow_le_pow_right (by decide) ho)
      omega
    have hp : ja_node_ptr A node_flag = nd := by
      rw [e1]; exact ja_node_ptr_add_tag A nd idx (by omega) (by omega) h8
    rw [e1, ja_node_type_add_tag A nd idx (by omega) (by omega) (by omega) h8] at hti
    injection hti with hti
    subst hti
    rw [hT'] at hT
    injection hT with hT
    subst hT
    rw [hp] at hset h
    have hTm := ja_type_at_mem A idx type' hT'
    obtain ⟨_, hcls, _⟩ := shape_class A idx type' (by omega) hT'
    have hcl := hcls hidx
    by_cases he : ret0 = -ENOSPC
    · rw [if_pos he] at h
      have e0 := _ja_node_set_nth_nonzero A type' w w0 nd sh n child ret0 hset
        (by rw [he]; decide)
      subst e0
      have hnti : (if sh = 0 ∨ idx = NODE_INDEX_NULL then 0 else idx + 1) = idx + 1 := by
        rw [if_neg]
        rintro (h | h)
        · exact hsh h
        · simp only [NODE_INDEX_NULL] at h; omega
      by_cases h6 : idx + 1 < 7
      · refine hrec type' idx nd h (Or.inr ⟨hTm, hcl, hRn, by omega, hfit, hok.1⟩)
          (by rw [hnti]; exact h6) ?_
        intro new_type hTn hcn
        rw [hnti] at hTn
        obtain ⟨g1, g2⟩ : new_type.min_child ≤ type'.max_linear_child + 1 ∧
            type'.type_class = RCU_JA_LINEAR := by
          rcases hcn with hcn | ⟨hcn, hpn⟩
          · exact catalog_grow A idx type' new_type hT' hTn hcn
          · exact catalog_grow_pool A idx type' new_type hT' hTn hcn hpn
        refine ⟨fun hnl => ?_, fun _ => ?_, Or.inr g2⟩
        · rw [g2] at hnl; cases hnl
        -- the old node is full
        subst he
        unfold _ja_node_set_nth at hset
        simp only [g2] at hset
        rcases ja_linear_node_set_nth_inv A type' _ _ nd sh n child _ hset with
          ⟨_, _, ⟨hr, _⟩ | ⟨_, _, _, hfull⟩ | ⟨hr, _⟩⟩
        · exact absurd hr (by decide)
        · rw [hfull]; exact g1
        · exact absurd hr (by decide)
      · -- the next shape is the pigeon shape
        obtain ⟨l1, f1, _, d1⟩ := recompact_tidy A _ idx type' nd sh node_flag n child ret
          flag w1 R h hR hRb hal hB hlow hn hchild hcp
          (Or.inr ⟨hTm, hcl, hRn, by omega, hfit, hok.1⟩)
        refine ⟨l1, f1 R hRb, fun _ => f1, fun h0 => Or.inl ?_⟩
        obtain ⟨nd', t, new_type, e1', e2', e3', e4', hTn, e5', e6'⟩ := d1 h0
        have ht : t = 7 := by
          rcases e6' with e | ⟨e, _⟩
          · exact e
          · rw [hnti] at e; omega
        subst ht
        obtain ⟨ho, _⟩ := shape_class A 7 new_type (by omega) hTn
        have : (8 : Nat) ≤ 2 ^ new_type.order :=
          Nat.le_trans (by decide : 8 ≤ 2 ^ 3) (Nat.pow_le_pow_right (by decide) ho)
        rw [e1']
        exact ja_node_type_add_tag A nd' 7 (by omega) (by decide) e4' (by omega)
    · rw [if_neg he] at h
      simp only [Res.pure_eq] at h
      injection h with h
      injection h with h1 h
      injection h with h2 h3
      subst h1; subst h2; subst h3
      by_cases h0 : ret0 = 0
      · subst h0
        have hfit2 : nd + 2 ^ type'.order ≤ 2 ^ CAA_BITS_PER_LONG A := by omega
        have hin := set_nth_inside A type' w w0 nd sh n child 0 hTm (by omega) hfit2 hn hset
        obtain ⟨hbrk, _⟩ := set_nth_fields A type' w w0 nd sh n child 0 hset
        obtain ⟨hinv, base0, _, hroute, hcnt, _⟩ := set_nth_linear_inv A type' w w0 nd sh n child
          0 hTm (by omega) hfit2 hn hcp hcl hok.1 hset
        have hcount := set_nth_counts A idx type' w w0 nd sh n child (by omega) hT' (by omega)
          hfit2 hn (fun e => hcp (by rw [e]; exact ja_node_ptr_zero A)) hset
        refine ⟨fun x hx => ?_, ?_, fun hne => absurd rfl hne, fun _ => Or.inr
          ⟨idx, type', nd, e1, hidx, hT', hRn, hand, by rw [hbrk]; exact hfit, hinv,
            fun hc => ?_, fun hc hp => by
              rw [hcount]; exact Nat.le_succ_of_le (hok.2.2 hc hp)⟩⟩
        · rcases hin x with h | ⟨_, h | h⟩
          · rw [h]; exact hlow x hx
          · rw [h]; exact hchild
          · omega
        · rcases hin R with h | ⟨h, _⟩
          · exact h
          · omega
        · rcases hroute with ⟨_, e⟩ | ⟨hc', _⟩
          · subst e
            rw [hcnt rfl]
            exact Nat.le_succ_of_le (hok.2.1 hc)
          · rw [hc] at hc'; cases hc'
      · have e0 := _ja_node_set_nth_nonzero A type' w w0 nd sh n child ret0 hset h0
        subst e0
        exact ⟨hlow, rfl, fun _ _ _ => rfl, fun h => absurd h h0⟩

/-! ## The steps of `ja_attach_node` -/

theorem ja_attach_node_loop_zero (A : Arch) (key i flag : Nat) (created : List Nat) (w : World) :
    ja_attach_node_loop A key 0 i flag created w = Res.ok (0, flag, created, w) := by
  rw [ja_attach_node_loop]
  rfl

/-- The loop of `ja_attach_node` with one level to create. -/
theorem ja_attach_node_loop_one (A : Arch) (key i flag : Nat) (created : List Nat) (w : World)
    (ret : Int) (flag' : Nat) (created' : List Nat) (w1 : World)
    (h : ja_attach_node_loop A key 1 i flag created w = Res.ok (ret, flag', created', w1)) :
    ∃ dest, ja_node_set_nth A w 0 (attach_iter_key w.tree_depth key i) flag 0 =
        Res.ok (ret, dest, w1) ∧ (ret = 0 → flag' = dest) := by
  rw [ja_attach_node_loop] at h
  simp only [Res.bind_eq_ok] at h
  obtain ⟨⟨ret0, dest, w0⟩, hset, h⟩ := h
  simp only at h
  by_cases hr : ret0 ≠ 0
  · rw [if_pos hr] at h
    simp only [Res.pure_eq] at h
    injection h with h
    injection h with h1 h
    injection h with h2 h
    injection h with h3 h4
    subst h1; subst h4
    exact ⟨dest, hset, fun h0 => absurd h0 hr⟩
  · rw [if_neg hr] at h
    have hr0 : ret0 = 0 := by
      by_cases e : ret0 = 0
      · exact e
      · exact absurd e hr
    subst hr0
    simp only [Res.bind_eq_ok] at h
    obtain ⟨created1, _, h⟩ := h
    rw [ja_attach_node_loop_zero] at h
    injection h with h
    injection h with h1 h
    injection h with h2 h
    injection h with h3 h4
    subst h1; subst h2; subst h4
    exact ⟨dest, hset, fun _ => rfl⟩

/-- The steps of the part of `ja_attach_node` that builds and publishes the new
branch. -/
theorem ja_attach_node_branch_inv (A : Arch) (w : World)
    (nfp nf key level child sh : Nat) (ret : Int) (created : List Nat) (w1 : World)
    (h : ja_attach_node_branch A w nfp nf key level child sh = Res.ok (ret, created, w1)) :
    ∃ iss w2, rcuja_shadow_set (w.store child 0) (ja_node_ptr A child) 0 = (iss, w2) ∧
      ((iss = 0 ∧ ret = -ENOMEM ∧ w1 = w2) ∨
       (iss ≠ 0 ∧ ∃ created0 retl flag1 created1 w3,
          ja_attach_node_loop A key (w2.tree_depth - level) w2.tree_depth child created0 w2 =
            Res.ok (retl, flag1, created1, w3) ∧
          ((retl ≠ 0 ∧ ret = retl ∧ w1 = w3) ∨
           (retl = 0 ∧ ¬ level > 1 ∧ ret = 0 ∧ w1 = w3.store nfp flag1) ∨
           (retl = 0 ∧ level > 1 ∧ ∃ ret1 dest w4,
              ja_node_set_nth A w3 nf (attach_iter_key w3.tree_depth key level) flag1 sh =
                Res.ok (ret1, dest, w4) ∧
              ((ret1 ≠ 0 ∧ ret = ret1 ∧ w1 = w4) ∨
               (ret1 = 0 ∧ ret = 0 ∧ w1 = w4.store nfp dest)))))) := by
  unfold ja_attach_node_branch at h
  simp only at h
  cases hs : rcuja_shadow_set (w.store child 0) (ja_node_ptr A child) 0 with
  | mk iss w2 =>
  simp only [hs] at h
  refine ⟨iss, w2, rfl, ?_⟩
  by_cases hi : iss = 0
  · rw [if_pos hi] at h
    simp only [Res.pure_eq] at h
    injection h with h
    injection h with h1 h
    injection h with h2 h3
    exact Or.inl ⟨hi, h1.symm, h3.symm⟩
  · rw [if_neg hi] at h
    simp only [Res.bind_eq_ok] at h
    obtain ⟨created0, _, ⟨retl, flag1, created1, w3⟩, hl, h⟩ := h
    simp only at h
    refine Or.inr ⟨hi, created0, retl, flag1, created1, w3, hl, ?_⟩
    by_cases hr : retl ≠ 0
    · rw [if_pos hr] at h
      simp only [Res.pure_eq] at h
      injection h with h
      injection h with h1 h
      injection h with h2 h3
      exact Or.inl ⟨hr, h1.symm, h3.symm⟩
    · rw [if_neg hr] at h
      have hr0 : retl = 0 := by
        by_cases e : retl = 0
        · exact e
        · exact absurd e hr
      right
      by_cases hlv : level > 1
      · rw [if_pos hlv] at h
        simp only [Res.bind_eq_ok] at h
        obtain ⟨⟨ret1, dest, w4⟩, hset, h⟩ := h
        simp only at h
        refine Or.inr ⟨hr0, hlv, ret1, dest, w4, hset, ?_⟩
        by_cases hr1 : ret1 ≠ 0
        · rw [if_pos hr1] at h
          simp only [Res.pure_eq] at h
          injection h with h
          injection h with h1 h
          injection h with h2 h3
          exact Or.inl ⟨hr1, h1.symm, h3.symm⟩
        · rw [if_neg hr1] at h
          have hr10 : ret1 = 0 := by
            by_cases e : ret1 = 0
            · exact e
            · exact absurd e hr1
          simp only [Res.bind_eq_ok, Res.pure_eq] at h
          obtain ⟨created2, _, h⟩ := h
          injection h with h
          injection h with h1 h
          injection h with h2 h3
          exact Or.inr ⟨hr10, h1.symm, h3.symm⟩
      · rw [if_neg hlv] at h
        simp only [Res.pure_eq] at h
        injection h with h
        injection h with h1 h
        injection h with h2 h3
        exact Or.inl ⟨hr0, hlv, h1.symm, h3.symm⟩

/-- The steps of `ja_attach_node`: it returns `-ENOENT` without a change, or runs
the part that builds the branch with the shadow of the node and then changes the
shadow table only. -/
theorem ja_attach_node_inv (A : Arch) (w : World)
    (nfp nf pnf key level child : Nat) (ret : Int) (w1 : World)
    (h : ja_attach_node A w nfp nf pnf key level child = Res.ok (ret, w1)) :
    ja_node_ptr A nf ≠ 0 ∧
    ((ret = -ENOENT ∧ w1 = w) ∨
     (rcuja_shadow_lookup_lock w (ja_node_ptr A nf) ≠ 0 ∧ ∃ created wb,
        ja_attach_node_branch A w nfp nf key level child
          (rcuja_shadow_lookup_lock w (ja_node_ptr A nf)) = Res.ok (ret, created, wb) ∧
        Same wb w1)) := by
  unfold ja_attach_node at h
  simp only [Res.bind_eq_ok, assert_eq_ok] at h
  obtain ⟨_, hnz, h⟩ := h
  refine ⟨hnz, ?_⟩
  by_cases hsh : rcuja_shadow_lookup_lock w (ja_node_ptr A nf) = 0
  · rw [if_pos hsh] at h
    simp only [Res.pure_eq] at h
    injection h with h
    injection h with h1 h2
    exact Or.inl ⟨h1.symm, h2.symm⟩
  · rw [if_neg hsh] at h
    by_cases hpc : ja_node_ptr A pnf ≠ 0 ∧
        (if ja_node_ptr A pnf ≠ 0 then
          rcuja_shadow_lookup_lock w (ja_node_ptr A pnf) else 0) = 0
    · rw [if_pos hpc] at h
      simp only [Res.pure_eq] at h
      injection h with h
      injection h with h1 h2
      exact Or.inl ⟨h1.symm, h2.symm⟩
    · rw [if_neg hpc] at h
      simp only [Res.bind_eq_ok] at h
      obtain ⟨⟨retb, created, wb⟩, hb, w2, hu, h⟩ := h
      simp only [Res.pure_eq] at h
      injection h with h
      injection h with h1 h2
      subst h1
      have e1 : w1 = w2 := by
        rw [← h2]
        simp only [rcuja_shadow_unlock, ite_self]
      subst e1
      refine Or.inr ⟨hsh, created, wb, hb, ?_⟩
      simp only at hu
      by_cases hr : retb ≠ 0
      · rw [if_pos hr] at hu
        exact (ja_attach_node_unwind_eff A created 0 wb w1 hu).1
      · rw [if_neg hr] at hu
        simp only [Res.pure_eq] at hu
        injection hu with hu
        subst hu
        exact Same.same_refl _

/-! ## `ja_attach_node` in a tidy state of an 8-bit container -/

/-- The store of a tagged pointer to a pigeon node or to a well-formed node into
the root slot gives a tidy state or a pigeon root. -/
theorem root_ok_store (A : Arch) (w : World) (dest : Nat)
    (hlow : ∀ x, x ≠ w.root → w.mem x + 2048 ≤ w.root) (hok : RootOK A w w.root dest)
    (hB : w.brk ≤ 2 ^ CAA_BITS_PER_LONG A) :
    Tidy A (w.store w.root dest) ∨
    ja_node_type A ((w.store w.root dest).mem (w.store w.root dest).root) = Res.ok 7 := by
  have hm : (w.store w.root dest).mem w.root = dest := by
    rw [World.store_mem, if_pos rfl]
  rcases hok with h7 | ⟨idx, type, nd, h1, h2, h3, h4, h5, h6, h7⟩
  · right
    show ja_node_type A ((w.store w.root dest).mem w.root) = Res.ok 7
    rw [hm]; exact h7
  · left
    refine ⟨fun x hx => ?_, Or.inr ⟨idx, type, nd, ?_, h2, h3, h4, h5, h6, ?_⟩⟩
    · have hx' : x ≠ w.root := hx
      rw [World.store_mem, if_neg hx']
      exact hlow x hx'
    · show (w.store w.root dest).mem w.root = nd + idx
      rw [hm]; exact h1
    · refine node_ok_congr A type w _ nd (ja_type_at_mem A idx type h3) (by omega)
        (by have : (w.store w.root dest).brk = w.brk := rfl
            omega) (fun x hx1 _ => ?_) h7
      rw [World.store_mem, if_neg (by omega)]

/-- The part of `ja_attach_node` that builds and publishes the new branch, in a
tidy state of an 8-bit container, for the slot of the root: at level 1 under an
empty root slot, at level 2 under the root node. -/
theorem ja_attach_node_branch_tidy (A : Arch) (w : World)
    (nfp nf key level child sh : Nat) (ret : Int) (created : List Nat) (w1 : World)
    (h : ja_attach_node_branch A w nfp nf key level child sh = Res.ok (ret, created, w1))
    (hR : 4096 ≤ w.root) (hRb : w.root < w.brk) (hal : w.brk % 16 = 0)
    (hd : w.tree_depth = 2) (ht : Tidy A w) (hB : w1.brk ≤ 2 ^ CAA_BITS_PER_LONG A)
    (hchild : child + 2048 ≤ w.root) (hcp : ja_node_ptr A child ≠ 0)
    (hnfp : nfp = w.root)
    (hcase : (level = 1 ∧ ja_node_ptr A (w.mem w.root) = 0) ∨
      (level = 2 ∧ nf = w.mem w.root ∧ ja_node_ptr A nf ≠ 0 ∧ sh ≠ 0)) :
    Tidy A w1 ∨ ja_node_type A (w1.mem w1.root) = Res.ok 7 := by
  obtain ⟨k01, _⟩ := ja_attach_node_branch_eff A w nfp nf key level child sh ret created w1 h
  obtain ⟨iss, w2, hs, hcases⟩ := ja_attach_node_branch_inv A w nfp nf key level child sh ret
    created w1 h
  obtain ⟨s2, _⟩ := rcuja_shadow_set_eff _ w2 _ 0 iss hs
  have r2 : w2.root = w.root := s2.root
  have b2 : w2.brk = w.brk := s2.brk
  have d2 : w2.tree_depth = 2 := s2.tree_depth.trans hd
  have m2 : ∀ x, w2.mem x = if x = child then 0 else w.mem x := by
    intro x
    rw [s2.mem, World.store_mem]
  have hWb : w.brk ≤ 2 ^ CAA_BITS_PER_LONG A := Nat.le_trans k01.brk_le hB
  have tw2 : Tidy A w2 := by
    refine tidy_frame A w w2 ht r2 (by omega) (by omega) (fun x hx => ?_) (fun x hx _ => ?_) hRb
    · rw [m2]
      by_cases e : x = child
      · rw [if_pos e]; omega
      · rw [if_neg e]; exact ht.low x hx
    · rw [m2, if_neg (by omega)]
  have low2 : ∀ x, x ≠ w.root → w2.mem x + 2048 ≤ w.root := by
    have := tw2.low
    rw [r2] at this
    exact this
  rcases hcases with ⟨_, _, e⟩ | ⟨_, created0, retl, flag1, created1, w3, hl, hcases⟩
  · subst e
    exact Or.inl tw2
  rcases hcase with ⟨hlv, hnull⟩ | ⟨hlv, hnf, hnz, hsh⟩
  · -- level 1: the root slot is empty, one node is created
    subst hlv
    rw [d2] at hl
    obtain ⟨dest, hset, hflag⟩ := ja_attach_node_loop_one A key 2 child created0 w2 retl flag1
      created1 w3 hl
    obtain ⟨k3, _⟩ := ja_node_set_nth_eff A w2 0 _ child 0 retl dest w3 hset
    have hB3 : w3.brk ≤ 2 ^ CAA_BITS_PER_LONG A := by
      rcases hcases with ⟨_, _, e⟩ | ⟨_, _, _, e⟩ | ⟨_, hlv, _⟩
      · subst e; exact hB
      · subst e; exact hB
      · omega
    obtain ⟨l3, _, f3, ok3⟩ := ja_node_set_nth_tidy A w2 0 _ child 0 retl dest w3 w.root hset hR
      (by omega) (by omega) hB3 low2 (attach_iter_key_lt _ _ _) hchild hcp (Or.inl ⟨rfl, rfl⟩)
    have r3 : w3.root = w.root := k3.root.trans r2
    rcases hcases with ⟨hr, _, e⟩ | ⟨hr, _, _, e⟩ | ⟨_, hlv, _⟩
    · subst e
      left
      refine tidy_frame A w2 w1 tw2 k3.root k3.brk_le hB (by rw [r2]; exact l3)
        (fun x _ hx => f3 hr x hx) (by omega)
    · subst e
      rw [hflag hr, hnfp, ← r3]
      exact root_ok_store A w3 dest (by rw [r3]; exact l3) (by rw [r3]; exact ok3 hr) hB3
    · omega
  · -- level 2: the new child goes under the root node
    subst hlv
    rw [d2, Nat.sub_self, ja_attach_node_loop_zero] at hl
    injection hl with hl
    injection hl with h1 hl
    injection hl with h2 hl
    injection hl with h3 h4
    subst h1; subst h2; subst h3; subst h4
    rcases hcases with ⟨hr, _⟩ | ⟨_, hlv, _⟩ | ⟨_, _, ret1, dest, w4, hset, hcases⟩
    · exact absurd rfl hr
    · exact absurd (by decide : 2 > 1) hlv
    obtain ⟨k4, _⟩ := ja_node_set_nth_eff A w2 nf _ child sh ret1 dest w4 hset
    have hB4 : w4.brk ≤ 2 ^ CAA_BITS_PER_LONG A := by
      rcases hcases with ⟨_, _, e⟩ | ⟨_, _, e⟩
      · subst e; exact hB
      · subst e; exact hB
    have hnode : ∃ idx type nd, nf = nd + idx ∧ idx < 7 ∧
        ja_type_at A idx = Res.ok type ∧ w.root < nd ∧ nd % 16 = 0 ∧
        nd + 2 ^ type.order ≤ w2.brk ∧ NodeOK A w2 type nd := by
      have hr2 : w2.mem w2.root = nf := by
        rw [r2, m2, if_neg (by omega), hnf]
      rcases tw2.node with hn | ⟨idx, type, nd, e1, e2, e3, e4, e5, e6, e7⟩
      · rw [hr2] at hn
        exact absurd hn hnz
      · rw [hr2] at e1
        rw [r2] at e4
        exact ⟨idx, type, nd, e1, e2, e3, e4, e5, e6, e7⟩
    obtain ⟨l4, _, f4, ok4⟩ := ja_node_set_nth_tidy A w2 nf _ child sh ret1 dest w4 w.root hset hR
      (by omega) (by omega) hB4 low2 (attach_iter_key_lt _ _ _) hchild hcp (Or.inr ⟨hsh, hnode⟩)
    have r4 : w4.root = w.root := k4.root.trans r2
    rcases hcases with ⟨hr, _, e⟩ | ⟨hr, _, e⟩
    · subst e
      left
      refine tidy_frame A w2 w1 tw2 k4.root k4.brk_le hB (by rw [r2]; exact l4)
        (fun x _ hx => f4 hr x hx) (by omega)
    · subst e
      rw [hnfp, ← r4]
      exact root_ok_store A w4 dest (by rw [r4]; exact l4) (by rw [r4]; exact ok4 hr) hB4

/-- `ja_attach_node` in a tidy state of an 8-bit container, for the slot of the
root: the state stays tidy, or the root node becomes a pigeon node. -/
theorem ja_attach_node_tidy (A : Arch) (w : World)
    (nfp nf pnf key level child : Nat) (ret : Int) (w1 : World)
    (h : ja_attach_node A w nfp nf pnf key level child = Res.ok (ret, w1))
    (hR : 4096 ≤ w.root) (hRb : w.root < w.brk) (hal : w.brk % 16 = 0)
    (hd : w.tree_depth = 2) (ht : Tidy A w) (hB : w1.brk ≤ 2 ^ CAA_BITS_PER_LONG A)
    (hchild : child + 2048 ≤ w.root) (hcp : ja_node_ptr A child ≠ 0)
    (hnfp : nfp = w.root)
    (hcase : (level = 1 ∧ ja_node_ptr A (w.mem w.root) = 0) ∨
      (level = 2 ∧ nf = w.mem w.root)) :
    Tidy A w1 ∨ ja_node_type A (w1.mem w1.root) = Res.ok 7 := by
  obtain ⟨hnz, hcases⟩ := ja_attach_node_inv A w nfp nf pnf key level child ret w1 h
  rcases hcases with ⟨_, e⟩ | ⟨hsh, created, wb, hb, sb⟩
  · subst e
    exact Or.inl ht
  · obtain ⟨kb, _⟩ := ja_attach_node_branch_eff A w nfp nf key level child _ ret created wb hb
    have hBb : wb.brk ≤ 2 ^ CAA_BITS_PER_LONG A := by rw [← sb.brk]; exact hB
    rcases ja_attach_node_branch_tidy A w nfp nf key level child _ ret created wb hb hR hRb hal
      hd ht hBb hchild hcp hnfp
      (hcase.elim Or.inl (fun hc => Or.inr ⟨hc.1, hc.2, hnz, hsh⟩)) with t | p
    · left
      have rb : wb.root = w.root := kb.root
      refine tidy_frame A wb w1 t sb.root (by rw [sb.brk]) hB (fun x hx => ?_)
        (fun x _ _ => by rw [sb.mem]) (by rw [rb]; exact Nat.lt_of_lt_of_le hRb kb.brk_le)
      rw [sb.mem]
      exact t.low x hx
    · right
      rw [sb.mem, sb.root]
      exact p

/-! ## Occupancy of the root node of an 8-bit container (C19) -/

/-- What `ja_node_get_nth` returns on a well-formed root node of a linear or pool
shape: no slot when the byte is absent, else a child below the root slot. -/
theorem root_get_nth_tidy (A : Arch) (w : World) (b child : Nat) (slot : Option Nat)
    (idx nd : Nat) (type : cds_ja_type)
    (hlow : ∀ x, x ≠ w.root → w.mem x + 2048 ≤ w.root)
    (e1 : w.mem w.root = nd + idx) (hidx : idx < 7) (hT : ja_type_at A idx = Res.ok type)
    (hRn : w.root < nd) (ha : nd % 16 = 0)
    (hfit : nd + 2 ^ type.order ≤ 2 ^ CAA_BITS_PER_LONG A) (hb : b < 256)
    (h : ja_node_get_nth A w (w.mem w.root) b = Res.ok (child, slot)) :
    (ja_node_ptr A child = 0 → slot = none) ∧
    (ja_node_ptr A child ≠ 0 → child + 2048 ≤ w.root) := by
  have hTm := ja_type_at_mem A idx type hT
  obtain ⟨ho, hcls, _⟩ := shape_class A idx type (by omega) hT
  have h8 : nd + 8 ≤ 2 ^ CAA_BITS_PER_LONG A := by
    have : (8 : Nat) ≤ 2 ^ type.order :=
      Nat.le_trans (by decide : 8 ≤ 2 ^ 3) (Nat.pow_le_pow_right (by decide) ho)
    omega
  have hp : ja_node_ptr A (w.mem w.root) = nd := by
    rw [e1]; exact ja_node_ptr_add_tag A nd idx (by omega) (by omega) h8
  have hti : ja_node_type A (w.mem w.root) = Res.ok idx := by
    rw [e1]; exact ja_node_type_add_tag A nd idx (by omega) (by omega) (by omega) h8
  rw [ja_node_get_nth_eq A w _ b nd idx type hp (by omega) hti hT] at h
  have hlin : ∀ base, ((type.type_class = RCU_JA_LINEAR ∧ base = nd) ∨
      (type.type_class = RCU_JA_POOL ∧ base = pool_of type nd b)) →
      ja_linear_node_get_nth A type w base b = Res.ok (child, slot) →
      (ja_node_ptr A child = 0 → slot = none) ∧
      (ja_node_ptr A child ≠ 0 → child + 2048 ≤ w.root) := by
    intro base hbase hg
    obtain ⟨a0, hge, hC1, _, _, hfit0⟩ := linear_base A type nd b hTm (by omega) hfit hb base
      hbase
    rcases ja_linear_node_get_nth_inv A type w base b child slot hg with
      ⟨h1, h2⟩ | ⟨i, hi, h1, h2, h3⟩
    · subst h2
      exact ⟨fun _ => h1, fun hne => absurd (ja_node_ptr_zero A) hne⟩
    · refine ⟨fun hz => absurd hz h3, fun _ => ?_⟩
      obtain ⟨_, g1, _⟩ := linear_cells_inside A type base i a0 hC1 hfit0 hi
      rw [h2]
      exact hlow _ (by omega)
  rcases hcls hidx with hc | hc
  · rw [hc] at h
    exact hlin nd (Or.inl ⟨hc, rfl⟩) h
  · rw [hc] at h
    simp only at h
    rw [ja_pool_node_get_nth_eq A type w nd b hc] at h
    exact hlin _ (Or.inr ⟨hc, rfl⟩) h

/-- One pass of `cds_ja_add` in a tidy state of an 8-bit container: the state
stays tidy, or the root node becomes a pigeon node. -/
theorem cds_ja_add_pass_tidy (A : Arch) (key new_node : Nat) (w : World)
    (again : Bool) (ret : Int) (w1 : World)
    (h : cds_ja_add_pass A key new_node 2 (0 + 1) 1 w.root (w.mem w.root) w.root 0 w =
      Res.ok (again, ret, w1))
    (hR : 4096 ≤ w.root) (hRb : w.root < w.brk) (hal : w.brk % 16 = 0)
    (hd : w.tree_depth = 2) (ht : Tidy A w) (hB : w1.brk ≤ 2 ^ CAA_BITS_PER_LONG A)
    (hnew : new_node + 2048 ≤ w.root) (hcp : ja_node_ptr A new_node ≠ 0) :
    Tidy A w1 ∨ ja_node_type A (w1.mem w1.root) = Res.ok 7 := by
  obtain ⟨k01, _⟩ := cds_ja_add_pass_eff A key new_node 2 _ _ _ _ _ _ w again ret w1 h
  rw [cds_ja_add_pass] at h
  by_cases hz : ja_node_ptr A (w.mem w.root) = 0
  · rw [if_pos hz] at h
    simp only [Res.bind_eq_ok, Res.pure_eq] at h
    obtain ⟨⟨ret0, w0⟩, ha, h⟩ := h
    injection h with h
    injection h with h1 h
    injection h with h2 h3
    subst h3
    exact ja_attach_node_tidy A w _ _ _ key 1 new_node ret0 w0 ha hR hRb hal hd ht hB hnew hcp
      rfl (Or.inl ⟨rfl, hz⟩)
  · rw [if_neg hz] at h
    simp only [Res.bind_eq_ok] at h
    obtain ⟨⟨nf1, slot⟩, hg, h⟩ := h
    simp only at h
    rcases ht.node with hn | ⟨idx, type, nd, e1, e2, e3, e4, e5, e6, e7⟩
    · exact absurd hn hz
    obtain ⟨g1, g2⟩ := root_get_nth_tidy A w _ nf1 slot idx nd type ht.low e1 e2 e3 e4 e5
      (by have := k01.brk_le; omega) (lookup_iter_key_lt _ _ _) hg
    rw [cds_ja_add_pass] at h
    by_cases hz1 : ja_node_ptr A nf1 = 0
    · rw [if_pos hz1] at h
      simp only [Res.bind_eq_ok, Res.pure_eq] at h
      obtain ⟨⟨ret0, w0⟩, ha, h⟩ := h
      injection h with h
      injection h with h1 h
      injection h with h2 h3
      subst h3
      have hs := g1 hz1
      subst hs
      exact ja_attach_node_tidy A w _ _ _ key 2 new_node ret0 w0 ha hR hRb hal hd ht hB hnew hcp
        rfl (Or.inr ⟨rfl, rfl⟩)
    · rw [if_neg hz1] at h
      simp only [Res.pure_eq] at h
      cases hc : ja_chain_node w (ja_node_ptr A nf1) new_node with
      | mk ret0 w0 =>
      rw [hc] at h
      injection h with h
      injection h with h1 h
      injection h with h2 h3
      subst h3
      left
      rcases ja_chain_node_eff w _ new_node _ _ hc with ⟨_, e⟩ | ⟨_, e⟩
      · rw [e]; exact ht
      · have hl1 := g2 hz1
        have hle := ja_node_ptr_le A nf1
        have hm : ∀ x, w0.mem x = if x = ja_node_ptr A nf1 then new_node
            else if x = new_node then w.mem (ja_node_ptr A nf1) else w.mem x := by
          intro x
          rw [e, World.store_mem, World.store_mem]
        refine tidy_frame A w w0 ht (by rw [e]; rfl) (by rw [e]; exact Nat.le_refl _) hB
          (fun x hx => ?_) (fun x hx _ => ?_) hRb
        · rw [hm]
          by_cases c1 : x = ja_node_ptr A nf1
          · rw [if_pos c1]; exact hnew
          · rw [if_neg c1]
            by_cases c2 : x = new_node
            · rw [if_pos c2]
              exact ht.low _ (by omega)
            · rw [if_neg c2]
              exact ht.low x hx
        · rw [hm, if_neg (by omega), if_neg (by omega)]

/-- The invariant of an 8-bit container is kept by the passes of `cds_ja_add` for
a user node that is a non-NULL pointer below the root slot. -/
theorem cds_ja_add_retry_occ (A : Arch) (key new_node : Nat) :
    ∀ (fuel : Nat) (w : World) (ret : Int) (w1 : World),
      cds_ja_add_retry A key new_node fuel w = Res.ok (ret, w1) →
      Occ A w → w1.brk ≤ 2 ^ CAA_BITS_PER_LONG A →
      new_node + 2048 ≤ w.root → ja_node_ptr A new_node ≠ 0 → Occ A w1 := by
  intro fuel
  induction fuel with
  | zero =>
    intro w ret w1 h
    rw [cds_ja_add_retry] at h
    cases h
  | succ fuel ih =>
    intro w ret w1 h ho hB hnew hcp
    have hch : clear_of A w.root new_node :=
      Or.inl (by have := ja_node_ptr_le A new_node; omega)
    have hne : new_node ≠ w.root := by omega
    rcases ho.shape with hpig | ht
    · -- a pigeon root stays
      obtain ⟨k, _⟩ := cds_ja_add_retry_eff A key new_node (fuel + 1) w ret w1 h
      obtain ⟨hs, hg1⟩ := cds_ja_add_retry_root A key new_node (fuel + 1) w ret w1 h ho.good hB
        hch hne
      refine ⟨hg1, k.tree_depth.trans ho.depth, Or.inl ?_⟩
      rw [k.root]
      rcases hs with e | ⟨s, s', h1, h2, h3⟩
      · rw [e]; exact hpig
      · rw [hpig] at h1
        injection h1 with h1
        subst h1
        rw [h2]
        unfold ShapeStep NODE_INDEX_NULL at h3
        have : s' = 7 := by omega
        rw [this]
    · rw [cds_ja_add_retry] at h
      simp only [Res.bind_eq_ok] at h
      obtain ⟨⟨again, ret0, w0⟩, hp, h⟩ := h
      simp only at h
      rw [ho.depth] at hp
      obtain ⟨k0, _⟩ := cds_ja_add_pass_eff A key new_node _ _ _ _ _ _ _ w again ret0 w0 hp
      have hpass : w0.brk ≤ 2 ^ CAA_BITS_PER_LONG A → Occ A w0 := fun hB0 =>
        ⟨cds_ja_add_pass_good A key new_node _ _ _ _ _ _ _ w again ret0 w0 hp ho.good hB0 hch
          (ho.good.cells _) (fun h => absurd h (by decide)),
         k0.tree_depth.trans ho.depth,
         (cds_ja_add_pass_tidy A key new_node w again ret0 w0 hp ho.good.root_ge ho.good.root_lt
          ho.good.brk_al ho.depth ht hB0 hnew hcp).elim Or.inr Or.inl⟩
      cases again with
      | false =>
        simp only [Bool.false_eq_true, if_false, Res.pure_eq] at h
        injection h with h
        injection h with h1 h2
        subst h2
        exact hpass hB
      | true =>
        simp only [if_true] at h
        obtain ⟨k1, _⟩ := cds_ja_add_retry_eff A key new_node fuel w0 ret w1 h
        exact ih w0 ret w1 h (hpass (Nat.le_trans k1.brk_le hB)) hB (by rw [k0.root]; exact hnew)
          hcp

/-- The invariant of an 8-bit container is kept by `cds_ja_add`. -/
theorem cds_ja_add_occ (A : Arch) (fuel : Nat) (w : World) (key new_node : Nat)
    (ret : Int) (w1 : World)
    (h : cds_ja_add A fuel w key new_node = Res.ok (ret, w1))
    (ho : Occ A w) (hB : w1.brk ≤ 2 ^ CAA_BITS_PER_LONG A)
    (hnew : new_node + 2048 ≤ w.root) (hcp : ja_node_ptr A new_node ≠ 0) : Occ A w1 := by
  unfold cds_ja_add at h
  by_cases hk : key > w.key_max
  · rw [if_pos hk] at h
    simp only [Res.pure_eq] at h
    injection h with h
    injection h with h1 h2
    subst h2
    exact ho
  · rw [if_neg hk] at h
    exact cds_ja_add_retry_occ A key new_node fuel w ret w1 h ho hB hnew hcp

theorem pigeon_count_le (A : Arch) (w : World) (node : Nat) :
    ∀ K, pigeon_count A w node K ≤ K := by
  intro K
  induction K with
  | zero => exact Nat.le_refl _
  | succ K ih =>
    rw [pigeon_count]
    by_cases h : w.mem (node + K * sizeof_ptr A) = 0
    · rw [if_pos h]; omega
    · rw [if_neg h]; omega

theorem pool_count_le (w : World) (type : cds_ja_type) (node m : Nat) :
    ∀ K, (∀ k, k < K → w.mem (node + (k <<< type.pool_size_order)) ≤ m) →
      pool_count w type node K ≤ K * m := by
  intro K
  induction K with
  | zero => intro _; rw [pool_count]; omega
  | succ K ih =>
    intro h
    rw [pool_count, Nat.succ_mul]
    have h1 := ih (fun k hk => h k (by omega))
    have h2 := h K (by omega)
    omega

/-- In a state that satisfies the invariant of an 8-bit container the number of
children of the root node is at most `max_child` of its shape, and at least
`min_child` when the shape is linear or the pool shape of two pools. -/
theorem occ_bounds (A : Arch) (w : World) (type : cds_ja_type) (c : Nat)
    (ho : Occ A w) (hB : w.brk ≤ 2 ^ CAA_BITS_PER_LONG A)
    (h : root_occupancy A w = Res.ok (type, c)) :
    c ≤ type.max_child ∧
    (type.type_class = RCU_JA_LINEAR ∨
      (type.type_class = RCU_JA_POOL ∧ type.nr_pool_order = 1) → type.min_child ≤ c) := by
  unfold root_occupancy at h
  simp only [Res.bind_eq_ok, Res.pure_eq] at h
  obtain ⟨ti, hti, type', hT, h⟩ := h
  injection h with h
  injection h with h1 h2
  subst h1
  rcases ho.shape with hpig | ht
  · rw [hpig] at hti
    injection hti with hti
    subst hti
    obtain ⟨_, _, hc, _, _, hm⟩ := shape_class A 7 type' (by omega) hT
    have hcl := hc rfl
    rw [← h2]
    unfold node_nr_child
    simp only [hcl]
    rw [hm hcl]
    refine ⟨pigeon_count_le A w _ _, fun h => ?_⟩
    rcases h with h | ⟨h, _⟩ <;> cases h
  · rcases ht.node with hn | ⟨idx, type, nd, e1, e2, e3, e4, e5, e6, e7⟩
    · rw [ja_node_type_null A _ hn] at hti
      injection hti with hti
      subst hti
      have hcl := ja_type_at_null A type' hT
      rw [← h2]
      unfold node_nr_child
      simp only [hcl]
      refine ⟨Nat.zero_le _, fun h => ?_⟩
      rcases h with h | ⟨h, _⟩ <;> cases h
    · obtain ⟨ho3, hcls, _, hlin, hpool, _⟩ := shape_class A idx type (by omega) e3
      have h8 : nd + 8 ≤ 2 ^ CAA_BITS_PER_LONG A := by
        have : (8 : Nat) ≤ 2 ^ type.order :=
          Nat.le_trans (by decide : 8 ≤ 2 ^ 3) (Nat.pow_le_pow_right (by decide) ho3)
        omega
      have hp : ja_node_ptr A (w.mem w.root) = nd := by
        rw [e1]; exact ja_node_ptr_add_tag A nd idx (by omega) (by omega) h8
      rw [e1, ja_node_type_add_tag A nd idx (by omega) (by omega) (by omega) h8] at hti
      injection hti with hti
      subst hti
      rw [e3] at hT
      injection hT with hT
      subst hT
      rw [← h2, hp]
      have hp5 := e7.2.2
      unfold node_nr_child at hp5 ⊢
      rcases hcls e2 with hc | hc
      · simp only [hc]
        obtain ⟨hm, _⟩ := hlin hc
        rw [hm]
        exact ⟨(e7.1 nd (Or.inl ⟨hc, rfl⟩)).count, fun _ => e7.2.1 hc⟩
      · simp only [hc] at hp5 ⊢
        rw [hpool hc]
        refine ⟨?_, fun h => ?_⟩
        swap
        · rcases h with h | ⟨_, h⟩
          · cases h
          · exact hp5 trivial h
        have := pool_count_le w type nd type.max_linear_child (1 <<< type.nr_pool_order)
          (fun k hk => by
            rw [Nat.shiftLeft_eq, Nat.one_mul] at hk
            rw [Nat.shiftLeft_eq]
            exact (e7.1 _ (Or.inr ⟨hc, k, hk, rfl⟩)).count)
        have e : 1 <<< type.nr_pool_order = 2 ^ type.nr_pool_order := by
          rw [Nat.shiftLeft_eq, Nat.one_mul]
        rw [e] at this ⊢
        exact this

theorem new_ja8_occ (A : Arch) (w : World) (h : NewJa8 A w) : Occ A w :=
  ⟨⟨h.root_ge, h.root_lt, h.brk_al, by rw [h.depth],
      fun x => Or.inl (by have := ja_node_ptr_le A (w.mem x); have := h.cells x; omega)⟩,
    h.depth, Or.inr ⟨fun x _ => h.cells x, Or.inl h.empty⟩⟩

/-- The bounds hold after each add of a sequence that starts in a state that
satisfies the invariant of an 8-bit container. -/
theorem occupancy_trace_bounds (A : Arch) (fuel : Nat) :
    ∀ (adds : List (Nat × Nat)) (w : World) (l : List (cds_ja_type × Nat)) (brk : Nat),
      Occ A w → (∀ kn ∈ adds, ja_node_ptr A kn.2 ≠ 0 ∧ kn.2 + 2048 ≤ w.root) →
      occupancy_trace A fuel adds w = Res.ok (l, brk) → brk ≤ 2 ^ CAA_BITS_PER_LONG A →
      w.brk ≤ brk ∧
      ∀ e ∈ l, e.2 ≤ e.1.max_child ∧
        (e.1.type_class = RCU_JA_LINEAR ∨
          (e.1.type_class = RCU_JA_POOL ∧ e.1.nr_pool_order = 1) → e.1.min_child ≤ e.2) := by
  intro adds
  induction adds with
  | nil =>
    intro w l brk _ _ h _
    rw [occupancy_trace] at h
    simp only [Res.pure_eq] at h
    injection h with h
    injection h with h1 h2
    subst h1; subst h2
    exact ⟨Nat.le_refl _, fun e he => absurd he (List.not_mem_nil _)⟩
  | cons kn rest ih =>
    intro w l brk ho hnodes h hB
    obtain ⟨key, node⟩ := kn
    rw [occupancy_trace] at h
    simp only [Res.bind_eq_ok] at h
    obtain ⟨⟨ret, w1⟩, hadd, ⟨type, c⟩, hocc, ⟨l', brk'⟩, hrest, h⟩ := h
    simp only [Res.pure_eq] at h
    injection h with h
    injection h with h1 h2
    subst h1; subst h2
    obtain ⟨k, _⟩ := cds_ja_add_eff A fuel w key node ret w1 hadd
    obtain ⟨hn1, hn2⟩ := hnodes (key, node) (List.mem_cons_self _ _)
    have hstep : w1.brk ≤ 2 ^ CAA_BITS_PER_LONG A → Occ A w1 := fun hB1 =>
      cds_ja_add_occ A fuel w key node ret w1 hadd ho hB1 hn2 hn1
    have hnodes' : ∀ kn ∈ rest, ja_node_ptr A kn.2 ≠ 0 ∧ kn.2 + 2048 ≤ w1.root := by
      intro kn hkn
      rw [k.root]
      exact hnodes kn (List.mem_cons_of_mem _ hkn)
    -- the allocator only grows along the rest of the adds
    have hmono : ∀ (adds : List (Nat × Nat)) (w : World) (l : List (cds_ja_type × Nat))
        (brk : Nat), occupancy_trace A fuel adds w = Res.ok (l, brk) → w.brk ≤ brk := by
      intro adds
      induction adds with
      | nil =>
        intro w l brk h
        rw [occupancy_trace] at h
        simp only [Res.pure_eq] at h
        injection h with h
        injection h with h1 h2
        subst h2
        exact Nat.le_refl _
      | cons kn rest ih2 =>
        intro w l brk h
        obtain ⟨key, node⟩ := kn
        rw [occupancy_trace] at h
        simp only [Res.bind_eq_ok] at h
        obtain ⟨⟨ret, w1⟩, hadd, _, _, ⟨l', brk'⟩, hrest, h⟩ := h
        simp only [Res.pure_eq] at h
        injection h with h
        injection h with h1 h2
        subst h2
        obtain ⟨k, _⟩ := cds_ja_add_eff A fuel w key node ret w1 hadd
        exact Nat.le_trans k.brk_le (ih2 w1 l' brk' hrest)
    have hB1 : w1.brk ≤ 2 ^ CAA_BITS_PER_LONG A := Nat.le_trans (hmono rest w1 l' brk' hrest) hB
    have ho1 := hstep hB1
    obtain ⟨hb, hl⟩ := ih w1 l' brk' ho1 hnodes' hrest hB
    refine ⟨Nat.le_trans k.brk_le hb, fun e he => ?_⟩
    rcases List.mem_cons.1 he with e1 | e1
    · subst e1
      exact occ_bounds A w1 type c ho1 hB1 hocc
    · exact hl e e1

theorem new_world_ja8 : NewJa8 Arch.bits64 (world_of (run_adds Arch.bits64 1 8 [])) := by
  have e : ∀ x, (world_of (run_adds Arch.bits64 1 8 [])).mem x = 0 := by
    intro x
    show (if _ then 0 else 0) = 0
    split <;> rfl
  refine ⟨by decide, by decide, by decide, by decide, fun x => ?_, ?_⟩
  · rw [e]
    decide
  · rw [e]
    decide

/-- C19 (as stated, refuted): 64-bit build, 8-bit container, adds of distinct keys,
each with its own node, all returning 0.  After the adds of the 29 keys 0..28 the
root node is a pigeon node (shape 7, `min_child` 101) that holds 29 children.
After the adds of the 30 keys 0..13, 64..76, 128, 129 and 14 the root node is a
pool node of four pools (shape 6, `min_child` 51) that holds 30 children; one add
before, it is a pool node of two pools (shape 5) with 29 children. -/
theorem C19_root_below_min_child :
    (List.range 29).Nodup ∧
    root_occupancy Arch.bits64 (world_of (run_adds Arch.bits64 1 8 (test_adds (List.range 29)))) =
      Res.ok (⟨RCU_JA_PIGEON, 101, 256, 0, 11, 0, 0⟩, 29) ∧
    ¬ (⟨RCU_JA_PIGEON, 101, 256, 0, 11, 0, 0⟩ : cds_ja_type).min_child ≤ 29 ∧
    (List.range 14 ++ (List.range 13).map (fun k => k + 64) ++ [128, 129, 14]).Nodup ∧
    observe Arch.bits64 8
      (test_adds (List.range 14 ++ (List.range 13).map (fun k => k + 64) ++ [128, 129, 14])) 14 =
      Res.ok ⟨List.replicate 30 0, 1049638, 0, 960, [960]⟩ ∧
    root_occupancy Arch.bits64 (world_of (run_adds Arch.bits64 1 8
      (test_adds (List.range 14 ++ (List.range 13).map (fun k => k + 64) ++ [128, 129])))) =
      Res.ok (⟨RCU_JA_POOL, 22, 54, 27, 9, 1, 8⟩, 29) ∧
    root_occupancy Arch.bits64 (world_of (run_adds Arch.bits64 1 8
      (test_adds (List.range 14 ++ (List.range 13).map (fun k => k + 64) ++ [128, 129, 14])))) =
      Res.ok (⟨RCU_JA_POOL, 51, 104, 26, 10, 2, 8⟩, 30) ∧
    ¬ (⟨RCU_JA_POOL, 51, 104, 26, 10, 2, 8⟩ : cds_ja_type).min_child ≤ 30 := by
  decide

/-- C19 (amended): in a new 8-bit container (depth 2, empty root slot, cells that
hold values below the root slot), for every sequence of adds whose user nodes are
non-NULL pointers below the root slot and whose calls return, with the allocator
staying in the address space: after each add the number `c` of children of the
root node, read in the node, is at most `max_child` of the catalog entry of the
shape of the root, and at least `min_child` of it when that shape is linear
(shapes 0 to 4) or the pool shape of two pools (shape 5). -/
theorem C19_root_occupancy (A : Arch) (fuel : Nat) (adds : List (Nat × Nat)) (w : World)
    (l : List (cds_ja_type × Nat)) (brk : Nat)
    (hw : NewJa8 A w)
    (hnodes : ∀ kn ∈ adds, ja_node_ptr A kn.2 ≠ 0 ∧ kn.2 + 2048 ≤ w.root)
    (h : occupancy_trace A fuel adds w = Res.ok (l, brk))
    (hB : brk ≤ 2 ^ CAA_BITS_PER_LONG A) :
    ∀ e ∈ l, e.2 ≤ e.1.max_child ∧
      (e.1.type_class = RCU_JA_LINEAR ∨
        (e.1.type_class = RCU_JA_POOL ∧ e.1.nr_pool_order = 1) → e.1.min_child ≤ e.2) :=
  (occupancy_trace_bounds A fuel adds w l brk (new_ja8_occ A w hw) hnodes h hB).2

/-- C19 (amended) for the adds of the keys 0..13, 64..76, 128, 129 and 14 to a new
8-bit container (64-bit build): the root node is linear of the shapes 0 to 4 with
1 to 28 children, then a pool node of two pools with 29 children, then a pool
node of four pools with 30 children. -/
theorem C19_root_occupancy_witness :
    List.Forall (fun e : cds_ja_type × Nat =>
        e.2 ≤ e.1.max_child ∧
        (e.1.type_class = RCU_JA_LINEAR ∨
          (e.1.type_class = RCU_JA_POOL ∧ e.1.nr_pool_order = 1) → e.1.min_child ≤ e.2))
      (List.zip
        (List.replicate 1 ⟨RCU_JA_LINEAR, 1, 1, 1, 4, 0, 0⟩ ++
          List.replicate 2 ⟨RCU_JA_LINEAR, 1, 3, 3, 5, 0, 0⟩ ++
          List.replicate 4 ⟨RCU_JA_LINEAR, 3, 7, 7, 6, 0, 0⟩ ++
          List.replicate 7 ⟨RCU_JA_LINEAR, 5, 14, 14, 7, 0, 0⟩ ++
          List.replicate 14 ⟨RCU_JA_LINEAR, 10, 28, 28, 8, 0, 0⟩ ++
          [⟨RCU_JA_POOL, 22, 54, 27, 9, 1, 8⟩,
            (⟨RCU_JA_POOL, 51, 104, 26, 10, 2, 8⟩ : cds_ja_type)])
        (List.range' 1 30)) :=
  List.forall_iff_forall_mem.2 <| C19_root_occupancy Arch.bits64 1
    (test_adds (List.range 14 ++ (List.range 13).map (fun k => k + 64) ++ [128, 129, 14]))
    (world_of (run_adds Arch.bits64 1 8 [])) _ 1050656 new_world_ja8
    (by
      intro kn hkn
      simp only [test_adds, List.mem_map] at hkn
      obtain ⟨k, hk, e⟩ := hkn
      subst e
      have hk1 : k ≤ 129 :=
        (by decide : ∀ k ∈ List.range 14 ++ (List.range 13).map (fun k => k + 64) ++
          [128, 129, 14], k ≤ 129) k hk
      have hr : (world_of (run_adds Arch.bits64 1 8 [])).root = 1048576 := by decide
      rw [hr]
      have h1 : test_node k ≤ 64 * 130 := by unfold test_node; omega
      have h2 : ja_node_ptr Arch.bits64 (test_node k) = test_node k := by
        have e0 : test_node k = 64 * (k + 1) + 0 := rfl
        rw [e0]
        exact ja_node_ptr_add_tag Arch.bits64 (64 * (k + 1)) 0 (by omega) (by omega)
          (by show 64 * (k + 1) + 8 ≤ 2 ^ 64; omega)
      refine ⟨?_, ?_⟩
      · rw [h2]; unfold test_node; omega
      · show test_node k + 2048 ≤ 1048576
        omega)
    (by decide) (by decide)

/-! ## Key bytes of attach and of lookup -/

theorem created_nodes_push_run (created : List Nat) (x : Nat)
    (h : created.length < JA_MAX_DEPTH) :
    created_nodes_push created x = Res.ok (created ++ [x]) := by
  unfold created_nodes_push
  simp only [assert, bind, Res.bind, pure, h, if_true]

theorem created_nodes_push_inv (created created1 : List Nat) (x : Nat)
    (h : created_nodes_push created x = Res.ok created1) : created1 = created ++ [x] := by
  unfold created_nodes_push at h
  simp only [Res.bind_eq_ok, Res.pure_eq] at h
  obtain ⟨_, _, h⟩ := h
  injection h with h
  exact h.symm

/-- The loop of `ja_attach_node` writes one entry per step, up to the step that
meets an error. -/
theorem ja_attach_node_loop_created (A : Arch) (key : Nat) :
    ∀ (todo i flag : Nat) (created : List Nat) (w : World) (ret : Int) (flag' : Nat)
      (created' : List Nat) (w' : World),
      ja_attach_node_loop A key todo i flag created w = Res.ok (ret, flag', created', w') →
      created'.length ≤ created.length + todo ∧
      (ret = 0 → created'.length = created.length + todo) := by
  intro todo
  induction todo with
  | zero =>
    intro i flag created w ret flag' created' w' h
    rw [ja_attach_node_loop_zero] at h
    injection h with h
    injection h with h1 h
    injection h with h2 h
    injection h with h3 h4
    subst h3
    exact ⟨Nat.le_refl _, fun _ => rfl⟩
  | succ todo ih =>
    intro i flag created w ret flag' created' w' h
    rw [ja_attach_node_loop] at h
    simp only [Res.bind_eq_ok] at h
    obtain ⟨⟨ret0, dest, w0⟩, _, h⟩ := h
    simp only at h
    by_cases hr : ret0 ≠ 0
    · rw [if_pos hr] at h
      simp only [Res.pure_eq] at h
      injection h with h
      injection h with h1 h
      injection h with h2 h
      injection h with h3 h4
      subst h1; subst h3
      exact ⟨by omega, fun h0 => absurd h0 hr⟩
    · rw [if_neg hr] at h
      simp only [Res.bind_eq_ok] at h
      obtain ⟨created1, hp, h⟩ := h
      have e := created_nodes_push_inv _ _ _ hp
      obtain ⟨g1, g2⟩ := ih _ _ _ _ _ _ _ _ h
      rw [e, List.length_append, List.length_singleton] at g1 g2
      exact ⟨by omega, fun h0 => by have := g2 h0; omega⟩

/-- The number of entries of `created_nodes` at the label `check_error` of
`ja_attach_node`. -/
theorem ja_attach_node_branch_created (A : Arch) (w : World)
    (nfp nf key level child sh : Nat) (ret : Int) (created : List Nat) (w1 : World)
    (h : ja_attach_node_branch A w nfp nf key level child sh = Res.ok (ret, created, w1)) :
    created.length ≤ attach_writes w.tree_depth level ∧
    (ret = 0 → created.length = attach_writes w.tree_depth level) := by
  unfold ja_attach_node_branch at h
  simp only at h
  cases hs : rcuja_shadow_set (w.store child 0) (ja_node_ptr A child) 0 with
  | mk iss w2 =>
  have hd : w2.tree_depth = w.tree_depth := by
    obtain ⟨hk, _⟩ := rcuja_shadow_set_eff _ _ _ _ _ hs
    exact hk.tree_depth
  rw [hs] at h
  simp only at h
  by_cases hz : iss = 0
  · rw [if_pos hz] at h
    simp only [Res.pure_eq] at h
    injection h with h
    injection h with h1 h
    injection h with h2 h3
    subst h1; subst h2
    exact ⟨Nat.zero_le _, fun h0 => by cases h0⟩
  · rw [if_neg hz] at h
    simp only [Res.bind_eq_ok] at h
    obtain ⟨created0, hp, ⟨retl, flag1, created1, w3⟩, hl, h⟩ := h
    have e0 := created_nodes_push_inv _ _ _ hp
    obtain ⟨g1, g2⟩ := ja_attach_node_loop_created A key _ _ _ _ _ _ _ _ _ hl
    rw [e0, hd] at g1 g2
    simp only [List.nil_append, List.length_singleton] at g1 g2
    simp only at h
    unfold attach_writes
    by_cases hr : retl ≠ 0
    · rw [if_pos hr] at h
      simp only [Res.pure_eq] at h
      injection h with h
      injection h with h1 h
      injection h with h2 h3
      subst h1; subst h2
      exact ⟨by omega, fun h0 => absurd h0 hr⟩
    · rw [if_neg hr] at h
      have hr0 : retl = 0 := by
        by_cases e : retl = 0
        · exact e
        · exact absurd e hr
      have g3 := g2 hr0
      by_cases hlv : level > 1
      · rw [if_pos hlv] at h
        rw [if_pos hlv]
        simp only [Res.bind_eq_ok] at h
        obtain ⟨⟨ret1, dest, w4⟩, _, h⟩ := h
        simp only at h
        by_cases hr1 : ret1 ≠ 0
        · rw [if_pos hr1] at h
          simp only [Res.pure_eq] at h
          injection h with h
          injection h with h1 h
          injection h with h2 h3
          subst h1; subst h2
          exact ⟨by omega, fun h0 => absurd h0 hr1⟩
        · rw [if_neg hr1] at h
          simp only [Res.bind_eq_ok, Res.pure_eq] at h
          obtain ⟨created2, hp2, h⟩ := h
          have e2 := created_nodes_push_inv _ _ _ hp2
          injection h with h
          injection h with h1 h
          injection h with h2 h3
          subst h2
          rw [e2, List.length_append, List.length_singleton]
          exact ⟨by omega, fun _ => by omega⟩
      · rw [if_neg hlv] at h
        rw [if_neg hlv]
        simp only [Res.pure_eq] at h
        injection h with h
        injection h with h1 h
        injection h with h2 h3
        subst h2
        exact ⟨by omega, fun _ => by omega⟩

theorem rcuja_create_ht_depth (w : World) :
    (rcuja_create_ht w).2.tree_depth = w.tree_depth := by
  unfold rcuja_create_ht
  cases h : w.oracle with
  | nil => rfl
  | cons b rest => cases b <;> rfl

theorem _cds_ja_new_tail (A : Arch) (ja0 : Nat) (w2 : World) (ja : Nat) (w1 : World)
    (h : (let (ht, w3) := rcuja_create_ht w2
      if ¬ ht then
        (pure (0, free w3 ja0) : Res (Nat × World))
      else
        let (root_shadow_node, w4) := rcuja_shadow_set w3 (ja_node_ptr A ja0) 0
        if root_shadow_node = 0 then do
          let (ret, w5) := rcuja_delete_ht w4
          assert (ret = 0)
          pure (0, free w5 ja0)
        else
          pure (ja0, w4)) = Res.ok (ja, w1)) (hja : ja ≠ 0) :
    w1.tree_depth = w2.tree_depth := by
  have hd := rcuja_create_ht_depth w2
  cases hh : rcuja_create_ht w2 with
  | mk ht w3 =>
  rw [hh] at h hd
  simp only at h hd
  by_cases hb : ¬ ht = true
  · rw [if_pos hb] at h
    simp only [Res.pure_eq] at h
    injection h with h
    injection h with h1 h2
    exact absurd h1.symm hja
  · rw [if_neg hb] at h
    cases hs : rcuja_shadow_set w3 (ja_node_ptr A ja0) 0 with
    | mk rs w4 =>
    obtain ⟨hk, _⟩ := rcuja_shadow_set_eff _ _ _ _ _ hs
    rw [hs] at h
    simp only at h
    by_cases hz : rs = 0
    · rw [if_pos hz] at h
      simp only [Res.bind_eq_ok, Res.pure_eq] at h
      obtain ⟨_, _, h⟩ := h
      injection h with h
      injection h with h1 h2
      exact absurd h1.symm hja
    · rw [if_neg hz] at h
      simp only [Res.pure_eq] at h
      injection h with h
      injection h with h1 h2
      subst h2
      rw [hk.tree_depth, hd]

/-- The depth of a container that `_cds_ja_new` returns is `(key_bits >> 3) + 1`
and at most `JA_MAX_DEPTH`. -/
theorem _cds_ja_new_depth (A : Arch) (w0 : World) (key_bits ja : Nat) (w1 : World)
    (h : _cds_ja_new A w0 key_bits = Res.ok (ja, w1)) (hja : ja ≠ 0) :
    w1.tree_depth = (key_bits >>> JA_BITS_PER_BYTE) + 1 ∧ w1.tree_depth ≤ JA_MAX_DEPTH := by
  unfold _cds_ja_new at h
  cases hc : calloc w0 sizeof_cds_ja with
  | mk ja0 wa =>
  rw [hc] at h
  simp only at h
  by_cases hz : ja0 = 0
  · rw [if_pos hz] at h
    simp only [Res.pure_eq] at h
    injection h with h
    injection h with h1 h2
    exact absurd h1.symm hja
  · rw [if_neg hz] at h
    generalize (if key_bits = 8 then some UINT8_MAX
      else if key_bits = 16 then some UINT16_MAX
      else if key_bits = 32 then some UINT32_MAX
      else if key_bits = 64 then some UINT64_MAX
      else none) = km at h
    cases km with
    | none =>
      simp only [Res.pure_eq] at h
      injection h with h
      injection h with h1 h2
      exact absurd h1.symm hja
    | some km =>
      simp only [Res.bind_eq_ok] at h
      obtain ⟨_, hd, h⟩ := h
      rw [assert_eq_ok] at hd
      have e := _cds_ja_new_tail A ja0 _ ja w1 h hja
      simp only at e
      rw [e]
      exact ⟨rfl, hd⟩

/-- C35: for every container that `_cds_ja_new` returns (it returns one for
`key_bits` 8, 16 and 32, of depth 2, 3 and 5; for 64 the call stops on its
assertion `tree_depth <= JA_MAX_DEPTH`) and every attach level `L` with
`1 <= L <= tree_depth`: the number of writes into `created_nodes[]` of a call of
`ja_attach_node` at level `L` is at most `JA_MAX_DEPTH`; every write made while
fewer entries than that number are written is inside the array; and the array of
every call that reaches the label `check_error` holds at most that number of
entries, exactly that number when the result is 0. -/
theorem C35_created_nodes_in_bounds (A : Arch) (w0 : World) (key_bits ja : Nat) (w1 : World)
    (L : Nat) (hnew : _cds_ja_new A w0 key_bits = Res.ok (ja, w1)) (hja : ja ≠ 0)
    (h1 : 1 ≤ L) (h2 : L ≤ w1.tree_depth) :
    attach_writes w1.tree_depth L ≤ JA_MAX_DEPTH ∧
    (∀ (created : List Nat) (x : Nat), created.length < attach_writes w1.tree_depth L →
      created_nodes_push created x = Res.ok (created ++ [x])) ∧
    (∀ (w : World) (nfp nf key child sh : Nat) (ret : Int) (created : List Nat) (w' : World),
      w.tree_depth = w1.tree_depth →
      ja_attach_node_branch A w nfp nf key L child sh = Res.ok (ret, created, w') →
      created.length ≤ attach_writes w1.tree_depth L ∧
      (ret = 0 → created.length = attach_writes w1.tree_depth L)) := by
  obtain ⟨_, hd⟩ := _cds_ja_new_depth A w0 key_bits ja w1 hnew hja
  have hb : attach_writes w1.tree_depth L ≤ JA_MAX_DEPTH := by
    unfold attach_writes
    by_cases hl : L > 1
    · rw [if_pos hl]; omega
    · rw [if_neg hl]; omega
  refine ⟨hb, fun created x hc => created_nodes_push_run created x (by omega), ?_⟩
  intro w nfp nf key child sh ret created w' hw h
  rw [← hw]
  exact ja_attach_node_branch_created A w nfp nf key L child sh ret created w' h

/-- C35 on the 32-bit container of a fresh process (64-bit build, depth 5) and
the attach level 1, where the five entries of the array are written. -/
theorem C35_created_nodes_in_bounds_witness :
    _cds_ja_new Arch.bits64 World.boot 32 =
      Res.ok (1048576, world_of (run_adds Arch.bits64 1 32 [])) ∧
    (world_of (run_adds Arch.bits64 1 32 [])).tree_depth = 5 ∧
    attach_writes (world_of (run_adds Arch.bits64 1 32 [])).tree_depth 1 = 5 ∧
    attach_writes (world_of (run_adds Arch.bits64 1 32 [])).tree_depth 1 ≤ JA_MAX_DEPTH :=
  ⟨rfl, by decide, by decide,
    (C35_created_nodes_in_bounds Arch.bits64 World.boot 32 1048576
      (world_of (run_adds Arch.bits64 1 32 [])) 1 rfl (by decide) (by decide) (by decide)).1⟩

/-! ## After an attach under a pigeon node: counts of linear nodes (C34) -/

/-- C34 (the code breaks it): 64-bit build, 32-bit container (depth 5), adds only,
each of them returning 0, no two of them of the same key.  The adds of the 29 keys
0, 512, ..., 14336 (first bytes 0..28) leave a pigeon root (tagged pointer
1051031).  The add of key 16384 (first byte 32) attaches under the pigeon node
and leaves in its slot for the byte 32 the tagged pointer of the pigeon node
itself.  The add of key 16392 (bytes 32, 0, 1, 8) with the node at 192 goes from
the pigeon node to the pigeon node, then to the node that the root holds under
the byte 0, in which the byte 1 is absent, and attaches there a branch of one
node: the root now holds under the byte 0 the node 1053137 (shape 1), which holds
under the byte 1 the node 1053120 (shape 0), which holds under the byte 8 the user
node 192, one level above the leaves.  The lookup of key 16392 returns the node
192.  The lookup of key 64 (bytes 0, 1, 8, 64) reaches the pointer 192 at the last
internal level: its tag is 0, the cell where the count of a node of shape 0
lives holds 0 (the `next` link of the user node), below `min_child = 1`, and the
assertion of `ja_linear_node_get_nth` fails; the lookup of key 64 does not
return, nor does the descent of the add of key 64. -/
theorem C34_lookup_reads_user_node_as_linear_node :
    observe Arch.bits64 32
      (test_adds ((List.range 29).map (fun k => k * 512)) ++ [(16384, 128)]) 0 =
      Res.ok ⟨List.replicate 30 0, 1051031, 1, 64, [64]⟩ ∧
    root_get_nth_after Arch.bits64 32
      (test_adds ((List.range 29).map (fun k => k * 512)) ++ [(16384, 128)]) 32 =
      Res.ok (1051031, 1051031) ∧
    observe Arch.bits64 32
      (test_adds ((List.range 29).map (fun k => k * 512)) ++ [(16384, 128), (16392, 192)]) 16392 =
      Res.ok ⟨List.replicate 31 0, 1051031, 1, 192, [192]⟩ ∧
    (List.range 4).map (lookup_iter_key 5 16392 ∘ Nat.succ) = [32, 0, 1, 8] ∧
    (List.range 4).map (lookup_iter_key 5 64 ∘ Nat.succ) = [0, 1, 8, 64] ∧
    ja_node_get_nth Arch.bits64 (world_of (run_adds Arch.bits64 1 32
      (test_adds ((List.range 29).map (fun k => k * 512)) ++ [(16384, 128), (16392, 192)])))
      1051031 0 = Res.ok (1053137, some 1051024) ∧
    ja_node_get_nth Arch.bits64 (world_of (run_adds Arch.bits64 1 32
      (test_adds ((List.range 29).map (fun k => k * 512)) ++ [(16384, 128), (16392, 192)])))
      1053137 1 = Res.ok (1053120, some 1053152) ∧
    ja_node_get_nth Arch.bits64 (world_of (run_adds Arch.bits64 1 32
      (test_adds ((List.range 29).map (fun k => k * 512)) ++ [(16384, 128), (16392, 192)])))
      1053120 8 = Res.ok (192, some 1053128) ∧
    ja_node_type Arch.bits64 192 = Res.ok 0 ∧
    ja_type_at Arch.bits64 0 = Res.ok ⟨RCU_JA_LINEAR, 1, 1, 1, 4, 0, 0⟩ ∧
    (world_of (run_adds Arch.bits64 1 32
      (test_adds ((List.range 29).map (fun k => k * 512)) ++
        [(16384, 128), (16392, 192)]))).mem 192 = 0 ∧
    ja_linear_node_get_nth Arch.bits64 ⟨RCU_JA_LINEAR, 1, 1, 1, 4, 0, 0⟩
      (world_of (run_adds Arch.bits64 1 32
        (test_adds ((List.range 29).map (fun k => k * 512)) ++ [(16384, 128), (16392, 192)])))
      192 64 = Res.abort ∧
    observe Arch.bits64 32
      (test_adds ((List.range 29).map (fun k => k * 512)) ++ [(16384, 128), (16392, 192)]) 64 =
      Res.abort ∧
    (run_adds Arch.bits64 1 32
      (test_adds ((List.range 29).map (fun k => k * 512)) ++
        [(16384, 128), (16392, 192), (64, 256)])).aborts = true := by
  decide

/-! ## A leaf without shadow: the retry of `cds_ja_add` (C36) -/

/-- In a container of depth 2 whose root node holds under the byte of the key a
child that has no shadow, a pass of `cds_ja_add` ends with `-ENOENT` from
`ja_chain_node` and the jump to `retry`, in the same state. -/
theorem cds_ja_add_pass_chain_enoent (A : Arch) (w : World) (key new_node c : Nat)
    (slot : Option Nat) (hr : ja_node_ptr A (w.mem w.root) ≠ 0)
    (hg : ja_node_get_nth A w (w.mem w.root) (lookup_iter_key 2 key 1) = Res.ok (c, slot))
    (hc : ja_node_ptr A c ≠ 0) (hs : w.ht (ja_node_ptr A c) = none) :
    cds_ja_add_pass A key new_node 2 1 1 w.root (w.mem w.root) w.root 0 w =
      Res.ok (true, -ENOENT, w) := by
  rw [cds_ja_add_pass, if_neg hr]
  simp only [hg, bind, Res.bind]
  rw [cds_ja_add_pass, if_neg hc]
  unfold ja_chain_node rcuja_shadow_lookup_lock
  simp only [hs, if_true, pure, decide_True]

/-- No number of passes lets `cds_ja_add` return in such a state. -/
theorem cds_ja_add_chain_enoent (A : Arch) (w : World) (key new_node c : Nat)
    (slot : Option Nat) (hk : ¬ key > w.key_max) (hd : w.tree_depth = 2)
    (hr : ja_node_ptr A (w.mem w.root) ≠ 0)
    (hg : ja_node_get_nth A w (w.mem w.root) (lookup_iter_key 2 key 1) = Res.ok (c, slot))
    (hc : ja_node_ptr A c ≠ 0) (hs : w.ht (ja_node_ptr A c) = none) :
    ∀ fuel, cds_ja_add A fuel w key new_node = Res.nofuel := by
  intro fuel
  unfold cds_ja_add
  rw [if_neg hk]
  induction fuel with
  | zero => rw [cds_ja_add_retry]
  | succ fuel ih =>
    rw [cds_ja_add_retry, hd]
    have hp := cds_ja_add_pass_chain_enoent A w key new_node c slot hr hg hc hs
    simp only [Nat.add_one_sub_one] at hp ⊢
    rw [hp]
    simp only [bind, Res.bind, if_true]
    exact ih

/-- C36 (the code breaks it): 64-bit build, 8-bit container, sequential adds.  The
adds of the keys 0..29, each with its own node, return 0 and leave a pigeon root
(tagged pointer 1049639) whose slot for the byte 29 holds the tagged pointer of
the pigeon node itself; its slot for the byte 0 holds the node 64 of key 0.  The
add of key 29 with the node at 2560 returns 0: it chains that node onto the
pigeon node, whose first cell, the slot for the byte 0, now holds 2560, a node
without shadow (the lookup of key 0 returns the list 2560, 64).  The add of key 0
with the node at 2624 then finds 2560 under the byte 0, `ja_chain_node` finds no
shadow and returns `-ENOENT`, and the pass ends with the jump to `retry` in the
same state: whatever the number of passes, the call has not returned. -/
theorem C36_add_retries_forever :
    root_get_nth_after Arch.bits64 8 (test_adds (List.range 30)) 29 =
      Res.ok (1049639, 1049639) ∧
    root_get_nth_after Arch.bits64 8 (test_adds (List.range 30)) 0 = Res.ok (64, 1049639) ∧
    observe Arch.bits64 8 (test_adds (List.range 30) ++ [(29, 2560)]) 0 =
      Res.ok ⟨List.replicate 31 0, 1049639, 1, 2560, [2560, 64]⟩ ∧
    (world_of (run_adds Arch.bits64 1 8 (test_adds (List.range 30) ++ [(29, 2560)]))).ht 2560 =
      none ∧
    ja_chain_node (world_of (run_adds Arch.bits64 1 8 (test_adds (List.range 30) ++ [(29, 2560)])))
      2560 2624 =
      (-ENOENT, world_of (run_adds Arch.bits64 1 8 (test_adds (List.range 30) ++ [(29, 2560)]))) ∧
    ∀ fuel, cds_ja_add Arch.bits64 fuel
      (world_of (run_adds Arch.bits64 1 8 (test_adds (List.range 30) ++ [(29, 2560)]))) 0 2624 =
      Res.nofuel := by
  have hs : (world_of (run_adds Arch.bits64 1 8
      (test_adds (List.range 30) ++ [(29, 2560)]))).ht 2560 = none := by decide
  refine ⟨by decide, by decide, by decide, hs, ?_, ?_⟩
  · unfold ja_chain_node rcuja_shadow_lookup_lock
    simp only [hs, if_true]
  · exact cds_ja_add_chain_enoent Arch.bits64 _ 0 2624 2560 (some 1049632) (by decide) (by decide)
      (by decide) (by decide) (by decide) hs

/-! ## One writer and one reader on a linear node (C31) -/

theorem shadow_nr_child_inc_mem (w w1 : World) (sh : Nat)
    (h : shadow_nr_child_inc w sh = Res.ok w1) : w1.mem = w.mem := by
  unfold shadow_nr_child_inc at h
  cases hs : w.ht sh with
  | none => rw [hs] at h; cases h
  | some s0 =>
    rw [hs] at h
    injection h with h
    subst h
    rfl

/-- In a state that satisfies the invariant, every slot below the count in memory
holds the byte and the pointer it is given. -/
theorem race_inv_slots {A : Arch} {type : cds_ja_type} {w0 : World} {node n child m : Nat}
    {s : Race} (h : RaceInv A type w0 node n child m s) (j : Nat) (hj : j < s.w.mem node) :
    s.w.mem (node + 1 + j) = stored_byte w0 node n j ∧
    s.w.mem (linear_slot A type node j) = stored_pointer A type w0 node child j := by
  unfold stored_byte stored_pointer
  by_cases hlt : j < w0.mem node
  · rw [if_pos hlt, if_pos hlt]
    exact h.old j hlt
  · rw [if_neg hlt, if_neg hlt]
    rcases h.cnt with e | ⟨e, _, e1, e2⟩
    · omega
    · have : j = w0.mem node := by omega
      subst this
      exact ⟨e1, e2⟩

/-- The pointer that a slot is given is not NULL. -/
theorem stored_pointer_ne (A : Arch) (type : cds_ja_type) (w0 : World) (node child j : Nat)
    (hinv : LinearInv A w0 type node) (hc : ja_node_ptr A child ≠ 0) :
    ja_node_ptr A (stored_pointer A type w0 node child j) ≠ 0 := by
  unfold stored_pointer
  by_cases hlt : j < w0.mem node
  · rw [if_pos hlt]; exact hinv.used j hlt
  · rw [if_neg hlt]; exact hc

/-- The count in memory is the count of the start or one more, and at most
`max_linear_child`. -/
theorem race_inv_count_le {A : Arch} {type : cds_ja_type} {w0 : World} {node n child m : Nat}
    {s : Race} (h : RaceInv A type w0 node n child m s) (hinv : LinearInv A w0 type node) :
    w0.mem node ≤ s.w.mem node ∧ s.w.mem node ≤ type.max_linear_child := by
  have := hinv.count
  rcases h.cnt with e | ⟨e, e1, _⟩ <;> omega

theorem reader_ok_mono {A : Arch} {type : cds_ja_type} {w0 : World} {node n child m : Nat}
    {w w1 : World} (hle : w.mem node ≤ w1.mem node) :
    ∀ pc, ReaderOK A type w0 node n child m w pc → ReaderOK A type w0 node n child m w1 pc
  | ReaderPc.entry, _ => trivial
  | ReaderPc.scan _ _, h => Nat.le_trans h hle
  | ReaderPc.fetch _ _, h => ⟨Nat.le_trans h.1 hle, h.2⟩
  | ReaderPc.returned _ _, h =>
    h.elim Or.inl (fun ⟨j, h1, h2⟩ => Or.inr ⟨j, Nat.lt_of_lt_of_le h1 hle, h2⟩)
  | ReaderPc.failed, h => h

theorem load_ok_mono {A : Arch} {type : cds_ja_type} {w0 : World} {node n child : Nat}
    {w w1 : World} (hle : w.mem node ≤ w1.mem node) :
    ∀ l, LoadOK A type w0 node n child w l → LoadOK A type w0 node n child w1 l
  | SlotLoad.count _, h => Nat.le_trans h hle
  | SlotLoad.byte _ _, h => ⟨Nat.lt_of_lt_of_le h.1 hle, h.2⟩
  | SlotLoad.pointer _ _, h => ⟨Nat.lt_of_lt_of_le h.1 hle, h.2⟩

/-- A step of the writer that stores nothing keeps the invariant when the writer
is at a position that fits. -/
theorem race_inv_writer_quiet {A : Arch} {type : cds_ja_type} {w0 : World}
    {node n child m : Nat} {s : Race} (h : RaceInv A type w0 node n child m s)
    (w1 : World) (pc : WriterPc) (hm : w1.mem = s.w.mem)
    (hw : WriterOK A type w0 node n child w1 pc) :
    RaceInv A type w0 node n child m ⟨w1, pc, s.reader, s.loads⟩ := by
  refine ⟨?_, ?_, hw, ?_, ?_⟩
  · intro j hj
    show w1.mem _ = _ ∧ w1.mem _ = _
    rw [hm]
    exact h.old j hj
  · show w1.mem _ = _ ∨ (w1.mem _ = _ ∧ _ ∧ w1.mem _ = _ ∧ w1.mem _ = _)
    rw [hm]
    exact h.cnt
  · exact reader_ok_mono (by rw [hm]) _ h.reader
  · intro l hl
    exact load_ok_mono (by rw [hm]) l (h.loads l hl)

theorem writer_ok_entry (A : Arch) (type : cds_ja_type) (w0 : World) (node n child : Nat)
    (w : World) :
    WriterOK A type w0 node n child w WriterPc.entry ↔ w.mem node = w0.mem node := Iff.rfl

theorem writer_ok_scan (A : Arch) (type : cds_ja_type) (w0 : World) (node n child : Nat)
    (w : World) (nr i : Nat) :
    WriterOK A type w0 node n child w (WriterPc.scan nr i) ↔
      (nr = w0.mem node ∧ w.mem node = w0.mem node) := Iff.rfl

theorem writer_ok_check (A : Arch) (type : cds_ja_type) (w0 : World) (node n child : Nat)
    (w : World) (nr : Nat) :
    WriterOK A type w0 node n child w (WriterPc.check nr) ↔
      (nr = w0.mem node ∧ nr < type.max_linear_child ∧ w.mem node = w0.mem node) := Iff.rfl

theorem writer_ok_stores (A : Arch) (type : cds_ja_type) (w0 : World) (node n child : Nat)
    (w : World) (nr : Nat) (p v : Bool) :
    WriterOK A type w0 node n child w (WriterPc.stores nr p v) ↔
      (nr = w0.mem node ∧ nr < type.max_linear_child ∧ w.mem node = w0.mem node ∧
        (p = true → w.mem (linear_slot A type node nr) = child) ∧
        (v = true → w.mem (node + 1 + nr) = n)) := Iff.rfl

/-- A step of the writer keeps the invariant. -/
theorem writer_step_inv (A : Arch) (type : cds_ja_type) (w0 : World)
    (node sh n child m : Nat) (vf : Bool) (s : Race)
    (ha : node % 8 = 0) (hC1 : 0 < type.max_linear_child) (hC : type.max_linear_child < 256)
    (hfit : node + linear_extent A type ≤ 2 ^ CAA_BITS_PER_LONG A)
    (hinv : LinearInv A w0 type node)
    (h : RaceInv A type w0 node n child m s) :
    RaceInv A type w0 node n child m
      (race_step A type node sh n child m (Turn.writer vf) s) := by
  obtain ⟨w, wp, rp, loads⟩ := s
  have hcl := race_inv_count_le h hinv
  have hw := h.writer
  have g := fun j hj => linear_cells_inside A type node j ha hC1 hfit hj
  simp only at hcl hw
  cases wp with
  | entry =>
    rw [writer_ok_entry] at hw
    simp only [race_step, writer_step]
    split
    · split
      · exact race_inv_writer_quiet h w _ rfl ⟨hw, hw⟩
      · exact race_inv_writer_quiet h w _ rfl trivial
    · exact race_inv_writer_quiet h w _ rfl trivial
  | scan nr i =>
    rw [writer_ok_scan] at hw
    simp only [race_step, writer_step]
    split
    · split
      · exact race_inv_writer_quiet h w _ rfl trivial
      · exact race_inv_writer_quiet h w _ rfl hw
    · split
      · exact race_inv_writer_quiet h w _ rfl trivial
      · exact race_inv_writer_quiet h w _ rfl
          ((writer_ok_check A type w0 node n child w nr).2 ⟨hw.1, by omega, hw.2⟩)
  | check nr =>
    rw [writer_ok_check] at hw
    simp only [race_step, writer_step]
    split
    · exact race_inv_writer_quiet h w _ rfl
        ((writer_ok_stores A type w0 node n child w nr false false).2
          ⟨hw.1, hw.2.1, hw.2.2, fun e => Bool.noConfusion e, fun e => Bool.noConfusion e⟩)
    · exact race_inv_writer_quiet h w _ rfl trivial
  | stores nr p v =>
    rw [writer_ok_stores] at hw
    obtain ⟨e0, hlt, hn, hp, hv⟩ := hw
    subst e0
    have g0 := g (w0.mem node) hlt
    simp only [race_step, writer_step]
    split
    · -- the store of the count
      rename_i hpv
      have e1 : (w0.mem node + 1) % 256 = w0.mem node + 1 := Nat.mod_eq_of_lt (by omega)
      rw [e1]
      have hm : ∀ x, x ≠ node → (w.store node (w0.mem node + 1)).mem x = w.mem x :=
        fun x hx => by rw [World.store_mem, if_neg hx]
      have hm0 : (w.store node (w0.mem node + 1)).mem node = w0.mem node + 1 := by
        rw [World.store_mem, if_pos rfl]
      refine ⟨?_, ?_, trivial, ?_, ?_⟩
      · intro j hj
        have gj := g j (by omega)
        show (w.store node _).mem _ = _ ∧ (w.store node _).mem _ = _
        rw [hm _ (by omega), hm _ (by omega)]
        exact h.old j hj
      · right
        show (w.store node _).mem _ = _ ∧ _ ∧ (w.store node _).mem _ = _ ∧
          (w.store node _).mem _ = _
        rw [hm0, hm _ (by omega), hm _ (by omega)]
        exact ⟨rfl, hlt, hv hpv.2, hp hpv.1⟩
      · exact reader_ok_mono (by show w.mem node ≤ (w.store node _).mem node; rw [hm0]; omega) _
          h.reader
      · intro l hl
        exact load_ok_mono (by show w.mem node ≤ (w.store node _).mem node; rw [hm0]; omega) l
          (h.loads l hl)
    · split
      · -- the store of the pointer
        have hm : ∀ x, x ≠ linear_slot A type node (w0.mem node) →
            (w.store (linear_slot A type node (w0.mem node)) child).mem x = w.mem x :=
          fun x hx => by rw [World.store_mem, if_neg hx]
        have hmn : (w.store (linear_slot A type node (w0.mem node)) child).mem node = w.mem node :=
          hm _ (by omega)
        refine ⟨?_, ?_, ?_, ?_, ?_⟩
        · intro j hj
          have gj := g j (by omega)
          show (w.store _ _).mem _ = _ ∧ (w.store _ _).mem _ = _
          rw [hm _ (by omega), hm _ (fun e => by
            have := linear_slot_inj A type node _ _ e
            omega)]
          exact h.old j hj
        · left
          show (w.store _ _).mem _ = _
          rw [hmn]
          exact hn
        · show WriterOK A type w0 node n child (w.store _ _) (WriterPc.stores _ true v)
          unfold WriterOK
          refine ⟨rfl, hlt, by rw [hmn]; exact hn, fun _ => ?_, fun hv1 => ?_⟩
          · rw [World.store_mem, if_pos rfl]
          · rw [hm _ (by omega)]
            exact hv hv1
        · exact reader_ok_mono (by rw [hmn]) _ h.reader
        · intro l hl
          exact load_ok_mono (by rw [hmn]) l (h.loads l hl)
      · -- the store of the key byte
        have hm : ∀ x, x ≠ node + 1 + w0.mem node →
            (w.store (node + 1 + w0.mem node) n).mem x = w.mem x :=
          fun x hx => by rw [World.store_mem, if_neg hx]
        have hmn : (w.store (node + 1 + w0.mem node) n).mem node = w.mem node :=
          hm _ (by omega)
        refine ⟨?_, ?_, ?_, ?_, ?_⟩
        · intro j hj
          have gj := g j (by omega)
          show (w.store _ _).mem _ = _ ∧ (w.store _ _).mem _ = _
          rw [hm _ (by omega), hm _ (by omega)]
          exact h.old j hj
        · left
          show (w.store _ _).mem _ = _
          rw [hmn]
          exact hn
        · show WriterOK A type w0 node n child (w.store _ _) (WriterPc.stores _ p true)
          unfold WriterOK
          refine ⟨rfl, hlt, by rw [hmn]; exact hn, fun hp1 => ?_, fun _ => ?_⟩
          · rw [hm _ (by omega)]
            exact hp hp1
          · rw [World.store_mem, if_pos rfl]
        · exact reader_ok_mono (by rw [hmn]) _ h.reader
        · intro l hl
          exact load_ok_mono (by rw [hmn]) l (h.loads l hl)
  | shadow =>
    simp only [race_step, writer_step]
    cases hs : shadow_nr_child_inc w sh with
    | ok w1 => exact race_inv_writer_quiet h w1 _ (shadow_nr_child_inc_mem w w1 sh hs) trivial
    | abort => exact race_inv_writer_quiet h w _ rfl trivial
    | nofuel => exact race_inv_writer_quiet h w _ rfl trivial
  | returned ret =>
    simp only [race_step, writer_step]
    exact race_inv_writer_quiet h w _ rfl trivial
  | failed =>
    simp only [race_step, writer_step]
    exact race_inv_writer_quiet h w _ rfl trivial

/-- A step of the reader keeps the invariant when the reader is at a position
that fits and the load it made is one that fits. -/
theorem race_inv_reader {A : Arch} {type : cds_ja_type} {w0 : World}
    {node n child m : Nat} {s : Race} (h : RaceInv A type w0 node n child m s)
    (pc : ReaderPc) (loads : List SlotLoad)
    (hr : ReaderOK A type w0 node n child m s.w pc)
    (hl : ∀ l ∈ loads, LoadOK A type w0 node n child s.w l) :
    RaceInv A type w0 node n child m ⟨s.w, s.writer, pc, loads⟩ :=
  ⟨h.old, h.cnt, h.writer, hr, hl⟩

theorem loads_cons {A : Arch} {type : cds_ja_type} {w0 : World} {node n child : Nat}
    {w : World} {loads : List SlotLoad} (l0 : SlotLoad)
    (h0 : LoadOK A type w0 node n child w l0)
    (h : ∀ l ∈ loads, LoadOK A type w0 node n child w l) :
    ∀ l ∈ l0 :: loads, LoadOK A type w0 node n child w l := by
  intro l hl
  rcases List.mem_cons.1 hl with e | e
  · subst e; exact h0
  · exact h l e

/-- A step of the reader keeps the invariant: its loads give what the slots are
given, and its assertions hold. -/
theorem reader_step_inv (A : Arch) (type : cds_ja_type) (w0 : World)
    (node sh n child m : Nat) (s : Race)
    (hcl : type.type_class = RCU_JA_LINEAR ∨ type.type_class = RCU_JA_POOL)
    (hinv : LinearInv A w0 type node) (hc : ja_node_ptr A child ≠ 0)
    (h : RaceInv A type w0 node n child m s) :
    RaceInv A type w0 node n child m (race_step A type node sh n child m Turn.reader s) := by
  obtain ⟨w, wp, rp, loads⟩ := s
  have hcnt := race_inv_count_le h hinv
  have hr := h.reader
  have hl := h.loads
  simp only at hcnt hr hl
  cases rp with
  | entry =>
    simp only [race_step, reader_step]
    rw [if_pos hcl, if_pos hcnt.2]
    by_cases h3 : type.type_class ≠ RCU_JA_LINEAR ∨ w.mem node ≥ type.min_child
    · rw [if_pos h3]
      exact race_inv_reader h _ _ (Nat.le_refl _) (loads_cons _ (Nat.le_refl _) hl)
    · rw [if_neg h3]
      have h4 : type.type_class = RCU_JA_LINEAR ∧ w0.mem node < type.min_child := by
        by_cases e : type.type_class = RCU_JA_LINEAR
        · refine ⟨e, ?_⟩
          by_contra h5
          exact h3 (Or.inr (Nat.le_trans (Nat.le_of_not_lt h5) hcnt.1))
        · exact absurd (Or.inl e) h3
      exact race_inv_reader h _ _ h4 (loads_cons _ (Nat.le_refl _) hl)
  | scan nr i =>
    have hnr : nr ≤ w.mem node := hr
    simp only [race_step, reader_step]
    by_cases hi : i < nr
    · rw [if_pos hi]
      obtain ⟨e1, _⟩ := race_inv_slots h i (Nat.lt_of_lt_of_le hi hnr)
      simp only at e1
      have hload : LoadOK A type w0 node n child w (SlotLoad.byte i (w.mem (node + 1 + i))) :=
        ⟨Nat.lt_of_lt_of_le hi hnr, e1⟩
      by_cases hv : w.mem (node + 1 + i) = m
      · rw [if_pos hv]
        exact race_inv_reader h _ _ ⟨hnr, hi, by rw [← e1]; exact hv⟩ (loads_cons _ hload hl)
      · rw [if_neg hv]
        exact race_inv_reader h _ _ hnr (loads_cons _ hload hl)
    · rw [if_neg hi]
      exact race_inv_reader h _ _ (Or.inl ⟨rfl, rfl⟩) hl
  | fetch nr i =>
    obtain ⟨hnr, hi, hb⟩ : nr ≤ w.mem node ∧ i < nr ∧ stored_byte w0 node n i = m := hr
    simp only [race_step, reader_step]
    obtain ⟨_, e2⟩ := race_inv_slots h i (Nat.lt_of_lt_of_le hi hnr)
    simp only at e2
    have hne := stored_pointer_ne A type w0 node child i hinv hc
    rw [← e2] at hne
    rw [if_pos hne]
    exact race_inv_reader h _ _
      (Or.inr ⟨i, Nat.lt_of_lt_of_le hi hnr, hb, e2, rfl⟩)
      (loads_cons _ ⟨Nat.lt_of_lt_of_le hi hnr, e2⟩ hl)
  | returned c slot =>
    simp only [race_step, reader_step]
    exact race_inv_reader h _ _ hr hl
  | failed =>
    simp only [race_step, reader_step]
    exact race_inv_reader h _ _ hr hl

/-- The invariant holds along every schedule. -/
theorem race_run_inv (A : Arch) (type : cds_ja_type) (w0 : World)
    (node sh n child m : Nat)
    (hcl : type.type_class = RCU_JA_LINEAR ∨ type.type_class = RCU_JA_POOL)
    (ha : node % 8 = 0) (hC1 : 0 < type.max_linear_child) (hC : type.max_linear_child < 256)
    (hfit : node + linear_extent A type ≤ 2 ^ CAA_BITS_PER_LONG A)
    (hinv : LinearInv A w0 type node) (hc : ja_node_ptr A child ≠ 0) :
    ∀ (sched : List Turn) (s : Race), RaceInv A type w0 node n child m s →
      RaceInv A type w0 node n child m (race_run A type node sh n child m sched s) := by
  intro sched
  induction sched with
  | nil => intro s h; exact h
  | cons t rest ih =>
    intro s h
    rw [race_run]
    apply ih
    cases t with
    | writer vf => exact writer_step_inv A type w0 node sh n child m vf s ha hC1 hC hfit hinv h
    | reader => exact reader_step_inv A type w0 node sh n child m s hcl hinv hc h

theorem race_init_inv (A : Arch) (type : cds_ja_type) (w0 : World) (node n child m : Nat) :
    RaceInv A type w0 node n child m (race_init w0) :=
  ⟨fun _ _ => ⟨rfl, rfl⟩, Or.inl rfl, rfl, trivial, fun _ hl => absurd hl (List.not_mem_nil _)⟩

/-! ### Reader never sees an uninitialised slot (C31) -/

/-- C31: a linear node (or a pool of a pool node) at an aligned address in the
address space satisfies the layout invariant in the state `w`.  One thread runs
`ja_linear_node_set_nth (node, n, child)` with a child whose pointer part is not
NULL, another runs `ja_linear_node_get_nth (node, m)`; their accesses to memory
interleave in any way (`sched`), the two stores of the slot in either order, both
before the store of the count, and the load of the count before the loads of
the slots.  In the state `s` reached: for every count `c` that the reader has
loaded, every slot below `c` holds the key byte and the pointer that the slot is
given (those of `w` for the slots in use in `w`, the byte `n` and the child of
the writer for the next one), and this pointer is not NULL; every key byte and
every pointer that the reader has loaded is the one its slot is given; the
reader has failed no assertion, unless the node is linear and holds fewer than
`min_child` children in `w` (the assertion on `min_child` may then fail, before
any load of a slot); and what the reader returns is NULL or the pointer given to
a slot that is given the byte `m`. -/
theorem C31_reader_sees_initialised_slots (A : Arch) (type : cds_ja_type) (w : World)
    (node sh n child m : Nat) (sched : List Turn) (s : Race)
    (hcl : type.type_class = RCU_JA_LINEAR ∨ type.type_class = RCU_JA_POOL)
    (ha : node % 8 = 0) (hC1 : 0 < type.max_linear_child) (hC : type.max_linear_child < 256)
    (hfit : node + linear_extent A type ≤ 2 ^ CAA_BITS_PER_LONG A)
    (hinv : LinearInv A w type node) (hc : ja_node_ptr A child ≠ 0)
    (hs : s = race_run A type node sh n child m sched (race_init w)) :
    (∀ c, SlotLoad.count c ∈ s.loads → ∀ j, j < c →
      s.w.mem (node + 1 + j) = stored_byte w node n j ∧
      s.w.mem (linear_slot A type node j) = stored_pointer A type w node child j ∧
      ja_node_ptr A (s.w.mem (linear_slot A type node j)) ≠ 0) ∧
    (∀ j v, SlotLoad.byte j v ∈ s.loads → v = stored_byte w node n j) ∧
    (∀ j p, SlotLoad.pointer j p ∈ s.loads →
      p = stored_pointer A type w node child j ∧ ja_node_ptr A p ≠ 0) ∧
    (s.reader = ReaderPc.failed →
      type.type_class = RCU_JA_LINEAR ∧ w.mem node < type.min_child) ∧
    (∀ c slot, s.reader = ReaderPc.returned c slot →
      (c = 0 ∧ slot = none) ∨
      ∃ j, stored_byte w node n j = m ∧ c = stored_pointer A type w node child j ∧
        slot = some (linear_slot A type node j) ∧ ja_node_ptr A c ≠ 0) := by
  have h := race_run_inv A type w node sh n child m hcl ha hC1 hC hfit hinv hc sched
    (race_init w) (race_init_inv A type w node n child m)
  rw [← hs] at h
  have hne := fun j => stored_pointer_ne A type w node child j hinv hc
  refine ⟨?_, ?_, ?_, ?_, ?_⟩
  · intro c hcm j hj
    have hle : c ≤ s.w.mem node := h.loads _ hcm
    obtain ⟨e1, e2⟩ := race_inv_slots h j (Nat.lt_of_lt_of_le hj hle)
    exact ⟨e1, e2, by rw [e2]; exact hne j⟩
  · intro j v hm
    exact (h.loads _ hm).2
  · intro j p hm
    have e : p = stored_pointer A type w node child j := (h.loads _ hm).2
    exact ⟨e, by rw [e]; exact hne j⟩
  · intro e
    have hr := h.reader
    rw [e] at hr
    exact hr
  · intro c slot e
    have hr := h.reader
    rw [e] at hr
    rcases hr with h0 | ⟨j, _, h1, h2, h3⟩
    · exact Or.inl h0
    · exact Or.inr ⟨j, h1, h2, h3, by rw [h2]; exact hne j⟩

/-- C31 on an empty pool of a node of shape 5 (64-bit build) at 1048576: the
writer stores the byte 5 and the child 64 (the key byte first), the reader looks
for the byte 5.  The reader loads the count 0 before the writer has stored it, or
the count 1 after, and then the byte 5 and the pointer 64 of slot 0. -/
theorem C31_reader_sees_initialised_slots_witness :
    (race_run Arch.bits64 ⟨RCU_JA_POOL, 22, 54, 27, 9, 1, 8⟩ 1048576 1048576 5 64 5
      [Turn.writer true, Turn.writer true, Turn.writer true, Turn.writer true,
        Turn.writer true, Turn.reader, Turn.writer true, Turn.reader, Turn.reader]
      (race_init World.boot)).loads = [SlotLoad.count 0] ∧
    (race_run Arch.bits64 ⟨RCU_JA_POOL, 22, 54, 27, 9, 1, 8⟩ 1048576 1048576 5 64 5
      [Turn.writer true, Turn.writer true, Turn.writer true, Turn.writer true,
        Turn.writer true, Turn.writer true, Turn.reader, Turn.reader, Turn.reader]
      (race_init World.boot)).loads =
      [SlotLoad.pointer 0 64, SlotLoad.byte 0 5, SlotLoad.count 1] ∧
    (race_run Arch.bits64 ⟨RCU_JA_POOL, 22, 54, 27, 9, 1, 8⟩ 1048576 1048576 5 64 5
      [Turn.writer true, Turn.writer true, Turn.writer true, Turn.writer true,
        Turn.writer true, Turn.writer true, Turn.reader, Turn.reader, Turn.reader]
      (race_init World.boot)).reader = ReaderPc.returned 64 (some 1048608) ∧
    ∀ j v, SlotLoad.byte j v ∈
      (race_run Arch.bits64 ⟨RCU_JA_POOL, 22, 54, 27, 9, 1, 8⟩ 1048576 1048576 5 64 5
        [Turn.writer true, Turn.writer true, Turn.writer true, Turn.writer true,
          Turn.writer true, Turn.writer true, Turn.reader, Turn.reader, Turn.reader]
        (race_init World.boot)).loads →
      v = stored_byte World.boot 1048576 5 j :=
  ⟨by decide, by decide, by decide,
    (C31_reader_sees_initialised_slots Arch.bits64 ⟨RCU_JA_POOL, 22, 54, 27, 9, 1, 8⟩ World.boot
      1048576 1048576 5 64 5
      [Turn.writer true, Turn.writer true, Turn.writer true, Turn.writer true,
        Turn.writer true, Turn.writer true, Turn.reader, Turn.reader, Turn.reader] _
      (Or.inr rfl) (by decide) (by decide) (by decide) (by decide)
      (linear_inv_zero Arch.bits64 ⟨RCU_JA_POOL, 22, 54, 27, 9, 1, 8⟩ World.boot 1048576
        (by decide) (by decide) (by decide) (fun _ _ _ => rfl) 1048576
        (Or.inr ⟨rfl, 0, by decide, rfl⟩))
      (by decide) rfl).2.1⟩

/-! ### Each thread alone runs its function -/

theorem race_run_append (A : Arch) (type : cds_ja_type) (node sh n child m : Nat) :
    ∀ (s1 s2 : List Turn) (s : Race),
      race_run A type node sh n child m (s1 ++ s2) s =
        race_run A type node sh n child m s2 (race_run A type node sh n child m s1 s) := by
  intro s1
  induction s1 with
  | nil => intro s2 s; rfl
  | cons t rest ih =>
    intro s2 s
    rw [List.cons_append, race_run, race_run, ih]

/-- The scan of the writer, alone: it ends on `-EEXIST` when the byte is among
the key bytes left, else at the end of the key bytes. -/
theorem writer_scan_alone (A : Arch) (type : cds_ja_type) (node sh n child m : Nat)
    (w : World) (rp : ReaderPc) (ld : List SlotLoad) (nr : Nat) :
    ∀ todo i, i + todo = nr →
      ∃ k, race_run A type node sh n child m (List.replicate k (Turn.writer false))
          ⟨w, WriterPc.scan nr i, rp, ld⟩ =
        if linear_exists w (node + 1) n todo i = true then ⟨w, WriterPc.returned (-EEXIST), rp, ld⟩
        else ⟨w, WriterPc.scan nr nr, rp, ld⟩ := by
  intro todo
  induction todo with
  | zero =>
    intro i hi
    refine ⟨0, ?_⟩
    have e : i = nr := by omega
    subst e
    rw [linear_exists]
    rfl
  | succ todo ih =>
    intro i hi
    by_cases hv : w.mem (node + 1 + i) = n
    · refine ⟨1, ?_⟩
      rw [linear_exists, if_pos hv, if_pos rfl]
      show race_step A type node sh n child m (Turn.writer false) _ = _
      simp only [race_step, writer_step]
      rw [if_pos (by omega), if_pos hv]
    · obtain ⟨k, hk⟩ := ih (i + 1) (by omega)
      refine ⟨k + 1, ?_⟩
      rw [linear_exists, if_neg hv, ← hk, List.replicate_succ, race_run]
      congr 1
      simp only [race_step, writer_step]
      rw [if_pos (by omega), if_neg hv]

/-- The writer alone, the stores of the slot in program order, ends where
`ja_linear_node_set_nth` ends: with its result in its final state, or on a failed
assertion. -/
theorem writer_alone (A : Arch) (type : cds_ja_type) (node sh n child m : Nat)
    (w : World) (rp : ReaderPc) (ld : List SlotLoad) :
    ∃ k, match ja_linear_node_set_nth A type w node sh n child with
      | Res.ok (r, w1) =>
        race_run A type node sh n child m (List.replicate k (Turn.writer false))
          ⟨w, WriterPc.entry, rp, ld⟩ = ⟨w1, WriterPc.returned r, rp, ld⟩
      | _ =>
        (race_run A type node sh n child m (List.replicate k (Turn.writer false))
          ⟨w, WriterPc.entry, rp, ld⟩).writer = WriterPc.failed := by
  have step1 : ∀ k s, race_run A type node sh n child m (List.replicate (k + 1) (Turn.writer false)) s
      = race_run A type node sh n child m (List.replicate k (Turn.writer false))
          (race_step A type node sh n child m (Turn.writer false) s) := by
    intro k s
    rw [List.replicate_succ, race_run]
  have last : ∀ k s, race_run A type node sh n child m (List.replicate (k + 1) (Turn.writer false)) s
      = race_step A type node sh n child m (Turn.writer false)
          (race_run A type node sh n child m (List.replicate k (Turn.writer false)) s) := by
    intro k s
    have : List.replicate (k + 1) (Turn.writer false) =
        List.replicate k (Turn.writer false) ++ [Turn.writer false] := by
      rw [← List.replicate_succ']
    rw [this, race_run_append]
    rfl
  unfold ja_linear_node_set_nth
  by_cases hcl : type.type_class = RCU_JA_LINEAR ∨ type.type_class = RCU_JA_POOL
  swap
  · refine ⟨1, ?_⟩
    simp only [assert, bind, Res.bind, hcl, if_false]
    show (race_step A type node sh n child m (Turn.writer false) _).writer = _
    simp only [race_step, writer_step, hcl, if_false]
  by_cases hm : w.mem node ≤ type.max_linear_child
  swap
  · refine ⟨1, ?_⟩
    simp only [assert, bind, Res.bind, hcl, hm, if_true, if_false, pure]
    show (race_step A type node sh n child m (Turn.writer false) _).writer = _
    simp only [race_step, writer_step, hcl, hm, if_true, if_false]
  have e0 : race_step A type node sh n child m (Turn.writer false) ⟨w, WriterPc.entry, rp, ld⟩ =
      ⟨w, WriterPc.scan (w.mem node) 0, rp, ld⟩ := by
    simp only [race_step, writer_step, hcl, hm, if_true]
  obtain ⟨k1, hk1⟩ := writer_scan_alone A type node sh n child m w rp ld (w.mem node)
    (w.mem node) 0 (by omega)
  simp only [assert, bind, Res.bind, hcl, hm, if_true, pure]
  by_cases hex : linear_exists w (node + 1) n (w.mem node) 0 = true
  · rw [if_pos hex] at hk1
    refine ⟨k1 + 1, ?_⟩
    simp only [hex, if_true]
    rw [step1, e0, hk1]
  · rw [if_neg hex] at hk1
    simp only [hex, Bool.false_eq_true, if_false]
    by_cases hfull : w.mem node ≥ type.max_linear_child
    · refine ⟨(k1 + 1) + 1, ?_⟩
      simp only [hfull, if_true]
      rw [last, step1, e0, hk1]
      simp only [race_step, writer_step]
      rw [if_neg (Nat.lt_irrefl _), if_pos hfull]
    · simp only [hfull, if_false]
      have e2 : race_run A type node sh n child m (List.replicate ((k1 + 1) + 1) (Turn.writer false))
          ⟨w, WriterPc.entry, rp, ld⟩ = ⟨w, WriterPc.check (w.mem node), rp, ld⟩ := by
        rw [last, step1, e0, hk1]
        simp only [race_step, writer_step]
        rw [if_neg (Nat.lt_irrefl _), if_neg hfull]
      by_cases hz : w.mem (align_ptr_size A (node + 1 + type.max_linear_child) +
          w.mem node * sizeof_ptr A) = 0
      · simp only [hz, if_true]
        have hz' : w.mem (linear_slot A type node (w.mem node)) = 0 := hz
        -- check, the two stores, the count
        have e3 : race_run A type node sh n child m
            (List.replicate ((((k1 + 1) + 1) + 1 + 1 + 1) + 1) (Turn.writer false))
            ⟨w, WriterPc.entry, rp, ld⟩ =
            ⟨((w.store (linear_slot A type node (w.mem node)) child).store
                (node + 1 + w.mem node) n).store node ((w.mem node + 1) % 256),
              WriterPc.shadow, rp, ld⟩ := by
          rw [last, last, last, last, e2]
          simp only [race_step, writer_step, hz', if_true]
          simp
        cases hs : shadow_nr_child_inc (((w.store (align_ptr_size A
            (node + 1 + type.max_linear_child) + w.mem node * sizeof_ptr A) child).store
            (node + 1 + w.mem node) n).store node ((w.mem node + 1) % 256)) sh with
        | ok w4 =>
          refine ⟨(((((k1 + 1) + 1) + 1 + 1 + 1) + 1) + 1), ?_⟩
          simp only
          rw [last, e3]
          simp only [race_step, writer_step]
          have hs' : shadow_nr_child_inc (((w.store (linear_slot A type node (w.mem node))
            child).store (node + 1 + w.mem node) n).store node ((w.mem node + 1) % 256)) sh =
              Res.ok w4 := hs
          rw [hs']
        | abort =>
          refine ⟨(((((k1 + 1) + 1) + 1 + 1 + 1) + 1) + 1), ?_⟩
          simp only
          rw [last, e3]
          simp only [race_step, writer_step]
          have hs' : shadow_nr_child_inc (((w.store (linear_slot A type node (w.mem node))
            child).store (node + 1 + w.mem node) n).store node ((w.mem node + 1) % 256)) sh =
              Res.abort := hs
          rw [hs']
        | nofuel =>
          refine ⟨(((((k1 + 1) + 1) + 1 + 1 + 1) + 1) + 1), ?_⟩
          simp only
          rw [last, e3]
          simp only [race_step, writer_step]
          have hs' : shadow_nr_child_inc (((w.store (linear_slot A type node (w.mem node))
            child).store (node + 1 + w.mem node) n).store node ((w.mem node + 1) % 256)) sh =
              Res.nofuel := hs
          rw [hs']
      · refine ⟨((k1 + 1) + 1) + 1, ?_⟩
        simp only [hz, if_false]
        rw [last, e2]
        simp only [race_step, writer_step]
        have hz' : ¬ w.mem (linear_slot A type node (w.mem node)) = 0 := hz
        rw [if_neg hz']

theorem reader_step_w (A : Arch) (type : cds_ja_type) (node sh n child m : Nat) (s : Race) :
    (race_step A type node sh n child m Turn.reader s).w = s.w ∧
    (race_step A type node sh n child m Turn.reader s).writer = s.writer := ⟨rfl, rfl⟩

/-- The scan of the reader, alone: it ends at the index that `linear_scan` gives,
before the load of the pointer when the byte is met, else at the end of the key
bytes. -/
theorem reader_scan_alone (A : Arch) (type : cds_ja_type) (node sh n child m : Nat)
    (w : World) (wp : WriterPc) (nr : Nat) :
    ∀ todo i (ld : List SlotLoad), i + todo = nr →
      ∃ k ld1, race_run A type node sh n child m (List.replicate k Turn.reader)
          ⟨w, wp, ReaderPc.scan nr i, ld⟩ =
        ⟨w, wp,
          if linear_scan w (node + 1) m todo i < nr then
            ReaderPc.fetch nr (linear_scan w (node + 1) m todo i)
          else ReaderPc.scan nr nr, ld1⟩ := by
  intro todo
  induction todo with
  | zero =>
    intro i ld hi
    refine ⟨0, ld, ?_⟩
    have e : i = nr := by omega
    subst e
    rw [linear_scan, if_neg (Nat.lt_irrefl _)]
    rfl
  | succ todo ih =>
    intro i ld hi
    by_cases hv : w.mem (node + 1 + i) = m
    · refine ⟨1, SlotLoad.byte i (w.mem (node + 1 + i)) :: ld, ?_⟩
      rw [linear_scan, if_pos hv, if_pos (by omega)]
      show race_step A type node sh n child m Turn.reader _ = _
      simp only [race_step, reader_step]
      rw [if_pos (by omega), if_pos hv]
    · obtain ⟨k, ld1, hk⟩ := ih (i + 1) (SlotLoad.byte i (w.mem (node + 1 + i)) :: ld) (by omega)
      refine ⟨k + 1, ld1, ?_⟩
      rw [linear_scan, if_neg hv, ← hk, List.replicate_succ, race_run]
      congr 1
      simp only [race_step, reader_step]
      rw [if_pos (by omega), if_neg hv]

/-- The reader alone ends where `ja_linear_node_get_nth` ends: with its result, or
on a failed assertion; the memory is as before. -/
theorem reader_alone (A : Arch) (type : cds_ja_type) (node sh n child m : Nat)
    (w : World) (wp : WriterPc) (ld : List SlotLoad) :
    ∃ k, (race_run A type node sh n child m (List.replicate k Turn.reader)
        ⟨w, wp, ReaderPc.entry, ld⟩).w = w ∧
      match ja_linear_node_get_nth A type w node m with
      | Res.ok (c, slot) =>
        (race_run A type node sh n child m (List.replicate k Turn.reader)
          ⟨w, wp, ReaderPc.entry, ld⟩).reader = ReaderPc.returned c slot
      | _ =>
        (race_run A type node sh n child m (List.replicate k Turn.reader)
          ⟨w, wp, ReaderPc.entry, ld⟩).reader = ReaderPc.failed := by
  have step1 : ∀ k s, race_run A type node sh n child m (List.replicate (k + 1) Turn.reader) s
      = race_run A type node sh n child m (List.replicate k Turn.reader)
          (race_step A type node sh n child m Turn.reader s) := by
    intro k s
    rw [List.replicate_succ, race_run]
  have last : ∀ k s, race_run A type node sh n child m (List.replicate (k + 1) Turn.reader) s
      = race_step A type node sh n child m Turn.reader
          (race_run A type node sh n child m (List.replicate k Turn.reader) s) := by
    intro k s
    have : List.replicate (k + 1) Turn.reader = List.replicate k Turn.reader ++ [Turn.reader] := by
      rw [← List.replicate_succ']
    rw [this, race_run_append]
    rfl
  unfold ja_linear_node_get_nth ja_linear_node_get_nr_child
  by_cases hcl : type.type_class = RCU_JA_LINEAR ∨ type.type_class = RCU_JA_POOL
  swap
  · refine ⟨1, rfl, ?_⟩
    simp only [assert, bind, Res.bind, hcl, if_false]
    show (race_step A type node sh n child m Turn.reader _).reader = _
    simp only [race_step, reader_step, hcl, if_false]
  by_cases hm : w.mem node ≤ type.max_linear_child
  swap
  · refine ⟨1, rfl, ?_⟩
    simp only [assert, bind, Res.bind, hcl, hm, if_true, if_false, pure]
    show (race_step A type node sh n child m Turn.reader _).reader = _
    simp only [race_step, reader_step, hcl, hm, if_true, if_false]
  by_cases hmin : type.type_class ≠ RCU_JA_LINEAR ∨ w.mem node ≥ type.min_child
  swap
  · refine ⟨1, rfl, ?_⟩
    simp only [assert, bind, Res.bind, hcl, hm, hmin, if_true, if_false, pure]
    show (race_step A type node sh n child m Turn.reader _).reader = _
    simp only [race_step, reader_step, hcl, hm, hmin, if_true, if_false]
  have e0 : race_step A type node sh n child m Turn.reader ⟨w, wp, ReaderPc.entry, ld⟩ =
      ⟨w, wp, ReaderPc.scan (w.mem node) 0, SlotLoad.count (w.mem node) :: ld⟩ := by
    simp only [race_step, reader_step, hcl, hm, hmin, if_true]
  obtain ⟨k1, ld1, hk1⟩ := reader_scan_alone A type node sh n child m w wp (w.mem node)
    (w.mem node) 0 (SlotLoad.count (w.mem node) :: ld) (by omega)
  simp only [assert, bind, Res.bind, hcl, hm, hmin, if_true, pure]
  by_cases hi : linear_scan w (node + 1) m (w.mem node) 0 ≥ w.mem node
  · rw [if_neg (by omega)] at hk1
    refine ⟨(k1 + 1) + 1, ?_, ?_⟩
    · rw [last, step1, e0, hk1] <;> rfl
    · simp only [hi, if_true]
      rw [last, step1, e0, hk1]
      simp only [race_step, reader_step]
      rw [if_neg (Nat.lt_irrefl _)]
  · rw [if_pos (by omega)] at hk1
    refine ⟨(k1 + 1) + 1, ?_, ?_⟩
    · rw [last, step1, e0, hk1] <;> rfl
    · simp only [hi, if_false]
      by_cases hp : ja_node_ptr A (w.mem (align_ptr_size A (node + 1 + type.max_linear_child) +
          linear_scan w (node + 1) m (w.mem node) 0 * sizeof_ptr A)) ≠ 0
      · rw [if_pos hp]
        simp only
        rw [last, step1, e0, hk1]
        simp only [race_step, reader_step]
        have hp' : ja_node_ptr A (w.mem (linear_slot A type node
            (linear_scan w (node + 1) m (w.mem node) 0))) ≠ 0 := hp
        rw [if_pos hp']
        rfl
      · rw [if_neg hp]
        simp only
        rw [last, step1, e0, hk1]
        simp only [race_step, reader_step]
        have hp' : ¬ ja_node_ptr A (w.mem (linear_slot A type node
            (linear_scan w (node + 1) m (w.mem node) 0))) ≠ 0 := hp
        rw [if_neg hp']

/-! ## The copy loops of `ja_node_recompact_add` run to their end -/

theorem ja_linear_node_get_ith_pos_run (A : Arch) (type : cds_ja_type) (w : World) (node i : Nat)
    (hcl : type.type_class = RCU_JA_LINEAR ∨ type.type_class = RCU_JA_POOL)
    (hi : i < w.mem node) :
    ja_linear_node_get_ith_pos A type w node i =
      Res.ok (w.mem (node + 1 + i) % 256, w.mem (linear_slot A type node i)) := by
  unfold ja_linear_node_get_ith_pos ja_linear_node_get_nr_child linear_slot
  simp only [assert, bind, Res.bind, pure, hcl, hi, if_true]

/-- The loop over the children of one linear node (or pool) runs to its end when
each child is read and inserted with result 0, `Inv i` being what holds before
the child `i`. -/
theorem recompact_copy_linear_run (A : Arch) (old_type new_type : cds_ja_type)
    (old_node nd ns cnt : Nat) (Inv : Nat → World → Prop)
    (hstep : ∀ i w', Inv i w' → i < cnt →
      ∃ v iter w1, ja_linear_node_get_ith_pos A old_type w' old_node i = Res.ok (v, iter) ∧
        iter ≠ 0 ∧ _ja_node_set_nth A new_type w' nd ns v iter = Res.ok (0, w1) ∧
        Inv (i + 1) w1) :
    ∀ todo i w', i + todo = cnt → Inv i w' →
      ∃ w2, recompact_copy_linear A old_type new_type old_node nd ns todo i w' =
          Res.ok (CopyEnd.finished w2) ∧ Inv cnt w2 := by
  intro todo
  induction todo with
  | zero =>
    intro i w' hi h
    have e : i = cnt := by omega
    subst e
    exact ⟨w', by rw [recompact_copy_linear]; rfl, h⟩
  | succ todo ih =>
    intro i w' hi h
    obtain ⟨v, iter, w1, hg, hne, hs, h1⟩ := hstep i w' h (by omega)
    obtain ⟨w2, h2, h3⟩ := ih (i + 1) w1 (by omega) h1
    refine ⟨w2, ?_, h3⟩
    rw [recompact_copy_linear]
    simp only [hg, bind, Res.bind, hne, if_false, hs, assert, if_true,
      ne_eq, not_true, and_false]
    exact h2

/-- The loop over the pools of a pool node runs to its end when the loop over the
children of each pool does, `Inv p` being what holds before the pool `p`. -/
theorem recompact_copy_pools_run (A : Arch) (old_type new_type : cds_ja_type)
    (old_node nd ns npools : Nat) (Inv : Nat → World → Prop)
    (hcl : old_type.type_class = RCU_JA_POOL)
    (hpool : ∀ p w', Inv p w' → p < npools →
      ∃ w1, recompact_copy_linear A old_type new_type
          (old_node + (p <<< old_type.pool_size_order)) nd ns
          (w'.mem (old_node + (p <<< old_type.pool_size_order))) 0 w' =
          Res.ok (CopyEnd.finished w1) ∧ Inv (p + 1) w1) :
    ∀ todo p w', p + todo = npools → Inv p w' →
      ∃ w2, recompact_copy_pools A old_type new_type old_node nd ns todo p w' =
          Res.ok (CopyEnd.finished w2) ∧ Inv npools w2 := by
  intro todo
  induction todo with
  | zero =>
    intro p w' hp h
    have e : p = npools := by omega
    subst e
    exact ⟨w', by rw [recompact_copy_pools]; rfl, h⟩
  | succ todo ih =>
    intro p w' hp h
    obtain ⟨w1, hc, h1⟩ := hpool p w' h (by omega)
    obtain ⟨w2, h2, h3⟩ := ih (p + 1) w1 (by omega) h1
    refine ⟨w2, ?_, h3⟩
    rw [recompact_copy_pools]
    unfold ja_pool_node_get_ith_pool ja_linear_node_get_nr_child
    simp only [assert, bind, Res.bind, pure, hcl, Or.inr, if_true, or_true, hc]
    exact h2

/-! ## Recompaction into a linear node -/

/-- An insertion into the new linear node of a byte that it does not hold, below
`max_linear_child`, returns 0 and keeps what holds during the copy. -/
theorem copy_lin_insert (A : Arch) (new_type : cds_ja_type) (w w3 : World)
    (old_node nd i v iter : Nat) (w' : World)
    (hTn : new_type ∈ ja_types A) (hcn : new_type.type_class = RCU_JA_LINEAR)
    (han : nd % 8 = 0) (hfn : nd + 2 ^ new_type.order ≤ 2 ^ CAA_BITS_PER_LONG A)
    (h : CopyLin A new_type w w3 old_node nd i w')
    (hi : i < new_type.max_linear_child)
    (hv : ∀ j, j < i → w.mem (old_node + 1 + j) ≠ v)
    (hit : ja_node_ptr A iter ≠ 0) :
    ∃ w1, _ja_node_set_nth A new_type w' nd nd v iter = Res.ok (0, w1) ∧
      (∀ x, x < nd → w1.mem x = w.mem x) ∧ w1.ht nd ≠ none ∧
      (∀ x, x ≠ nd → w1.ht x = w3.ht x) ∧ LinearInv A w1 new_type nd ∧ w1.mem nd = i + 1 ∧
      (∀ j, j < i → w1.mem (nd + 1 + j) = w.mem (old_node + 1 + j)) ∧
      w1.mem (nd + 1 + i) = v := by
  obtain ⟨hfr, hht, hhto, hinv, hcnt, hby⟩ := h
  obtain ⟨_, _, hC1, hC, _, hfit⟩ := is_base_geom A new_type nd nd hTn han hfn (Or.inl ⟨hcn, rfl⟩)
  have e : _ja_node_set_nth A new_type w' nd nd v iter =
      ja_linear_node_set_nth A new_type w' nd nd v iter := by
    unfold _ja_node_set_nth
    simp only [hcn]
  obtain ⟨r, w1, hset⟩ := ja_linear_node_set_nth_run A new_type w' nd nd v iter (Or.inl hcn)
    hinv.count (fun h => hinv.unused _ (Nat.le_refl _) h) hht
  obtain ⟨i0, i1, _⟩ := linear_inv_insert A new_type w' w1 nd nd v iter r han hC1 hC hfit hinv hit
    hset
  have hframe := linear_set_frame A new_type w' w1 nd nd v iter r han hC1 hfit hset
  have hfields := set_nth_fields A new_type w' w1 nd nd v iter r (by rw [e]; exact hset)
  obtain ⟨_, _, _, _, _, _, _, hho, hhs⟩ := hfields
  have g := linear_cells_inside A new_type nd i han hC1 hfit hi
  rcases ja_linear_node_set_nth_inv A new_type w' w1 nd nd v iter r hset with
    ⟨_, _, ⟨_, _, hp⟩ | ⟨_, _, _, hfull⟩ | ⟨hr, _, _, _, s, _, ew⟩⟩
  · obtain ⟨j, hj, ej⟩ := hp
    rw [hcnt] at hj
    rw [hby j hj] at ej
    exact absurd ej (hv j hj)
  · omega
  · subst hr
    refine ⟨w1, by rw [e]; exact hset, ?_, ?_, ?_, i0, ?_, ?_, ?_⟩
    · intro x hx
      by_contra hne
      have hne' : w1.mem x ≠ w'.mem x := by rw [hfr x hx]; exact hne
      have := hframe x hne'
      omega
    · cases hh : w'.ht nd with
      | none => exact absurd hh hht
      | some s0 =>
        obtain ⟨s1, h1, _⟩ := hhs s0 hh
        rw [h1]
        exact fun h => by cases h
    · intro x hx
      rw [hho x hx, hhto x hx]
    · rw [i1 rfl, hcnt]
    · intro j hj
      rw [← hby j hj, ew, hcnt]
      simp only [World.inc_nr_child_mem, World.store_mem]
      rw [if_neg (by omega), if_neg (by omega), if_neg (by omega)]
    · rw [ew, hcnt]
      simp only [World.inc_nr_child_mem, World.store_mem]
      rw [if_neg (by omega), if_pos trivial]

/-- The copy of an old linear node into a new linear node with more room runs to
its end. -/
theorem copy_linear_to_linear (A : Arch) (old_type new_type : cds_ja_type) (w w3 : World)
    (old_node nd : Nat)
    (hTo : old_type ∈ ja_types A) (hTn : new_type ∈ ja_types A)
    (hco : old_type.type_class = RCU_JA_LINEAR) (hcn : new_type.type_class = RCU_JA_LINEAR)
    (hgrow : old_type.max_linear_child < new_type.max_linear_child)
    (hao : old_node % 8 = 0) (hfo : old_node + 2 ^ old_type.order ≤ nd)
    (han : nd % 8 = 0) (hfn : nd + 2 ^ new_type.order ≤ 2 ^ CAA_BITS_PER_LONG A)
    (hinv : LinearInv A w old_type old_node)
    (hbytes : ∀ j, j < w.mem old_node → w.mem (old_node + 1 + j) < 256)
    (h3 : CopyLin A new_type w w3 old_node nd 0 w3) :
    ∃ w4, recompact_copy_linear A old_type new_type old_node nd nd (w3.mem old_node) 0 w3 =
        Res.ok (CopyEnd.finished w4) ∧
      CopyLin A new_type w w3 old_node nd (w.mem old_node) w4 := by
  have hpow : nd ≤ 2 ^ CAA_BITS_PER_LONG A := Nat.le_trans (Nat.le_add_right _ _) hfn
  obtain ⟨_, _, hC1, hC, hin, hfit⟩ := is_base_geom A old_type old_node old_node hTo hao
    (Nat.le_trans hfo hpow) (Or.inl ⟨hco, rfl⟩)
  have hlt : old_node < nd :=
    Nat.lt_of_lt_of_le (Nat.lt_add_of_pos_right (Nat.pow_pos (by decide))) hfo
  have e3 : w3.mem old_node = w.mem old_node := h3.1 _ hlt
  rw [e3]
  apply recompact_copy_linear_run A old_type new_type old_node nd nd (w.mem old_node)
    (CopyLin A new_type w w3 old_node nd) ?_ (w.mem old_node) 0 w3 (by omega) h3
  intro i w' h hi
  have g := linear_cells_inside A old_type old_node i hao hC1 hfit
    (Nat.lt_of_lt_of_le hi hinv.count)
  have hfr := h.1
  have hg := ja_linear_node_get_ith_pos_run A old_type w' old_node i (Or.inl hco)
    (by rw [hfr _ hlt]; exact hi)
  have hp := sizeof_ptr_pos A
  have b1 : old_node + 1 + i < nd := by omega
  have b2 : linear_slot A old_type old_node i < nd := by omega
  rw [hfr _ b1, hfr _ b2, Nat.mod_eq_of_lt (hbytes i hi)] at hg
  have hu := hinv.used i hi
  have hne : w.mem (linear_slot A old_type old_node i) ≠ 0 := by
    intro e
    rw [e] at hu
    exact hu (ja_node_ptr_zero A)
  obtain ⟨w1, hs, p1, p2, p3, p4, p5, p6, p7⟩ := copy_lin_insert A new_type w w3 old_node nd i
    (w.mem (old_node + 1 + i)) (w.mem (linear_slot A old_type old_node i)) w' hTn hcn han hfn h
    (by have := hinv.count; omega)
    (fun j hj => hinv.distinct j i hj hi) hu
  refine ⟨_, _, w1, hg, hne, hs, p1, p2, p3, p4, p5, ?_⟩
  intro j hj
  by_cases e : j = i
  · subst e; exact p7
  · exact p6 j (by omega)

/-! ## Recompaction of a pool node into a pigeon node -/

/-- An insertion into the new pigeon node of a byte whose slot is NULL returns 0;
it fills that slot only. -/
theorem copy_pig_insert (A : Arch) (new_type : cds_ja_type) (w3 : World)
    (nd v iter : Nat) (w' : World)
    (hcn : new_type.type_class = RCU_JA_PIGEON)
    (hht : w'.ht nd ≠ none) (hhto : ∀ x, x ≠ nd → w'.ht x = w3.ht x)
    (hz : w'.mem (nd + v * sizeof_ptr A) = 0) :
    ∃ w1, _ja_node_set_nth A new_type w' nd nd v iter = Res.ok (0, w1) ∧
      (∀ x, x < nd → w1.mem x = w'.mem x) ∧ w1.ht nd ≠ none ∧
      (∀ x, x ≠ nd → w1.ht x = w3.ht x) ∧
      ∀ b, w1.mem (nd + b * sizeof_ptr A) ≠ 0 → b = v ∨ w'.mem (nd + b * sizeof_ptr A) ≠ 0 := by
  have e : _ja_node_set_nth A new_type w' nd nd v iter =
      ja_pigeon_node_set_nth A new_type w' nd nd v iter := by
    unfold _ja_node_set_nth
    simp only [hcn]
  obtain ⟨r, w1, hset⟩ := ja_pigeon_node_set_nth_run A new_type w' nd nd v iter hcn hht
  obtain ⟨_, _, _, _, _, _, _, hho, hhs⟩ := set_nth_fields A new_type w' w1 nd nd v iter r
    (by rw [e]; exact hset)
  have hp := sizeof_ptr_pos A
  rcases ja_pigeon_node_set_nth_inv A new_type w' w1 nd nd v iter r hset with
    ⟨_, ⟨_, _, hnz⟩ | ⟨hr, _, s, _, ew⟩⟩
  · exact absurd hz hnz
  · subst hr
    refine ⟨w1, by rw [e]; exact hset, ?_, ?_, ?_, ?_⟩
    · intro x hx
      rw [ew]
      simp only [World.inc_nr_child_mem, World.store_mem]
      rw [if_neg (by omega)]
    · cases hh : w'.ht nd with
      | none => exact absurd hh hht
      | some s0 =>
        obtain ⟨s1, h1, _⟩ := hhs s0 hh
        rw [h1]
        exact fun h => by cases h
    · intro x hx
      rw [hho x hx, hhto x hx]
    · intro b hb
      by_cases eb : b = v
      · exact Or.inl eb
      · right
        rw [ew] at hb
        simp only [World.inc_nr_child_mem, World.store_mem] at hb
        rw [if_neg (fun h => eb (Nat.eq_of_mul_eq_mul_right hp (by omega)))] at hb
        exact hb

/-- The copy of an old pool node whose key bytes are pairwise distinct into a new
pigeon node runs to its end. -/
theorem copy_pools_to_pigeon (A : Arch) (old_type new_type : cds_ja_type) (w w3 : World)
    (old_node nd : Nat)
    (hTo : old_type ∈ ja_types A)
    (hco : old_type.type_class = RCU_JA_POOL) (hcn : new_type.type_class = RCU_JA_PIGEON)
    (hao : old_node % 8 = 0) (hfo : old_node + 2 ^ old_type.order ≤ nd)
    (hpow : nd ≤ 2 ^ CAA_BITS_PER_LONG A)
    (hinv : ∀ base, is_base old_type old_node base → LinearInv A w old_type base)
    (hbytes : ∀ base, is_base old_type old_node base →
      ∀ j, j < w.mem base → w.mem (base + 1 + j) < 256)
    (hcross : ∀ b1 b2, is_base old_type old_node b1 → is_base old_type old_node b2 → b1 ≠ b2 →
      ∀ i j, i < w.mem b1 → j < w.mem b2 → w.mem (b1 + 1 + i) ≠ w.mem (b2 + 1 + j))
    (h3 : CopyPig A old_type w w3 old_node nd 0 0 w3) :
    ∃ w4, recompact_copy_pools A old_type new_type old_node nd nd
        (1 <<< old_type.nr_pool_order) 0 w3 = Res.ok (CopyEnd.finished w4) ∧
      CopyPig A old_type w w3 old_node nd (1 <<< old_type.nr_pool_order) 0 w4 := by
  have hbase : ∀ q, q < 1 <<< old_type.nr_pool_order →
      is_base old_type old_node (old_node + (q <<< old_type.pool_size_order)) := by
    intro q hq
    rw [Nat.shiftLeft_eq, Nat.one_mul] at hq
    exact Or.inr ⟨hco, q, hq, by rw [Nat.shiftLeft_eq]⟩
  have hsz : 0 < 2 ^ old_type.pool_size_order := Nat.pow_pos (by decide)
  have hne : ∀ q q', q ≠ q' → old_node + (q <<< old_type.pool_size_order) ≠
      old_node + (q' <<< old_type.pool_size_order) := by
    intro q q' h e
    rw [Nat.shiftLeft_eq, Nat.shiftLeft_eq] at e
    exact h (Nat.eq_of_mul_eq_mul_right hsz (by omega))
  apply recompact_copy_pools_run A old_type new_type old_node nd nd (1 <<< old_type.nr_pool_order)
    (fun p w' => CopyPig A old_type w w3 old_node nd p 0 w') hco ?_
    (1 <<< old_type.nr_pool_order) 0 w3 (by omega) h3
  intro p w' h hp
  have hb := hbase p hp
  obtain ⟨hab, _, hC1, hC, hin, hfit⟩ := is_base_geom A old_type old_node _ hTo hao
    (Nat.le_trans hfo hpow) hb
  have hi := hinv _ hb
  have hfr0 := h.1
  have hps := sizeof_ptr_pos A
  have hcnt : w'.mem (old_node + (p <<< old_type.pool_size_order)) =
      w.mem (old_node + (p <<< old_type.pool_size_order)) := by
    have g := linear_cells_inside A old_type _ 0 hab hC1 hfit hC1
    exact hfr0 _ (by omega)
  rw [hcnt]
  have hrun := recompact_copy_linear_run A old_type new_type
    (old_node + (p <<< old_type.pool_size_order)) nd nd
    (w.mem (old_node + (p <<< old_type.pool_size_order)))
    (fun i w' => CopyPig A old_type w w3 old_node nd p i w') ?_
    (w.mem (old_node + (p <<< old_type.pool_size_order))) 0 w' (by omega) h
  · obtain ⟨w1, h1, h2⟩ := hrun
    refine ⟨w1, h1, h2.1, h2.2.1, h2.2.2.1, ?_⟩
    intro b hb1 hb2
    left
    rcases h2.2.2.2 b hb1 hb2 with ⟨q, j, hq, hj, e⟩ | ⟨j, hj, e⟩
    · exact ⟨q, j, by omega, hj, e⟩
    · exact ⟨p, j, by omega, hj, e⟩
  · intro i w'' h' hilt
    obtain ⟨hfr, hht, hhto, hslots⟩ := h'
    have g := linear_cells_inside A old_type _ i hab hC1 hfit (Nat.lt_of_lt_of_le hilt hi.count)
    have hg := ja_linear_node_get_ith_pos_run A old_type w''
      (old_node + (p <<< old_type.pool_size_order)) i (Or.inr hco)
      (by rw [hfr _ (by omega)]; exact hilt)
    have b1 : old_node + (p <<< old_type.pool_size_order) + 1 + i < nd := by omega
    have b2 : linear_slot A old_type (old_node + (p <<< old_type.pool_size_order)) i < nd := by
      omega
    have hby := hbytes _ hb i hilt
    rw [hfr _ b1, hfr _ b2, Nat.mod_eq_of_lt hby] at hg
    have hu := hi.used i hilt
    have hnz : w.mem (linear_slot A old_type (old_node + (p <<< old_type.pool_size_order)) i) ≠
        0 := by
      intro e
      rw [e] at hu
      exact hu (ja_node_ptr_zero A)
    have hz : w''.mem (nd + w.mem (old_node + (p <<< old_type.pool_size_order) + 1 + i) *
        sizeof_ptr A) = 0 := by
      by_contra hnz2
      rcases hslots _ hby hnz2 with ⟨q, j, hq, hj, e⟩ | ⟨j, hj, e⟩
      · exact hcross _ _ (hbase q (by omega)) hb (hne q p (by omega)) j i hj hilt e
      · exact hi.distinct j i hj hilt e
    obtain ⟨w1, hs, p1, p2, p3, p4⟩ := copy_pig_insert A new_type w3 nd
      (w.mem (old_node + (p <<< old_type.pool_size_order) + 1 + i))
      (w.mem (linear_slot A old_type (old_node + (p <<< old_type.pool_size_order)) i)) w''
      hcn hht hhto hz
    refine ⟨_, _, w1, hg, hnz, hs, fun x hx => by rw [p1 x hx, hfr x hx], p2, p3, ?_⟩
    intro b hb1 hb2
    rcases p4 b hb2 with e | e
    · exact Or.inr ⟨i, by omega, e.symm⟩
    · rcases hslots b hb1 e with h5 | ⟨j, hj, e5⟩
      · exact Or.inl h5
      · exact Or.inr ⟨j, by omega, e5⟩

/-! ## A pass of `ja_node_recompact_add` whose insertions return 0 -/

/-- A pass of `ja_node_recompact_add` returns 0, or `-ENOMEM` when an allocation
fails, provided that in the state `w3` that follows the allocation of the new
node and of its shadow the copy loop runs to its end and the insertion of the
new child returns 0. -/
theorem ja_node_recompact_add_pass_run (A : Arch) (w : World) (nti : Nat)
    (new_type old_type : cds_ja_type) (old_node sh flag n child : Nat)
    (hN : ja_type_at A nti = Res.ok new_type) (hnti : nti < 8)
    (hnp : old_type.type_class ≠ RCU_JA_PIGEON)
    (hold : old_node ≠ 0 → w.ht old_node ≠ none ∧ old_node ≠ w.brk)
    (hcopy : ∀ w3 : World,
      (∀ x, w3.mem x =
        if w.brk ≤ x ∧ x < w.brk + (1 <<< new_type.order) then 0 else w.mem x) →
      (∀ x, w3.ht x = if x = w.brk then some ⟨0, 0⟩ else w.ht x) →
      ∃ w4 w5,
        (match old_type.type_class with
          | RCU_JA_LINEAR => do
            let nr_child ← ja_linear_node_get_nr_child old_type w3 old_node
            recompact_copy_linear A old_type new_type old_node w.brk w.brk nr_child 0 w3
          | RCU_JA_POOL =>
            recompact_copy_pools A old_type new_type old_node w.brk w.brk
              (1 <<< old_type.nr_pool_order) 0 w3
          | RCU_JA_NULL => pure (CopyEnd.finished w3)
          | _ => Res.abort) = Res.ok (CopyEnd.finished w4) ∧
        _ja_node_set_nth A new_type w4 w.brk w.brk n child = Res.ok (0, w5) ∧
        ∀ x, x ≠ w.brk → w5.ht x = w3.ht x) :
    ∃ ret flag1 w1,
      ja_node_recompact_add_pass A w false nti old_type old_node sh flag n child =
        Res.ok (PassEnd.returned ret flag1 w1) ∧
      (ret = 0 ∨ ret = -ENOMEM) ∧
      (w.oracle = [] → w.brk ≠ 0 → w.ht w.brk = none → ret = 0) := by
  unfold ja_node_recompact_add_pass alloc_cds_ja_node
  simp only [hN, bind, Res.bind]
  rcases calloc_cases w (1 <<< new_type.order) with ⟨ec, ho⟩ | ⟨ec, ho⟩
  · rw [ec]
    simp only [if_true, pure]
    exact ⟨_, _, _, rfl, Or.inr rfl, fun h => by rw [h] at ho; cases ho⟩
  · rw [ec]
    simp only
    by_cases hb : w.brk = 0
    · rw [if_pos hb]
      exact ⟨_, _, _, rfl, Or.inr rfl, fun _ h => absurd hb h⟩
    · rw [if_neg hb]
      have hf : ja_node_flag w.brk nti = Res.ok (w.brk ||| nti) := by
        unfold ja_node_flag
        simp only [assert, bind, Res.bind, pure]
        rw [if_pos (by show nti < 1 <<< JA_TYPE_BITS; exact hnti)]
      simp only [hf]
      rcases rcuja_shadow_set_cases { w with
          mem := fun x => if w.brk ≤ x ∧ x < w.brk + (1 <<< new_type.order) then 0 else w.mem x,
          brk := w.brk + ((1 <<< new_type.order) + 15) / 16 * 16,
          oracle := w.oracle.tail } w.brk sh with es | ⟨es, ho2, hn2⟩
      · rw [es]
        simp only [if_true, pure]
        refine ⟨_, _, _, rfl, Or.inr rfl, fun h1 _ h3 => ?_⟩
        exfalso
        have e2 := rcuja_shadow_set_cases { w with
          mem := fun x => if w.brk ≤ x ∧ x < w.brk + (1 <<< new_type.order) then 0 else w.mem x,
          brk := w.brk + ((1 <<< new_type.order) + 15) / 16 * 16,
          oracle := w.oracle.tail } w.brk sh
        rw [es] at e2
        rcases e2 with e2 | ⟨e2, _, _⟩
        · unfold rcuja_shadow_set at es
          simp only [h1, List.tail_nil, h3] at es
          injection es with e3 _
          exact hb e3
        · injection e2 with e3 _
          exact hb e3.symm
      · rw [es]
        simp only [hb, if_false, Bool.false_eq_true, pure, assert, hnp, ne_eq, not_false_eq_true,
          if_true]
        obtain ⟨w4, w5, hc, hs, hh⟩ := hcopy { w with
          mem := fun x => if w.brk ≤ x ∧ x < w.brk + (1 <<< new_type.order) then 0 else w.mem x,
          ht := fun x => if x = w.brk then some ⟨0, 0⟩ else w.ht x,
          brk := w.brk + ((1 <<< new_type.order) + 15) / 16 * 16,
          oracle := w.oracle.tail.tail } (fun _ => rfl) (fun _ => rfl)
        simp only [bind, Res.bind, pure] at hc
        have h5 : old_node ≠ 0 → w5.ht old_node ≠ none := by
          intro ho0
          obtain ⟨h1, h2⟩ := hold ho0
          rw [hh _ h2]
          show (if old_node = w.brk then _ else w.ht old_node) ≠ none
          rw [if_neg h2]
          exact h1
        cases hcls : old_type.type_class with
        | RCU_JA_PIGEON => exact absurd hcls hnp
        | RCU_JA_LINEAR =>
          simp only [hcls] at hc ⊢
          rw [hc]
          simp only [hs, if_true]
          by_cases ho0 : old_node = 0
          · simp only [ho0, ne_eq, not_true, if_false]
            exact ⟨_, _, _, rfl, Or.inl rfl, fun _ _ _ => rfl⟩
          · rcases rcuja_shadow_clear_cases w5 old_node sh RCUJA_SHADOW_CLEAR_FREE_NODE with
              ⟨_, e1⟩ | ⟨w6, e1, _⟩
            · exact absurd e1 (h5 ho0)
            · simp only [ho0, ne_eq, not_false_eq_true, if_true, e1]
              exact ⟨_, _, _, rfl, Or.inl rfl, fun _ _ _ => rfl⟩
        | RCU_JA_POOL =>
          simp only [hcls] at hc ⊢
          rw [hc]
          simp only [hs, if_true]
          by_cases ho0 : old_node = 0
          · simp only [ho0, ne_eq, not_true, if_false]
            exact ⟨_, _, _, rfl, Or.inl rfl, fun _ _ _ => rfl⟩
          · rcases rcuja_shadow_clear_cases w5 old_node sh RCUJA_SHADOW_CLEAR_FREE_NODE with
              ⟨_, e1⟩ | ⟨w6, e1, _⟩
            · exact absurd e1 (h5 ho0)
            · simp only [ho0, ne_eq, not_false_eq_true, if_true, e1]
              exact ⟨_, _, _, rfl, Or.inl rfl, fun _ _ _ => rfl⟩
        | RCU_JA_NULL =>
          simp only [hcls] at hc ⊢
          injection hc with hc
          injection hc with hc
          subst hc
          simp only [hs, if_true]
          by_cases ho0 : old_node = 0
          · simp only [ho0, ne_eq, not_true, if_false]
            exact ⟨_, _, _, rfl, Or.inl rfl, fun _ _ _ => rfl⟩
          · rcases rcuja_shadow_clear_cases w5 old_node sh RCUJA_SHADOW_CLEAR_FREE_NODE with
              ⟨_, e1⟩ | ⟨w6, e1, _⟩
            · exact absurd e1 (h5 ho0)
            · simp only [ho0, ne_eq, not_false_eq_true, if_true, e1]
              exact ⟨_, _, _, rfl, Or.inl rfl, fun _ _ _ => rfl⟩
        | RCU_JA_NR_TYPES =>
          simp only [hcls] at hc
          cases hc

/-! ## Recompaction into a linear or pigeon node cannot fail (C33) -/

/-- The shapes of a recompaction from a shape 0..3: both linear, the new one with
more room. -/
theorem catalog_linear_target (A : Arch) (k : Nat) (old_type : cds_ja_type) (hk : k ≤ 3)
    (hT : ja_type_at A k = Res.ok old_type) :
    old_type.type_class = RCU_JA_LINEAR ∧
    ∃ new_type, ja_type_at A (k + 1) = Res.ok new_type ∧
      new_type.type_class = RCU_JA_LINEAR ∧
      old_type.max_linear_child < new_type.max_linear_child ∧ 2 ^ new_type.order ≤ 2048 := by
  interval_cases k <;> cases A <;>
    (injection hT with hT; subst hT; exact ⟨rfl, _, rfl, rfl, by decide, by decide⟩)

/-- The shapes of a recompaction from the shape 6: a pool shape, into the pigeon
shape, which has a slot for each byte. -/
theorem catalog_pigeon_target (A : Arch) (old_type : cds_ja_type)
    (hT : ja_type_at A 6 = Res.ok old_type) :
    old_type.type_class = RCU_JA_POOL ∧
    ∃ new_type, ja_type_at A 7 = Res.ok new_type ∧ new_type.type_class = RCU_JA_PIGEON ∧
      256 * sizeof_ptr A ≤ 2 ^ new_type.order := by
  cases A <;>
    (injection hT with hT; subst hT; exact ⟨rfl, _, rfl, rfl, by decide⟩)

/-- The shapes of a recompaction from the NULL shape: into the shape 0. -/
theorem catalog_null_target (A : Arch) (old_type : cds_ja_type)
    (hT : ja_type_at A 8 = Res.ok old_type) :
    old_type.type_class = RCU_JA_NULL ∧
    ∃ new_type, ja_type_at A 0 = Res.ok new_type ∧ new_type.type_class = RCU_JA_LINEAR ∧
      0 < new_type.max_linear_child ∧ 2 ^ new_type.order ≤ 2048 := by
  cases A <;>
    (injection hT with hT; subst hT; exact ⟨rfl, _, rfl, rfl, by decide, by decide⟩)

/-- The insertion of a byte that a linear node with room left does not hold
returns 0. -/
theorem lin_insert_zero (A : Arch) (new_type : cds_ja_type) (w' : World) (nd n child : Nat)
    (hcn : new_type.type_class = RCU_JA_LINEAR)
    (hinv : LinearInv A w' new_type nd) (hht : w'.ht nd ≠ none)
    (hroom : w'.mem nd < new_type.max_linear_child)
    (habs : ∀ j, j < w'.mem nd → w'.mem (nd + 1 + j) ≠ n) :
    ∃ w1, _ja_node_set_nth A new_type w' nd nd n child = Res.ok (0, w1) ∧
      ∀ x, x ≠ nd → w1.ht x = w'.ht x := by
  have e : _ja_node_set_nth A new_type w' nd nd n child =
      ja_linear_node_set_nth A new_type w' nd nd n child := by
    unfold _ja_node_set_nth
    simp only [hcn]
  obtain ⟨r, w1, hset⟩ := ja_linear_node_set_nth_run A new_type w' nd nd n child (Or.inl hcn)
    hinv.count (fun h => hinv.unused _ (Nat.le_refl _) h) hht
  obtain ⟨_, _, _, _, _, _, _, hho, _⟩ := set_nth_fields A new_type w' w1 nd nd n child r
    (by rw [e]; exact hset)
  rcases ja_linear_node_set_nth_inv A new_type w' w1 nd nd n child r hset with
    ⟨_, _, ⟨_, _, hp⟩ | ⟨_, _, _, hfull⟩ | ⟨hr, _⟩⟩
  · obtain ⟨j, hj, ej⟩ := hp
    exact absurd ej (habs j hj)
  · omega
  · subst hr
    exact ⟨w1, by rw [e]; exact hset, hho⟩

/-- The state that follows the allocation of the new node of a linear shape and of
its shadow is one in which the copy can start. -/
theorem copy_lin_start (A : Arch) (new_type : cds_ja_type) (w w3 : World) (old_node : Nat)
    (hTn : new_type ∈ ja_types A) (hcn : new_type.type_class = RCU_JA_LINEAR)
    (han : w.brk % 8 = 0) (hfn : w.brk + 2 ^ new_type.order ≤ 2 ^ CAA_BITS_PER_LONG A)
    (hm : ∀ x, w3.mem x =
      if w.brk ≤ x ∧ x < w.brk + (1 <<< new_type.order) then 0 else w.mem x)
    (hh : ∀ x, w3.ht x = if x = w.brk then some ⟨0, 0⟩ else w.ht x) :
    CopyLin A new_type w w3 old_node w.brk 0 w3 := by
  have hz : ∀ x, w.brk ≤ x → x < w.brk + 2 ^ new_type.order → w3.mem x = 0 := by
    intro x h1 h2
    rw [hm, if_pos ⟨h1, by rw [Nat.shiftLeft_eq, Nat.one_mul]; exact h2⟩]
  have hinv := linear_inv_zero A new_type w3 w.brk hTn han hfn hz w.brk (Or.inl ⟨hcn, rfl⟩)
  refine ⟨fun x hx => by rw [hm, if_neg (by omega)], ?_, fun _ _ => rfl, hinv, ?_,
    fun j hj => absurd hj (Nat.not_lt_zero _)⟩
  · rw [hh, if_pos rfl]
    exact fun h => by cases h
  · exact hz _ (Nat.le_refl _) (Nat.lt_add_of_pos_right (Nat.pow_pos (by decide)))

/-! ### The three cases of the recompaction -/

theorem ja_node_recompact_add_of_pass (A : Arch) (w : World) (k : Nat) (old_type : cds_ja_type)
    (old_node sh flag n child nti : Nat) (ret : Int) (flag1 : Nat) (w1 : World)
    (hnti : (if sh = 0 ∨ k = NODE_INDEX_NULL then 0 else k + 1) = nti)
    (hp : ja_node_recompact_add_pass A w false nti old_type old_node sh flag n child =
      Res.ok (PassEnd.returned ret flag1 w1)) :
    ja_node_recompact_add A w k old_type old_node sh flag n child = Res.ok (ret, flag1, w1) := by
  unfold ja_node_recompact_add
  simp only [hnti]
  rw [ja_node_recompact_add_loop]
  simp only [hp, bind, Res.bind]
  rfl

/-- Recompaction of a linear node of shape 0..3 into the next shape. -/
theorem recompact_linear_run (A : Arch) (w : World) (k : Nat) (old_type : cds_ja_type)
    (old_node sh flag n child : Nat) (hk : k ≤ 3) (hT : ja_type_at A k = Res.ok old_type)
    (hsh : sh ≠ 0) (hht : w.ht old_node ≠ none)
    (hao : old_node % 8 = 0) (hfo : old_node + 2 ^ old_type.order ≤ w.brk)
    (hbrk : w.brk % 8 = 0) (hsp : w.brk + 2048 ≤ 2 ^ CAA_BITS_PER_LONG A)
    (hinv : LinearInv A w old_type old_node)
    (hbytes : ∀ j, j < w.mem old_node → w.mem (old_node + 1 + j) < 256)
    (habs : ∀ j, j < w.mem old_node → w.mem (old_node + 1 + j) ≠ n) :
    ∃ ret flag1 w1,
      ja_node_recompact_add A w k old_type old_node sh flag n child = Res.ok (ret, flag1, w1) ∧
      (ret = 0 ∨ ret = -ENOMEM) ∧
      (w.oracle = [] → w.brk ≠ 0 → w.ht w.brk = none → ret = 0) := by
  obtain ⟨hco, new_type, hN, hcn, hgrow, hord⟩ := catalog_linear_target A k old_type hk hT
  have hTo := ja_type_at_mem A k old_type hT
  have hTn := ja_type_at_mem A (k + 1) new_type hN
  have hfn : w.brk + 2 ^ new_type.order ≤ 2 ^ CAA_BITS_PER_LONG A :=
    Nat.le_trans (Nat.add_le_add_left hord _) hsp
  have hlt : old_node < w.brk :=
    Nat.lt_of_lt_of_le (Nat.lt_add_of_pos_right (Nat.pow_pos (by decide))) hfo
  obtain ⟨ret, f, w1, hp, h1, h2⟩ := ja_node_recompact_add_pass_run A w (k + 1) new_type old_type
    old_node sh flag n child hN (by omega) (by rw [hco]; decide)
    (fun _ => ⟨hht, by omega⟩) (by
      intro w3 hm hh
      have h3 := copy_lin_start A new_type w w3 old_node hTn hcn hbrk hfn hm hh
      obtain ⟨w4, hc4, h4⟩ := copy_linear_to_linear A old_type new_type w w3 old_node w.brk hTo hTn
        hco hcn hgrow hao hfo hbrk hfn hinv hbytes h3
      obtain ⟨f1, f2, f3, f4, f5, f6⟩ := h4
      obtain ⟨w5, hs, hho⟩ := lin_insert_zero A new_type w4 w.brk n child hcn f4 f2
        (by rw [f5]; have := hinv.count; omega)
        (fun j hj => by rw [f5] at hj; rw [f6 j hj]; exact habs j hj)
      refine ⟨w4, w5, ?_, hs, fun x hx => by rw [hho x hx, f3 x hx]⟩
      simp only [hco]
      unfold ja_linear_node_get_nr_child
      simp only [assert, bind, Res.bind, pure, hco, true_or, if_true]
      exact hc4)
  exact ⟨ret, f, w1, ja_node_recompact_add_of_pass A w k old_type old_node sh flag n child (k + 1)
    ret f w1 (by rw [if_neg]; unfold NODE_INDEX_NULL; omega) hp, h1, h2⟩

/-- Recompaction of the NULL shape into the shape 0. -/
theorem recompact_null_run (A : Arch) (w : World) (old_type : cds_ja_type)
    (sh flag n child : Nat) (hT : ja_type_at A 8 = Res.ok old_type)
    (hbrk : w.brk % 8 = 0) (hsp : w.brk + 2048 ≤ 2 ^ CAA_BITS_PER_LONG A) :
    ∃ ret flag1 w1,
      ja_node_recompact_add A w 8 old_type 0 sh flag n child = Res.ok (ret, flag1, w1) ∧
      (ret = 0 ∨ ret = -ENOMEM) ∧
      (w.oracle = [] → w.brk ≠ 0 → w.ht w.brk = none → ret = 0) := by
  obtain ⟨hco, new_type, hN, hcn, hpos, hord⟩ := catalog_null_target A old_type hT
  have hTn := ja_type_at_mem A 0 new_type hN
  have hfn : w.brk + 2 ^ new_type.order ≤ 2 ^ CAA_BITS_PER_LONG A :=
    Nat.le_trans (Nat.add_le_add_left hord _) hsp
  obtain ⟨ret, f, w1, hp, h1, h2⟩ := ja_node_recompact_add_pass_run A w 0 new_type old_type
    0 sh flag n child hN (by omega) (by rw [hco]; decide)
    (fun h => absurd rfl h) (by
      intro w3 hm hh
      obtain ⟨f1, f2, f3, f4, f5, f6⟩ := copy_lin_start A new_type w w3 0 hTn hcn hbrk hfn hm hh
      obtain ⟨w5, hs, hho⟩ := lin_insert_zero A new_type w3 w.brk n child hcn f4 f2
        (by rw [f5]; exact hpos)
        (fun j hj => by rw [f5] at hj; exact absurd hj (Nat.not_lt_zero _))
      refine ⟨w3, w5, ?_, hs, hho⟩
      simp only [hco]
      rfl)
  exact ⟨ret, f, w1, ja_node_recompact_add_of_pass A w 8 old_type 0 sh flag n child 0
    ret f w1 (if_pos (Or.inr rfl)) hp, h1, h2⟩

/-- Recompaction of a pool node of shape 6 whose key bytes are pairwise distinct
into a pigeon node. -/
theorem recompact_pigeon_run (A : Arch) (w : World) (old_type : cds_ja_type)
    (old_node sh flag n child : Nat) (hT : ja_type_at A 6 = Res.ok old_type)
    (hsh : sh ≠ 0) (hht : w.ht old_node ≠ none)
    (hao : old_node % 8 = 0) (hfo : old_node + 2 ^ old_type.order ≤ w.brk)
    (hsp : w.brk + 2048 ≤ 2 ^ CAA_BITS_PER_LONG A) (hn : n < 256)
    (hinv : ∀ base, is_base old_type old_node base → LinearInv A w old_type base)
    (hbytes : ∀ base, is_base old_type old_node base →
      ∀ j, j < w.mem base → w.mem (base + 1 + j) < 256)
    (hcross : ∀ b1 b2, is_base old_type old_node b1 → is_base old_type old_node b2 → b1 ≠ b2 →
      ∀ i j, i < w.mem b1 → j < w.mem b2 → w.mem (b1 + 1 + i) ≠ w.mem (b2 + 1 + j))
    (habs : ∀ base, is_base old_type old_node base →
      ∀ j, j < w.mem base → w.mem (base + 1 + j) ≠ n) :
    ∃ ret flag1 w1,
      ja_node_recompact_add A w 6 old_type old_node sh flag n child = Res.ok (ret, flag1, w1) ∧
      (ret = 0 ∨ ret = -ENOMEM) ∧
      (w.oracle = [] → w.brk ≠ 0 → w.ht w.brk = none → ret = 0) := by
  obtain ⟨hco, new_type, hN, hcn, hslots⟩ := catalog_pigeon_target A old_type hT
  have hTo := ja_type_at_mem A 6 old_type hT
  have hpow : w.brk ≤ 2 ^ CAA_BITS_PER_LONG A := Nat.le_trans (Nat.le_add_right _ _) hsp
  have hlt : old_node < w.brk :=
    Nat.lt_of_lt_of_le (Nat.lt_add_of_pos_right (Nat.pow_pos (by decide))) hfo
  have hps := sizeof_ptr_pos A
  obtain ⟨ret, f, w1, hp, h1, h2⟩ := ja_node_recompact_add_pass_run A w 7 new_type old_type
    old_node sh flag n child hN (by omega) (by rw [hco]; decide)
    (fun _ => ⟨hht, by omega⟩) (by
      intro w3 hm hh
      have h3 : CopyPig A old_type w w3 old_node w.brk 0 0 w3 := by
        refine ⟨fun x hx => by rw [hm, if_neg (by omega)], ?_, fun _ _ => rfl, ?_⟩
        · rw [hh, if_pos rfl]
          exact fun h => by cases h
        · intro b hb hnz
          exfalso
          apply hnz
          rw [hm, if_pos]
          refine ⟨Nat.le_add_right _ _, ?_⟩
          rw [Nat.shiftLeft_eq, Nat.one_mul]
          have : b * sizeof_ptr A < 256 * sizeof_ptr A := Nat.mul_lt_mul_of_pos_right hb hps
          omega
      obtain ⟨w4, hc4, f1, f2, f3, f4⟩ := copy_pools_to_pigeon A old_type new_type w w3 old_node
        w.brk hTo hco hcn hao hfo hpow hinv hbytes hcross h3
      have hz : w4.mem (w.brk + n * sizeof_ptr A) = 0 := by
        by_contra hnz
        rcases f4 n hn hnz with ⟨q, j, hq, hj, e⟩ | ⟨j, hj, _⟩
        · rw [Nat.shiftLeft_eq, Nat.one_mul] at hq
          exact habs _ (Or.inr ⟨hco, q, hq, by rw [Nat.shiftLeft_eq]⟩) j hj e
        · exact absurd hj (Nat.not_lt_zero _)
      obtain ⟨w5, hs, _, _, p3, _⟩ := copy_pig_insert A new_type w3 w.brk n child w4 hcn f2 f3 hz
      refine ⟨w4, w5, ?_, hs, p3⟩
      simp only [hco]
      exact hc4)
  exact ⟨ret, f, w1, ja_node_recompact_add_of_pass A w 6 old_type old_node sh flag n child 7
    ret f w1 (by rw [if_neg]; unfold NODE_INDEX_NULL; omega) hp, h1, h2⟩

/-! ### Recompaction into a linear or pigeon target (C33) -/

/-- The pools of the node of `two_pools` satisfy the layout invariant, whatever
the key byte of the pool 1. -/
theorem two_pools_inv (b : Nat) :
    ∀ base, is_base ⟨RCU_JA_POOL, 51, 104, 26, 10, 2, 8⟩ 1048576 base →
      LinearInv Arch.bits64 (two_pools b) ⟨RCU_JA_POOL, 51, 104, 26, 10, 2, 8⟩ base := by
  intro base hb
  rcases hb with ⟨h, _⟩ | ⟨_, k, hk, e⟩
  · cases h
  · have hk4 : k < 4 := hk
    interval_cases k
    · subst e
      have hc : (two_pools b).mem (1048576 + 0 * 2 ^ 8) = 1 := rfl
      refine ⟨by rw [hc]; decide, ?_, ?_, ?_⟩
      · intro i j hij hj
        rw [hc] at hj
        omega
      · intro j hj
        rw [hc] at hj
        have : j = 0 := by omega
        subst this
        exact (by decide : ja_node_ptr Arch.bits64 64 ≠ 0)
      · intro j hj1 hj2
        rw [hc] at hj1
        have hj3 : j < 26 := hj2
        interval_cases j <;> rfl
    · subst e
      have hc : (two_pools b).mem (1048576 + 1 * 2 ^ 8) = 1 := rfl
      refine ⟨by rw [hc]; decide, ?_, ?_, ?_⟩
      · intro i j hij hj
        rw [hc] at hj
        omega
      · intro j hj
        rw [hc] at hj
        have : j = 0 := by omega
        subst this
        exact (by decide : ja_node_ptr Arch.bits64 128 ≠ 0)
      · intro j hj1 hj2
        rw [hc] at hj1
        have hj3 : j < 26 := hj2
        interval_cases j <;> rfl
    · subst e
      have hc : (two_pools b).mem (1048576 + 2 * 2 ^ 8) = 0 := rfl
      refine ⟨by rw [hc]; decide, ?_, ?_, ?_⟩
      · intro i j hij hj
        rw [hc] at hj
        omega
      · intro j hj
        rw [hc] at hj
        omega
      · intro j hj1 hj2
        have hj3 : j < 26 := hj2
        interval_cases j <;> rfl
    · subst e
      have hc : (two_pools b).mem (1048576 + 3 * 2 ^ 8) = 0 := rfl
      refine ⟨by rw [hc]; decide, ?_, ?_, ?_⟩
      · intro i j hij hj
        rw [hc] at hj
        omega
      · intro j hj
        rw [hc] at hj
        omega
      · intro j hj1 hj2
        have hj3 : j < 26 := hj2
        interval_cases j <;> rfl

/-- The key bytes of the node of `two_pools`: 5 in the pool 0 and `b` in the
pool 1. -/
theorem two_pools_bytes (b : Nat) (P : Nat → Nat → Prop)
    (h0 : P 1048576 5) (h1 : P 1048832 b) :
    ∀ base, is_base ⟨RCU_JA_POOL, 51, 104, 26, 10, 2, 8⟩ 1048576 base →
      ∀ j, j < (two_pools b).mem base → P base ((two_pools b).mem (base + 1 + j)) := by
  intro base hb j hj
  rcases hb with ⟨h, _⟩ | ⟨_, k, hk, e⟩
  · cases h
  · have hk4 : k < 4 := hk
    interval_cases k
    · subst e
      have hc : (two_pools b).mem (1048576 + 0 * 2 ^ 8) = 1 := rfl
      rw [hc] at hj
      have : j = 0 := by omega
      subst this
      exact h0
    · subst e
      have hc : (two_pools b).mem (1048576 + 1 * 2 ^ 8) = 1 := rfl
      rw [hc] at hj
      have : j = 0 := by omega
      subst this
      exact h1
    · subst e
      have hc : (two_pools b).mem (1048576 + 2 * 2 ^ 8) = 0 := rfl
      rw [hc] at hj
      omega
    · subst e
      have hc : (two_pools b).mem (1048576 + 3 * 2 ^ 8) = 0 := rfl
      rw [hc] at hj
      omega

/-- C33: the old node has a shape 0..3 or 6 of the catalog, or is absent (NULL
shape); when there is a node, it is aligned, lies below the allocator and has its
shadow; the allocator is aligned and leaves room for the new node in the address
space.  The old node satisfies the layout invariant: each of its linear layouts
(the node itself, or each pool of a node of shape 6) has a count of at most
`max_linear_child`, pairwise distinct key bytes, non-NULL slots in use and NULL
slots beyond, its key bytes are bytes, and each key byte lies in the layout to
which `ja_pool_node_set_nth` routes it (`pool_of`; for a linear node that is the
node itself).  The byte `n` is absent from the node.  Then
`ja_node_recompact_add` returns: no assertion fails, so each `_ja_node_set_nth`
on the new node, for the copies and for the new child, has returned 0; the result
is 0, or `-ENOMEM` when an allocation fails (none does when the oracle of the
allocator is empty and no shadow exists at the address of the new node). -/
theorem C33_recompaction_into_linear_or_pigeon (A : Arch) (k : Nat) (old_type : cds_ja_type)
    (w : World) (old_node sh flag n child : Nat)
    (hk : k ≤ 3 ∨ k = 6 ∨ k = 8) (hT : ja_type_at A k = Res.ok old_type)
    (hnull : k = 8 → old_node = 0)
    (hnode : k ≠ 8 → sh ≠ 0 ∧ w.ht old_node ≠ none ∧ old_node % 8 = 0 ∧
      old_node + 2 ^ old_type.order ≤ w.brk)
    (hbrk : w.brk % 8 = 0) (hsp : w.brk + 2048 ≤ 2 ^ CAA_BITS_PER_LONG A) (hn : n < 256)
    (hinv : ∀ base, is_base old_type old_node base → LinearInv A w old_type base)
    (hbytes : ∀ base, is_base old_type old_node base →
      ∀ j, j < w.mem base → w.mem (base + 1 + j) < 256)
    (hroute : ∀ base, is_base old_type old_node base →
      ∀ j, j < w.mem base → pool_of old_type old_node (w.mem (base + 1 + j)) = base)
    (habs : ∀ base, is_base old_type old_node base →
      ∀ j, j < w.mem base → w.mem (base + 1 + j) ≠ n) :
    ∃ ret flag1 w1,
      ja_node_recompact_add A w k old_type old_node sh flag n child = Res.ok (ret, flag1, w1) ∧
      (ret = 0 ∨ ret = -ENOMEM) ∧
      (w.oracle = [] → w.brk ≠ 0 → w.ht w.brk = none → ret = 0) := by
  rcases hk with hk | hk | hk
  · obtain ⟨hsh, hht, hao, hfo⟩ := hnode (by omega)
    obtain ⟨hco, _⟩ := catalog_linear_target A k old_type hk hT
    have hb : is_base old_type old_node old_node := Or.inl ⟨hco, rfl⟩
    exact recompact_linear_run A w k old_type old_node sh flag n child hk hT hsh hht hao hfo hbrk
      hsp (hinv _ hb) (hbytes _ hb) (habs _ hb)
  · subst hk
    obtain ⟨hsh, hht, hao, hfo⟩ := hnode (by omega)
    refine recompact_pigeon_run A w old_type old_node sh flag n child hT hsh hht hao hfo hsp hn
      hinv hbytes ?_ habs
    intro b1 b2 h1 h2 hne i j hi hj he
    apply hne
    rw [← hroute b1 h1 i hi, ← hroute b2 h2 j hj, he]
  · subst hk
    rw [hnull rfl]
    exact recompact_null_run A w old_type sh flag n child hT hbrk hsp

/-- C33 on the pool node of shape 6 that holds the key byte 5 in its
pool 0 and the key byte 70 in its pool 1 (64-bit build), for the byte 7 and the
child 192. -/
theorem C33_recompaction_into_linear_or_pigeon_witness :
    ∃ ret flag1 w1,
      ja_node_recompact_add Arch.bits64 (two_pools 70) 6 ⟨RCU_JA_POOL, 51, 104, 26, 10, 2, 8⟩
        1048576 1048576 1048582 7 192 = Res.ok (ret, flag1, w1) ∧
      (ret = 0 ∨ ret = -ENOMEM) ∧
      ((two_pools 70).oracle = [] → (two_pools 70).brk ≠ 0 →
        (two_pools 70).ht (two_pools 70).brk = none → ret = 0) :=
  C33_recompaction_into_linear_or_pigeon Arch.bits64 6 ⟨RCU_JA_POOL, 51, 104, 26, 10, 2, 8⟩
    (two_pools 70) 1048576 1048576 1048582 7 192 (Or.inr (Or.inl rfl)) rfl
    (fun h => absurd h (by decide))
    (fun _ => ⟨by decide, by decide, by decide, by decide⟩)
    (by decide) (by decide) (by decide)
    (two_pools_inv 70)
    (two_pools_bytes 70 (fun _ v => v < 256) (by decide) (by decide))
    (two_pools_bytes 70
      (fun base v => pool_of ⟨RCU_JA_POOL, 51, 104, 26, 10, 2, 8⟩ 1048576 v = base)
      (by decide) (by decide))
    (two_pools_bytes 70 (fun _ v => v ≠ 7) (by decide) (by decide))

/-! ## The branch that `ja_attach_node` builds and the path of `cds_ja_lookup` (C32) -/

theorem node_size_le (A : Arch) (idx : Nat) (type : cds_ja_type)
    (hT : ja_type_at A idx = Res.ok type) : 2 ^ type.order ≤ 2048 := by
  have hm := ja_type_at_mem A idx type hT
  have : ∀ t ∈ ja_types A, 2 ^ t.order ≤ 2048 := by cases A <;> decide
  exact this type hm

@[simp] theorem reo_brk (w : World) (o : List Bool) : (w.reo o).brk = w.brk := rfl
@[simp] theorem reo_reo (w : World) (o o' : List Bool) : (w.reo o).reo o' = w.reo o' := rfl
theorem reo_self (w : World) : w.reo w.oracle = w := rfl
end RcuJa
